import Mathlib

/-!
# A verification development for the `key` index engine

Shallow embedding of `src/key.go` (package `key`): a trie held in one flat
node array, with embedded decision nodes, threaded leaves, a secondary trie
for duplicate keys and a free list of recycled slots.

Conventions of the embedding.

* A Go `string` is the list of its bytes (`List Nat`, each below 256).
* A Go `int` is an `Int`; array positions and identifiers share that type,
  as they share the `leftPointer` field in the source.
* A Go `byte` is a `Nat`; the status byte holds the ASCII code of the letter.
* Every function that indexes the node array returns `Except Fault _`:
  `Fault.indexOutOfRange` stands for the run-time panic of an index that is
  out of range, `Fault.outOfFuel` for a loop that was cut off by the fuel
  bound of the embedding (the source loops have no bound of their own).
-/

namespace Key

/-! ## Data model -/

/-- Ways in which a run of the embedded code can fail to return. -/
inductive Fault where
  | indexOutOfRange
  | outOfFuel
deriving DecidableEq, Repr

deriving instance DecidableEq for Except

/-- The constant `maxKeyLength` of the source. -/
abbrev maxKeyLength : Nat := 32

/-- The constant `nullIndexPointer` of the source. -/
abbrev nullIndexPointer : Int := -1

/-- Status byte `'R'`: a key ends here and longer keys continue. -/
abbrev stR : Nat := 82
/-- Status byte `'S'`: a key ends here, the chain ends. -/
abbrev stS : Nat := 83
/-- Status byte `'X'`: a character inside a chain. -/
abbrev stX : Nat := 88
/-- Status byte `'K'`: duplicate keys end here and longer keys continue. -/
abbrev stK : Nat := 75
/-- Status byte `'L'`: duplicate keys end here, the chain ends. -/
abbrev stL : Nat := 76
/-- Status byte `'D'`: a decision node. -/
abbrev stD : Nat := 68

/-- The struct `indexNode` of the source. -/
structure indexNode where
  status : Nat
  leftPointer : Int
  key : Nat
  rightPointer : Int
deriving DecidableEq, Repr

/-- The struct `Index` of the source. -/
structure Index where
  indexRoot : Int
  node : List indexNode
  deletedRoot : Int
deriving DecidableEq, Repr

/-- The function `Initialise`: both roots are set to the null pointer; the node
array is not touched. -/
def Initialise (indexStructure : Index) : Index :=
  { indexStructure with indexRoot := nullIndexPointer, deletedRoot := nullIndexPointer }

/-! ## Array access -/

/-- The read `indexStructure.node[p]`. -/
def nodeAt (indexStructure : Index) (p : Int) : Except Fault indexNode :=
  if p < 0 then .error .indexOutOfRange
  else match indexStructure.node[p.toNat]? with
    | some n => .ok n
    | none => .error .indexOutOfRange

/-- The write `indexStructure.node[p] = n`. -/
def setNode (indexStructure : Index) (p : Int) (n : indexNode) : Except Fault Index :=
  if p < 0 then .error .indexOutOfRange
  else if p.toNat < indexStructure.node.length then
    .ok { indexStructure with node := indexStructure.node.set p.toNat n }
  else .error .indexOutOfRange

/-- The write `indexStructure.node[p].status = v`. -/
def setStatus (indexStructure : Index) (p : Int) (v : Nat) : Except Fault Index :=
  match nodeAt indexStructure p with
  | .ok n => setNode indexStructure p { n with status := v }
  | .error e => .error e

/-- The write `indexStructure.node[p].leftPointer = v`. -/
def setLeft (indexStructure : Index) (p : Int) (v : Int) : Except Fault Index :=
  match nodeAt indexStructure p with
  | .ok n => setNode indexStructure p { n with leftPointer := v }
  | .error e => .error e

/-- The write `indexStructure.node[p].key = v`. -/
def setKey (indexStructure : Index) (p : Int) (v : Nat) : Except Fault Index :=
  match nodeAt indexStructure p with
  | .ok n => setNode indexStructure p { n with key := v }
  | .error e => .error e

/-- The write `indexStructure.node[p].rightPointer = v`. -/
def setRight (indexStructure : Index) (p : Int) (v : Int) : Except Fault Index :=
  match nodeAt indexStructure p with
  | .ok n => setNode indexStructure p { n with rightPointer := v }
  | .error e => .error e

/-! ## Strings -/

/-- The conversion `string(b)` of a byte `b`: the UTF-8 encoding of the code
point `b`, one byte below 0x80 and two bytes from 0x80 on. -/
def runeString (b : Nat) : List Nat :=
  if b < 128 then [b] else [192 + b / 64, 128 + b % 64]

/-- The slice `keyField[i:i+1]`. -/
def sliceAt (keyField : List Nat) (i : Nat) : Except Fault (List Nat) :=
  match keyField[i]? with
  | some c => .ok [c]
  | none => .error .indexOutOfRange

/-- The comparison `a < b` of two Go strings: byte-wise lexicographic. -/
def strLt : List Nat → List Nat → Bool
  | [], [] => false
  | [], _ :: _ => true
  | _ :: _, [] => false
  | a :: as, b :: bs => if a < b then true else if b < a then false else strLt as bs

/-- The comparison `a <= b` of two Go strings. -/
def strLe (a b : List Nat) : Bool := !(strLt b a)

/-- The digits of a natural number, most significant first, as ASCII bytes. -/
def natDigits : Nat → Nat → List Nat
  | 0, _ => []
  | fuel + 1, n => if n < 10 then [48 + n] else natDigits fuel (n / 10) ++ [48 + n % 10]

/-- The library function `strconv.Itoa`. -/
def itoa (keyNumber : Int) : List Nat :=
  if keyNumber < 0 then 45 :: natDigits (keyNumber.natAbs + 1) keyNumber.natAbs
  else natDigits (keyNumber.natAbs + 1) keyNumber.natAbs

/-- The function `decimaliseNumber`; its second result is the length of the first. -/
def decimaliseNumber (keyNumber : Int) : List Nat := itoa keyNumber

/-- The table `asciiSpace` of the Go library. -/
def asciiSpace (c : Nat) : Bool :=
  c = 9 || c = 10 || c = 11 || c = 12 || c = 13 || c = 32

/-- The third byte of the white-space code points that begin with the bytes
0xE2 0x80: U+2000 to U+200A, U+2028, U+2029 and U+202F. -/
def spaceTail (d : Nat) : Bool :=
  (128 ≤ d && d ≤ 138) || d = 168 || d = 169 || d = 175

/-- One white-space rune at the front of a string is split off: an ASCII white
space or the UTF-8 encoding of another code point for which `unicode.IsSpace`
holds (U+0085, U+00A0, U+1680, U+2000 to U+200A, U+2028, U+2029, U+202F,
U+205F, U+3000). The result is the rest of the string. -/
def dropSpaceRune : List Nat → Option (List Nat)
  | [] => none
  | c :: r =>
    if asciiSpace c then some r
    else if c = 194 ∧ (r.take 1 = [133] ∨ r.take 1 = [160]) then some (r.drop 1)
    else if c = 225 ∧ r.take 2 = [154, 128] then some (r.drop 2)
    else if c = 226 ∧ r.take 1 = [128] ∧ spaceTail ((r.drop 1).headD 0) then some (r.drop 2)
    else if c = 226 ∧ r.take 2 = [129, 159] then some (r.drop 2)
    else if c = 227 ∧ r.take 2 = [128, 128] then some (r.drop 2)
    else none

/-- One white-space rune at the end of a string is split off; the argument and
the result are reversed strings, so the last byte of the rune comes first. -/
def dropSpaceRuneRev : List Nat → Option (List Nat)
  | [] => none
  | d :: r =>
    if asciiSpace d then some r
    else if (d = 133 ∨ d = 160) ∧ r.take 1 = [194] then some (r.drop 1)
    else if d = 128 ∧ r.take 2 = [154, 225] then some (r.drop 2)
    else if spaceTail d ∧ r.take 2 = [128, 226] then some (r.drop 2)
    else if d = 159 ∧ r.take 2 = [129, 226] then some (r.drop 2)
    else if d = 128 ∧ r.take 2 = [128, 227] then some (r.drop 2)
    else none

/-- White-space runes are split off the front as long as there is one; the
first argument bounds the number of runes and is the length of the string. -/
def trimLeftAux : Nat → List Nat → List Nat
  | 0, s => s
  | fuel + 1, s =>
    match dropSpaceRune s with
    | some r => trimLeftAux fuel r
    | none => s

/-- White-space runes are split off the end of a reversed string. -/
def trimRightAux : Nat → List Nat → List Nat
  | 0, s => s
  | fuel + 1, s =>
    match dropSpaceRuneRev s with
    | some r => trimRightAux fuel r
    | none => s

/-- The library function `strings.TrimSpace`: leading white space is removed,
then trailing white space. -/
def trimSpace (s : List Nat) : List Nat :=
  let t := trimLeftAux s.length s
  (trimRightAux t.length t.reverse).reverse

/-- The canonical form of a key, as computed at the head of `Search`, `Insert`
and `Delete`: trimmed, then cut to `maxKeyLength` bytes. -/
def canonical (keyInput : List Nat) : List Nat :=
  let t := trimSpace keyInput
  if t.length ≥ maxKeyLength then t.take maxKeyLength else t

/-! ## Chain construction -/

/-- The allocation step inside the loop of `extend`: the new node is appended
when the free list is empty and overwrites the head of the free list
otherwise. The result is the position of the node. -/
def allocNode (new : indexNode) (indexStructure : Index) : Except Fault (Int × Index) :=
  if indexStructure.deletedRoot = nullIndexPointer then
    .ok ((indexStructure.node.length : Int),
         { indexStructure with node := indexStructure.node ++ [new] })
  else
    match nodeAt indexStructure indexStructure.deletedRoot with
    | .error e => .error e
    | .ok old =>
      match setNode indexStructure indexStructure.deletedRoot new with
      | .error e => .error e
      | .ok s => .ok (indexStructure.deletedRoot, { s with deletedRoot := old.rightPointer })

/-- The loop of `extend`, which runs from the last byte of `keyField` to the
first: the node of a byte is built after the nodes of the bytes that follow
it, and points right at the node built just before. The byte that no byte
follows (loop index `keyLength-1`) gets status `'S'` and the identifier, every
other byte status `'X'` and the null pointer. -/
def extendFrom (keyField : List Nat) (keyNumber nextBranchBasePointer : Int)
    (indexStructure : Index) : Except Fault (Int × Index) :=
  match keyField with
  | [] => .ok (nextBranchBasePointer, indexStructure)
  | c :: rest =>
    match extendFrom rest keyNumber nextBranchBasePointer indexStructure with
    | .error e => .error e
    | .ok (extensionPointer, s) =>
      if rest = [] then
        allocNode { status := stS, leftPointer := keyNumber, key := c,
                    rightPointer := extensionPointer } s
      else
        allocNode { status := stX, leftPointer := nullIndexPointer, key := c,
                    rightPointer := extensionPointer } s

/-- The function `extend`. -/
def extend (keyField : List Nat) (keyNumber nextBranchBasePointer : Int)
    (indexStructure : Index) : Except Fault (Int × Index) :=
  extendFrom keyField keyNumber nextBranchBasePointer indexStructure

/-! ## Search -/

/-- The searching loop of `Search`. The result is `matchFound`, `keyPointer`
and `lastMatchPointer` at the end of the loop. A status byte that no case of
the switch names leaves the state as it is, and the loop goes round again. -/
def searchLoop (keyField : List Nat) (searchPrecisely : Bool) (indexStructure : Index) :
    Nat → Int → Int → Nat → Except Fault (Bool × Int × Int)
  | 0, _, _, _ => .error .outOfFuel
  | fuel + 1, keyPointer, lastMatchPointer, i =>
    if keyPointer = nullIndexPointer then .ok (false, keyPointer, lastMatchPointer)
    else do
      let n ← nodeAt indexStructure keyPointer
      if n.status = stR ∨ n.status = stS then
        let c ← sliceAt keyField i
        if c = runeString n.key then
          if i + 1 = keyField.length then
            if searchPrecisely then .ok (true, keyPointer, n.rightPointer)
            else .ok (true, keyPointer, lastMatchPointer)
          else if n.status = stS then .ok (false, keyPointer, lastMatchPointer)
          else searchLoop keyField searchPrecisely indexStructure fuel n.rightPointer
                 lastMatchPointer (i + 1)
        else .ok (false, keyPointer, lastMatchPointer)
      else if n.status = stD then
        let c ← sliceAt keyField i
        if strLe c (runeString n.key) then
          if !searchPrecisely then
            searchLoop keyField searchPrecisely indexStructure fuel n.leftPointer keyPointer i
          else
            searchLoop keyField searchPrecisely indexStructure fuel n.leftPointer
              lastMatchPointer i
        else
          searchLoop keyField searchPrecisely indexStructure fuel n.rightPointer
            lastMatchPointer i
      else if n.status = stK ∨ n.status = stL then
        let c ← sliceAt keyField i
        if c = runeString n.key then
          if i + 1 = keyField.length then
            if searchPrecisely then .ok (true, n.leftPointer, keyPointer)
            else .ok (true, n.leftPointer, lastMatchPointer)
          else if n.status = stL then .ok (false, keyPointer, lastMatchPointer)
          else searchLoop keyField searchPrecisely indexStructure fuel n.rightPointer
                 lastMatchPointer (i + 1)
        else .ok (false, keyPointer, lastMatchPointer)
      else if n.status = stX then
        let c ← sliceAt keyField i
        if c = runeString n.key then
          if i + 1 = keyField.length then
            if searchPrecisely then .ok (false, keyPointer, lastMatchPointer)
            else .ok (true, n.rightPointer, lastMatchPointer)
          else searchLoop keyField searchPrecisely indexStructure fuel n.rightPointer
                 lastMatchPointer (i + 1)
        else .ok (false, keyPointer, lastMatchPointer)
      else searchLoop keyField searchPrecisely indexStructure fuel keyPointer lastMatchPointer i

/-- The collecting loop of `Search`: the walk from `keyPointer` along the
threads until `lastMatchPointer` or the null pointer is met. -/
def collectLoop (indexStructure : Index) (lastMatchPointer : Int) :
    Nat → Int → Bool → List Int → Except Fault (List Int)
  | 0, _, _, _ => .error .outOfFuel
  | fuel + 1, keyPointer, goLeftAtNextNode, indexes =>
    if keyPointer = lastMatchPointer ∨ keyPointer = nullIndexPointer then .ok indexes
    else do
      let n ← nodeAt indexStructure keyPointer
      if n.status = stR then
        collectLoop indexStructure lastMatchPointer fuel n.rightPointer true
          (indexes ++ [n.leftPointer])
      else if n.status = stS then
        collectLoop indexStructure lastMatchPointer fuel n.rightPointer false
          (indexes ++ [n.leftPointer])
      else if n.status = stK then
        if goLeftAtNextNode then
          collectLoop indexStructure lastMatchPointer fuel n.leftPointer true indexes
        else
          collectLoop indexStructure lastMatchPointer fuel n.rightPointer true indexes
      else if n.status = stL then
        if goLeftAtNextNode then
          collectLoop indexStructure lastMatchPointer fuel n.leftPointer goLeftAtNextNode indexes
        else
          collectLoop indexStructure lastMatchPointer fuel n.rightPointer goLeftAtNextNode indexes
      else if n.status = stD then
        if goLeftAtNextNode then
          collectLoop indexStructure lastMatchPointer fuel n.leftPointer true indexes
        else
          collectLoop indexStructure lastMatchPointer fuel n.rightPointer true indexes
      else if n.status = stX then
        collectLoop indexStructure lastMatchPointer fuel n.rightPointer true indexes
      else
        collectLoop indexStructure lastMatchPointer fuel keyPointer goLeftAtNextNode indexes

/-- The function `Search`; `fuel` bounds the number of turns of each of its
two loops. -/
def Search (fuel : Nat) (keyInput : List Nat) (searchPrecisely : Bool)
    (indexStructure : Index) : Except Fault (Bool × List Int) :=
  if indexStructure.indexRoot = nullIndexPointer then .ok (false, [])
  else
    let keyField := canonical keyInput
    if keyField.length = 0 ∧ searchPrecisely then .ok (false, [])
    else do
      let (matchFound, keyPointer, lastMatchPointer) ←
        if keyField.length = 0 then
          (.ok (true, indexStructure.indexRoot, nullIndexPointer) :
            Except Fault (Bool × Int × Int))
        else
          searchLoop keyField searchPrecisely indexStructure fuel indexStructure.indexRoot
            nullIndexPointer 0
      if matchFound then
        let indexes ← collectLoop indexStructure lastMatchPointer fuel keyPointer true []
        .ok (true, indexes)
      else .ok (false, [])

/-! ## Insert -/

/-- The local variables of `Insert` that are live when its searching loop is
left, together with the index. -/
structure InsertState where
  indexStructure : Index
  keyField : List Nat
  keyPointer : Int
  previousIndexNumber : Int
  duplicateFlag : Bool
  i : Nat
deriving DecidableEq, Repr

/-- The searching loop of `Insert`. The result is `Sum.inl` of the index when
the function returns from inside the loop and `Sum.inr` of the state when the
loop is left with `searching = false`. -/
def insertLoop (keyNumber : Int) : Nat → InsertState → Except Fault (Index ⊕ InsertState)
  | 0, _ => .error .outOfFuel
  | fuel + 1, st => do
    let n ← nodeAt st.indexStructure st.keyPointer
    if n.status = stR ∨ n.status = stS then
      let c ← sliceAt st.keyField st.i
      if c = runeString n.key then
        if st.i + 1 = st.keyField.length then
          if keyNumber = n.leftPointer then .ok (.inl st.indexStructure)
          else
            let (linkIndexNumber, s1) ←
              extend (decimaliseNumber n.leftPointer) n.leftPointer st.keyPointer
                st.indexStructure
            let n1 ← nodeAt s1 st.keyPointer
            let s2 ← setStatus s1 st.keyPointer (if n1.status = stR then stK else stL)
            let s3 ← setLeft s2 st.keyPointer linkIndexNumber
            insertLoop keyNumber fuel
              { indexStructure := s3, keyField := decimaliseNumber keyNumber,
                keyPointer := linkIndexNumber, previousIndexNumber := st.keyPointer,
                duplicateFlag := true, i := 0 }
        else if n.status = stS then .ok (.inr st)
        else
          insertLoop keyNumber fuel
            { st with previousIndexNumber := st.keyPointer, keyPointer := n.rightPointer,
                      i := st.i + 1 }
      else .ok (.inr st)
    else if n.status = stD then
      let c ← sliceAt st.keyField st.i
      if strLe c (runeString n.key) then
        insertLoop keyNumber fuel
          { st with previousIndexNumber := st.keyPointer, keyPointer := n.leftPointer }
      else
        insertLoop keyNumber fuel
          { st with previousIndexNumber := st.keyPointer, keyPointer := n.rightPointer }
    else if n.status = stK ∨ n.status = stL then
      let c ← sliceAt st.keyField st.i
      if c = runeString n.key then
        if st.i + 1 = st.keyField.length then
          insertLoop keyNumber fuel
            { st with duplicateFlag := true, keyField := decimaliseNumber keyNumber, i := 0,
                      previousIndexNumber := st.keyPointer, keyPointer := n.leftPointer }
        else if n.status = stL then .ok (.inr st)
        else
          insertLoop keyNumber fuel
            { st with previousIndexNumber := st.keyPointer, keyPointer := n.rightPointer,
                      i := st.i + 1 }
      else .ok (.inr st)
    else if n.status = stX then
      let c ← sliceAt st.keyField st.i
      if c = runeString n.key then
        if st.i + 1 = st.keyField.length then .ok (.inr st)
        else
          insertLoop keyNumber fuel
            { st with previousIndexNumber := st.keyPointer, keyPointer := n.rightPointer,
                      i := st.i + 1 }
      else .ok (.inr st)
    else insertLoop keyNumber fuel st

/-- The loop of `Insert` that follows the right pointers from `threadIndex` to
the first node of status `'L'` or `'S'`. -/
def threadLoop (indexStructure : Index) : Nat → Int → Except Fault Int
  | 0, _ => .error .outOfFuel
  | fuel + 1, threadIndex => do
    let n ← nodeAt indexStructure threadIndex
    if n.status = stL ∨ n.status = stS then .ok threadIndex
    else threadLoop indexStructure fuel n.rightPointer

/-- The last step of `Insert`: the root of the index, or the node visited before
the new decision node, is made to point to the decision node. `c` is the slice
`keyField[i:i+1]`. -/
def insertRelink (s : Index) (previousIndexNumber : Int) (duplicateFlag : Bool) (c : List Nat)
    (decisionIndexNumber : Int) : Except Fault Index :=
  if previousIndexNumber = nullIndexPointer then
    .ok { s with indexRoot := decisionIndexNumber }
  else do
    let p ← nodeAt s previousIndexNumber
    if (p.status = stD ∧ strLe c (runeString p.key)) ∨ p.status = stL
        ∨ (p.status = stK ∧ duplicateFlag) then
      setLeft s previousIndexNumber decisionIndexNumber
    else
      setRight s previousIndexNumber decisionIndexNumber

/-- The part of `Insert` after its searching loop. -/
def insertFinish (fuel : Nat) (keyNumber : Int) (st : InsertState) : Except Fault Index := do
  let n ← nodeAt st.indexStructure st.keyPointer
  let c ← sliceAt st.keyField st.i
  if c = runeString n.key then
    if n.status = stX then
      let s1 ← setStatus st.indexStructure st.keyPointer stR
      setLeft s1 st.keyPointer keyNumber
    else
      let (linkIndexNumber, s1) ←
        extend (st.keyField.drop (st.i + 1)) keyNumber n.rightPointer st.indexStructure
      let n1 ← nodeAt s1 st.keyPointer
      let s2 ← setStatus s1 st.keyPointer (if n1.status = stS then stR else stK)
      setRight s2 st.keyPointer linkIndexNumber
  else
    let (decisionIndexNumber, s1) ←
      allocNode { status := stD, leftPointer := nullIndexPointer, key := 32,
                  rightPointer := nullIndexPointer } st.indexStructure
    let n1 ← nodeAt s1 st.keyPointer
    let (lastIndexNumber, s2) ←
      if strLt (runeString n1.key) c then do
        let threadIndex ← threadLoop s1 fuel st.keyPointer
        let t ← nodeAt s1 threadIndex
        let s ← setRight s1 threadIndex decisionIndexNumber
        (.ok (t.rightPointer, s) : Except Fault (Int × Index))
      else (.ok (decisionIndexNumber, s1) : Except Fault (Int × Index))
    let (linkIndexNumber, s3) ← extend (st.keyField.drop st.i) keyNumber lastIndexNumber s2
    let n3 ← nodeAt s3 st.keyPointer
    let s6 ←
      if strLt c (runeString n3.key) then do
        let s4 ← setLeft s3 decisionIndexNumber linkIndexNumber
        let b ← sliceAt st.keyField st.i
        let s5 ← setKey s4 decisionIndexNumber (b.headD 0)
        setRight s5 decisionIndexNumber st.keyPointer
      else do
        let s4 ← setLeft s3 decisionIndexNumber st.keyPointer
        let n4 ← nodeAt s4 st.keyPointer
        let s5 ← setKey s4 decisionIndexNumber n4.key
        setRight s5 decisionIndexNumber linkIndexNumber
    insertRelink s6 st.previousIndexNumber st.duplicateFlag c decisionIndexNumber

/-- The function `Insert`; `fuel` bounds the number of turns of each of its
loops. -/
def Insert (fuel : Nat) (keyInput : List Nat) (keyNumber : Int) (indexStructure : Index) :
    Except Fault Index :=
  let keyField := canonical keyInput
  if keyField.length = 0 then .ok indexStructure
  else if indexStructure.indexRoot = nullIndexPointer then do
    let (p, s) ← extend keyField keyNumber nullIndexPointer indexStructure
    .ok { s with indexRoot := p }
  else do
    let r ← insertLoop keyNumber fuel
      { indexStructure := indexStructure, keyField := keyField,
        keyPointer := indexStructure.indexRoot, previousIndexNumber := nullIndexPointer,
        duplicateFlag := false, i := 0 }
    match r with
    | .inl s => .ok s
    | .inr st => insertFinish fuel keyNumber st

/-! ## Delete -/

/-- The local variables of `Delete` that are live when its searching loop is
left. -/
structure DeleteState where
  keyField : List Nat
  keyPointer : Int
  previousIndexNumber : Int
  linkIndexNumber : Int
  deleteIndexNumber : Int
  duplicateIndexNumber : Int
  goLeft : Bool
  duplicateCount : Nat
  i : Nat
deriving DecidableEq, Repr

/-- The searching loop of `Delete`. The result is `none` when the function
returns from inside the loop and the state when the loop is left with
`searching = false`. -/
def deleteLoop (keyNumber : Int) (indexStructure : Index) :
    Nat → DeleteState → Except Fault (Option DeleteState)
  | 0, _ => .error .outOfFuel
  | fuel + 1, st0 => do
    let n ← nodeAt indexStructure st0.keyPointer
    let st : DeleteState :=
      if n.status = stD ∨ n.status = stK ∨ n.status = stR then
        { st0 with deleteIndexNumber := st0.keyPointer,
                   linkIndexNumber := st0.previousIndexNumber }
      else st0
    if n.status = stR ∨ n.status = stS then
      let c ← sliceAt st.keyField st.i
      if c = runeString n.key then
        let st1 : DeleteState :=
          if st.duplicateIndexNumber ≠ nullIndexPointer ∧ n.status = stR then
            { st with duplicateCount := st.duplicateCount + 1 }
          else st
        if st1.i + 1 = st1.keyField.length then
          if n.leftPointer ≠ keyNumber then .ok none
          else .ok (some st1)
        else if n.status = stS then .ok none
        else
          deleteLoop keyNumber indexStructure fuel
            { st1 with previousIndexNumber := st1.keyPointer, keyPointer := n.rightPointer,
                       i := st1.i + 1 }
      else .ok none
    else if n.status = stD then
      let st1 : DeleteState :=
        if st.duplicateIndexNumber ≠ nullIndexPointer then
          { st with duplicateCount := st.duplicateCount + 1 }
        else st
      let c ← sliceAt st1.keyField st1.i
      if strLe c (runeString n.key) then
        deleteLoop keyNumber indexStructure fuel
          { st1 with previousIndexNumber := st1.keyPointer, keyPointer := n.leftPointer,
                     goLeft := true }
      else
        deleteLoop keyNumber indexStructure fuel
          { st1 with previousIndexNumber := st1.keyPointer, keyPointer := n.rightPointer,
                     goLeft := false }
    else if n.status = stK ∨ n.status = stL then
      let c ← sliceAt st.keyField st.i
      if c = runeString n.key then
        if st.i + 1 = st.keyField.length then
          deleteLoop keyNumber indexStructure fuel
            { st with previousIndexNumber := st.keyPointer,
                      duplicateIndexNumber := st.keyPointer, i := 0,
                      keyField := decimaliseNumber keyNumber, keyPointer := n.leftPointer }
        else if n.status = stL then .ok none
        else
          deleteLoop keyNumber indexStructure fuel
            { st with previousIndexNumber := st.keyPointer, keyPointer := n.rightPointer,
                      i := st.i + 1 }
      else .ok none
    else if n.status = stX then
      let c ← sliceAt st.keyField st.i
      if c = runeString n.key then
        if st.i + 1 = st.keyField.length then .ok none
        else
          deleteLoop keyNumber indexStructure fuel
            { st with previousIndexNumber := st.keyPointer, keyPointer := n.rightPointer,
                      i := st.i + 1 }
      else .ok none
    else deleteLoop keyNumber indexStructure fuel st

/-- The loop of `Delete` that scans along the right pointers from
`tempIndexNumber`, counting the `'R'` nodes and the `'D'` nodes other than
`deleteIndexNumber`. The result is `tempIndexNumber` and `duplicateCount`. -/
def scanLoop (indexStructure : Index) (deleteIndexNumber duplicateIndexNumber : Int) :
    Nat → Int → Nat → Except Fault (Int × Nat)
  | 0, _, _ => .error .outOfFuel
  | fuel + 1, tempIndexNumber, duplicateCount => do
    let n ← nodeAt indexStructure tempIndexNumber
    let count :=
      if n.status = stR ∨ (n.status = stD ∧ tempIndexNumber ≠ deleteIndexNumber) then
        duplicateCount + 1
      else duplicateCount
    if n.rightPointer = duplicateIndexNumber ∨ count > 1 then .ok (tempIndexNumber, count)
    else scanLoop indexStructure deleteIndexNumber duplicateIndexNumber fuel n.rightPointer count

/-- The loops of `Delete` that follow the right pointers from `p` to the node
whose right pointer is `endIndex`. -/
def findThread (indexStructure : Index) (endIndex : Int) : Nat → Int → Except Fault Int
  | 0, _ => .error .outOfFuel
  | fuel + 1, p => do
    let n ← nodeAt indexStructure p
    if n.rightPointer ≠ endIndex then findThread indexStructure endIndex fuel n.rightPointer
    else .ok p

/-- The relinking of `linkIndexNumber` in the last part of `Delete`: the node
`target` takes the place of the decision node `deleteIndexNumber`. -/
def relink (s : Index) (st : DeleteState) (target : Int) : Except Fault Index :=
  if st.linkIndexNumber = nullIndexPointer then .ok { s with indexRoot := target }
  else do
    let l ← nodeAt s st.linkIndexNumber
    if l.status = stD then
      let d ← nodeAt s st.deleteIndexNumber
      if d.key ≤ l.key then
        let r ← nodeAt s target
        let s1 ← if r.status ≠ stD then setKey s st.linkIndexNumber r.key else .ok s
        setLeft s1 st.linkIndexNumber target
      else setRight s st.linkIndexNumber target
    else if (l.status = stK ∨ l.status = stL) ∧ st.duplicateIndexNumber ≠ nullIndexPointer then
      setLeft s st.linkIndexNumber target
    else setRight s st.linkIndexNumber target

/-- The last part of `Delete`, from the test of the status `'R'` of the node
`keyPointer` on. -/
def deleteNode (fuel : Nat) (s : Index) (st : DeleteState) : Except Fault Index := do
  let k ← nodeAt s st.keyPointer
  if k.status = stR then
    let s1 ← setStatus s st.keyPointer stX
    setLeft s1 st.keyPointer nullIndexPointer
  else if st.deleteIndexNumber = nullIndexPointer then
    let s1 ← setRight s st.keyPointer s.deletedRoot
    .ok { s1 with deletedRoot := s1.indexRoot, indexRoot := nullIndexPointer }
  else
    let d ← nodeAt s st.deleteIndexNumber
    if d.status = stR ∨ d.status = stK then
      let saveIndex := d.rightPointer
      let s1 ← setRight s st.deleteIndexNumber k.rightPointer
      let d1 ← nodeAt s1 st.deleteIndexNumber
      let s2 ← setStatus s1 st.deleteIndexNumber (if d1.status = stR then stS else stL)
      let s3 ← setRight s2 st.keyPointer s2.deletedRoot
      .ok { s3 with deletedRoot := saveIndex }
    else if st.goLeft then
      let s1 ← relink s st d.rightPointer
      let s2 ← setRight s1 st.keyPointer s1.deletedRoot
      let s3 : Index := { s2 with deletedRoot := st.deleteIndexNumber }
      let d3 ← nodeAt s3 st.deleteIndexNumber
      setRight s3 st.deleteIndexNumber d3.leftPointer
    else
      let threadIndex ← findThread s st.deleteIndexNumber fuel d.leftPointer
      let k1 ← nodeAt s st.keyPointer
      let s1 ← setRight s threadIndex k1.rightPointer
      let d1 ← nodeAt s1 st.deleteIndexNumber
      let s2 ← relink s1 st d1.leftPointer
      let s3 ← setRight s2 st.keyPointer s2.deletedRoot
      .ok { s3 with deletedRoot := st.deleteIndexNumber }

/-- The part of `Delete` that handles a key found inside a duplicate tree
(`duplicateIndexNumber` is not the null pointer). The result is `Sum.inl` of
the index when the function returns from this part, and `Sum.inr` of the index
and the local variables when control falls through to the last part. -/
def deleteDuplicate (fuel : Nat) (keyNumber : Int) (s : Index) (st : DeleteState) :
    Except Fault (Index ⊕ (Index × DeleteState)) :=
  if st.duplicateIndexNumber = nullIndexPointer then .ok (.inr (s, st))
  else if st.duplicateCount = 0 then do
    let s1 ← setRight s st.keyPointer s.deletedRoot
    let dn ← nodeAt s1 st.duplicateIndexNumber
    let s2 : Index := { s1 with deletedRoot := dn.leftPointer }
    let s4 ←
      if dn.status = stK then do
        let s3 ← setStatus s2 st.duplicateIndexNumber stX
        setLeft s3 st.duplicateIndexNumber nullIndexPointer
      else do
        let s3 ← setStatus s2 st.duplicateIndexNumber stS
        setLeft s3 st.duplicateIndexNumber keyNumber
    let dn4 ← nodeAt s4 st.duplicateIndexNumber
    if dn4.status = stX then .ok (.inl s4)
    else .ok (.inr (s4, { st with keyPointer := st.duplicateIndexNumber,
                                  duplicateIndexNumber := nullIndexPointer }))
  else do
    let (tempIndexNumber, duplicateCount) ←
      if st.duplicateCount = 1 then do
        let k ← nodeAt s st.keyPointer
        let start ←
          if k.status = stR then (.ok k.rightPointer : Except Fault Int)
          else do
            let d ← nodeAt s st.deleteIndexNumber
            if d.status = stR ∨ st.goLeft then .ok d.rightPointer else .ok d.leftPointer
        scanLoop s st.deleteIndexNumber st.duplicateIndexNumber fuel start st.duplicateCount
      else (.ok (0, st.duplicateCount) : Except Fault (Int × Nat))
    if duplicateCount = 1 then
      let k ← nodeAt s st.keyPointer
      if k.status = stR then
        let s1 ← setRight s tempIndexNumber s.deletedRoot
        let dn ← nodeAt s1 st.duplicateIndexNumber
        let s2 : Index := { s1 with deletedRoot := dn.leftPointer }
        let s3 ← setStatus s2 st.duplicateIndexNumber (if dn.status = stK then stR else stS)
        let t ← nodeAt s3 tempIndexNumber
        let s4 ← setLeft s3 st.duplicateIndexNumber t.leftPointer
        .ok (.inl s4)
      else
        let l ← nodeAt s st.linkIndexNumber
        let s1 ← setStatus s st.linkIndexNumber (if l.status = stK then stR else stS)
        let d ← nodeAt s1 st.deleteIndexNumber
        if d.status = stR then
          let s2 ← setRight s1 st.keyPointer s1.deletedRoot
          let l2 ← nodeAt s2 st.linkIndexNumber
          let s3 : Index := { s2 with deletedRoot := l2.leftPointer }
          let d3 ← nodeAt s3 st.deleteIndexNumber
          let s4 ← setLeft s3 st.linkIndexNumber d3.leftPointer
          .ok (.inl s4)
        else
          let l1 ← nodeAt s1 st.linkIndexNumber
          let saveIndex := l1.leftPointer
          let resetStart := if st.goLeft then d.rightPointer else d.leftPointer
          let endIndex := if st.goLeft then st.duplicateIndexNumber else st.deleteIndexNumber
          let resetRightIndex ← findThread s1 endIndex fuel resetStart
          let r ← nodeAt s1 resetRightIndex
          let s2 ← setLeft s1 st.linkIndexNumber r.leftPointer
          let s4 ←
            if st.goLeft then do
              let s3 ← setRight s2 st.keyPointer s2.deletedRoot
              let d3 ← nodeAt s3 st.deleteIndexNumber
              setRight s3 resetRightIndex d3.leftPointer
            else do
              let s3 ← setRight s2 resetRightIndex s2.deletedRoot
              let d3 ← nodeAt s3 st.deleteIndexNumber
              setRight s3 st.keyPointer d3.leftPointer
          .ok (.inl { s4 with deletedRoot := saveIndex })
    else .ok (.inr (s, { st with duplicateCount := duplicateCount }))

/-- The function `Delete`; `fuel` bounds the number of turns of each of its
loops. -/
def Delete (fuel : Nat) (keyInput : List Nat) (keyNumber : Int) (indexStructure : Index) :
    Except Fault Index :=
  let keyField := canonical keyInput
  if keyField.length = 0 then .ok indexStructure
  else if indexStructure.indexRoot = nullIndexPointer then .ok indexStructure
  else do
    let r ← deleteLoop keyNumber indexStructure fuel
      { keyField := keyField, keyPointer := indexStructure.indexRoot,
        previousIndexNumber := nullIndexPointer, linkIndexNumber := nullIndexPointer,
        deleteIndexNumber := nullIndexPointer, duplicateIndexNumber := nullIndexPointer,
        goLeft := true, duplicateCount := 0, i := 0 }
    match r with
    | none => .ok indexStructure
    | some st =>
      let r2 ← deleteDuplicate fuel keyNumber indexStructure st
      match r2 with
      | .inl s => .ok s
      | .inr (s, st1) => deleteNode fuel s st1

/-! ## Statistics -/

/-- The struct `Statistic` of the source; the counters only count up from
zero. -/
structure Statistic where
  Active : Nat
  Deleted : Nat
  Depth : Nat
  NodeR : Nat
  NodeS : Nat
  NodeX : Nat
  NodeK : Nat
  NodeL : Nat
  NodeD : Nat
deriving DecidableEq, Repr

/-- The function `pushStack`: the position is appended when the slice is not
longer than the depth and overwrites the entry at the depth otherwise. The
result is the slice and the depth plus one. -/
def pushStack (inStack : List Int) (keyPointer : Int) (inDepth : Nat) : List Int × Nat :=
  if inStack.length ≤ inDepth then (inStack ++ [keyPointer], inDepth + 1)
  else (inStack.set inDepth keyPointer, inDepth + 1)

/-- The loop `for stackPointer = 0; stack[stackPointer] != keyPointer;
stackPointer++` of `Statistics` followed by `stackPointer++`, on the part of
the stack from `stackPointer` on: the result is one more than the first index
at which the stack holds `keyPointer`; the read runs past the end of the stack
when there is none. -/
def resetStack : List Int → Int → Nat → Except Fault Nat
  | [], _, _ => .error .indexOutOfRange
  | x :: rest, keyPointer, stackPointer =>
    if x ≠ keyPointer then resetStack rest keyPointer (stackPointer + 1)
    else .ok (stackPointer + 1)

/-- The local variables of the scanning loop of `Statistics`. -/
structure ScanState where
  result : Statistic
  stack : List Int
  stackPointer : Nat
  goLeft : Bool
  keyPointer : Int
deriving DecidableEq, Repr

/-- The scanning loop of `Statistics`. A status byte that no case of the
switch names leaves the state as it is, and the loop goes round again. -/
def scanningLoop (indexStructure : Index) : Nat → ScanState → Except Fault ScanState
  | 0, _ => .error .outOfFuel
  | fuel + 1, st =>
    if st.keyPointer = nullIndexPointer then .ok st
    else do
      let n ← nodeAt indexStructure st.keyPointer
      if n.status = stX then
        let p := pushStack st.stack st.keyPointer st.stackPointer
        scanningLoop indexStructure fuel
          { result := { st.result with NodeX := st.result.NodeX + 1 },
            stack := p.1, stackPointer := p.2, goLeft := true, keyPointer := n.rightPointer }
      else if n.status = stR then
        let p := pushStack st.stack st.keyPointer st.stackPointer
        scanningLoop indexStructure fuel
          { result := { st.result with NodeR := st.result.NodeR + 1 },
            stack := p.1, stackPointer := p.2, goLeft := true, keyPointer := n.rightPointer }
      else if n.status = stD then
        if st.goLeft then
          let p := pushStack st.stack st.keyPointer st.stackPointer
          scanningLoop indexStructure fuel
            { st with result := { st.result with NodeD := st.result.NodeD + 1 },
                      stack := p.1, stackPointer := p.2, keyPointer := n.leftPointer }
        else
          scanningLoop indexStructure fuel
            { st with keyPointer := n.rightPointer, goLeft := true }
      else if n.status = stK then
        if st.goLeft then
          let p := pushStack st.stack st.keyPointer st.stackPointer
          scanningLoop indexStructure fuel
            { st with result := { st.result with NodeK := st.result.NodeK + 1 },
                      stack := p.1, stackPointer := p.2, keyPointer := n.leftPointer }
        else
          scanningLoop indexStructure fuel
            { st with keyPointer := n.rightPointer, goLeft := true }
      else if n.status = stS then
        let p := pushStack st.stack st.keyPointer st.stackPointer
        let sp ←
          if n.rightPointer ≠ nullIndexPointer then resetStack p.1 n.rightPointer 0
          else (.ok p.2 : Except Fault Nat)
        scanningLoop indexStructure fuel
          { result := { st.result with NodeS := st.result.NodeS + 1 },
            stack := p.1, stackPointer := sp, goLeft := false, keyPointer := n.rightPointer }
      else if n.status = stL then
        if st.goLeft then
          let p := pushStack st.stack st.keyPointer st.stackPointer
          scanningLoop indexStructure fuel
            { st with result := { st.result with NodeL := st.result.NodeL + 1 },
                      stack := p.1, stackPointer := p.2, keyPointer := n.leftPointer }
        else do
          let sp ←
            if n.rightPointer ≠ nullIndexPointer then resetStack st.stack n.rightPointer 0
            else (.ok st.stackPointer : Except Fault Nat)
          scanningLoop indexStructure fuel
            { st with stackPointer := sp, keyPointer := n.rightPointer }
      else scanningLoop indexStructure fuel st

/-- The last loop of `Statistics`: the walk along the free list from `x`, one
count for every slot. -/
def countDeleted (indexStructure : Index) : Nat → Int → Nat → Except Fault Nat
  | 0, _, _ => .error .outOfFuel
  | fuel + 1, x, deleted =>
    if x = nullIndexPointer then .ok deleted
    else do
      let n ← nodeAt indexStructure x
      countDeleted indexStructure fuel n.rightPointer (deleted + 1)

/-- The function `Statistics`; `fuel` bounds the number of turns of each of its
two loops. -/
def Statistics (fuel : Nat) (indexStructure : Index) : Except Fault Statistic := do
  let st ← scanningLoop indexStructure fuel
    { result := ⟨0, 0, 0, 0, 0, 0, 0, 0, 0⟩, stack := [], stackPointer := 0, goLeft := true,
      keyPointer := indexStructure.indexRoot }
  let r := st.result
  let active := r.NodeR + r.NodeS + r.NodeX + r.NodeK + r.NodeL + r.NodeD
  let deleted ← countDeleted indexStructure fuel indexStructure.deletedRoot 0
  .ok { r with Active := active, Depth := st.stack.length, Deleted := deleted }

/-! ## Auxiliary definitions for the statements -/

/-- The index a caller starts from: the zero value of the struct `Index`, passed
through `Initialise`. -/
def emptyIndex : Index := Initialise { indexRoot := 0, node := [], deletedRoot := 0 }

/-- A forty-byte key that begins with a blank: one space and thirty-nine times
the letter `a`. -/
def blankFirstKey : List Nat := 32 :: List.replicate 39 97

/-- The calls of the example of the specification: `"cat"` with identifier 1,
`"car"` with 2, `"cart"` with 3. -/
def catCalls : List (List Nat × Int) :=
  [([99, 97, 116], 1), ([99, 97, 114], 2), ([99, 97, 114, 116], 3)]

/-! ## The tree that a node array represents

The invariant of the engine is stated through a tree whose nodes carry their
position in the node array. The predicate `Rep` ties such a tree to the
array: every node of the tree is found at its position with the status, the
byte and the two pointers that the tree prescribes. The right pointer of a
node that ends a chain is the thread: the position of the decision node (or
of the duplicate node) at which the walk in ascending order goes on. -/

/-- A tree of index nodes, each with its position in the node array. -/
inductive Trie where
  | S (pos : Nat) (c : Nat) (id : Int)
  | R (pos : Nat) (c : Nat) (id : Int) (next : Trie)
  | X (pos : Nat) (c : Nat) (next : Trie)
  | L (pos : Nat) (c : Nat) (dup : Trie)
  | K (pos : Nat) (c : Nat) (dup : Trie) (next : Trie)
  | D (pos : Nat) (c : Nat) (l : Trie) (r : Trie)
deriving DecidableEq, Repr

namespace Trie

/-- The position of the root node of a tree. -/
def pos : Trie → Nat
  | S p _ _ => p
  | R p _ _ _ => p
  | X p _ _ => p
  | L p _ _ => p
  | K p _ _ _ => p
  | D p _ _ _ => p

/-- The pointer to the root node of a tree. -/
def root (t : Trie) : Int := (t.pos : Int)

/-- The positions of all nodes of a tree. -/
def positions : Trie → List Nat
  | S p _ _ => [p]
  | R p _ _ next => p :: next.positions
  | X p _ next => p :: next.positions
  | L p _ dup => p :: dup.positions
  | K p _ dup next => p :: (dup.positions ++ next.positions)
  | D p _ l r => p :: (l.positions ++ r.positions)

/-- The bytes with which the keys of a tree begin. -/
def heads : Trie → List Nat
  | S _ c _ => [c]
  | R _ c _ _ => [c]
  | X _ c _ => [c]
  | L _ c _ => [c]
  | K _ c _ _ => [c]
  | D _ _ l r => l.heads ++ r.heads

/-- The pairs of key and identifier that a tree stores, in the order of the
walk along the threads. The identifiers of a duplicate node are the
identifiers stored in its secondary tree. -/
def pairs : Trie → List (List Nat × Int)
  | S _ c id => [([c], id)]
  | R _ c id next => ([c], id) :: next.pairs.map (fun x => (c :: x.1, x.2))
  | X _ c next => next.pairs.map (fun x => (c :: x.1, x.2))
  | L _ c dup => dup.pairs.map (fun x => ([c], x.2))
  | K _ c dup next =>
    dup.pairs.map (fun x => ([c], x.2)) ++ next.pairs.map (fun x => (c :: x.1, x.2))
  | D _ _ l r => l.pairs ++ r.pairs

/-- The number of turns that the collecting loop of `Search` spends on a tree. -/
def visits : Trie → Nat
  | S _ _ _ => 1
  | R _ _ _ next => 1 + next.visits
  | X _ _ next => 1 + next.visits
  | L _ _ dup => 2 + dup.visits
  | K _ _ dup next => 2 + dup.visits + next.visits
  | D _ _ l r => 2 + l.visits + r.visits

/-- The position of the node that ends the last chain of a tree: the node whose
right pointer is the thread that leaves the tree. -/
def lastLeaf : Trie → Nat
  | S p _ _ => p
  | R _ _ _ next => next.lastLeaf
  | X _ _ next => next.lastLeaf
  | L p _ _ => p
  | K _ _ _ next => next.lastLeaf
  | D _ _ _ r => r.lastLeaf

end Trie

/-- The node array holds the tree `t`, and the thread that leaves `t` is
`thread`. -/
def Rep (nodes : List indexNode) : Trie → Int → Prop
  | .S p c id, thread => nodes[p]? = some ⟨stS, id, c, thread⟩
  | .R p c id next, thread =>
    nodes[p]? = some ⟨stR, id, c, next.root⟩ ∧ Rep nodes next thread
  | .X p c next, thread =>
    nodes[p]? = some ⟨stX, nullIndexPointer, c, next.root⟩ ∧ Rep nodes next thread
  | .L p c dup, thread =>
    nodes[p]? = some ⟨stL, dup.root, c, thread⟩ ∧ Rep nodes dup (p : Int)
  | .K p c dup next, thread =>
    nodes[p]? = some ⟨stK, dup.root, c, next.root⟩ ∧ Rep nodes dup (p : Int)
      ∧ Rep nodes next thread
  | .D p c l r, thread =>
    nodes[p]? = some ⟨stD, l.root, c, r.root⟩ ∧ Rep nodes l (p : Int) ∧ Rep nodes r thread

namespace Trie

/-- A bound on the number of turns that the searching loop of `Insert` spends on
a tree of keys: the nodes on its way and, where a second identifier turns a
node into a duplicate node, the digits of the identifier stored there. -/
def span : Trie → Nat
  | S _ _ id => 1 + (itoa id).length
  | R _ _ id next => 1 + (itoa id).length + next.span
  | X _ _ next => 1 + next.span
  | L _ _ dup => 2 + dup.visits
  | K _ _ dup next => 2 + dup.visits + next.span
  | D _ _ l r => 2 + l.span + r.span

end Trie

/-- The order of a tree. With `sec = none` the tree is a tree of keys: its
duplicate nodes carry secondary trees. With `sec = some w` the tree is the
part of a secondary tree below the digits `w`: it has no duplicate nodes, and
the identifier at the end of a chain is the number whose decimal text is the
chain. In both cases every byte is below 0x80, and at a decision node the
keys on the left begin with a byte up to the pivot, those on the right with a
byte above it. -/
def Ordered : Option (List Nat) → Trie → Prop
  | none, .S _ c _ => c < 128
  | some w, .S _ c id => c < 128 ∧ itoa id = w ++ [c]
  | none, .R _ c _ next => c < 128 ∧ Ordered none next
  | some w, .R _ c id next => c < 128 ∧ itoa id = w ++ [c] ∧ Ordered (some (w ++ [c])) next
  | none, .X _ c next => c < 128 ∧ Ordered none next
  | some w, .X _ c next => c < 128 ∧ Ordered (some (w ++ [c])) next
  | none, .L _ c dup => c < 128 ∧ Ordered (some []) dup
  | some _, .L _ _ _ => False
  | none, .K _ c dup next => c < 128 ∧ Ordered (some []) dup ∧ Ordered none next
  | some _, .K _ _ _ _ => False
  | sec, .D _ c l r =>
    c < 128 ∧ (∀ h ∈ l.heads, h ≤ c) ∧ (∀ h ∈ r.heads, c < h) ∧ Ordered sec l ∧ Ordered sec r

/-- The invariant of an index that holds at least one key: its node array
holds a tree of keys at the root, no two nodes of the tree share a position, and
the free list is empty. -/
structure Holds (indexStructure : Index) (t : Trie) : Prop where
  root_eq : indexStructure.indexRoot = t.root
  free_empty : indexStructure.deletedRoot = nullIndexPointer
  rep : Rep indexStructure.node t nullIndexPointer
  nodup : t.positions.Nodup
  ordered : Ordered none t

/-- The selection of a search: the keys equal to `w` in a precise search, the
keys that begin with `w` otherwise. -/
def selects (searchPrecisely : Bool) (w : List Nat) (x : List Nat × Int) : Bool :=
  if searchPrecisely then decide (x.1 = w) else w.isPrefixOf x.1

/-- The identifiers that a search for `w` is to return on the pairs `ps`. -/
def answer (searchPrecisely : Bool) (w : List Nat) (ps : List (List Nat × Int)) : List Int :=
  (ps.filter (selects searchPrecisely w)).map (fun x => x.2)

/-- The searching loop of `Insert` followed by the part of `Insert` after the
loop, as in the body of `Insert`; the two parts have their own fuel. -/
def insertRun (fuelLoop fuelFinish : Nat) (keyNumber : Int) (st : InsertState) :
    Except Fault Index :=
  match insertLoop keyNumber fuelLoop st with
  | .error e => .error e
  | .ok (.inl s) => .ok s
  | .ok (.inr st1) => insertFinish fuelFinish keyNumber st1

/-- The fuel that `Insert` needs on a tree: inside a secondary tree the number
of its nodes is enough, in a tree of keys the bound `Trie.span`. -/
def need (duplicateFlag : Bool) (t : Trie) : Nat :=
  if duplicateFlag then t.visits else t.span

/-- The place of the tree `t` below the node that `Insert` visited before it.
Either there is no such node (`prev` is the null pointer) and `t` is at the root
of the index; or the node is at a position outside `t`, its left pointer
(`leftSide`) or its right pointer leads to `t`, and the test by which `Insert`
chooses the pointer of that node to redirect picks the left pointer exactly
when `leftSide` holds. The byte `c` is the byte of the key at which the walk
stands. -/
def PrevLink (nodes : List indexNode) (root : Int) (t : Trie) (prev : Int) (leftSide : Bool)
    (c : Nat) (duplicateFlag : Bool) : Prop :=
  (prev = nullIndexPointer ∧ root = t.root) ∨
    ∃ (pp : Nat) (pn : indexNode), prev = (pp : Int) ∧ nodes[pp]? = some pn ∧ pp ∉ t.positions ∧
      (if leftSide then pn.leftPointer else pn.rightPointer) = t.root ∧
      (leftSide = true ↔
        ((pn.status = stD ∧ strLe [c] (runeString pn.key) = true) ∨ pn.status = stL
          ∨ (pn.status = stK ∧ duplicateFlag = true)))

/-- The two ways in which `Insert` walks a tree: through a tree of keys with a
key of bytes below 0x80, or through a secondary tree with the decimal text of
the identifier, of which the digits `keyField.take i` lead to the tree. -/
def WalkMode (sec : Option (List Nat)) (duplicateFlag : Bool) (keyField : List Nat) (i : Nat)
    (keyNumber : Int) : Prop :=
  (sec = none ∧ duplicateFlag = false) ∨
    (sec = some (keyField.take i) ∧ duplicateFlag = true ∧ keyField = itoa keyNumber)

/-- What `Insert` achieves on the tree `t` that it reaches with the rest
`newKey` of the key: the index holds a tree `t'` in the place of `t`, with the
same thread, the pairs of `t` and the new pair; the nodes of `t'` are nodes of
`t` or new ones; the only node outside `t` that changes is the node visited
before, whose pointer to `t` now points to `t'`. -/
structure InsertPost (nodes : List indexNode) (root : Int) (t : Trie) (th : Int) (prev : Int)
    (leftSide : Bool) (sec : Option (List Nat)) (newKey : List Nat) (keyNumber : Int)
    (s' : Index) (t' : Trie) : Prop where
  free_empty : s'.deletedRoot = nullIndexPointer
  rep : Rep s'.node t' th
  ordered : Ordered sec t'
  nodup : t'.positions.Nodup
  pos_new : ∀ q ∈ t'.positions, q ∈ t.positions ∨ nodes.length ≤ q
  length_le : nodes.length ≤ s'.node.length
  frame : ∀ q : Nat, q < nodes.length → q ∉ t.positions → (q : Int) ≠ prev →
    s'.node[q]? = nodes[q]?
  root_link : prev = nullIndexPointer → s'.indexRoot = t'.root
  parent_link : ∀ (pp : Nat) (pn : indexNode), prev = (pp : Int) → nodes[pp]? = some pn →
    s'.indexRoot = root ∧
      s'.node[pp]? = some (if leftSide then { pn with leftPointer := t'.root }
                           else { pn with rightPointer := t'.root })
  heads : ∀ h ∈ t'.heads, h ∈ t.heads ∨ newKey.head? = some h
  pairs : ∀ x, x ∈ t'.pairs ↔ x ∈ t.pairs ∨ x = (newKey, keyNumber)

/-- The statement that `Insert` is correct on the tree `t`: from any state of
its walk in which `keyPointer` stands at the root of `t`, with enough fuel, it
returns an index for which `InsertPost` holds. -/
def InsertSpec (keyNumber : Int) (duplicateFlag : Bool) (t : Trie) : Prop :=
  ∀ (root : Int) (nodes : List indexNode) (th : Int) (keyField : List Nat) (i : Nat)
    (prev : Int) (leftSide : Bool) (sec : Option (List Nat)) (fuelLoop fuelFinish : Nat),
    Rep nodes t th → t.positions.Nodup → Ordered sec t →
    ∀ (hi : i < keyField.length), (∀ b ∈ keyField, b < 128) →
    WalkMode sec duplicateFlag keyField i keyNumber →
    PrevLink nodes root t prev leftSide keyField[i] duplicateFlag →
    need duplicateFlag t ≤ fuelLoop → need duplicateFlag t ≤ fuelFinish →
    ∃ s' t',
      insertRun fuelLoop fuelFinish keyNumber
        { indexStructure := { indexRoot := root, node := nodes, deletedRoot := nullIndexPointer },
          keyField := keyField, keyPointer := t.root, previousIndexNumber := prev,
          duplicateFlag := duplicateFlag, i := i } = .ok s'
      ∧ InsertPost nodes root t th prev leftSide sec (keyField.drop i) keyNumber s' t'

/-- A sequence of calls of `Insert`, each with a key and an identifier, in order. -/
def insertAll (fuel : Nat) : List (List Nat × Int) → Index → Except Fault Index
  | [], s => .ok s
  | call :: rest, s =>
    match Insert fuel call.1 call.2 s with
    | .ok s1 => insertAll fuel rest s1
    | .error e => .error e

/-- The pairs that a sequence of calls of `Insert` stores: the canonical form of
the key and the identifier of every call whose canonical key is not empty. -/
def stored (calls : List (List Nat × Int)) : List (List Nat × Int) :=
  (calls.map (fun x => (canonical x.1, x.2))).filter (fun x => x.1 ≠ [])

/-- The index stores exactly the pairs `ps`: either it is empty, with an empty
free list, and `ps` is empty; or it holds a tree whose pairs are the members of
`ps`. -/
def Stores (s : Index) (ps : List (List Nat × Int)) : Prop :=
  (s.indexRoot = nullIndexPointer ∧ s.deletedRoot = nullIndexPointer ∧ ps = []) ∨
    ∃ t, Holds s t ∧ ∀ x, x ∈ t.pairs ↔ x ∈ ps

/-! ## Auxiliary definitions for the statements on `extend` and `Delete` -/

/-- The free list of a node array: from `head` the right pointers lead through
the positions `ps`, in this order, and then to the null pointer. -/
def FreeList (nodes : List indexNode) : Int → List Nat → Prop
  | head, [] => head = nullIndexPointer
  | head, p :: ps =>
    head = (p : Int) ∧
      match nodes[p]? with
      | some n => FreeList nodes n.rightPointer ps
      | none => False

/-- The slots that a call of `extend` for `L` bytes is to take, in the order in
which it takes them, on a node array of length `len` with the free list `ps`:
the first `L` positions of the free list and, when the free list has fewer,
new positions at the end of the array. -/
def allocated (ps : List Nat) (len L : Nat) : List Nat :=
  ps.take L ++ (List.range (L - ps.length)).map (fun j => len + j)

/-- The nodes at the positions `qs` are, from the pointer `p` on, a chain for
the bytes `s`: the node of every byte but the last has status `'X'`, the null
pointer on the left and the position of the node of the next byte on the right;
the node of the last byte has status `'S'`, `keyNumber` on the left and `target`
on the right. For no bytes the pointer is `target` itself. -/
def Chain (nodes : List indexNode) (keyNumber target : Int) :
    List Nat → List Nat → Int → Prop
  | [], [], p => p = target
  | c :: rest, q :: qs, p =>
    p = (q : Int) ∧ ∃ next, Chain nodes keyNumber target rest qs next ∧
      nodes[q]? = some (if rest = [] then ⟨stS, keyNumber, c, next⟩
                        else ⟨stX, nullIndexPointer, c, next⟩)
  | _, _, _ => False

/-- The index that `Insert("a", 1)` and `Insert("b", 2)` leave: a decision node
at position 1 over the leaves of `"a"` and `"b"`. -/
def forkIndex : Index :=
  { indexRoot := 1, node := [⟨stS, 1, 97, 1⟩, ⟨stD, 0, 97, 2⟩, ⟨stS, 2, 98, -1⟩],
    deletedRoot := -1 }

/-- An index of three nodes whose free list holds the slots 1 and 2: the index
that `Insert("a", 1)`, `Insert("b", 2)` and `Delete("b", 2)` leave. -/
def recycledIndex : Index :=
  { indexRoot := 0, node := [⟨stS, 1, 97, -1⟩, ⟨stD, 0, 97, 2⟩, ⟨stS, 2, 98, -1⟩],
    deletedRoot := 1 }

/-- The index on which `Insert("ab",1)` has been called: the chain of the key
`"ab"`, with the character node of `a` at position 1. -/
def chainIndex : Index :=
  { indexRoot := 1, node := [⟨stS, 1, 98, -1⟩, ⟨stX, -1, 97, 0⟩], deletedRoot := -1 }

/-- The index `chainIndex` after `Insert("a",2)`: the node at position 1 is a
branch node. -/
def branchIndex : Index :=
  { indexRoot := 1, node := [⟨stS, 1, 98, -1⟩, ⟨stR, 2, 97, 0⟩], deletedRoot := -1 }

/-- The index that holds the key `"a"` with the identifier 1 and nothing else. -/
def leafIndex : Index :=
  { indexRoot := 0, node := [⟨stS, 1, 97, -1⟩], deletedRoot := -1 }

/-! ## Auxiliary definitions for the statement on the threads -/

namespace Trie

/-- The subtrees of a tree: the tree itself and the subtrees of its parts, the
secondary trees of its duplicate nodes among them. -/
def subtrees : Trie → List Trie
  | S p c id => [S p c id]
  | R p c id next => R p c id next :: next.subtrees
  | X p c next => X p c next :: next.subtrees
  | L p c dup => L p c dup :: dup.subtrees
  | K p c dup next => K p c dup next :: (dup.subtrees ++ next.subtrees)
  | D p c l r => D p c l r :: (l.subtrees ++ r.subtrees)

/-- A tree of keys of any bytes whose duplicate nodes carry secondary trees:
no condition is put on the bytes of the keys or on the pivots of the decision
nodes outside the secondary trees. -/
def Formed : Trie → Prop
  | S _ _ _ => True
  | R _ _ _ next => Formed next
  | X _ _ next => Formed next
  | L _ _ dup => Ordered (some []) dup
  | K _ _ dup next => Ordered (some []) dup ∧ Formed next
  | D _ _ l r => Formed l ∧ Formed r

end Trie

/-- The threads of the tree `t` in the node array: the right pointer of every
node of `t` with status `'S'` or `'L'` is the null pointer, or the position of
a decision node of `t` whose left subtree holds the node, or, for a node with
status `'S'`, the position of a duplicate node of `t` whose secondary tree
holds the node. -/
def Threaded (nodes : List indexNode) (t : Trie) : Prop :=
  ∀ (p : Nat) (n : indexNode), p ∈ t.positions → nodes[p]? = some n →
    n.status = stS ∨ n.status = stL →
    n.rightPointer = nullIndexPointer
    ∨ (∃ d c l r, Trie.D d c l r ∈ t.subtrees ∧ p ∈ l.positions ∧ n.rightPointer = (d : Int))
    ∨ (n.status = stS ∧ ∃ q c dup,
        (Trie.L q c dup ∈ t.subtrees ∨ ∃ next, Trie.K q c dup next ∈ t.subtrees)
        ∧ p ∈ dup.positions ∧ n.rightPointer = (q : Int))

/-- The invariant of an index built by calls of `Insert` with keys of any
bytes: the free list is empty, and the index is empty or its node array holds
a tree at the root, no two nodes of which share a position. -/
def Shaped (s : Index) : Prop :=
  s.deletedRoot = nullIndexPointer ∧
    (s.indexRoot = nullIndexPointer ∨
      ∃ t : Trie, s.indexRoot = t.root ∧ Rep s.node t nullIndexPointer ∧ t.positions.Nodup
        ∧ t.Formed)

/-- What `Insert` achieves on the tree `t` of keys of any bytes: the index
holds a tree `t'` in the place of `t`, with the same thread; the nodes of `t'`
are nodes of `t` or new ones; the only node outside `t` that changes is the
node visited before, whose pointer to `t` now points to `t'`. -/
structure ShapePost (nodes : List indexNode) (root : Int) (t : Trie) (th : Int) (prev : Int)
    (leftSide : Bool) (s' : Index) (t' : Trie) : Prop where
  free_empty : s'.deletedRoot = nullIndexPointer
  rep : Rep s'.node t' th
  formed : t'.Formed
  nodup : t'.positions.Nodup
  pos_new : ∀ q ∈ t'.positions, q ∈ t.positions ∨ nodes.length ≤ q
  length_le : nodes.length ≤ s'.node.length
  frame : ∀ q : Nat, q < nodes.length → q ∉ t.positions → (q : Int) ≠ prev →
    s'.node[q]? = nodes[q]?
  root_link : prev = nullIndexPointer → s'.indexRoot = t'.root
  parent_link : ∀ (pp : Nat) (pn : indexNode), prev = (pp : Int) → nodes[pp]? = some pn →
    s'.indexRoot = root ∧
      s'.node[pp]? = some (if leftSide then { pn with leftPointer := t'.root }
                           else { pn with rightPointer := t'.root })

/-- The statement that `Insert` keeps the shape on the tree `t`: from any state
of its walk with the key in which `keyPointer` stands at the root of `t`, with
enough fuel, it returns an index for which `ShapePost` holds. -/
def ShapeSpec (keyNumber : Int) (t : Trie) : Prop :=
  ∀ (root : Int) (nodes : List indexNode) (th : Int) (keyField : List Nat) (i : Nat)
    (prev : Int) (leftSide : Bool) (fuelLoop fuelFinish : Nat),
    Rep nodes t th → t.positions.Nodup → t.Formed →
    ∀ (hi : i < keyField.length),
    PrevLink nodes root t prev leftSide keyField[i] false →
    t.span ≤ fuelLoop → t.span ≤ fuelFinish →
    ∃ s' t',
      insertRun fuelLoop fuelFinish keyNumber
        { indexStructure := { indexRoot := root, node := nodes, deletedRoot := nullIndexPointer },
          keyField := keyField, keyPointer := t.root, previousIndexNumber := prev,
          duplicateFlag := false, i := i } = .ok s'
      ∧ ShapePost nodes root t th prev leftSide s' t'

/-! ## `Insert` with a record of the slots it takes

The node array grows, or the head of the free list advances, at two places of
`Insert`: inside `extend`, once for every byte of the text that `extend` is
given, and in the block of `Insert` that builds the placeholder of the new
decision node. The functions below are `Insert`, its searching loop and the
part after the loop once more, with a record of these places: every call of
`extend` adds the entry `Taken.chain text` with its text, and the block of the
decision node adds `Taken.decision`. The record has no effect on the index. -/

/-- An entry of the record: a call of `extend` with the text `text`, or the
slot that `Insert` takes itself for the decision node. -/
inductive Taken where
  | chain (text : List Nat)
  | decision
deriving DecidableEq, Repr

/-- The number of slots of an entry: one for every byte of the text of a call
of `extend`, one for the decision node. -/
def Taken.slots : Taken → Nat
  | .chain text => text.length
  | .decision => 1

/-- The number of slots of a record. -/
def slotsTaken (log : List Taken) : Nat := (log.map Taken.slots).sum

/-- The searching loop of `Insert` (`insertLoop`) with the record: the call of
`extend` that turns a leaf or a branch node into a duplicate node is
recorded. -/
def insertLoopLog (keyNumber : Int) :
    Nat → InsertState → List Taken → Except Fault ((Index ⊕ InsertState) × List Taken)
  | 0, _, _ => .error .outOfFuel
  | fuel + 1, st, log => do
    let n ← nodeAt st.indexStructure st.keyPointer
    if n.status = stR ∨ n.status = stS then
      let c ← sliceAt st.keyField st.i
      if c = runeString n.key then
        if st.i + 1 = st.keyField.length then
          if keyNumber = n.leftPointer then .ok (.inl st.indexStructure, log)
          else
            let (linkIndexNumber, s1) ←
              extend (decimaliseNumber n.leftPointer) n.leftPointer st.keyPointer
                st.indexStructure
            let n1 ← nodeAt s1 st.keyPointer
            let s2 ← setStatus s1 st.keyPointer (if n1.status = stR then stK else stL)
            let s3 ← setLeft s2 st.keyPointer linkIndexNumber
            insertLoopLog keyNumber fuel
              { indexStructure := s3, keyField := decimaliseNumber keyNumber,
                keyPointer := linkIndexNumber, previousIndexNumber := st.keyPointer,
                duplicateFlag := true, i := 0 }
              (log ++ [.chain (decimaliseNumber n.leftPointer)])
        else if n.status = stS then .ok (.inr st, log)
        else
          insertLoopLog keyNumber fuel
            { st with previousIndexNumber := st.keyPointer, keyPointer := n.rightPointer,
                      i := st.i + 1 } log
      else .ok (.inr st, log)
    else if n.status = stD then
      let c ← sliceAt st.keyField st.i
      if strLe c (runeString n.key) then
        insertLoopLog keyNumber fuel
          { st with previousIndexNumber := st.keyPointer, keyPointer := n.leftPointer } log
      else
        insertLoopLog keyNumber fuel
          { st with previousIndexNumber := st.keyPointer, keyPointer := n.rightPointer } log
    else if n.status = stK ∨ n.status = stL then
      let c ← sliceAt st.keyField st.i
      if c = runeString n.key then
        if st.i + 1 = st.keyField.length then
          insertLoopLog keyNumber fuel
            { st with duplicateFlag := true, keyField := decimaliseNumber keyNumber, i := 0,
                      previousIndexNumber := st.keyPointer, keyPointer := n.leftPointer } log
        else if n.status = stL then .ok (.inr st, log)
        else
          insertLoopLog keyNumber fuel
            { st with previousIndexNumber := st.keyPointer, keyPointer := n.rightPointer,
                      i := st.i + 1 } log
      else .ok (.inr st, log)
    else if n.status = stX then
      let c ← sliceAt st.keyField st.i
      if c = runeString n.key then
        if st.i + 1 = st.keyField.length then .ok (.inr st, log)
        else
          insertLoopLog keyNumber fuel
            { st with previousIndexNumber := st.keyPointer, keyPointer := n.rightPointer,
                      i := st.i + 1 } log
      else .ok (.inr st, log)
    else insertLoopLog keyNumber fuel st log

/-- The part of `Insert` after its searching loop (`insertFinish`) with the
record: the call of `extend` for the rest of the key is recorded, and so is,
before it, the slot of the decision node when the walk ended at a byte that
does not match. -/
def insertFinishLog (fuel : Nat) (keyNumber : Int) (st : InsertState) (log : List Taken) :
    Except Fault (Index × List Taken) := do
  let n ← nodeAt st.indexStructure st.keyPointer
  let c ← sliceAt st.keyField st.i
  if c = runeString n.key then
    if n.status = stX then
      let s1 ← setStatus st.indexStructure st.keyPointer stR
      let s2 ← setLeft s1 st.keyPointer keyNumber
      .ok (s2, log)
    else
      let (linkIndexNumber, s1) ←
        extend (st.keyField.drop (st.i + 1)) keyNumber n.rightPointer st.indexStructure
      let n1 ← nodeAt s1 st.keyPointer
      let s2 ← setStatus s1 st.keyPointer (if n1.status = stS then stR else stK)
      let s3 ← setRight s2 st.keyPointer linkIndexNumber
      .ok (s3, log ++ [.chain (st.keyField.drop (st.i + 1))])
  else
    let (decisionIndexNumber, s1) ←
      allocNode { status := stD, leftPointer := nullIndexPointer, key := 32,
                  rightPointer := nullIndexPointer } st.indexStructure
    let n1 ← nodeAt s1 st.keyPointer
    let (lastIndexNumber, s2) ←
      if strLt (runeString n1.key) c then do
        let threadIndex ← threadLoop s1 fuel st.keyPointer
        let t ← nodeAt s1 threadIndex
        let s ← setRight s1 threadIndex decisionIndexNumber
        (.ok (t.rightPointer, s) : Except Fault (Int × Index))
      else (.ok (decisionIndexNumber, s1) : Except Fault (Int × Index))
    let (linkIndexNumber, s3) ← extend (st.keyField.drop st.i) keyNumber lastIndexNumber s2
    let n3 ← nodeAt s3 st.keyPointer
    let s6 ←
      if strLt c (runeString n3.key) then do
        let s4 ← setLeft s3 decisionIndexNumber linkIndexNumber
        let b ← sliceAt st.keyField st.i
        let s5 ← setKey s4 decisionIndexNumber (b.headD 0)
        setRight s5 decisionIndexNumber st.keyPointer
      else do
        let s4 ← setLeft s3 decisionIndexNumber st.keyPointer
        let n4 ← nodeAt s4 st.keyPointer
        let s5 ← setKey s4 decisionIndexNumber n4.key
        setRight s5 decisionIndexNumber linkIndexNumber
    let s7 ← insertRelink s6 st.previousIndexNumber st.duplicateFlag c decisionIndexNumber
    .ok (s7, log ++ [.decision, .chain (st.keyField.drop st.i)])

/-- The function `Insert` with the record of the slots it takes. -/
def InsertLog (fuel : Nat) (keyInput : List Nat) (keyNumber : Int) (indexStructure : Index) :
    Except Fault (Index × List Taken) :=
  let keyField := canonical keyInput
  if keyField.length = 0 then .ok (indexStructure, [])
  else if indexStructure.indexRoot = nullIndexPointer then do
    let (p, s) ← extend keyField keyNumber nullIndexPointer indexStructure
    .ok ({ s with indexRoot := p }, [.chain keyField])
  else do
    let r ← insertLoopLog keyNumber fuel
      { indexStructure := indexStructure, keyField := keyField,
        keyPointer := indexStructure.indexRoot, previousIndexNumber := nullIndexPointer,
        duplicateFlag := false, i := 0 } []
    match r with
    | (.inl s, log) => .ok (s, log)
    | (.inr st, log) => insertFinishLog fuel keyNumber st log

/-- The searching loop of `Insert` followed by the part after the loop, both
with the record; the two parts have their own fuel. -/
def insertRunLog (fuelLoop fuelFinish : Nat) (keyNumber : Int) (st : InsertState)
    (log : List Taken) : Except Fault (Index × List Taken) :=
  match insertLoopLog keyNumber fuelLoop st log with
  | .error e => .error e
  | .ok (.inl s, lg) => .ok (s, lg)
  | .ok (.inr st1, lg) => insertFinishLog fuelFinish keyNumber st1 lg

/-- The wiring of a tree, for keys of any bytes. With `sec = none` the tree is a
tree of keys: its duplicate nodes carry secondary trees. With `sec = some w`
the tree is the part of a secondary tree below the digits `w`: it has no
duplicate nodes, and the identifier at the end of a chain is the number whose
decimal text is the chain. No condition is put on the pivots of the decision
nodes. -/
def Wired : Option (List Nat) → Trie → Prop
  | none, .S _ _ _ => True
  | some w, .S _ c id => itoa id = w ++ [c]
  | none, .R _ _ _ next => Wired none next
  | some w, .R _ c id next => itoa id = w ++ [c] ∧ Wired (some (w ++ [c])) next
  | none, .X _ _ next => Wired none next
  | some w, .X _ c next => Wired (some (w ++ [c])) next
  | none, .L _ _ dup => Wired (some []) dup
  | some _, .L _ _ _ => False
  | none, .K _ _ dup next => Wired (some []) dup ∧ Wired none next
  | some _, .K _ _ _ _ => False
  | sec, .D _ _ l r => Wired sec l ∧ Wired sec r

/-- The index is well formed, with the free list `ps`: the free list is the
chain of the distinct positions `ps`, and the index is empty or its node array
holds a tree at the root, no two nodes of which share a position and no node
of which is on the free list. -/
def Roomy (s : Index) (ps : List Nat) : Prop :=
  FreeList s.node s.deletedRoot ps ∧ ps.Nodup ∧
    (s.indexRoot = nullIndexPointer ∨
      ∃ t : Trie, s.indexRoot = t.root ∧ Rep s.node t nullIndexPointer ∧ t.positions.Nodup
        ∧ Wired none t ∧ ∀ q ∈ t.positions, q ∉ ps)

/-- What `Insert` achieves on the tree `t`, in an index with the free list
`ps`, when its record is `taken`: the slots of the record are taken from the
free list first and appended then; the index holds a tree `t'` in the place of
`t`, with the same thread; the nodes of `t'` are nodes of `t` or slots taken;
the only node outside `t` and the free list that changes is the node visited
before, whose pointer to `t` now points to `t'`. -/
structure RoomPost (nodes : List indexNode) (root : Int) (ps : List Nat) (t : Trie) (th : Int)
    (prev : Int) (leftSide : Bool) (sec : Option (List Nat)) (s' : Index) (t' : Trie)
    (taken : List Taken) : Prop where
  free : FreeList s'.node s'.deletedRoot (ps.drop (slotsTaken taken))
  length_eq : s'.node.length = nodes.length + (slotsTaken taken - ps.length)
  decisions : taken.count Taken.decision ≤ 1
  rep : Rep s'.node t' th
  wired : Wired sec t'
  nodup : t'.positions.Nodup
  pos_new : ∀ q ∈ t'.positions,
    q ∈ t.positions ∨ q ∈ allocated ps nodes.length (slotsTaken taken)
  frame : ∀ q : Nat, q < nodes.length → q ∉ ps → q ∉ t.positions → (q : Int) ≠ prev →
    s'.node[q]? = nodes[q]?
  root_link : prev = nullIndexPointer → s'.indexRoot = t'.root
  parent_link : ∀ (pp : Nat) (pn : indexNode), prev = (pp : Int) → nodes[pp]? = some pn →
    s'.indexRoot = root ∧
      s'.node[pp]? = some (if leftSide then { pn with leftPointer := t'.root }
                           else { pn with rightPointer := t'.root })

/-- The statement that `Insert` accounts for its slots on the tree `t`: from
any state of its walk in which `keyPointer` stands at the root of `t`, in an
index with a free list apart from `t`, with enough fuel, it returns an index
and a record for which `RoomPost` holds. -/
def RoomSpec (keyNumber : Int) (duplicateFlag : Bool) (t : Trie) : Prop :=
  ∀ (root : Int) (nodes : List indexNode) (dr : Int) (ps : List Nat) (th : Int)
    (keyField : List Nat) (i : Nat) (prev : Int) (leftSide : Bool) (sec : Option (List Nat))
    (log : List Taken),
    Rep nodes t th → t.positions.Nodup → Wired sec t →
    FreeList nodes dr ps → ps.Nodup → (∀ q ∈ t.positions, q ∉ ps) →
    ∀ (hi : i < keyField.length),
    WalkMode sec duplicateFlag keyField i keyNumber →
    PrevLink nodes root t prev leftSide keyField[i] duplicateFlag →
    (∀ pp : Nat, prev = (pp : Int) → pp ∉ ps) →
    ∃ s' t' taken,
      (∀ fuelLoop fuelFinish : Nat, need duplicateFlag t ≤ fuelLoop →
        need duplicateFlag t ≤ fuelFinish →
        insertRunLog fuelLoop fuelFinish keyNumber
          { indexStructure := { indexRoot := root, node := nodes, deletedRoot := dr },
            keyField := keyField, keyPointer := t.root, previousIndexNumber := prev,
            duplicateFlag := duplicateFlag, i := i } log = .ok (s', log ++ taken))
      ∧ RoomPost nodes root ps t th prev leftSide sec s' t' taken

/-- The effect on the node array and on the head of the free list when `k`
slots are taken between the index `s` and the index `s'`, each popped from the
free list or appended to the node array: the array has grown by no more than
`k` nodes; with `k = 0` the head of the free list is the same; and from an
empty free list all `k` slots are appended and the free list is empty still. -/
def Took (s s' : Index) (k : Nat) : Prop :=
  s.node.length ≤ s'.node.length ∧ s'.node.length ≤ s.node.length + k
    ∧ (k = 0 → s'.deletedRoot = s.deletedRoot)
    ∧ (s.deletedRoot = nullIndexPointer →
        s'.deletedRoot = nullIndexPointer ∧ s'.node.length = s.node.length + k)

/-! ## Indexes for the statements on the listing and on keys with bytes from 0x80 on -/

/-- The index that the calls `Insert("a",100)`, `Insert("a",101)`,
`Delete("a",100)`, `Insert("a",10)`, `Insert("a",100)`, `Insert("a",101)`,
`Delete("a",100)`, `Insert("a",1)` return on the index without nodes. -/
def knotIndex : Index :=
  { indexRoot := 0,
    node := [⟨stL, 13, 97, 3⟩, ⟨stS, 100, 48, -1⟩, ⟨stL, 10, 48, -1⟩, ⟨stX, -1, 49, 2⟩,
             ⟨stD, 1, 48, 5⟩, ⟨stS, 101, 49, 1⟩, ⟨stS, 101, 49, 2⟩, ⟨stR, 10, 48, 6⟩,
             ⟨stX, -1, 49, 7⟩, ⟨stS, 100, 48, 0⟩, ⟨stD, 9, 48, 11⟩, ⟨stS, 101, 49, 4⟩,
             ⟨stX, -1, 48, 9⟩, ⟨stR, 1, 49, 12⟩],
    deletedRoot := -1 }

/-- The index that `Insert("éa",1)` returns on the index without nodes: the
chain of the bytes 0xC3, 0xA9, 0x61, with the character node of 0xA9 at
position 1. -/
def accentChainIndex : Index :=
  { indexRoot := 2,
    node := [⟨stS, 1, 97, -1⟩, ⟨stX, -1, 169, 0⟩, ⟨stX, -1, 195, 1⟩],
    deletedRoot := -1 }

/-- The index that `Insert("é",2)` returns on `accentChainIndex`: the three
nodes of `accentChainIndex` as they were, a decision node at position 3 and a
second chain, of the bytes 0xC3, 0xA9, at the positions 5 and 4. -/
def accentForkIndex : Index :=
  { indexRoot := 3,
    node := [⟨stS, 1, 97, -1⟩, ⟨stX, -1, 169, 0⟩, ⟨stX, -1, 195, 1⟩,
             ⟨stD, 5, 195, 2⟩, ⟨stS, 2, 169, 3⟩, ⟨stX, -1, 195, 4⟩],
    deletedRoot := -1 }

/-! ## Theorems -/

/-! ### Lemmas on the model -/

/-! ### Access to the node array -/

theorem nodeAt_natCast (s : Index) (q : Nat) (n : indexNode) (h : s.node[q]? = some n) :
    nodeAt s (q : Int) = .ok n := by
  have : ¬ ((q : Int) < 0) := by omega
  simp [nodeAt, this, h]

theorem natCast_ne_null (q : Nat) : ¬ ((q : Int) = nullIndexPointer) := by
  simp [nullIndexPointer]

@[simp] theorem root_S (p c : Nat) (id : Int) : (Trie.S p c id).root = (p : Int) := rfl
@[simp] theorem root_R (p c : Nat) (id : Int) (n : Trie) : (Trie.R p c id n).root = (p : Int) := rfl
@[simp] theorem root_X (p c : Nat) (n : Trie) : (Trie.X p c n).root = (p : Int) := rfl
@[simp] theorem root_L (p c : Nat) (d : Trie) : (Trie.L p c d).root = (p : Int) := rfl
@[simp] theorem root_K (p c : Nat) (d n : Trie) : (Trie.K p c d n).root = (p : Int) := rfl
@[simp] theorem root_D (p c : Nat) (l r : Trie) : (Trie.D p c l r).root = (p : Int) := rfl

theorem collect_stop (s : Index) (lm : Int) (fuel : Nat) (p : Int) (g : Bool) (acc : List Int)
    (h : p = lm ∨ p = nullIndexPointer) :
    collectLoop s lm (fuel + 1) p g acc = .ok acc := by
  simp [collectLoop, h]

theorem collect_sub (s : Index) (lm : Int) (t : Trie) :
    ∀ (th : Int) (fuel : Nat) (acc : List Int), Rep s.node t th →
      (∀ q ∈ t.positions, (q : Int) ≠ lm) →
      collectLoop s lm (fuel + t.visits) t.root true acc
        = collectLoop s lm fuel th false (acc ++ t.pairs.map (fun x => x.2)) := by
  induction t with
  | S p c id =>
    intro th fuel acc hrep hlm
    have hp : (p : Int) ≠ lm := hlm p (by simp [Trie.positions])
    simp only [Rep] at hrep
    simp [Trie.visits, collectLoop, hp, natCast_ne_null,
      nodeAt_natCast s p _ hrep, Trie.pairs, bind, Except.bind]
  | R p c id next ih =>
    intro th fuel acc hrep hlm
    have hp : (p : Int) ≠ lm := hlm p (by simp [Trie.positions])
    simp only [Rep] at hrep
    have h := ih th fuel (acc ++ [id]) hrep.2 (fun q hq => hlm q (by simp [Trie.positions, hq]))
    have e : fuel + (Trie.R p c id next).visits = (fuel + next.visits) + 1 := by
      simp [Trie.visits]; omega
    rw [e]
    simp [collectLoop, hp, natCast_ne_null, nodeAt_natCast s p _ hrep.1,
      Trie.pairs, bind, Except.bind]
    simpa [Function.comp] using h
  | X p c next ih =>
    intro th fuel acc hrep hlm
    have hp : (p : Int) ≠ lm := hlm p (by simp [Trie.positions])
    simp only [Rep] at hrep
    have h := ih th fuel acc hrep.2 (fun q hq => hlm q (by simp [Trie.positions, hq]))
    have e : fuel + (Trie.X p c next).visits = (fuel + next.visits) + 1 := by
      simp [Trie.visits]; omega
    rw [e]
    simp [collectLoop, hp, natCast_ne_null, nodeAt_natCast s p _ hrep.1,
      Trie.pairs, bind, Except.bind]
    simpa [Function.comp] using h
  | L p c dup ih =>
    intro th fuel acc hrep hlm
    have hp : (p : Int) ≠ lm := hlm p (by simp [Trie.positions])
    simp only [Rep] at hrep
    have h := ih (p : Int) (fuel + 1) acc hrep.2 (fun q hq => hlm q (by simp [Trie.positions, hq]))
    have e : fuel + (Trie.L p c dup).visits = (fuel + 1 + dup.visits) + 1 := by
      simp [Trie.visits]; omega
    rw [e]
    simp [collectLoop, hp, natCast_ne_null, nodeAt_natCast s p _ hrep.1,
      Trie.pairs, bind, Except.bind] at h ⊢
    rw [h]
    rfl
  | K p c dup next ihd ihn =>
    intro th fuel acc hrep hlm
    have hp : (p : Int) ≠ lm := hlm p (by simp [Trie.positions])
    simp only [Rep] at hrep
    have h1 := ihd (p : Int) (fuel + next.visits + 1) acc hrep.2.1
      (fun q hq => hlm q (by simp [Trie.positions, hq]))
    have h2 := ihn th fuel (acc ++ dup.pairs.map (fun x => x.2)) hrep.2.2
      (fun q hq => hlm q (by simp [Trie.positions, hq]))
    have e : fuel + (Trie.K p c dup next).visits = (fuel + next.visits + 1 + dup.visits) + 1 := by
      simp [Trie.visits]; omega
    rw [e]
    simp [collectLoop, hp, natCast_ne_null, nodeAt_natCast s p _ hrep.1,
      Trie.pairs, bind, Except.bind] at h1 h2 ⊢
    rw [h1, h2]
    rfl
  | D p c l r ihl ihr =>
    intro th fuel acc hrep hlm
    have hp : (p : Int) ≠ lm := hlm p (by simp [Trie.positions])
    simp only [Rep] at hrep
    have h1 := ihl (p : Int) (fuel + r.visits + 1) acc hrep.2.1
      (fun q hq => hlm q (by simp [Trie.positions, hq]))
    have h2 := ihr th fuel (acc ++ l.pairs.map (fun x => x.2)) hrep.2.2
      (fun q hq => hlm q (by simp [Trie.positions, hq]))
    have e : fuel + (Trie.D p c l r).visits = (fuel + r.visits + 1 + l.visits) + 1 := by
      simp [Trie.visits]; omega
    rw [e]
    simp [collectLoop, hp, natCast_ne_null, nodeAt_natCast s p _ hrep.1,
      Trie.pairs, bind, Except.bind] at h1 h2 ⊢
    rw [h1, h2]

/-! ### Keys of a tree -/

theorem pairs_head (t : Trie) : ∀ x ∈ t.pairs, ∃ h ∈ t.heads, ∃ rest, x.1 = h :: rest := by
  induction t with
  | S p c id => intro x hx; simp [Trie.pairs] at hx; simp [Trie.heads, hx]
  | R p c id next ih =>
    intro x hx
    simp [Trie.pairs] at hx
    rcases hx with hx | ⟨a, b, _, hx⟩
    · simp [Trie.heads, hx]
    · simp [Trie.heads, ← hx]
  | X p c next ih =>
    intro x hx
    simp [Trie.pairs] at hx
    rcases hx with ⟨a, b, _, hx⟩
    simp [Trie.heads, ← hx]
  | L p c dup ih =>
    intro x hx
    simp [Trie.pairs] at hx
    rcases hx with ⟨a, b, _, hx⟩
    simp [Trie.heads, ← hx]
  | K p c dup next ihd ihn =>
    intro x hx
    simp [Trie.pairs] at hx
    rcases hx with ⟨a, b, _, hx⟩ | ⟨a, b, _, hx⟩ <;> simp [Trie.heads, ← hx]
  | D p c l r ihl ihr =>
    intro x hx
    simp [Trie.pairs] at hx
    rcases hx with hx | hx
    · obtain ⟨h, hh, rest, e⟩ := ihl x hx
      exact ⟨h, by simp [Trie.heads, hh], rest, e⟩
    · obtain ⟨h, hh, rest, e⟩ := ihr x hx
      exact ⟨h, by simp [Trie.heads, hh], rest, e⟩

theorem pairs_ne_nil (t : Trie) : t.pairs ≠ [] := by
  induction t with
  | S p c id => simp [Trie.pairs]
  | R p c id next ih => simp [Trie.pairs]
  | X p c next ih => simpa [Trie.pairs] using ih
  | L p c dup ih => simpa [Trie.pairs] using ih
  | K p c dup next ihd ihn => simp [Trie.pairs, ihd]
  | D p c l r ihl ihr => simp [Trie.pairs, ihl]

/-! ### The answer of a search on lists of pairs -/

theorem answer_append (b : Bool) (w : List Nat) (ps qs : List (List Nat × Int)) :
    answer b w (ps ++ qs) = answer b w ps ++ answer b w qs := by
  simp [answer]

theorem answer_cons_map (b : Bool) (c : Nat) (w : List Nat) (ps : List (List Nat × Int)) :
    answer b (c :: w) (ps.map (fun x => (c :: x.1, x.2))) = answer b w ps := by
  induction ps with
  | nil => simp [answer]
  | cons x ps ih =>
    simp only [answer, List.map_cons, List.filter_cons] at ih ⊢
    cases b <;> simp [selects] at ih ⊢ <;> split <;> simp_all

theorem answer_nil_of_head (b : Bool) (c : Nat) (w : List Nat) (ps : List (List Nat × Int))
    (h : ∀ x ∈ ps, ∃ d rest, x.1 = d :: rest ∧ d ≠ c) : answer b (c :: w) ps = [] := by
  simp only [answer, List.map_eq_nil_iff, List.filter_eq_nil_iff]
  intro x hx
  obtain ⟨d, rest, e, hd⟩ := h x hx
  cases b <;> simp [selects, e, hd, Ne.symm hd]

theorem answer_all (c : Nat) (ps : List (List Nat × Int))
    (h : ∀ x ∈ ps, ∃ rest, x.1 = c :: rest) : answer false [c] ps = ps.map (fun x => x.2) := by
  simp only [answer]
  congr 1
  rw [List.filter_eq_self]
  intro x hx
  obtain ⟨rest, e⟩ := h x hx
  simp [selects, e]

theorem answer_precise_long (c : Nat) (ps : List (List Nat × Int))
    (h : ∀ x ∈ ps, x.1 ≠ []) :
    answer true [c] (ps.map (fun x => (c :: x.1, x.2))) = [] := by
  simp only [answer, List.map_eq_nil_iff, List.filter_eq_nil_iff]
  intro x hx
  simp at hx
  obtain ⟨a, b, hab, e⟩ := hx
  have := h _ hab
  simp [selects, ← e]
  simpa using this

theorem answer_precise_short (c : Nat) (w : List Nat) (hw : w ≠ []) (ps : List (Int)) (f : Int → Int) :
    answer true (c :: w) (ps.map (fun x => ([c], f x))) = [] := by
  simp only [answer, List.map_eq_nil_iff, List.filter_eq_nil_iff]
  intro x hx
  simp at hx
  obtain ⟨a, _, e⟩ := hx
  simp [selects, ← e]
  intro h; exact hw h

theorem sliceAt_lt (kf : List Nat) (i : Nat) (h : i < kf.length) :
    sliceAt kf i = .ok [kf[i]] := by
  simp [sliceAt, List.getElem?_eq_getElem h]

theorem runeString_ascii (c : Nat) (h : c < 128) : runeString c = [c] := by
  simp [runeString, h]

theorem strLe_single (a b : Nat) : strLe [a] [b] = decide (a ≤ b) := by
  simp only [strLe, strLt]
  by_cases h1 : b < a
  · simp [h1]
  · by_cases h2 : a < b
    · simp [h1, h2]; omega
    · simp [h1, h2]; omega

theorem strLt_single (a b : Nat) : strLt [a] [b] = decide (a < b) := by
  simp only [strLt]
  by_cases h1 : a < b
  · simp [h1]
  · by_cases h2 : b < a
    · simp [h1, h2]
    · simp [h1, h2]

/-! ### The answer of a search, node by node -/

theorem answer_single (b : Bool) (c' c : Nat) (w : List Nat) (id : Int) :
    answer b (c' :: w) [([c], id)] = if c' = c ∧ w = [] then [id] else [] := by
  cases b <;> simp [answer, selects, List.filter_cons] <;> split <;> simp_all

theorem answer_dup_all (b : Bool) (c : Nat) (ps : List (List Nat × Int)) :
    answer b [c] (ps.map (fun x => ([c], x.2))) = ps.map (fun x => x.2) := by
  induction ps with
  | nil => simp [answer]
  | cons x ps ih =>
    simp only [answer, List.map_cons, List.filter_cons] at ih ⊢
    cases b <;> simp [selects] at ih ⊢ <;> exact ih

theorem answer_dup_long (b : Bool) (c : Nat) (w : List Nat) (hw : w ≠ [])
    (ps : List (List Nat × Int)) :
    answer b (c :: w) (ps.map (fun x => ([c], x.2))) = [] := by
  simp only [answer, List.map_eq_nil_iff, List.filter_eq_nil_iff]
  intro x hx
  simp at hx
  obtain ⟨a, _, _, e⟩ := hx
  cases b <;> simp [selects, ← e, hw]

theorem answer_mapcons_ne (b : Bool) (c' c : Nat) (w : List Nat) (h : c' ≠ c)
    (ps : List (List Nat × Int)) :
    answer b (c' :: w) (ps.map (fun x => (c :: x.1, x.2))) = [] := by
  apply answer_nil_of_head
  intro x hx
  simp at hx
  obtain ⟨a, d, _, e⟩ := hx
  exact ⟨c, a, by simp [← e], Ne.symm h⟩

theorem answer_mapdup_ne (b : Bool) (c' c : Nat) (w : List Nat) (h : c' ≠ c)
    (ps : List (List Nat × Int)) :
    answer b (c' :: w) (ps.map (fun x => ([c], x.2))) = [] := by
  apply answer_nil_of_head
  intro x hx
  simp at hx
  obtain ⟨a, d, _, e⟩ := hx
  exact ⟨c, [], by simp [← e], Ne.symm h⟩

theorem answer_mapcons_all (c : Nat) (ps : List (List Nat × Int)) :
    answer false [c] (ps.map (fun x => (c :: x.1, x.2))) = ps.map (fun x => x.2) := by
  rw [answer_all]
  · simp [Function.comp]
  · intro x hx
    simp at hx
    obtain ⟨a, d, _, e⟩ := hx
    exact ⟨a, by simp [← e]⟩

theorem answer_left (b : Bool) (c' c : Nat) (w : List Nat) (l r : Trie) (h : c' ≤ c)
    (hr : ∀ h ∈ r.heads, c < h) :
    answer b (c' :: w) (l.pairs ++ r.pairs) = answer b (c' :: w) l.pairs := by
  rw [answer_append, answer_nil_of_head b c' w r.pairs, List.append_nil]
  intro x hx
  obtain ⟨d, hd, rest, e⟩ := pairs_head r x hx
  exact ⟨d, rest, e, by have := hr d hd; omega⟩

theorem answer_right (b : Bool) (c' c : Nat) (w : List Nat) (l r : Trie) (h : c < c')
    (hl : ∀ h ∈ l.heads, h ≤ c) :
    answer b (c' :: w) (l.pairs ++ r.pairs) = answer b (c' :: w) r.pairs := by
  rw [answer_append, answer_nil_of_head b c' w l.pairs, List.nil_append]
  intro x hx
  obtain ⟨d, hd, rest, e⟩ := pairs_head l x hx
  exact ⟨d, rest, e, by have := hl d hd; omega⟩

theorem pairs_fst_ne_nil (t : Trie) : ∀ x ∈ t.pairs, x.1 ≠ [] := by
  intro x hx
  obtain ⟨d, _, rest, e⟩ := pairs_head t x hx
  simp [e]

theorem collect_tree (s : Index) (t : Trie) (th : Int) (fuel : Nat) (acc : List Int)
    (hrep : Rep s.node t th) (hth : ∀ q ∈ t.positions, (q : Int) ≠ th)
    (hfuel : t.visits + 1 ≤ fuel) :
    collectLoop s th fuel t.root true acc = .ok (acc ++ t.pairs.map (fun x => x.2)) := by
  obtain ⟨f, rfl⟩ : ∃ f, fuel = (f + 1) + t.visits := ⟨fuel - t.visits - 1, by omega⟩
  rw [collect_sub s th t th (f + 1) acc hrep hth]
  exact collect_stop s th f th false _ (Or.inl rfl)


theorem drop_split (kf : List Nat) (i : Nat) (hi : i < kf.length) :
    ∃ c' w, kf.drop i = c' :: w ∧ sliceAt kf i = .ok [c'] ∧ w = kf.drop (i + 1)
      ∧ (w = [] ↔ i + 1 = kf.length) := by
  refine ⟨kf[i], kf.drop (i + 1), List.drop_eq_getElem_cons hi, sliceAt_lt kf i hi, rfl, ?_⟩
  simp
  omega

theorem search_sub (s : Index) (kf : List Nat) (b : Bool) (t : Trie) :
    ∀ (sec : Option (List Nat)) (th lm : Int) (i fuel : Nat),
      Rep s.node t th → Ordered sec t → t.positions.Nodup →
      (∀ q ∈ t.positions, (q : Int) ≠ th) →
      i < kf.length → (b = false → lm = th) → t.visits ≤ fuel →
      ∃ found kp lm', searchLoop kf b s fuel t.root lm i = .ok (found, kp, lm') ∧
        found = !(answer b (kf.drop i) t.pairs).isEmpty ∧
        (found = true → ∀ fuel2, t.visits + 1 ≤ fuel2 →
          collectLoop s lm' fuel2 kp true [] = .ok (answer b (kf.drop i) t.pairs)) := by
  induction t with
  | S p c id =>
    intro sec th lm i fuel hrep hord hnd hth hi hlm hfuel
    obtain ⟨f, rfl⟩ : ∃ f, fuel = f + 1 := ⟨fuel - 1, by simp [Trie.visits] at hfuel; omega⟩
    have hc128 : c < 128 := by cases sec <;> simp [Ordered] at hord <;> omega
    have hpth : (p : Int) ≠ th := hth p (by simp [Trie.positions])
    simp only [Rep] at hrep
    obtain ⟨c', w, hdrop, hslice, -, hw⟩ := drop_split kf i hi
    simp only [searchLoop, root_S, natCast_ne_null, if_false, nodeAt_natCast s p _ hrep,
      hslice, runeString_ascii c hc128, bind, Except.bind]
    rw [hdrop, Trie.pairs, answer_single]
    by_cases hc : c' = c
    · by_cases hlast : i + 1 = kf.length
      · have hd2 : w = [] := hw.2 hlast
        have hcol : ∀ fuel2, 1 + 1 ≤ fuel2 →
            collectLoop s th fuel2 (p : Int) true [] = .ok [id] := by
          intro fuel2 h2
          have := collect_tree s (Trie.S p c id) th fuel2 [] (by simpa [Rep] using hrep) hth
            (by simpa [Trie.visits] using h2)
          simpa [Trie.pairs] using this
        cases b
        · have := hlm rfl
          subst this
          simp [hc, hlast, hd2, Trie.visits]
          exact ⟨_, _, ⟨rfl, rfl⟩, hcol⟩
        · simp [hc, hlast, hd2, Trie.visits]
          exact ⟨_, _, ⟨rfl, rfl⟩, hcol⟩
      · have hd2 : w ≠ [] := fun h => hlast (hw.1 h)
        simp [hc, hlast, hd2]
    · simp [hc]
  | R p c id next ih =>
    intro sec th lm i fuel hrep hord hnd hth hi hlm hfuel
    obtain ⟨f, rfl⟩ : ∃ f, fuel = f + 1 := ⟨fuel - 1, by simp [Trie.visits] at hfuel; omega⟩
    have hf : next.visits ≤ f := by simp [Trie.visits] at hfuel; omega
    have hc128 : c < 128 := by cases sec <;> simp [Ordered] at hord <;> omega
    have hordn : ∃ sec', Ordered sec' next := by
      cases sec
      · exact ⟨none, by simp [Ordered] at hord; exact hord.2⟩
      · exact ⟨_, by simp [Ordered] at hord; exact hord.2.2⟩
    obtain ⟨sec', hordn⟩ := hordn
    have hpth : (p : Int) ≠ th := hth p (by simp [Trie.positions])
    simp only [Rep] at hrep
    simp only [Trie.positions, List.nodup_cons] at hnd
    have hthn : ∀ q ∈ next.positions, (q : Int) ≠ th :=
      fun q hq => hth q (by simp [Trie.positions, hq])
    obtain ⟨c', w, hdrop, hslice, hwd, hw⟩ := drop_split kf i hi
    simp only [searchLoop, root_R, natCast_ne_null, if_false, nodeAt_natCast s p _ hrep.1,
      hslice, runeString_ascii c hc128, bind, Except.bind]
    have hpairs : (Trie.R p c id next).pairs
        = [([c], id)] ++ next.pairs.map (fun x => (c :: x.1, x.2)) := by simp [Trie.pairs]
    rw [hdrop, hpairs, answer_append, answer_single]
    by_cases hc : c' = c
    · by_cases hlast : i + 1 = kf.length
      · have hd2 : w = [] := hw.2 hlast
        cases b
        · have := hlm rfl
          subst this
          refine ⟨true, (p : Int), lm, ?_, ?_, ?_⟩
          · simp [hc, hlast]
          · simp [hc, hd2]
          · intro _ fuel2 h2
            have := collect_tree s (Trie.R p c id next) lm fuel2 [] (by simpa [Rep] using hrep) hth h2
            simp only [hc, hd2, answer_mapcons_all]
            simpa [Trie.pairs, Function.comp] using this
        · refine ⟨true, (p : Int), next.root, ?_, ?_, ?_⟩
          · simp [hc, hlast]
          · simp [hc, hd2]
          · intro _ fuel2 h2
            obtain ⟨g, rfl⟩ : ∃ g, fuel2 = g + 1 + 1 :=
              ⟨fuel2 - 2, by simp [Trie.visits] at h2; omega⟩
            have hne : ¬ ((p : Int) = next.root) := by
              intro h
              apply hnd.1
              have : p = next.pos := by simpa [Trie.root] using h
              rw [this]
              cases next <;> simp [Trie.pos, Trie.positions]
            simp [hc, hd2, answer_precise_long c _ (pairs_fst_ne_nil next), collectLoop, hne,
              natCast_ne_null, nodeAt_natCast s p _ hrep.1, bind, Except.bind]
      · have hd2 : w ≠ [] := fun h => hlast (hw.1 h)
        have hi2 : i + 1 < kf.length := by omega
        obtain ⟨found, kp, lm', h1, h2, h3⟩ :=
          ih sec' th lm (i + 1) f hrep.2 hordn hnd.2 hthn hi2 hlm hf
        rw [← hwd] at h2 h3
        refine ⟨found, kp, lm', ?_, ?_, ?_⟩
        · simp [hc, hlast, h1]
        · simp [hc, hd2, answer_cons_map, h2]
        · intro hfound fuel2 hf2
          simp only [hc, hd2, answer_cons_map, and_false, if_false, List.nil_append]
          exact h3 hfound fuel2 (by simp [Trie.visits] at hf2; omega)
    · simp [hc, answer_mapcons_ne b _ _ _ hc]
  | X p c next ih =>
    intro sec th lm i fuel hrep hord hnd hth hi hlm hfuel
    obtain ⟨f, rfl⟩ : ∃ f, fuel = f + 1 := ⟨fuel - 1, by simp [Trie.visits] at hfuel; omega⟩
    have hf : next.visits ≤ f := by simp [Trie.visits] at hfuel; omega
    have hc128 : c < 128 := by cases sec <;> simp [Ordered] at hord <;> omega
    have hordn : ∃ sec', Ordered sec' next := by
      cases sec
      · exact ⟨none, by simp [Ordered] at hord; exact hord.2⟩
      · exact ⟨_, by simp [Ordered] at hord; exact hord.2⟩
    obtain ⟨sec', hordn⟩ := hordn
    simp only [Rep] at hrep
    simp only [Trie.positions, List.nodup_cons] at hnd
    have hthn : ∀ q ∈ next.positions, (q : Int) ≠ th :=
      fun q hq => hth q (by simp [Trie.positions, hq])
    obtain ⟨c', w, hdrop, hslice, hwd, hw⟩ := drop_split kf i hi
    simp only [searchLoop, root_X, natCast_ne_null, if_false, nodeAt_natCast s p _ hrep.1,
      hslice, runeString_ascii c hc128, bind, Except.bind]
    rw [hdrop, Trie.pairs]
    by_cases hc : c' = c
    · by_cases hlast : i + 1 = kf.length
      · have hd2 : w = [] := hw.2 hlast
        cases b
        · have := hlm rfl
          subst this
          refine ⟨true, next.root, lm, ?_, ?_, ?_⟩
          · simp [hc, hlast]
          · simp [hc, hd2, answer_mapcons_all, pairs_ne_nil]
          · intro _ fuel2 h2
            have := collect_tree s next lm fuel2 [] hrep.2 hthn
              (by simp [Trie.visits] at h2; omega)
            simp only [hc, hd2, answer_mapcons_all]
            simpa using this
        · refine ⟨false, (p : Int), lm, ?_, ?_, ?_⟩
          · simp [hc, hlast]
          · simp [hc, hd2, answer_precise_long c _ (pairs_fst_ne_nil next)]
          · intro h; simp at h
      · have hd2 : w ≠ [] := fun h => hlast (hw.1 h)
        have hi2 : i + 1 < kf.length := by omega
        obtain ⟨found, kp, lm', h1, h2, h3⟩ :=
          ih sec' th lm (i + 1) f hrep.2 hordn hnd.2 hthn hi2 hlm hf
        rw [← hwd] at h2 h3
        refine ⟨found, kp, lm', ?_, ?_, ?_⟩
        · simp [hc, hlast, h1]
        · simp [hc, answer_cons_map, h2]
        · intro hfound fuel2 hf2
          simp only [hc, answer_cons_map]
          exact h3 hfound fuel2 (by simp [Trie.visits] at hf2; omega)
    · simp [hc, answer_mapcons_ne b _ _ _ hc]
  | L p c dup ih =>
    intro sec th lm i fuel hrep hord hnd hth hi hlm hfuel
    obtain ⟨f, rfl⟩ : ∃ f, fuel = f + 1 := ⟨fuel - 1, by simp [Trie.visits] at hfuel; omega⟩
    have hc128 : c < 128 := by cases sec <;> simp [Ordered] at hord <;> omega
    have hpth : (p : Int) ≠ th := hth p (by simp [Trie.positions])
    simp only [Rep] at hrep
    simp only [Trie.positions, List.nodup_cons] at hnd
    have hthd : ∀ q ∈ dup.positions, (q : Int) ≠ th :=
      fun q hq => hth q (by simp [Trie.positions, hq])
    have hpd : ∀ q ∈ dup.positions, (q : Int) ≠ (p : Int) := by
      intro q hq h
      have : q = p := by exact_mod_cast h
      exact hnd.1 (this ▸ hq)
    obtain ⟨c', w, hdrop, hslice, hwd, hw⟩ := drop_split kf i hi
    simp only [searchLoop, root_L, natCast_ne_null, if_false, nodeAt_natCast s p _ hrep.1,
      hslice, runeString_ascii c hc128, bind, Except.bind]
    rw [hdrop, Trie.pairs]
    by_cases hc : c' = c
    · by_cases hlast : i + 1 = kf.length
      · have hd2 : w = [] := hw.2 hlast
        cases b
        · have := hlm rfl
          subst this
          refine ⟨true, dup.root, lm, ?_, ?_, ?_⟩
          · simp [hc, hlast]
          · simp [hc, hd2, answer_dup_all, pairs_ne_nil]
          · intro _ fuel2 h2
            obtain ⟨g, rfl⟩ : ∃ g, fuel2 = (g + 1 + 1) + dup.visits :=
              ⟨fuel2 - dup.visits - 2, by simp [Trie.visits] at h2; omega⟩
            rw [collect_sub s lm dup (p : Int) (g + 1 + 1) [] hrep.2 hthd]
            simp [hc, hd2, answer_dup_all, collectLoop, hpth, natCast_ne_null,
              nodeAt_natCast s p _ hrep.1, bind, Except.bind]
        · refine ⟨true, dup.root, (p : Int), ?_, ?_, ?_⟩
          · simp [hc, hlast]
          · simp [hc, hd2, answer_dup_all, pairs_ne_nil]
          · intro _ fuel2 h2
            have := collect_tree s dup (p : Int) fuel2 [] hrep.2 hpd
              (by simp [Trie.visits] at h2; omega)
            simp only [hc, hd2, answer_dup_all]
            simpa using this
      · have hd2 : w ≠ [] := fun h => hlast (hw.1 h)
        refine ⟨false, (p : Int), lm, ?_, ?_, ?_⟩
        · simp [hc, hlast]
        · simp [hc, answer_dup_long b c w hd2]
        · intro h; simp at h
    · simp [hc, answer_mapdup_ne b _ _ _ hc]
  | K p c dup next ihd ihn =>
    intro sec th lm i fuel hrep hord hnd hth hi hlm hfuel
    obtain ⟨f, rfl⟩ : ∃ f, fuel = f + 1 := ⟨fuel - 1, by simp [Trie.visits] at hfuel; omega⟩
    have hf : next.visits ≤ f := by simp [Trie.visits] at hfuel; omega
    have hc128 : c < 128 := by cases sec <;> simp [Ordered] at hord <;> omega
    have hordn : Ordered none next := by
      cases sec
      · simp [Ordered] at hord; exact hord.2.2
      · simp [Ordered] at hord
    have hpth : (p : Int) ≠ th := hth p (by simp [Trie.positions])
    simp only [Rep] at hrep
    simp only [Trie.positions, List.nodup_cons, List.nodup_append, List.mem_append, not_or] at hnd
    have hthd : ∀ q ∈ dup.positions, (q : Int) ≠ th :=
      fun q hq => hth q (by simp [Trie.positions, hq])
    have hthn : ∀ q ∈ next.positions, (q : Int) ≠ th :=
      fun q hq => hth q (by simp [Trie.positions, hq])
    have hpd : ∀ q ∈ dup.positions, (q : Int) ≠ (p : Int) := by
      intro q hq h
      have : q = p := by exact_mod_cast h
      exact hnd.1.1 (this ▸ hq)
    obtain ⟨c', w, hdrop, hslice, hwd, hw⟩ := drop_split kf i hi
    simp only [searchLoop, root_K, natCast_ne_null, if_false, nodeAt_natCast s p _ hrep.1,
      hslice, runeString_ascii c hc128, bind, Except.bind]
    rw [hdrop, Trie.pairs, answer_append]
    by_cases hc : c' = c
    · by_cases hlast : i + 1 = kf.length
      · have hd2 : w = [] := hw.2 hlast
        cases b
        · have := hlm rfl
          subst this
          refine ⟨true, dup.root, lm, ?_, ?_, ?_⟩
          · simp [hc, hlast]
          · simp [hc, hd2, answer_dup_all, pairs_ne_nil]
          · intro _ fuel2 h2
            obtain ⟨g, rfl⟩ : ∃ g, fuel2 = ((g + 1) + next.visits + 1) + dup.visits :=
              ⟨fuel2 - dup.visits - next.visits - 2, by simp [Trie.visits] at h2; omega⟩
            rw [collect_sub s lm dup (p : Int) _ [] hrep.2.1 hthd]
            have hn := collect_sub s lm next lm (g + 1) ([] ++ dup.pairs.map (fun x => x.2))
              hrep.2.2 hthn
            simp only [collectLoop, hpth, natCast_ne_null, nodeAt_natCast s p _ hrep.1, bind,
              Except.bind, false_or, if_false]
            simp only [List.nil_append] at hn
            simp [hn, hc, hd2, answer_dup_all, answer_mapcons_all, collect_stop]
        · refine ⟨true, dup.root, (p : Int), ?_, ?_, ?_⟩
          · simp [hc, hlast]
          · simp [hc, hd2, answer_dup_all, pairs_ne_nil]
          · intro _ fuel2 h2
            have := collect_tree s dup (p : Int) fuel2 [] hrep.2.1 hpd
              (by simp [Trie.visits] at h2; omega)
            simp only [hc, hd2, answer_dup_all, answer_precise_long c _ (pairs_fst_ne_nil next)]
            simpa using this
      · have hd2 : w ≠ [] := fun h => hlast (hw.1 h)
        have hi2 : i + 1 < kf.length := by omega
        obtain ⟨found, kp, lm', h1, h2, h3⟩ :=
          ihn none th lm (i + 1) f hrep.2.2 hordn hnd.2.2.1 hthn hi2 hlm hf
        rw [← hwd] at h2 h3
        refine ⟨found, kp, lm', ?_, ?_, ?_⟩
        · simp [hc, hlast, h1]
        · simp [hc, answer_cons_map, answer_dup_long b c w hd2, h2]
        · intro hfound fuel2 hf2
          simp only [hc, answer_cons_map, answer_dup_long b c w hd2, List.nil_append]
          exact h3 hfound fuel2 (by simp [Trie.visits] at hf2; omega)
    · simp [hc, answer_mapcons_ne b _ _ _ hc, answer_mapdup_ne b _ _ _ hc]
  | D p c l r ihl ihr =>
    intro sec th lm i fuel hrep hord hnd hth hi hlm hfuel
    obtain ⟨f, rfl⟩ : ∃ f, fuel = f + 1 := ⟨fuel - 1, by simp [Trie.visits] at hfuel; omega⟩
    have hfl : l.visits ≤ f := by simp [Trie.visits] at hfuel; omega
    have hfr : r.visits ≤ f := by simp [Trie.visits] at hfuel; omega
    have hord' : c < 128 ∧ (∀ h ∈ l.heads, h ≤ c) ∧ (∀ h ∈ r.heads, c < h)
        ∧ Ordered sec l ∧ Ordered sec r := by
      cases sec <;> simpa [Ordered] using hord
    obtain ⟨hc128, hhl, hhr, hol, hor⟩ := hord'
    simp only [Rep] at hrep
    simp only [Trie.positions, List.nodup_cons, List.nodup_append, List.mem_append, not_or] at hnd
    have hthr : ∀ q ∈ r.positions, (q : Int) ≠ th :=
      fun q hq => hth q (by simp [Trie.positions, hq])
    have hpl : ∀ q ∈ l.positions, (q : Int) ≠ (p : Int) := by
      intro q hq h
      have : q = p := by exact_mod_cast h
      exact hnd.1.1 (this ▸ hq)
    obtain ⟨c', w, hdrop, hslice, hwd, hw⟩ := drop_split kf i hi
    simp only [searchLoop, root_D, natCast_ne_null, if_false, nodeAt_natCast s p _ hrep.1,
      hslice, runeString_ascii c hc128, strLe_single, bind, Except.bind]
    rw [hdrop, Trie.pairs]
    by_cases hc : c' ≤ c
    · rw [answer_left b c' c w l r hc hhr]
      cases b
      · obtain ⟨found, kp, lm', h1, h2, h3⟩ :=
          ihl sec (p : Int) (p : Int) i f hrep.2.1 hol hnd.2.1 hpl hi (fun _ => rfl) hfl
        rw [hdrop] at h2 h3
        refine ⟨found, kp, lm', ?_, h2, ?_⟩
        · simp [hc, h1]
        · intro hfound fuel2 hf2
          exact h3 hfound fuel2 (by simp [Trie.visits] at hf2; omega)
      · obtain ⟨found, kp, lm', h1, h2, h3⟩ :=
          ihl sec (p : Int) lm i f hrep.2.1 hol hnd.2.1 hpl hi (by simp) hfl
        rw [hdrop] at h2 h3
        refine ⟨found, kp, lm', ?_, h2, ?_⟩
        · simp [hc, h1]
        · intro hfound fuel2 hf2
          exact h3 hfound fuel2 (by simp [Trie.visits] at hf2; omega)
    · rw [answer_right b c' c w l r (by omega) hhl]
      obtain ⟨found, kp, lm', h1, h2, h3⟩ :=
        ihr sec th lm i f hrep.2.2 hor hnd.2.2.1 hthr hi hlm hfr
      rw [hdrop] at h2 h3
      refine ⟨found, kp, lm', ?_, h2, ?_⟩
      · simp [hc, h1]
      · intro hfound fuel2 hf2
        exact h3 hfound fuel2 (by simp [Trie.visits] at hf2; omega)

/-! ### Decimal text -/

theorem natDigits_ne_nil (fuel n : Nat) : natDigits (fuel + 1) n ≠ [] := by
  simp only [natDigits]
  split <;> simp

theorem natDigits_range (fuel n : Nat) : ∀ d ∈ natDigits fuel n, 48 ≤ d ∧ d ≤ 57 := by
  induction fuel generalizing n with
  | zero => simp [natDigits]
  | succ f ih =>
    intro d hd
    simp only [natDigits] at hd
    split at hd
    · simp at hd; omega
    · simp at hd
      rcases hd with hd | hd
      · exact ih _ d hd
      · omega

/-- The number that a list of decimal digits denotes, on top of `acc`. -/
theorem natDigits_value (fuel n : Nat) (h : n < fuel) (acc : Nat) :
    (natDigits fuel n).foldl (fun a d => 10 * a + (d - 48)) acc
      = acc * 10 ^ (natDigits fuel n).length + n := by
  induction fuel generalizing n acc with
  | zero => omega
  | succ f ih =>
    simp only [natDigits]
    split
    · simp; omega
    · rename_i h10
      have hlt : n / 10 < f := by omega
      rw [List.foldl_append, ih (n / 10) hlt acc]
      simp [pow_succ]
      ring_nf
      omega

theorem natDigits_inj (a b : Nat)
    (h : natDigits (a + 1) a = natDigits (b + 1) b) : a = b := by
  have ha := natDigits_value (a + 1) a (by omega) 0
  have hb := natDigits_value (b + 1) b (by omega) 0
  rw [h] at ha
  simp at ha hb
  omega

theorem itoa_inj (a b : Int) (h : itoa a = itoa b) : a = b := by
  unfold itoa at h
  by_cases ha : a < 0 <;> by_cases hb : b < 0
  · simp only [ha, hb, if_true, List.cons.injEq, true_and] at h
    have := natDigits_inj _ _ h
    omega
  · simp only [ha, hb, if_true, if_false] at h
    have hne := natDigits_ne_nil b.natAbs b.natAbs
    obtain ⟨d, ds, e⟩ := List.exists_cons_of_ne_nil hne
    rw [e] at h
    have hr := natDigits_range (b.natAbs + 1) b.natAbs d (by simp [e])
    simp at h
    omega
  · simp only [ha, hb, if_true, if_false] at h
    have hne := natDigits_ne_nil a.natAbs a.natAbs
    obtain ⟨d, ds, e⟩ := List.exists_cons_of_ne_nil hne
    rw [e] at h
    have hr := natDigits_range (a.natAbs + 1) a.natAbs d (by simp [e])
    simp at h
    omega
  · simp only [ha, hb, if_false] at h
    have := natDigits_inj _ _ h
    omega

theorem itoa_ne_nil (a : Int) : itoa a ≠ [] := by
  unfold itoa
  split
  · simp
  · exact natDigits_ne_nil _ _

theorem itoa_ascii (a : Int) : ∀ d ∈ itoa a, d < 128 := by
  intro d hd
  unfold itoa at hd
  split at hd
  · simp at hd
    rcases hd with hd | hd
    · omega
    · have := natDigits_range _ _ d hd; omega
  · have := natDigits_range _ _ d hd; omega

/-! ### Frames -/

theorem Rep_lt (nodes : List indexNode) (t : Trie) :
    ∀ th, Rep nodes t th → ∀ q ∈ t.positions, q < nodes.length := by
  induction t with
  | S p c id =>
    intro th h q hq
    simp [Trie.positions] at hq
    simp only [Rep] at h
    subst hq
    by_contra hlt
    simp [List.getElem?_eq_none (Nat.le_of_not_lt hlt)] at h
  | R p c id next ih =>
    intro th h q hq
    simp [Trie.positions] at hq
    simp only [Rep] at h
    rcases hq with hq | hq
    · subst hq
      by_contra hlt
      simp [List.getElem?_eq_none (Nat.le_of_not_lt hlt)] at h
    · exact ih th h.2 q hq
  | X p c next ih =>
    intro th h q hq
    simp [Trie.positions] at hq
    simp only [Rep] at h
    rcases hq with hq | hq
    · subst hq
      by_contra hlt
      simp [List.getElem?_eq_none (Nat.le_of_not_lt hlt)] at h
    · exact ih th h.2 q hq
  | L p c dup ih =>
    intro th h q hq
    simp [Trie.positions] at hq
    simp only [Rep] at h
    rcases hq with hq | hq
    · subst hq
      by_contra hlt
      simp [List.getElem?_eq_none (Nat.le_of_not_lt hlt)] at h
    · exact ih _ h.2 q hq
  | K p c dup next ihd ihn =>
    intro th h q hq
    simp [Trie.positions] at hq
    simp only [Rep] at h
    rcases hq with hq | hq | hq
    · subst hq
      by_contra hlt
      simp [List.getElem?_eq_none (Nat.le_of_not_lt hlt)] at h
    · exact ihd _ h.2.1 q hq
    · exact ihn _ h.2.2 q hq
  | D p c l r ihl ihr =>
    intro th h q hq
    simp [Trie.positions] at hq
    simp only [Rep] at h
    rcases hq with hq | hq | hq
    · subst hq
      by_contra hlt
      simp [List.getElem?_eq_none (Nat.le_of_not_lt hlt)] at h
    · exact ihl _ h.2.1 q hq
    · exact ihr _ h.2.2 q hq

theorem Rep_congr (nodes nodes' : List indexNode) (t : Trie) :
    ∀ th, (∀ q ∈ t.positions, nodes'[q]? = nodes[q]?) → Rep nodes t th → Rep nodes' t th := by
  induction t with
  | S p c id =>
    intro th hq h
    simp only [Rep] at h ⊢
    rw [hq p (by simp [Trie.positions])]; exact h
  | R p c id next ih =>
    intro th hq h
    simp only [Rep] at h ⊢
    exact ⟨by rw [hq p (by simp [Trie.positions])]; exact h.1,
      ih th (fun q hq' => hq q (by simp [Trie.positions, hq'])) h.2⟩
  | X p c next ih =>
    intro th hq h
    simp only [Rep] at h ⊢
    exact ⟨by rw [hq p (by simp [Trie.positions])]; exact h.1,
      ih th (fun q hq' => hq q (by simp [Trie.positions, hq'])) h.2⟩
  | L p c dup ih =>
    intro th hq h
    simp only [Rep] at h ⊢
    exact ⟨by rw [hq p (by simp [Trie.positions])]; exact h.1,
      ih _ (fun q hq' => hq q (by simp [Trie.positions, hq'])) h.2⟩
  | K p c dup next ihd ihn =>
    intro th hq h
    simp only [Rep] at h ⊢
    exact ⟨by rw [hq p (by simp [Trie.positions])]; exact h.1,
      ihd _ (fun q hq' => hq q (by simp [Trie.positions, hq'])) h.2.1,
      ihn _ (fun q hq' => hq q (by simp [Trie.positions, hq'])) h.2.2⟩
  | D p c l r ihl ihr =>
    intro th hq h
    simp only [Rep] at h ⊢
    exact ⟨by rw [hq p (by simp [Trie.positions])]; exact h.1,
      ihl _ (fun q hq' => hq q (by simp [Trie.positions, hq'])) h.2.1,
      ihr _ (fun q hq' => hq q (by simp [Trie.positions, hq'])) h.2.2⟩

theorem pos_mem_positions (t : Trie) : t.pos ∈ t.positions := by
  cases t <;> simp [Trie.pos, Trie.positions]

theorem lastLeaf_mem_positions (t : Trie) : t.lastLeaf ∈ t.positions := by
  induction t with
  | S p c id => simp [Trie.lastLeaf, Trie.positions]
  | R p c id next ih => simp [Trie.lastLeaf, Trie.positions, ih]
  | X p c next ih => simp [Trie.lastLeaf, Trie.positions, ih]
  | L p c dup ih => simp [Trie.lastLeaf, Trie.positions]
  | K p c dup next ihd ihn => simp [Trie.lastLeaf, Trie.positions, ihn]
  | D p c l r ihl ihr => simp [Trie.lastLeaf, Trie.positions, ihr]

/-! ### The thread that leaves a tree -/

theorem lastLeaf_node (nodes : List indexNode) (t : Trie) :
    ∀ th, Rep nodes t th →
      ∃ n, nodes[t.lastLeaf]? = some n ∧ n.rightPointer = th
        ∧ (n.status = stS ∨ n.status = stL) := by
  induction t with
  | S p c id => intro th h; simp only [Rep] at h; exact ⟨_, h, rfl, Or.inl rfl⟩
  | R p c id next ih => intro th h; simp only [Rep] at h; exact ih th h.2
  | X p c next ih => intro th h; simp only [Rep] at h; exact ih th h.2
  | L p c dup ih => intro th h; simp only [Rep] at h; exact ⟨_, h.1, rfl, Or.inr rfl⟩
  | K p c dup next ihd ihn => intro th h; simp only [Rep] at h; exact ihn th h.2.2
  | D p c l r ihl ihr => intro th h; simp only [Rep] at h; exact ihr th h.2.2

theorem threadLoop_lastLeaf (s : Index) (t : Trie) :
    ∀ th fuel, Rep s.node t th → t.visits ≤ fuel →
      threadLoop s fuel t.root = .ok (t.lastLeaf : Int) := by
  induction t with
  | S p c id =>
    intro th fuel h hf
    obtain ⟨f, rfl⟩ : ∃ f, fuel = f + 1 := ⟨fuel - 1, by simp [Trie.visits] at hf; omega⟩
    simp only [Rep] at h
    simp [threadLoop, nodeAt_natCast s p _ h, bind, Except.bind, Trie.lastLeaf]
  | R p c id next ih =>
    intro th fuel h hf
    obtain ⟨f, rfl⟩ : ∃ f, fuel = f + 1 := ⟨fuel - 1, by simp [Trie.visits] at hf; omega⟩
    simp only [Rep] at h
    simp [threadLoop, nodeAt_natCast s p _ h.1, bind, Except.bind, Trie.lastLeaf]
    exact ih th f h.2 (by simp [Trie.visits] at hf; omega)
  | X p c next ih =>
    intro th fuel h hf
    obtain ⟨f, rfl⟩ : ∃ f, fuel = f + 1 := ⟨fuel - 1, by simp [Trie.visits] at hf; omega⟩
    simp only [Rep] at h
    simp [threadLoop, nodeAt_natCast s p _ h.1, bind, Except.bind, Trie.lastLeaf]
    exact ih th f h.2 (by simp [Trie.visits] at hf; omega)
  | L p c dup ih =>
    intro th fuel h hf
    obtain ⟨f, rfl⟩ : ∃ f, fuel = f + 1 := ⟨fuel - 1, by simp [Trie.visits] at hf; omega⟩
    simp only [Rep] at h
    simp [threadLoop, nodeAt_natCast s p _ h.1, bind, Except.bind, Trie.lastLeaf]
  | K p c dup next ihd ihn =>
    intro th fuel h hf
    obtain ⟨f, rfl⟩ : ∃ f, fuel = f + 1 := ⟨fuel - 1, by simp [Trie.visits] at hf; omega⟩
    simp only [Rep] at h
    simp [threadLoop, nodeAt_natCast s p _ h.1, bind, Except.bind, Trie.lastLeaf]
    exact ihn th f h.2.2 (by simp [Trie.visits] at hf; omega)
  | D p c l r ihl ihr =>
    intro th fuel h hf
    obtain ⟨f, rfl⟩ : ∃ f, fuel = f + 1 := ⟨fuel - 1, by simp [Trie.visits] at hf; omega⟩
    simp only [Rep] at h
    simp [threadLoop, nodeAt_natCast s p _ h.1, bind, Except.bind, Trie.lastLeaf]
    exact ihr th f h.2.2 (by simp [Trie.visits] at hf; omega)

theorem getElem?_set_self' (nodes : List indexNode) (q : Nat) (n m : indexNode)
    (h : nodes[q]? = some n) : (nodes.set q m)[q]? = some m := by
  have hlt : q < nodes.length := by
    by_contra hlt
    simp [List.getElem?_eq_none (Nat.le_of_not_lt hlt)] at h
  simp [List.getElem?_set, hlt]

theorem Rep_set_other (nodes : List indexNode) (t : Trie) (th : Int) (e : Nat) (m : indexNode)
    (he : e ∉ t.positions) (h : Rep nodes t th) : Rep (nodes.set e m) t th := by
  apply Rep_congr nodes _ t th _ h
  intro q hq
  have : e ≠ q := fun h => he (h ▸ hq)
  simp [List.getElem?_set_ne this]

theorem Rep_rethread (nodes : List indexNode) (th' : Int) (t : Trie) :
    ∀ th n, Rep nodes t th → t.positions.Nodup → nodes[t.lastLeaf]? = some n →
      Rep (nodes.set t.lastLeaf { n with rightPointer := th' }) t th' := by
  induction t with
  | S p c id =>
    intro th n h hnd hn
    simp only [Rep, Trie.lastLeaf] at h hn ⊢
    rw [getElem?_set_self' nodes p n _ hn]
    rw [h] at hn
    cases hn
    rfl
  | R p c id next ih =>
    intro th n h hnd hn
    simp only [Rep, Trie.lastLeaf] at h hn ⊢
    simp only [Trie.positions, List.nodup_cons] at hnd
    have hne : next.lastLeaf ≠ p := fun e => hnd.1 (e ▸ lastLeaf_mem_positions next)
    exact ⟨by rw [List.getElem?_set_ne hne]; exact h.1, ih th n h.2 hnd.2 hn⟩
  | X p c next ih =>
    intro th n h hnd hn
    simp only [Rep, Trie.lastLeaf] at h hn ⊢
    simp only [Trie.positions, List.nodup_cons] at hnd
    have hne : next.lastLeaf ≠ p := fun e => hnd.1 (e ▸ lastLeaf_mem_positions next)
    exact ⟨by rw [List.getElem?_set_ne hne]; exact h.1, ih th n h.2 hnd.2 hn⟩
  | L p c dup ih =>
    intro th n h hnd hn
    simp only [Rep, Trie.lastLeaf] at h hn ⊢
    simp only [Trie.positions, List.nodup_cons] at hnd
    refine ⟨?_, Rep_set_other nodes dup _ p _ hnd.1 h.2⟩
    rw [getElem?_set_self' nodes p n _ hn]
    rw [h.1] at hn
    cases hn
    rfl
  | K p c dup next ihd ihn =>
    intro th n h hnd hn
    simp only [Rep, Trie.lastLeaf] at h hn ⊢
    simp only [Trie.positions, List.nodup_cons, List.nodup_append, List.mem_append, not_or] at hnd
    have hmem := lastLeaf_mem_positions next
    have hne : next.lastLeaf ≠ p := fun e => hnd.1.2 (e ▸ hmem)
    have hnd' : next.lastLeaf ∉ dup.positions := fun hd => hnd.2.2.2 hd hmem
    exact ⟨by rw [List.getElem?_set_ne hne]; exact h.1,
      Rep_set_other nodes dup _ _ _ hnd' h.2.1, ihn th n h.2.2 hnd.2.2.1 hn⟩
  | D p c l r ihl ihr =>
    intro th n h hnd hn
    simp only [Rep, Trie.lastLeaf] at h hn ⊢
    simp only [Trie.positions, List.nodup_cons, List.nodup_append, List.mem_append, not_or] at hnd
    have hmem := lastLeaf_mem_positions r
    have hne : r.lastLeaf ≠ p := fun e => hnd.1.2 (e ▸ hmem)
    have hnd' : r.lastLeaf ∉ l.positions := fun hd => hnd.2.2.2 hd hmem
    exact ⟨by rw [List.getElem?_set_ne hne]; exact h.1,
      Rep_set_other nodes l _ _ _ hnd' h.2.1, ihr th n h.2.2 hnd.2.2.1 hn⟩

/-! ### Writes through pointers that are positions -/

theorem setNode_natCast (s : Index) (q : Nat) (n m : indexNode) (h : s.node[q]? = some n) :
    setNode s (q : Int) m = .ok { s with node := s.node.set q m } := by
  have hlt : q < s.node.length := by
    by_contra hlt
    simp [List.getElem?_eq_none (Nat.le_of_not_lt hlt)] at h
  have : ¬ ((q : Int) < 0) := by omega
  simp [setNode, this, hlt]

theorem setStatus_natCast (s : Index) (q : Nat) (n : indexNode) (v : Nat)
    (h : s.node[q]? = some n) :
    setStatus s (q : Int) v = .ok { s with node := s.node.set q { n with status := v } } := by
  simp [setStatus, nodeAt_natCast s q n h, setNode_natCast s q n _ h]

theorem setLeft_natCast (s : Index) (q : Nat) (n : indexNode) (v : Int)
    (h : s.node[q]? = some n) :
    setLeft s (q : Int) v = .ok { s with node := s.node.set q { n with leftPointer := v } } := by
  simp [setLeft, nodeAt_natCast s q n h, setNode_natCast s q n _ h]

theorem setKey_natCast (s : Index) (q : Nat) (n : indexNode) (v : Nat)
    (h : s.node[q]? = some n) :
    setKey s (q : Int) v = .ok { s with node := s.node.set q { n with key := v } } := by
  simp [setKey, nodeAt_natCast s q n h, setNode_natCast s q n _ h]

theorem setRight_natCast (s : Index) (q : Nat) (n : indexNode) (v : Int)
    (h : s.node[q]? = some n) :
    setRight s (q : Int) v = .ok { s with node := s.node.set q { n with rightPointer := v } } := by
  simp [setRight, nodeAt_natCast s q n h, setNode_natCast s q n _ h]

theorem allocNode_fresh (s : Index) (n : indexNode) (h : s.deletedRoot = nullIndexPointer) :
    allocNode n s = .ok ((s.node.length : Int), { s with node := s.node ++ [n] }) := by
  simp [allocNode, h]

theorem Rep_append (nodes more : List indexNode) (t : Trie) (th : Int)
    (h : Rep nodes t th) : Rep (nodes ++ more) t th := by
  apply Rep_congr nodes _ t th _ h
  intro q hq
  exact List.getElem?_append_left (Rep_lt nodes t th h q hq)

/-! ### Chain construction on an empty free list -/

theorem extend_fresh (kn nxt : Int) (s : Index) (hfree : s.deletedRoot = nullIndexPointer)
    (kf : List Nat) :
    kf ≠ [] → (∀ c ∈ kf, c < 128) →
    ∃ ch added, extend kf kn nxt s = .ok (ch.root, { s with node := s.node ++ added })
      ∧ added.length = kf.length
      ∧ Rep (s.node ++ added) ch nxt
      ∧ ch.pairs = [(kf, kn)]
      ∧ ch.heads = kf.take 1
      ∧ ch.positions.Nodup
      ∧ (∀ q ∈ ch.positions, s.node.length ≤ q ∧ q < s.node.length + kf.length)
      ∧ ch.visits = kf.length
      ∧ Ordered none ch
      ∧ (∀ w, itoa kn = w ++ kf → Ordered (some w) ch) := by
  induction kf with
  | nil => intro h; exact absurd rfl h
  | cons c rest ih =>
    intro _ hascii
    have hc : c < 128 := hascii c (by simp)
    by_cases hrest : rest = []
    · subst hrest
      refine ⟨Trie.S s.node.length c kn, [⟨stS, kn, c, nxt⟩], ?_, rfl, ?_, rfl, rfl, ?_, ?_, rfl,
        ?_, ?_⟩
      · simp [extend, extendFrom, allocNode_fresh _ _ hfree]
      · simp [Rep]
      · simp [Trie.positions]
      · simp [Trie.positions]
      · simpa [Ordered] using hc
      · intro w hw; simp [Ordered, hc, hw]
    · obtain ⟨ch0, added0, hext, hlen, hrep, hpairs, hheads, hnd, hpos, hvis, hord, hordw⟩ :=
        ih hrest (fun d hd => hascii d (by simp [hd]))
      have hfree' : ({ s with node := s.node ++ added0 } : Index).deletedRoot
          = nullIndexPointer := hfree
      refine ⟨Trie.X (s.node.length + rest.length) c ch0,
        added0 ++ [⟨stX, nullIndexPointer, c, ch0.root⟩], ?_, ?_, ?_, ?_, ?_, ?_, ?_, ?_, ?_, ?_⟩
      · simp only [extend] at hext
        simp [extend, extendFrom, hext, hrest, allocNode_fresh _ _ hfree', hlen]
      · simp [hlen]
      · simp only [Rep]
        refine ⟨?_, ?_⟩
        · rw [← List.append_assoc, List.getElem?_append_right (by simp [hlen])]
          simp [hlen]
        · rw [← List.append_assoc]
          exact Rep_append _ _ ch0 nxt hrep
      · simp [Trie.pairs, hpairs]
      · simp [Trie.heads]
      · simp only [Trie.positions, List.nodup_cons]
        refine ⟨?_, hnd⟩
        intro hmem
        have := hpos _ hmem
        omega
      · intro q hq
        simp only [Trie.positions, List.mem_cons] at hq
        rcases hq with hq | hq
        · subst hq; simp only [List.length_cons]; omega
        · have := hpos q hq
          simp only [List.length_cons]; omega
      · simp [Trie.visits, hvis]; omega
      · simp [Ordered, hc, hord]
      · intro w hw
        simp only [Ordered]
        exact ⟨hc, hordw (w ++ [c]) (by simp [hw])⟩

theorem getElem?_some_lt (nodes : List indexNode) (q : Nat) (n : indexNode)
    (h : nodes[q]? = some n) : q < nodes.length := by
  by_contra hlt
  simp [List.getElem?_eq_none (Nat.le_of_not_lt hlt)] at h

theorem nodeAt_mk (r dr : Int) (nodes : List indexNode) (q : Nat) (n : indexNode)
    (h : nodes[q]? = some n) : nodeAt ⟨r, nodes, dr⟩ (q : Int) = .ok n :=
  nodeAt_natCast ⟨r, nodes, dr⟩ q n h

theorem setStatus_mk (r dr : Int) (nodes : List indexNode) (q : Nat) (n : indexNode) (v : Nat)
    (h : nodes[q]? = some n) :
    setStatus ⟨r, nodes, dr⟩ (q : Int) v = .ok ⟨r, nodes.set q { n with status := v }, dr⟩ :=
  setStatus_natCast ⟨r, nodes, dr⟩ q n v h

theorem setLeft_mk (r dr : Int) (nodes : List indexNode) (q : Nat) (n : indexNode) (v : Int)
    (h : nodes[q]? = some n) :
    setLeft ⟨r, nodes, dr⟩ (q : Int) v = .ok ⟨r, nodes.set q { n with leftPointer := v }, dr⟩ :=
  setLeft_natCast ⟨r, nodes, dr⟩ q n v h

theorem setKey_mk (r dr : Int) (nodes : List indexNode) (q : Nat) (n : indexNode) (v : Nat)
    (h : nodes[q]? = some n) :
    setKey ⟨r, nodes, dr⟩ (q : Int) v = .ok ⟨r, nodes.set q { n with key := v }, dr⟩ :=
  setKey_natCast ⟨r, nodes, dr⟩ q n v h

theorem setRight_mk (r dr : Int) (nodes : List indexNode) (q : Nat) (n : indexNode) (v : Int)
    (h : nodes[q]? = some n) :
    setRight ⟨r, nodes, dr⟩ (q : Int) v = .ok ⟨r, nodes.set q { n with rightPointer := v }, dr⟩ :=
  setRight_natCast ⟨r, nodes, dr⟩ q n v h

theorem relink_post (root : Int) (nodes nodes6 : List indexNode) (t t' : Trie) (th prev : Int)
    (leftSide dupFlag : Bool) (sec : Option (List Nat)) (newKey : List Nat) (kn : Int) (cb : Nat)
    (hprev : PrevLink nodes root t prev leftSide cb dupFlag)
    (hrep : Rep nodes6 t' th) (hord : Ordered sec t') (hnd : t'.positions.Nodup)
    (hpos : ∀ q ∈ t'.positions, q ∈ t.positions ∨ nodes.length ≤ q)
    (hlen6 : nodes.length ≤ nodes6.length)
    (hframe : ∀ q : Nat, q < nodes.length → q ∉ t.positions → nodes6[q]? = nodes[q]?)
    (hheads : ∀ h ∈ t'.heads, h ∈ t.heads ∨ newKey.head? = some h)
    (hpairs : ∀ x, x ∈ t'.pairs ↔ x ∈ t.pairs ∨ x = (newKey, kn)) :
    ∃ s', insertRelink ⟨root, nodes6, nullIndexPointer⟩ prev dupFlag [cb] t'.root = .ok s'
      ∧ InsertPost nodes root t th prev leftSide sec newKey kn s' t' := by
  rcases hprev with ⟨hp, -⟩ | ⟨pp, pn, hp, hpn, hppt, -, hside⟩
  · subst hp
    refine ⟨⟨t'.root, nodes6, nullIndexPointer⟩, by simp [insertRelink], ?_⟩
    exact {
      free_empty := rfl
      rep := hrep
      ordered := hord
      nodup := hnd
      pos_new := hpos
      length_le := hlen6
      frame := fun q hq hqt _ => hframe q hq hqt
      root_link := fun _ => rfl
      parent_link := fun pp pn h _ => absurd h.symm (natCast_ne_null pp)
      heads := hheads
      pairs := hpairs }
  · subst hp
    have hpplt : pp < nodes.length := getElem?_some_lt nodes pp pn hpn
    have hpn6 : nodes6[pp]? = some pn := by rw [hframe pp hpplt hppt]; exact hpn
    have hppt' : pp ∉ t'.positions := by
      intro hmem
      rcases hpos pp hmem with h | h
      · exact hppt h
      · omega
    have hprevne : ¬ ((pp : Int) = nullIndexPointer) := natCast_ne_null pp
    refine ⟨⟨root, nodes6.set pp (if leftSide then { pn with leftPointer := t'.root }
                           else { pn with rightPointer := t'.root }), nullIndexPointer⟩, ?_, ?_⟩
    · simp only [insertRelink, hprevne, if_false, nodeAt_mk _ _ _ pp pn hpn6, bind, Except.bind]
      cases leftSide
      · have hcond : ¬ ((pn.status = stD ∧ strLe [cb] (runeString pn.key) = true)
            ∨ pn.status = stL ∨ (pn.status = stK ∧ dupFlag = true)) := by
          intro h; have := hside.2 h; simp at this
        simp only [hcond, if_false]
        rw [setRight_mk _ _ _ pp pn _ hpn6]
        simp
      · have hcond : ((pn.status = stD ∧ strLe [cb] (runeString pn.key) = true)
            ∨ pn.status = stL ∨ (pn.status = stK ∧ dupFlag = true)) := hside.1 rfl
        simp only [hcond, if_true]
        rw [setLeft_mk _ _ _ pp pn _ hpn6]
    · exact {
        free_empty := rfl
        rep := Rep_set_other nodes6 t' th pp _ hppt' hrep
        ordered := hord
        nodup := hnd
        pos_new := hpos
        length_le := by simpa using hlen6
        frame := by
          intro q hq hqt hqp
          have : pp ≠ q := by intro h; apply hqp; rw [h]
          simp only []
          rw [List.getElem?_set_ne this]
          exact hframe q hq hqt
        root_link := fun h => absurd h hprevne
        parent_link := by
          intro pp' pn' h1 h2
          have : pp = pp' := by exact_mod_cast h1
          subst this
          rw [hpn] at h2
          cases h2
          exact ⟨rfl, getElem?_set_self' _ _ _ _ hpn6⟩
        heads := hheads
        pairs := hpairs }

theorem strLt_irrefl_single (a b : Nat) (h : a ≠ b) (h2 : strLt [b] [a] = false) :
    strLt [a] [b] = true := by
  simp [strLt_single] at h2 ⊢
  omega

set_option maxHeartbeats 1000000 in
theorem finish_mismatch (s : Index) (t : Trie) (th : Int) (kf : List Nat) (i : Nat) (kn : Int)
    (prev : Int) (dupFlag leftSide : Bool) (sec : Option (List Nat)) (fuelF : Nat) (c : Nat)
    (n : indexNode)
    (hfree : s.deletedRoot = nullIndexPointer)
    (hrep : Rep s.node t th) (hnd : t.positions.Nodup) (hord : Ordered sec t)
    (hroot : s.node[t.pos]? = some n) (hkey : n.key = c) (hheads : t.heads = [c]) (hc : c < 128)
    (hi : i < kf.length) (hne : kf[i] ≠ c) (hascii : ∀ b ∈ kf, b < 128)
    (hmode : WalkMode sec dupFlag kf i kn)
    (hprev : PrevLink s.node s.indexRoot t prev leftSide kf[i] dupFlag)
    (hfuel : t.visits ≤ fuelF) :
    ∃ s' t', insertFinish fuelF kn ⟨s, kf, t.root, prev, dupFlag, i⟩ = .ok s'
      ∧ InsertPost s.node s.indexRoot t th prev leftSide sec (kf.drop i) kn s' t' := by
  obtain ⟨root, nodes, dr⟩ := s
  simp only at hfree hrep hroot hprev ⊢
  subst hfree
  have hdropne : kf.drop i ≠ [] := by simp; omega
  have hdascii : ∀ b ∈ kf.drop i, b < 128 := fun b hb => hascii b (List.mem_of_mem_drop hb)
  have hlen := Rep_lt nodes t th hrep
  have hplt : t.pos < nodes.length := hlen _ (pos_mem_positions t)
  have hk128 : kf[i] < 128 := hascii _ (List.getElem_mem hi)
  -- the decision node
  obtain ⟨d, hd⟩ : ∃ d : Nat, d = nodes.length := ⟨_, rfl⟩
  obtain ⟨nodes1, hnodes1⟩ : ∃ l : List indexNode,
    l = nodes ++ [⟨stD, nullIndexPointer, 32, nullIndexPointer⟩] := ⟨_, rfl⟩
  have hlen1 : nodes1.length = d + 1 := by simp [hnodes1, hd]
  have hold1 : ∀ q, q < d → nodes1[q]? = nodes[q]? := by
    intro q hq; rw [hnodes1, List.getElem?_append_left (by omega)]
  have hd1 : nodes1[d]? = some ⟨stD, nullIndexPointer, 32, nullIndexPointer⟩ := by
    simp [hnodes1, hd]
  have hrep1 : Rep nodes1 t th := by rw [hnodes1]; exact Rep_append _ _ t th hrep
  have hroot1 : nodes1[t.pos]? = some n := by rw [hold1 _ (by omega)]; exact hroot
  have halloc : allocNode ⟨stD, nullIndexPointer, 32, nullIndexPointer⟩
      ⟨root, nodes, nullIndexPointer⟩ = .ok ((d : Int), ⟨root, nodes1, nullIndexPointer⟩) := by
    rw [allocNode_fresh _ _ rfl, hnodes1, hd]
  by_cases hgt : c < kf[i]
  · -- the new key goes to the right
    obtain ⟨m, hm, hmr, hms⟩ := lastLeaf_node nodes1 t th hrep1
    have helt : t.lastLeaf < nodes.length := hlen _ (lastLeaf_mem_positions t)
    obtain ⟨nodes2, hnodes2⟩ : ∃ l : List indexNode,
      l = nodes1.set t.lastLeaf { m with rightPointer := (d : Int) } := ⟨_, rfl⟩
    have hrep2 : Rep nodes2 t (d : Int) := by
      rw [hnodes2]; exact Rep_rethread nodes1 d t th m hrep1 hnd hm
    have hlen2 : nodes2.length = d + 1 := by simp [hnodes2, hlen1]
    have hned : t.lastLeaf ≠ d := by omega
    have hd2 : nodes2[d]? = some ⟨stD, nullIndexPointer, 32, nullIndexPointer⟩ := by
      rw [hnodes2, List.getElem?_set_ne hned]; exact hd1
    obtain ⟨ch, added, hext, hlenA, hrepc, hpairs, hheadsc, hndc, hposc, hvis, hordc, hordw⟩ :=
      extend_fresh kn th ⟨root, nodes2, nullIndexPointer⟩ rfl (kf.drop i) hdropne hdascii
    simp only at hext hrepc hposc
    obtain ⟨nodes3, hnodes3⟩ : ∃ l : List indexNode, l = nodes2 ++ added := ⟨_, rfl⟩
    rw [← hnodes3] at hext hrepc
    have hold3 : ∀ q, q < d + 1 → nodes3[q]? = nodes2[q]? := by
      intro q hq; rw [hnodes3, List.getElem?_append_left (by omega)]
    have hd3 : nodes3[d]? = some ⟨stD, nullIndexPointer, 32, nullIndexPointer⟩ := by
      rw [hold3 _ (by omega)]; exact hd2
    -- the root of the old tree keeps its byte
    obtain ⟨n2, hn2, hn2k⟩ : ∃ n2, nodes2[t.pos]? = some n2 ∧ n2.key = c := by
      by_cases he : t.lastLeaf = t.pos
      · refine ⟨{ m with rightPointer := (d : Int) }, ?_, ?_⟩
        · rw [hnodes2]; rw [he] at hm ⊢; exact getElem?_set_self' _ _ _ _ hm
        · rw [he, hroot1] at hm; cases hm; exact hkey
      · exact ⟨n, by rw [hnodes2, List.getElem?_set_ne he]; exact hroot1, hkey⟩
    have hn3 : nodes3[t.pos]? = some n2 := by rw [hold3 _ (by omega)]; exact hn2
    obtain ⟨nodes6, hnodes6⟩ : ∃ l : List indexNode,
      l = nodes3.set d ⟨stD, t.root, c, ch.root⟩ := ⟨_, rfl⟩
    have hnpd : d ≠ t.pos := by omega
    have h4 := setLeft_mk root nullIndexPointer nodes3 d _ t.root hd3
    have hn4 : nodeAt ⟨root, nodes3.set d
        { (⟨stD, nullIndexPointer, 32, nullIndexPointer⟩ : indexNode) with leftPointer := t.root },
        nullIndexPointer⟩ t.root = .ok n2 :=
      nodeAt_mk _ _ _ t.pos n2 (by rw [List.getElem?_set_ne hnpd]; exact hn3)
    have h5 := setKey_mk root nullIndexPointer _ d _ c (getElem?_set_self' _ _ _
      { (⟨stD, nullIndexPointer, 32, nullIndexPointer⟩ : indexNode) with leftPointer := t.root } hd3)
    have h6 := setRight_mk root nullIndexPointer _ d _ ch.root (getElem?_set_self' _ _ _
      { (⟨stD, t.root, 32, nullIndexPointer⟩ : indexNode) with key := c }
      (getElem?_set_self' _ _ _
      { (⟨stD, nullIndexPointer, 32, nullIndexPointer⟩ : indexNode) with leftPointer := t.root } hd3))
    simp only [List.set_set] at h5 h6
    rw [← hnodes6] at h6
    -- the new tree
    have hnodes6_ne : ∀ q, q ≠ d → nodes6[q]? = nodes3[q]? := by
      intro q hq; rw [hnodes6, List.getElem?_set_ne (Ne.symm hq)]
    have hnodes6_d : nodes6[d]? = some ⟨stD, t.root, c, ch.root⟩ := by
      rw [hnodes6]; exact getElem?_set_self' _ _ _ _ hd3
    have hrep6t : Rep nodes6 t (d : Int) := by
      apply Rep_congr nodes2 nodes6 t _ _ hrep2
      intro q hq
      have := hlen q hq
      rw [hnodes6_ne q (by omega), hold3 q (by omega)]
    have hrep6c : Rep nodes6 ch th := by
      apply Rep_congr nodes3 nodes6 ch _ _ hrepc
      intro q hq
      have := hposc q hq
      exact hnodes6_ne q (by omega)
    have hfin : insertFinish fuelF kn
        ⟨⟨root, nodes, nullIndexPointer⟩, kf, t.root, prev, dupFlag, i⟩
        = insertRelink ⟨root, nodes6, nullIndexPointer⟩ prev dupFlag [kf[i]] (d : Int) := by
      have hnk : ¬ ([kf[i]] = [c]) := by simpa using hne
      have hlt : strLt [c] [kf[i]] = true := by simp [strLt_single, hgt]
      have hlt' : strLt [kf[i]] [c] = false := by simp [strLt_single]; omega
      have hthread := threadLoop_lastLeaf ⟨root, nodes1, nullIndexPointer⟩ t th fuelF hrep1 hfuel
      simp only [insertFinish, bind, Except.bind, nodeAt_mk _ _ _ _ _ hroot, Trie.root,
        sliceAt_lt kf i hi, hkey, runeString_ascii c hc, hnk, if_false, halloc,
        nodeAt_mk _ _ _ _ _ hroot1, hlt, if_true]
      simp only [Trie.root] at hthread hext h4 hn4 h5 h6
      simp only [hthread, nodeAt_mk _ _ _ _ _ hm, setRight_mk _ _ _ _ _ _ hm, ← hnodes2, hmr,
        hext, nodeAt_mk _ _ _ _ _ hn3, hn2k, runeString_ascii c hc, hlt', h4, hn4, h5, h6]
      simp
    have hordch : Ordered sec ch := by
      rcases hmode with ⟨h1, _⟩ | ⟨h1, _, h3⟩
      · rw [h1]; exact hordc
      · rw [h1]; exact hordw _ (by rw [← h3, List.take_append_drop])
    have htake : (kf.drop i).take 1 = [kf[i]] := by
      rw [List.drop_eq_getElem_cons hi]; rfl
    have hhead : (kf.drop i).head? = some kf[i] := by
      rw [List.drop_eq_getElem_cons hi]; rfl
    obtain ⟨s', hs', hpost⟩ := relink_post root nodes nodes6 t (Trie.D d c t ch) th prev leftSide
      dupFlag sec (kf.drop i) kn kf[i] hprev
      (by simp only [Rep]; exact ⟨hnodes6_d, hrep6t, hrep6c⟩)
      (by
        have : Ordered sec (Trie.D d c t ch) ↔ c < 128 ∧ (∀ h ∈ t.heads, h ≤ c)
            ∧ (∀ h ∈ ch.heads, c < h) ∧ Ordered sec t ∧ Ordered sec ch := by
          cases sec <;> simp [Ordered]
        rw [this]
        refine ⟨hc, ?_, ?_, hord, hordch⟩
        · intro h hh; rw [hheads] at hh; simp at hh; omega
        · intro h hh; rw [hheadsc, htake] at hh; simp at hh; omega)
      (by
        simp only [Trie.positions, List.nodup_cons, List.nodup_append, List.mem_append, not_or]
        refine ⟨⟨?_, ?_⟩, hnd, hndc, ?_⟩
        · intro h; have := hlen _ h; omega
        · intro h; have := hposc _ h; omega
        · intro q h1 h2; have := hlen _ h1; have := hposc _ h2; omega)
      (by
        intro q hq
        simp only [Trie.positions, List.mem_cons, List.mem_append] at hq
        rcases hq with h | h | h
        · right; omega
        · left; exact h
        · right; have := hposc _ h; omega)
      (by rw [hnodes6, List.length_set, hnodes3, List.length_append]; omega)
      (by
        intro q hq hqt
        have hql : q ≠ t.lastLeaf := fun h => hqt (h ▸ lastLeaf_mem_positions t)
        rw [hnodes6_ne q (by omega), hold3 q (by omega), hnodes2,
          List.getElem?_set_ne (Ne.symm hql), hold1 q (by omega)])
      (by
        intro h hh
        simp only [Trie.heads, List.mem_append] at hh
        rcases hh with hh | hh
        · left; exact hh
        · right; rw [hheadsc, htake] at hh; simp at hh; rw [hhead, hh])
      (by
        intro x
        simp [Trie.pairs, hpairs])
    exact ⟨s', _, by rw [hfin]; exact hs', hpost⟩
  · -- the new key goes to the left
    have hlt : kf[i] < c := by omega
    obtain ⟨ch, added, hext, hlenA, hrepc, hpairs, hheadsc, hndc, hposc, hvis, hordc, hordw⟩ :=
      extend_fresh kn (d : Int) ⟨root, nodes1, nullIndexPointer⟩ rfl (kf.drop i) hdropne hdascii
    simp only at hext hrepc hposc
    obtain ⟨nodes3, hnodes3⟩ : ∃ l : List indexNode, l = nodes1 ++ added := ⟨_, rfl⟩
    rw [← hnodes3] at hext hrepc
    have hold3 : ∀ q, q < d + 1 → nodes3[q]? = nodes1[q]? := by
      intro q hq; rw [hnodes3, List.getElem?_append_left (by omega)]
    have hd3 : nodes3[d]? = some ⟨stD, nullIndexPointer, 32, nullIndexPointer⟩ := by
      rw [hold3 _ (by omega)]; exact hd1
    have hn3 : nodes3[t.pos]? = some n := by rw [hold3 _ (by omega)]; exact hroot1
    obtain ⟨nodes6, hnodes6⟩ : ∃ l : List indexNode,
      l = nodes3.set d ⟨stD, ch.root, kf[i], t.root⟩ := ⟨_, rfl⟩
    have h4 := setLeft_mk root nullIndexPointer nodes3 d _ ch.root hd3
    have h5 := setKey_mk root nullIndexPointer _ d _ kf[i] (getElem?_set_self' _ _ _
      { (⟨stD, nullIndexPointer, 32, nullIndexPointer⟩ : indexNode) with leftPointer := ch.root }
      hd3)
    have h6 := setRight_mk root nullIndexPointer _ d _ t.root (getElem?_set_self' _ _ _
      { (⟨stD, ch.root, 32, nullIndexPointer⟩ : indexNode) with key := kf[i] }
      (getElem?_set_self' _ _ _
      { (⟨stD, nullIndexPointer, 32, nullIndexPointer⟩ : indexNode) with leftPointer := ch.root }
      hd3))
    simp only [List.set_set] at h5 h6
    rw [← hnodes6] at h6
    have hnodes6_ne : ∀ q, q ≠ d → nodes6[q]? = nodes3[q]? := by
      intro q hq; rw [hnodes6, List.getElem?_set_ne (Ne.symm hq)]
    have hnodes6_d : nodes6[d]? = some ⟨stD, ch.root, kf[i], t.root⟩ := by
      rw [hnodes6]; exact getElem?_set_self' _ _ _ _ hd3
    have hrep6t : Rep nodes6 t th := by
      apply Rep_congr nodes nodes6 t _ _ hrep
      intro q hq
      have := hlen q hq
      rw [hnodes6_ne q (by omega), hold3 q (by omega), hold1 q (by omega)]
    have hrep6c : Rep nodes6 ch (d : Int) := by
      apply Rep_congr nodes3 nodes6 ch _ _ hrepc
      intro q hq
      have := hposc q hq
      exact hnodes6_ne q (by omega)
    have hfin : insertFinish fuelF kn
        ⟨⟨root, nodes, nullIndexPointer⟩, kf, t.root, prev, dupFlag, i⟩
        = insertRelink ⟨root, nodes6, nullIndexPointer⟩ prev dupFlag [kf[i]] (d : Int) := by
      have hnk : ¬ ([kf[i]] = [c]) := by simpa using hne
      have hlt1 : strLt [c] [kf[i]] = false := by simp [strLt_single]; omega
      have hlt2 : strLt [kf[i]] [c] = true := by simp [strLt_single, hlt]
      simp only [insertFinish, bind, Except.bind, nodeAt_mk _ _ _ _ _ hroot, Trie.root,
        sliceAt_lt kf i hi, hkey, runeString_ascii c hc, hnk, if_false, halloc,
        nodeAt_mk _ _ _ _ _ hroot1, hlt1]
      simp only [Trie.root] at hext h4 h5 h6
      simp only [Bool.false_eq_true, if_false, hext, nodeAt_mk _ _ _ _ _ hn3, hkey,
        runeString_ascii c hc, hlt2, if_true, h4, List.headD_cons, h5, h6]
    have hordch : Ordered sec ch := by
      rcases hmode with ⟨h1, _⟩ | ⟨h1, _, h3⟩
      · rw [h1]; exact hordc
      · rw [h1]; exact hordw _ (by rw [← h3, List.take_append_drop])
    have htake : (kf.drop i).take 1 = [kf[i]] := by
      rw [List.drop_eq_getElem_cons hi]; rfl
    have hhead : (kf.drop i).head? = some kf[i] := by
      rw [List.drop_eq_getElem_cons hi]; rfl
    obtain ⟨s', hs', hpost⟩ := relink_post root nodes nodes6 t (Trie.D d kf[i] ch t) th prev
      leftSide dupFlag sec (kf.drop i) kn kf[i] hprev
      (by simp only [Rep]; exact ⟨hnodes6_d, hrep6c, hrep6t⟩)
      (by
        have : Ordered sec (Trie.D d kf[i] ch t) ↔ kf[i] < 128 ∧ (∀ h ∈ ch.heads, h ≤ kf[i])
            ∧ (∀ h ∈ t.heads, kf[i] < h) ∧ Ordered sec ch ∧ Ordered sec t := by
          cases sec <;> simp [Ordered]
        rw [this]
        refine ⟨hk128, ?_, ?_, hordch, hord⟩
        · intro h hh; rw [hheadsc, htake] at hh; simp at hh; omega
        · intro h hh; rw [hheads] at hh; simp at hh; omega)
      (by
        simp only [Trie.positions, List.nodup_cons, List.nodup_append, List.mem_append, not_or]
        refine ⟨⟨?_, ?_⟩, hndc, hnd, ?_⟩
        · intro h; have := hposc _ h; omega
        · intro h; have := hlen _ h; omega
        · intro q h1 h2; have := hlen _ h2; have := hposc _ h1; omega)
      (by
        intro q hq
        simp only [Trie.positions, List.mem_cons, List.mem_append] at hq
        rcases hq with h | h | h
        · right; omega
        · right; have := hposc _ h; omega
        · left; exact h)
      (by rw [hnodes6, List.length_set, hnodes3, List.length_append]; omega)
      (by
        intro q hq hqt
        rw [hnodes6_ne q (by omega), hold3 q (by omega), hold1 q (by omega)])
      (by
        intro h hh
        simp only [Trie.heads, List.mem_append] at hh
        rcases hh with hh | hh
        · right; rw [hheadsc, htake] at hh; simp at hh; rw [hhead, hh]
        · left; exact hh)
      (by
        intro x
        simp [Trie.pairs, hpairs, or_comm])
    exact ⟨s', _, by rw [hfin]; exact hs', hpost⟩

theorem post_inplace (root : Int) (nodes nodes' : List indexNode) (t t' : Trie) (th prev : Int)
    (leftSide dupFlag : Bool) (sec : Option (List Nat)) (newKey : List Nat) (kn : Int) (cb : Nat)
    (hprev : PrevLink nodes root t prev leftSide cb dupFlag)
    (hrep : Rep nodes' t' th) (hord : Ordered sec t') (hnd : t'.positions.Nodup)
    (hpos : ∀ q ∈ t'.positions, q ∈ t.positions ∨ nodes.length ≤ q)
    (hlen : nodes.length ≤ nodes'.length)
    (hframe : ∀ q : Nat, q < nodes.length → q ∉ t.positions → nodes'[q]? = nodes[q]?)
    (hroot : t'.root = t.root)
    (hheads : ∀ h ∈ t'.heads, h ∈ t.heads ∨ newKey.head? = some h)
    (hpairs : ∀ x, x ∈ t'.pairs ↔ x ∈ t.pairs ∨ x = (newKey, kn)) :
    InsertPost nodes root t th prev leftSide sec newKey kn ⟨root, nodes', nullIndexPointer⟩ t' :=
  { free_empty := rfl
    rep := hrep
    ordered := hord
    nodup := hnd
    pos_new := hpos
    length_le := hlen
    frame := fun q hq hqt _ => hframe q hq hqt
    root_link := by
      intro h
      rcases hprev with ⟨_, h2⟩ | ⟨pp, pn, hp, _⟩
      · simp only; rw [hroot]; exact h2
      · exact absurd (hp ▸ h) (natCast_ne_null pp)
    parent_link := by
      intro pp pn h1 h2
      rcases hprev with ⟨h, _⟩ | ⟨pp', pn', hp, hpn, hppt, hptr, _⟩
      · exact absurd (h1 ▸ h) (natCast_ne_null pp)
      · have : pp' = pp := by rw [h1] at hp; exact_mod_cast hp.symm
        subst this
        rw [hpn] at h2
        cases h2
        refine ⟨rfl, ?_⟩
        simp only
        rw [hframe pp' (getElem?_some_lt nodes pp' _ hpn) hppt, hpn, hroot]
        cases leftSide
        · simp at hptr ⊢; rw [← hptr]
        · simp at hptr ⊢; rw [← hptr]
    heads := hheads
    pairs := hpairs }

theorem set_set_self (nodes : List indexNode) (q : Nat) (a b : indexNode) :
    (nodes.set q a).set q b = nodes.set q b := by
  simp [List.set_set]

/-- The walk ends on a character node with the last byte of the key. -/
theorem finish_char_end (root : Int) (nodes : List indexNode) (p c : Nat) (next : Trie)
    (th : Int) (kf : List Nat) (i : Nat) (kn : Int) (prev : Int) (dupFlag leftSide : Bool)
    (sec : Option (List Nat)) (fuelF : Nat)
    (hrep : Rep nodes (Trie.X p c next) th) (hnd : (Trie.X p c next).positions.Nodup)
    (hord : Ordered sec (Trie.X p c next))
    (hi : i < kf.length) (hc : kf[i] = c) (hlast : i + 1 = kf.length)
    (hmode : WalkMode sec dupFlag kf i kn)
    (hprev : PrevLink nodes root (Trie.X p c next) prev leftSide kf[i] dupFlag) :
    ∃ s' t', insertFinish fuelF kn ⟨⟨root, nodes, nullIndexPointer⟩, kf, (p : Int), prev, dupFlag, i⟩
        = .ok s'
      ∧ InsertPost nodes root (Trie.X p c next) th prev leftSide sec (kf.drop i) kn s' t' := by
  have hc128 : c < 128 := by cases sec <;> simp [Ordered] at hord <;> omega
  simp only [Rep] at hrep
  have hdrop : kf.drop i = [c] := by
    rw [List.drop_eq_getElem_cons hi, hc, List.drop_of_length_le (by omega)]
  refine ⟨⟨root, nodes.set p ⟨stR, kn, c, next.root⟩, nullIndexPointer⟩, Trie.R p c kn next, ?_, ?_⟩
  · have h1 := setStatus_mk root nullIndexPointer nodes p _ stR hrep.1
    have h2 := setLeft_mk root nullIndexPointer _ p _ kn
      (getElem?_set_self' nodes p _
        { (⟨stX, nullIndexPointer, c, next.root⟩ : indexNode) with status := stR } hrep.1)
    simp only [List.set_set] at h2
    simp only [insertFinish, bind, Except.bind, nodeAt_mk _ _ _ _ _ hrep.1, sliceAt_lt kf i hi, hc,
      runeString_ascii c hc128, if_true, h1, h2]
  · apply post_inplace root nodes _ _ _ th prev leftSide dupFlag sec _ kn kf[i] hprev
    · simp only [Rep]
      refine ⟨getElem?_set_self' nodes p _ _ hrep.1, ?_⟩
      simp only [Trie.positions, List.nodup_cons] at hnd
      exact Rep_set_other nodes next th p _ hnd.1 hrep.2
    · rcases hmode with ⟨h1, _⟩ | ⟨h1, _, h3⟩
      · subst h1; simp only [Ordered] at hord ⊢; exact hord
      · subst h1; simp only [Ordered] at hord ⊢
        refine ⟨hord.1, ?_, hord.2⟩
        rw [← h3, ← hc]
        have := List.take_append_drop i kf
        rw [List.drop_eq_getElem_cons hi, List.drop_of_length_le (by omega)] at this
        exact this.symm
    · exact hnd
    · intro q hq; left; exact hq
    · simp
    · intro q hq hqt
      have : p ≠ q := by intro h; apply hqt; simp [Trie.positions, h]
      rw [List.getElem?_set_ne this]
    · rfl
    · intro h hh; left; exact hh
    · intro x
      rw [hdrop]
      simp only [Trie.pairs, List.mem_cons]
      exact or_comm


/-- The walk ends on a leaf and bytes of the key remain. -/
theorem finish_extend_leaf (root : Int) (nodes : List indexNode) (p c : Nat) (id : Int)
    (th : Int) (kf : List Nat) (i : Nat) (kn : Int) (prev : Int) (dupFlag leftSide : Bool)
    (sec : Option (List Nat)) (fuelF : Nat)
    (hrep : Rep nodes (Trie.S p c id) th)
    (hord : Ordered sec (Trie.S p c id))
    (hi : i < kf.length) (hc : kf[i] = c) (hlast : i + 1 < kf.length)
    (hascii : ∀ b ∈ kf, b < 128)
    (hmode : WalkMode sec dupFlag kf i kn)
    (hprev : PrevLink nodes root (Trie.S p c id) prev leftSide kf[i] dupFlag) :
    ∃ s' t', insertFinish fuelF kn ⟨⟨root, nodes, nullIndexPointer⟩, kf, (p : Int), prev, dupFlag, i⟩
        = .ok s'
      ∧ InsertPost nodes root (Trie.S p c id) th prev leftSide sec (kf.drop i) kn s' t' := by
  have hc128 : c < 128 := by cases sec <;> simp [Ordered] at hord <;> omega
  simp only [Rep] at hrep
  have hplt := getElem?_some_lt nodes p _ hrep
  have hdrop : kf.drop i = c :: kf.drop (i + 1) := by
    rw [List.drop_eq_getElem_cons hi, hc]
  have hdropne : kf.drop (i + 1) ≠ [] := by simp; omega
  have hdascii : ∀ b ∈ kf.drop (i + 1), b < 128 :=
    fun b hb => hascii b (List.mem_of_mem_drop hb)
  obtain ⟨ch, added, hext, hlenA, hrepc, hpairs, hheadsc, hndc, hposc, hvis, hordc, hordw⟩ :=
    extend_fresh kn th ⟨root, nodes, nullIndexPointer⟩ rfl (kf.drop (i + 1)) hdropne hdascii
  simp only at hext hrepc hposc
  have hp1 : (nodes ++ added)[p]? = some ⟨stS, id, c, th⟩ := by
    rw [List.getElem?_append_left hplt]; exact hrep
  refine ⟨⟨root, (nodes ++ added).set p ⟨stR, id, c, ch.root⟩, nullIndexPointer⟩,
    Trie.R p c id ch, ?_, ?_⟩
  · have h1 := setStatus_mk root nullIndexPointer (nodes ++ added) p _ stR hp1
    have h2 := setRight_mk root nullIndexPointer _ p _ ch.root
      (getElem?_set_self' (nodes ++ added) p _
        { (⟨stS, id, c, th⟩ : indexNode) with status := stR } hp1)
    simp only [List.set_set] at h2
    have hsx : ¬ (stS = stX) := by decide
    simp only [insertFinish, bind, Except.bind, nodeAt_mk _ _ _ _ _ hrep, sliceAt_lt kf i hi, hc,
      runeString_ascii c hc128, if_true, hsx, if_false, hext, nodeAt_mk _ _ _ _ _ hp1, h1, h2]
  · apply post_inplace root nodes _ _ _ th prev leftSide dupFlag sec _ kn kf[i] hprev
    · simp only [Rep]
      refine ⟨getElem?_set_self' _ p _ _ hp1, ?_⟩
      apply Rep_set_other _ ch th p _ _ hrepc
      intro h; have := hposc _ h; omega
    · rcases hmode with ⟨h1, _⟩ | ⟨h1, _, h3⟩
      · subst h1; simp only [Ordered] at hord ⊢; exact ⟨hord, hordc⟩
      · subst h1; simp only [Ordered] at hord ⊢
        refine ⟨hord.1, hord.2, hordw _ ?_⟩
        rw [← h3, ← hc, List.append_assoc]
        have := List.take_append_drop i kf
        rw [List.drop_eq_getElem_cons hi] at this
        exact this.symm
    · simp only [Trie.positions, List.nodup_cons]
      refine ⟨?_, hndc⟩
      intro h; have := hposc _ h; omega
    · intro q hq
      simp only [Trie.positions, List.mem_cons] at hq ⊢
      rcases hq with h | h
      · left; simp [h]
      · right; exact (hposc _ h).1
    · simp
    · intro q hq hqt
      have : p ≠ q := by intro h; apply hqt; simp [Trie.positions, h]
      rw [List.getElem?_set_ne this, List.getElem?_append_left hq]
    · rfl
    · intro h hh; left; exact hh
    · intro x
      rw [hdrop]
      simp [Trie.pairs, hpairs]

/-- The walk ends on a duplicate leaf and bytes of the key remain. -/
theorem finish_extend_dup (root : Int) (nodes : List indexNode) (p c : Nat) (dup : Trie)
    (th : Int) (kf : List Nat) (i : Nat) (kn : Int) (prev : Int) (dupFlag leftSide : Bool)
    (sec : Option (List Nat)) (fuelF : Nat)
    (hrep : Rep nodes (Trie.L p c dup) th) (hnd : (Trie.L p c dup).positions.Nodup)
    (hord : Ordered sec (Trie.L p c dup))
    (hi : i < kf.length) (hc : kf[i] = c) (hlast : i + 1 < kf.length)
    (hascii : ∀ b ∈ kf, b < 128)
    (hprev : PrevLink nodes root (Trie.L p c dup) prev leftSide kf[i] dupFlag) :
    ∃ s' t', insertFinish fuelF kn ⟨⟨root, nodes, nullIndexPointer⟩, kf, (p : Int), prev, dupFlag, i⟩
        = .ok s'
      ∧ InsertPost nodes root (Trie.L p c dup) th prev leftSide sec (kf.drop i) kn s' t' := by
  have hsec : sec = none := by
    cases sec
    · rfl
    · simp [Ordered] at hord
  subst hsec
  simp only [Ordered] at hord
  have hc128 : c < 128 := hord.1
  have hlen := Rep_lt nodes _ th hrep
  simp only [Rep] at hrep
  have hplt := getElem?_some_lt nodes p _ hrep.1
  have hdrop : kf.drop i = c :: kf.drop (i + 1) := by
    rw [List.drop_eq_getElem_cons hi, hc]
  have hdropne : kf.drop (i + 1) ≠ [] := by simp; omega
  have hdascii : ∀ b ∈ kf.drop (i + 1), b < 128 :=
    fun b hb => hascii b (List.mem_of_mem_drop hb)
  obtain ⟨ch, added, hext, hlenA, hrepc, hpairs, hheadsc, hndc, hposc, hvis, hordc, hordw⟩ :=
    extend_fresh kn th ⟨root, nodes, nullIndexPointer⟩ rfl (kf.drop (i + 1)) hdropne hdascii
  simp only at hext hrepc hposc
  have hp1 : (nodes ++ added)[p]? = some ⟨stL, dup.root, c, th⟩ := by
    rw [List.getElem?_append_left hplt]; exact hrep.1
  simp only [Trie.positions, List.nodup_cons] at hnd
  refine ⟨⟨root, (nodes ++ added).set p ⟨stK, dup.root, c, ch.root⟩, nullIndexPointer⟩,
    Trie.K p c dup ch, ?_, ?_⟩
  · have h1 := setStatus_mk root nullIndexPointer (nodes ++ added) p _ stK hp1
    have h2 := setRight_mk root nullIndexPointer _ p _ ch.root
      (getElem?_set_self' (nodes ++ added) p _
        { (⟨stL, dup.root, c, th⟩ : indexNode) with status := stK } hp1)
    simp only [List.set_set] at h2
    have hsx : ¬ (stL = stX) := by decide
    have hss : ¬ (stL = stS) := by decide
    simp only [insertFinish, bind, Except.bind, nodeAt_mk _ _ _ _ _ hrep.1, sliceAt_lt kf i hi, hc,
      runeString_ascii c hc128, if_true, hsx, hss, if_false, hext, nodeAt_mk _ _ _ _ _ hp1, h1, h2]
  · apply post_inplace root nodes _ _ _ th prev leftSide dupFlag none _ kn kf[i] hprev
    · simp only [Rep]
      refine ⟨getElem?_set_self' _ p _ _ hp1, ?_, ?_⟩
      · apply Rep_set_other _ dup _ p _ hnd.1
        exact Rep_append _ _ dup _ hrep.2
      · apply Rep_set_other _ ch th p _ _ hrepc
        intro h; have := hposc _ h; omega
    · simp only [Ordered]; exact ⟨hord.1, hord.2, hordc⟩
    · simp only [Trie.positions, List.nodup_cons, List.nodup_append, List.mem_append, not_or]
      refine ⟨⟨hnd.1, ?_⟩, hnd.2, hndc, ?_⟩
      · intro h; have := hposc _ h; omega
      · intro q h1 h2
        have := hlen q (by simp [Trie.positions, h1])
        have := hposc _ h2
        omega
    · intro q hq
      simp only [Trie.positions, List.mem_cons, List.mem_append] at hq ⊢
      rcases hq with h | h | h
      · left; simp [h]
      · left; simp [h]
      · right; exact (hposc _ h).1
    · simp
    · intro q hq hqt
      have : p ≠ q := by intro h; apply hqt; simp [Trie.positions, h]
      rw [List.getElem?_set_ne this, List.getElem?_append_left hq]
    · rfl
    · intro h hh; left; exact hh
    · intro x
      rw [hdrop]
      simp [Trie.pairs, hpairs]

/-! ### One turn of the searching loop of `Insert` -/

theorem insertRun_step (kn : Int) (f F : Nat) (st st' : InsertState)
    (h : insertLoop kn (f + 1) st = insertLoop kn f st') :
    insertRun (f + 1) F kn st = insertRun f F kn st' := by
  simp only [insertRun, h]

theorem insertRun_stop (kn : Int) (f F : Nat) (st : InsertState)
    (h : insertLoop kn (f + 1) st = .ok (.inr st)) :
    insertRun (f + 1) F kn st = insertFinish F kn st := by
  simp only [insertRun, h]

theorem insertRun_return (kn : Int) (f F : Nat) (st : InsertState) (s : Index)
    (h : insertLoop kn (f + 1) st = .ok (.inl s)) :
    insertRun (f + 1) F kn st = .ok s := by
  simp only [insertRun, h]

theorem visits_le_span (t : Trie) : t.visits ≤ t.span := by
  induction t with
  | S p c id => simp [Trie.visits, Trie.span]
  | R p c id next ih => simp [Trie.visits, Trie.span]; omega
  | X p c next ih => simp [Trie.visits, Trie.span]; omega
  | L p c dup ih => simp [Trie.visits, Trie.span]
  | K p c dup next ihd ihn => simp [Trie.visits, Trie.span]; omega
  | D p c l r ihl ihr => simp [Trie.visits, Trie.span]; omega

theorem visits_le_need (b : Bool) (t : Trie) : t.visits ≤ need b t := by
  cases b
  · simpa [need] using visits_le_span t
  · simp [need]

theorem need_pos (b : Bool) (t : Trie) : 1 ≤ need b t := by
  have := visits_le_need b t
  have : 1 ≤ t.visits := by cases t <;> simp [Trie.visits] <;> omega
  omega

theorem need_D (b : Bool) (p c : Nat) (l r : Trie) :
    need b (Trie.D p c l r) = 2 + need b l + need b r := by
  cases b <;> simp [need, Trie.visits, Trie.span]

theorem ordered_D (sec : Option (List Nat)) (p c : Nat) (l r : Trie) :
    Ordered sec (Trie.D p c l r) ↔ c < 128 ∧ (∀ h ∈ l.heads, h ≤ c)
      ∧ (∀ h ∈ r.heads, c < h) ∧ Ordered sec l ∧ Ordered sec r := by
  cases sec <;> simp [Ordered]

theorem head?_drop (kf : List Nat) (i : Nat) (hi : i < kf.length) :
    (kf.drop i).head? = some kf[i] := by
  rw [List.drop_eq_getElem_cons hi]; rfl

theorem post_unpack (nodes : List indexNode) (root : Int) (u : Trie) (thu : Int) (p : Nat)
    (cs : Bool) (secu : Option (List Nat)) (nk : List Nat) (kn : Int) (s' : Index) (u' : Trie)
    (pn : indexNode) (hpost : InsertPost nodes root u thu (p : Int) cs secu nk kn s' u')
    (hnode : nodes[p]? = some pn) :
    s' = ⟨root, s'.node, nullIndexPointer⟩
      ∧ s'.node[p]? = some (if cs then { pn with leftPointer := u'.root }
                            else { pn with rightPointer := u'.root }) := by
  obtain ⟨h1, h2⟩ := hpost.parent_link p pn rfl hnode
  have h3 := hpost.free_empty
  obtain ⟨root', nodes', dr'⟩ := s'
  simp only at h1 h2 h3 ⊢
  rw [h1, h3]
  exact ⟨rfl, h2⟩

theorem post_sibling (nodes : List indexNode) (root : Int) (u : Trie) (thu : Int) (p : Nat)
    (cs : Bool) (secu : Option (List Nat)) (nk : List Nat) (kn : Int) (s' : Index) (u' : Trie)
    (hpost : InsertPost nodes root u thu (p : Int) cs secu nk kn s' u')
    (w : Trie) (thw : Int) (hw : Rep nodes w thw) (hpw : p ∉ w.positions)
    (hdisj : ∀ q ∈ w.positions, q ∉ u.positions) : Rep s'.node w thw := by
  apply Rep_congr nodes s'.node w thw _ hw
  intro q hq
  apply hpost.frame q (Rep_lt nodes w thw hw q hq) (hdisj q hq)
  intro h
  have : q = p := by exact_mod_cast h
  exact hpw (this ▸ hq)

theorem post_fresh (nodes : List indexNode) (root : Int) (u : Trie) (thu : Int) (prev : Int)
    (cs : Bool) (secu : Option (List Nat)) (nk : List Nat) (kn : Int) (s' : Index) (u' : Trie)
    (hpost : InsertPost nodes root u thu prev cs secu nk kn s' u')
    (q : Nat) (hq : q ∈ u'.positions) (hlt : q < nodes.length) : q ∈ u.positions := by
  rcases hpost.pos_new q hq with h | h
  · exact h
  · omega

theorem insert_D (kn : Int) (dupFlag : Bool) (p c : Nat) (l r : Trie)
    (ihl : InsertSpec kn dupFlag l) (ihr : InsertSpec kn dupFlag r) :
    InsertSpec kn dupFlag (Trie.D p c l r) := by
  intro root nodes th kf i prev leftSide sec fuelL fuelF hrep hnd hord hi hascii hmode hprev hfL hfF
  rw [need_D] at hfL hfF
  obtain ⟨f, rfl⟩ : ∃ f, fuelL = f + 1 := ⟨fuelL - 1, by omega⟩
  rw [ordered_D] at hord
  obtain ⟨hc128, hhl, hhr, hol, hor⟩ := hord
  have hlen := Rep_lt nodes _ th hrep
  simp only [Rep] at hrep
  obtain ⟨hnode, hrl, hrr⟩ := hrep
  simp only [Trie.positions, List.nodup_cons, List.nodup_append, List.mem_append, not_or] at hnd
  obtain ⟨⟨hpl, hpr⟩, hndl, hndr, hdisj⟩ := hnd
  have hplt := getElem?_some_lt nodes p _ hnode
  by_cases hle : kf[i] ≤ c
  · -- to the left
    have hstep : insertLoop kn (f + 1)
        ⟨⟨root, nodes, nullIndexPointer⟩, kf, (Trie.D p c l r).root, prev, dupFlag, i⟩
        = insertLoop kn f ⟨⟨root, nodes, nullIndexPointer⟩, kf, l.root, (p : Int), dupFlag, i⟩ := by
      have h1 : ¬ (stD = stR ∨ stD = stS) := by decide
      simp [insertLoop, nodeAt_mk _ _ _ _ _ hnode, bind, Except.bind, h1, sliceAt_lt kf i hi,
        runeString_ascii c hc128, strLe_single, hle]
    rw [insertRun_step kn f fuelF _ _ hstep]
    have hlink : PrevLink nodes root l (p : Int) true kf[i] dupFlag := by
      right
      refine ⟨p, _, rfl, hnode, hpl, rfl, ?_⟩
      simp [runeString_ascii c hc128, strLe_single, hle]
    obtain ⟨s', l', hrun, hpost⟩ := ihl root nodes (p : Int) kf i (p : Int) true sec f fuelF
      hrl hndl hol hi hascii hmode hlink (by omega) (by omega)
    obtain ⟨root', nodes', dr'⟩ := s'
    have hpl' := hpost.parent_link p _ rfl hnode
    have hfree := hpost.free_empty
    simp only at hpl' hfree
    obtain ⟨hroot', hnode'⟩ := hpl'
    have hs' : (⟨root', nodes', dr'⟩ : Index) = ⟨root, nodes', nullIndexPointer⟩ := by
      rw [hroot', hfree]
    rw [hs'] at hrun hpost
    refine ⟨_, Trie.D p c l' r, hrun, ?_⟩
    have hposl' : ∀ q ∈ l'.positions, q ∈ l.positions ∨ nodes.length ≤ q := hpost.pos_new
    apply post_inplace root nodes nodes' _ _ th prev leftSide dupFlag sec _ kn kf[i] hprev
    · simp only [Rep]
      refine ⟨by simpa using hnode', hpost.rep, ?_⟩
      apply Rep_congr nodes nodes' r th _ hrr
      intro q hq
      have hq1 : q < nodes.length := hlen q (by simp [Trie.positions, hq])
      have hq2 : q ∉ l.positions := fun h => hdisj h hq
      have hq3 : (q : Int) ≠ (p : Int) := by
        intro h; have : q = p := by exact_mod_cast h
        exact hpr (this ▸ hq)
      exact hpost.frame q hq1 hq2 hq3
    · rw [ordered_D]
      refine ⟨hc128, ?_, hhr, hpost.ordered, hor⟩
      intro h hh
      rcases hpost.heads h hh with h1 | h1
      · exact hhl h h1
      · rw [head?_drop kf i hi] at h1; cases h1; exact hle
    · simp only [Trie.positions, List.nodup_cons, List.nodup_append, List.mem_append, not_or]
      refine ⟨⟨?_, hpr⟩, hpost.nodup, hndr, ?_⟩
      · intro h
        rcases hposl' p h with h1 | h1
        · exact hpl h1
        · omega
      · intro q h1 h2
        rcases hposl' q h1 with h3 | h3
        · exact hdisj h3 h2
        · have := hlen q (by simp [Trie.positions, h2]); omega
    · intro q hq
      simp only [Trie.positions, List.mem_cons, List.mem_append] at hq ⊢
      rcases hq with h | h | h
      · left; left; exact h
      · rcases hposl' q h with h1 | h1
        · left; right; left; exact h1
        · right; exact h1
      · left; right; right; exact h
    · exact hpost.length_le
    · intro q hq hqt
      simp only [Trie.positions, List.mem_cons, List.mem_append, not_or] at hqt
      exact hpost.frame q hq hqt.2.1 (by intro h; exact hqt.1 (by exact_mod_cast h))
    · rfl
    · intro h hh
      simp only [Trie.heads, List.mem_append] at hh ⊢
      rcases hh with h1 | h1
      · rcases hpost.heads h h1 with h2 | h2
        · left; left; exact h2
        · right; exact h2
      · left; right; exact h1
    · intro x
      simp only [Trie.pairs, List.mem_append, hpost.pairs x]
      tauto
  · -- to the right
    have hstep : insertLoop kn (f + 1)
        ⟨⟨root, nodes, nullIndexPointer⟩, kf, (Trie.D p c l r).root, prev, dupFlag, i⟩
        = insertLoop kn f ⟨⟨root, nodes, nullIndexPointer⟩, kf, r.root, (p : Int), dupFlag, i⟩ := by
      have h1 : ¬ (stD = stR ∨ stD = stS) := by decide
      simp [insertLoop, nodeAt_mk _ _ _ _ _ hnode, bind, Except.bind, h1, sliceAt_lt kf i hi,
        runeString_ascii c hc128, strLe_single, hle]
    rw [insertRun_step kn f fuelF _ _ hstep]
    have hlink : PrevLink nodes root r (p : Int) false kf[i] dupFlag := by
      right
      refine ⟨p, _, rfl, hnode, hpr, rfl, ?_⟩
      have h1 : ¬ (stD = stL) := by decide
      have h2 : ¬ (stD = stK) := by decide
      simp [runeString_ascii c hc128, strLe_single, hle, h1, h2]
    obtain ⟨s', r', hrun, hpost⟩ := ihr root nodes th kf i (p : Int) false sec f fuelF
      hrr hndr hor hi hascii hmode hlink (by omega) (by omega)
    obtain ⟨hs', hnode'⟩ := post_unpack _ _ _ _ _ _ _ _ _ _ _ _ hpost hnode
    rw [hs'] at hrun
    refine ⟨_, Trie.D p c l r', hrun, ?_⟩
    rw [hs']
    apply post_inplace root nodes s'.node _ _ th prev leftSide dupFlag sec _ kn kf[i] hprev
    · simp only [Rep]
      refine ⟨by simpa using hnode', ?_, hpost.rep⟩
      exact post_sibling _ _ _ _ _ _ _ _ _ _ _ hpost l _ hrl hpl (fun q hq h => hdisj hq h)
    · rw [ordered_D]
      refine ⟨hc128, hhl, ?_, hol, hpost.ordered⟩
      intro h hh
      rcases hpost.heads h hh with h1 | h1
      · exact hhr h h1
      · rw [head?_drop kf i hi] at h1; cases h1; omega
    · simp only [Trie.positions, List.nodup_cons, List.nodup_append, List.mem_append, not_or]
      refine ⟨⟨hpl, ?_⟩, hndl, hpost.nodup, ?_⟩
      · intro h; exact hpr (post_fresh _ _ _ _ _ _ _ _ _ _ _ hpost p h hplt)
      · intro q h1 h2
        have hq := hlen q (by simp [Trie.positions, h1])
        exact hdisj h1 (post_fresh _ _ _ _ _ _ _ _ _ _ _ hpost q h2 hq)
    · intro q hq
      simp only [Trie.positions, List.mem_cons, List.mem_append] at hq ⊢
      rcases hq with h | h | h
      · left; left; exact h
      · left; right; left; exact h
      · rcases hpost.pos_new q h with h1 | h1
        · left; right; right; exact h1
        · right; exact h1
    · exact hpost.length_le
    · intro q hq hqt
      simp only [Trie.positions, List.mem_cons, List.mem_append, not_or] at hqt
      exact hpost.frame q hq hqt.2.2 (by intro h; exact hqt.1 (by exact_mod_cast h))
    · rfl
    · intro h hh
      simp only [Trie.heads, List.mem_append] at hh ⊢
      rcases hh with h1 | h1
      · left; left; exact h1
      · rcases hpost.heads h h1 with h2 | h2
        · left; right; exact h2
        · right; exact h2
    · intro x
      simp only [Trie.pairs, List.mem_append, hpost.pairs x]
      tauto

theorem ordered_X (sec : Option (List Nat)) (p c : Nat) (next : Trie) :
    Ordered sec (Trie.X p c next) ↔ c < 128 ∧ Ordered (sec.map (· ++ [c])) next := by
  cases sec <;> simp [Ordered]

theorem ordered_R (sec : Option (List Nat)) (p c : Nat) (id : Int) (next : Trie) :
    Ordered sec (Trie.R p c id next) ↔ c < 128 ∧ (∀ w, sec = some w → itoa id = w ++ [c])
      ∧ Ordered (sec.map (· ++ [c])) next := by
  cases sec <;> simp [Ordered]

theorem ordered_S (sec : Option (List Nat)) (p c : Nat) (id : Int) :
    Ordered sec (Trie.S p c id) ↔ c < 128 ∧ (∀ w, sec = some w → itoa id = w ++ [c]) := by
  cases sec <;> simp [Ordered]

theorem take_succ_eq (kf : List Nat) (i : Nat) (hi : i < kf.length) :
    kf.take (i + 1) = kf.take i ++ [kf[i]] := by
  rw [List.take_succ, List.getElem?_eq_getElem hi]
  rfl

theorem walkMode_next (sec : Option (List Nat)) (dupFlag : Bool) (kf : List Nat) (i : Nat)
    (kn : Int) (c : Nat) (hi : i < kf.length) (hc : kf[i] = c)
    (h : WalkMode sec dupFlag kf i kn) :
    WalkMode (sec.map (· ++ [c])) dupFlag kf (i + 1) kn := by
  rcases h with ⟨h1, h2⟩ | ⟨h1, h2, h3⟩
  · left; subst h1; exact ⟨rfl, h2⟩
  · right; subst h1
    refine ⟨?_, h2, h3⟩
    simp [take_succ_eq kf i hi, hc]

theorem mem_map_cons (c : Nat) (ps : List (List Nat × Int)) (x : List Nat × Int) :
    x ∈ ps.map (fun y => (c :: y.1, y.2)) ↔ ∃ w, x.1 = c :: w ∧ (w, x.2) ∈ ps := by
  constructor
  · intro h
    simp only [List.mem_map] at h
    obtain ⟨y, hy, e⟩ := h
    exact ⟨y.1, by rw [← e], by rw [← e]; exact hy⟩
  · rintro ⟨w, e, h⟩
    simp only [List.mem_map]
    exact ⟨(w, x.2), h, by rw [← e]⟩

theorem need_X (b : Bool) (p c : Nat) (next : Trie) :
    need b (Trie.X p c next) = 1 + need b next := by
  cases b <;> simp [need, Trie.visits, Trie.span]

theorem insert_X (kn : Int) (dupFlag : Bool) (p c : Nat) (next : Trie)
    (ih : InsertSpec kn dupFlag next) :
    InsertSpec kn dupFlag (Trie.X p c next) := by
  intro root nodes th kf i prev leftSide sec fuelL fuelF hrep hnd hord hi hascii hmode hprev hfL hfF
  rw [need_X] at hfL hfF
  obtain ⟨f, rfl⟩ : ∃ f, fuelL = f + 1 := ⟨fuelL - 1, by omega⟩
  have hord0 := hord
  have hrep0 := hrep
  have hnd0 := hnd
  rw [ordered_X] at hord
  obtain ⟨hc128, hon⟩ := hord
  have hlen := Rep_lt nodes _ th hrep
  simp only [Rep] at hrep
  obtain ⟨hnode, hrn⟩ := hrep
  simp only [Trie.positions, List.nodup_cons] at hnd
  obtain ⟨hpn, hndn⟩ := hnd
  have hplt := getElem?_some_lt nodes p _ hnode
  have hx1 : ¬ (stX = stR ∨ stX = stS) := by decide
  have hx2 : ¬ (stX = stD) := by decide
  have hx3 : ¬ (stX = stK ∨ stX = stL) := by decide
  by_cases hc : kf[i] = c
  · by_cases hlast : i + 1 = kf.length
    · have hstop : insertLoop kn (f + 1)
          ⟨⟨root, nodes, nullIndexPointer⟩, kf, (Trie.X p c next).root, prev, dupFlag, i⟩
          = .ok (.inr ⟨⟨root, nodes, nullIndexPointer⟩, kf, (p : Int), prev, dupFlag, i⟩) := by
        simp [insertLoop, nodeAt_mk _ _ _ _ _ hnode, bind, Except.bind, hx1, hx2, hx3,
          sliceAt_lt kf i hi, runeString_ascii c hc128, hc, hlast]
      rw [insertRun_stop kn f fuelF _ hstop]
      exact finish_char_end root nodes p c next th kf i kn prev dupFlag leftSide sec fuelF
        hrep0 hnd0 hord0 hi hc hlast hmode hprev
    · have hi2 : i + 1 < kf.length := by omega
      have hstep : insertLoop kn (f + 1)
          ⟨⟨root, nodes, nullIndexPointer⟩, kf, (Trie.X p c next).root, prev, dupFlag, i⟩
          = insertLoop kn f
              ⟨⟨root, nodes, nullIndexPointer⟩, kf, next.root, (p : Int), dupFlag, i + 1⟩ := by
        simp [insertLoop, nodeAt_mk _ _ _ _ _ hnode, bind, Except.bind, hx1, hx2, hx3,
          sliceAt_lt kf i hi, runeString_ascii c hc128, hc, hlast]
      rw [insertRun_step kn f fuelF _ _ hstep]
      have hlink : PrevLink nodes root next (p : Int) false kf[i + 1] dupFlag := by
        right
        refine ⟨p, _, rfl, hnode, hpn, rfl, ?_⟩
        have h1 : ¬ (stX = stL) := by decide
        have h2 : ¬ (stX = stK) := by decide
        simp [hx2, h1, h2]
      obtain ⟨s', next', hrun, hpost⟩ := ih root nodes th kf (i + 1) (p : Int) false _ f fuelF
        hrn hndn hon hi2 hascii (walkMode_next sec dupFlag kf i kn c hi hc hmode) hlink
        (by omega) (by omega)
      obtain ⟨hs', hnode'⟩ := post_unpack _ _ _ _ _ _ _ _ _ _ _ _ hpost hnode
      rw [hs'] at hrun
      refine ⟨_, Trie.X p c next', hrun, ?_⟩
      rw [hs']
      apply post_inplace root nodes s'.node _ _ th prev leftSide dupFlag sec _ kn kf[i] hprev
      · simp only [Rep]
        exact ⟨by simpa using hnode', hpost.rep⟩
      · rw [ordered_X]
        exact ⟨hc128, hpost.ordered⟩
      · simp only [Trie.positions, List.nodup_cons]
        exact ⟨fun h => hpn (post_fresh _ _ _ _ _ _ _ _ _ _ _ hpost p h hplt), hpost.nodup⟩
      · intro q hq
        simp only [Trie.positions, List.mem_cons] at hq ⊢
        rcases hq with h | h
        · left; left; exact h
        · rcases hpost.pos_new q h with h1 | h1
          · left; right; exact h1
          · right; exact h1
      · exact hpost.length_le
      · intro q hq hqt
        simp only [Trie.positions, List.mem_cons, not_or] at hqt
        exact hpost.frame q hq hqt.2 (by intro h; exact hqt.1 (by exact_mod_cast h))
      · rfl
      · intro h hh; left; exact hh
      · intro x
        have hdrop : kf.drop i = c :: kf.drop (i + 1) := by
          rw [List.drop_eq_getElem_cons hi, hc]
        simp only [Trie.pairs, mem_map_cons, hpost.pairs, hdrop]
        constructor
        · rintro ⟨w, e, h | h⟩
          · exact Or.inl ⟨w, e, h⟩
          · right
            cases h
            exact Prod.ext e rfl
        · rintro (⟨w, e, h⟩ | h)
          · exact ⟨w, e, Or.inl h⟩
          · exact ⟨kf.drop (i + 1), by rw [h], Or.inr (by rw [h])⟩
  · have hstop : insertLoop kn (f + 1)
        ⟨⟨root, nodes, nullIndexPointer⟩, kf, (Trie.X p c next).root, prev, dupFlag, i⟩
        = .ok (.inr ⟨⟨root, nodes, nullIndexPointer⟩, kf, (Trie.X p c next).root, prev, dupFlag, i⟩) := by
      simp [insertLoop, nodeAt_mk _ _ _ _ _ hnode, bind, Except.bind, hx1, hx2, hx3,
        sliceAt_lt kf i hi, runeString_ascii c hc128, hc]
    rw [insertRun_stop kn f fuelF _ hstop]
    exact finish_mismatch ⟨root, nodes, nullIndexPointer⟩ (Trie.X p c next) th kf i kn prev
      dupFlag leftSide sec fuelF c _ rfl hrep0 hnd0 hord0 hnode rfl rfl hc128 hi hc hascii hmode
      hprev (by have := visits_le_need dupFlag (Trie.X p c next); rw [need_X] at this; omega)

theorem need_S_main (p c : Nat) (id : Int) :
    need false (Trie.S p c id) = 1 + (itoa id).length := by
  simp [need, Trie.span]

theorem drop_last (kf : List Nat) (i : Nat) (c : Nat) (hi : i < kf.length) (hc : kf[i] = c)
    (hlast : i + 1 = kf.length) : kf.drop i = [c] := by
  rw [List.drop_eq_getElem_cons hi, hc, List.drop_of_length_le (by omega)]

theorem take_last (kf : List Nat) (i : Nat) (c : Nat) (hi : i < kf.length) (hc : kf[i] = c)
    (hlast : i + 1 = kf.length) : kf.take i ++ [c] = kf := by
  have := List.take_append_drop i kf
  rw [drop_last kf i c hi hc hlast] at this
  exact this

theorem mem_map_dup (c : Nat) (ps : List (List Nat × Int)) (x : List Nat × Int) :
    x ∈ ps.map (fun y => ([c], y.2)) ↔ x.1 = [c] ∧ ∃ w, (w, x.2) ∈ ps := by
  constructor
  · intro h
    simp only [List.mem_map] at h
    obtain ⟨y, hy, e⟩ := h
    exact ⟨by rw [← e], y.1, by rw [← e]; exact hy⟩
  · rintro ⟨e, w, h⟩
    simp only [List.mem_map]
    exact ⟨(w, x.2), h, by rw [← e]⟩

/-- A leaf or branch node that ends the key and stores another identifier is
turned into a duplicate node; the walk goes on in the new secondary tree. -/
theorem convert_spec (kn : Int) (hsec : ∀ t0, InsertSpec kn true t0)
    (root : Int) (nodes : List indexNode) (p c : Nat) (id : Int) (s0 : Nat) (rp : Int)
    (kf : List Nat) (i : Nat) (prev : Int)
    (hs0 : s0 = stS ∨ s0 = stR)
    (hnode : nodes[p]? = some ⟨s0, id, c, rp⟩) (hc128 : c < 128)
    (hi : i < kf.length) (hc : kf[i] = c) (hlast : i + 1 = kf.length) (hne : kn ≠ id)
    (f fuelF : Nat) (hf : (itoa id).length ≤ f) (hF : (itoa id).length ≤ fuelF) :
    ∃ nodes' t'', insertRun (f + 1) fuelF kn
          ⟨⟨root, nodes, nullIndexPointer⟩, kf, (p : Int), prev, false, i⟩
          = .ok ⟨root, nodes', nullIndexPointer⟩
      ∧ nodes'[p]? = some ⟨if s0 = stR then stK else stL, t''.root, c, rp⟩
      ∧ Rep nodes' t'' (p : Int) ∧ Ordered (some []) t'' ∧ t''.positions.Nodup
      ∧ (∀ q ∈ t''.positions, nodes.length ≤ q)
      ∧ nodes.length ≤ nodes'.length
      ∧ (∀ q : Nat, q < nodes.length → q ≠ p → nodes'[q]? = nodes[q]?)
      ∧ (∀ x, x ∈ t''.pairs ↔ x = (itoa id, id) ∨ x = (itoa kn, kn)) := by
  have hplt := getElem?_some_lt nodes p _ hnode
  obtain ⟨ch, added, hext, hlenA, hrepc, hpairs, hheadsc, hndc, hposc, hvis, hordc, hordw⟩ :=
    extend_fresh id (p : Int) ⟨root, nodes, nullIndexPointer⟩ rfl (itoa id) (itoa_ne_nil id)
      (itoa_ascii id)
  simp only at hext hrepc hposc
  have hp1 : (nodes ++ added)[p]? = some ⟨s0, id, c, rp⟩ := by
    rw [List.getElem?_append_left hplt]; exact hnode
  obtain ⟨nodes2, hnodes2⟩ : ∃ l : List indexNode,
    l = (nodes ++ added).set p ⟨if s0 = stR then stK else stL, ch.root, c, rp⟩ := ⟨_, rfl⟩
  have hpch : p ∉ ch.positions := by intro h; have := hposc _ h; omega
  have hstep : insertLoop kn (f + 1)
      ⟨⟨root, nodes, nullIndexPointer⟩, kf, (p : Int), prev, false, i⟩
      = insertLoop kn f ⟨⟨root, nodes2, nullIndexPointer⟩, itoa kn, ch.root, (p : Int), true, 0⟩ := by
    have h1 := setStatus_mk root nullIndexPointer (nodes ++ added) p _
      (if s0 = stR then stK else stL) hp1
    have h2 := setLeft_mk root nullIndexPointer _ p _ ch.root
      (getElem?_set_self' (nodes ++ added) p _
        { (⟨s0, id, c, rp⟩ : indexNode) with status := if s0 = stR then stK else stL } hp1)
    simp only [List.set_set] at h2
    rw [← hnodes2] at h2
    have hs : s0 = stR ∨ s0 = stS := hs0.symm
    rw [insertLoop]
    simp only [nodeAt_mk _ _ _ _ _ hnode, bind, Except.bind, hs, if_true, sliceAt_lt kf i hi,
      hc, runeString_ascii c hc128, hlast, hne, if_false, decimaliseNumber, hext,
      nodeAt_mk _ _ _ _ _ hp1, h1, h2]
  rw [insertRun_step kn f fuelF _ _ hstep]
  have hrep2 : Rep nodes2 ch (p : Int) := by
    rw [hnodes2]; exact Rep_set_other _ ch _ p _ hpch hrepc
  have hnode2 : nodes2[p]? = some ⟨if s0 = stR then stK else stL, ch.root, c, rp⟩ := by
    rw [hnodes2]; exact getElem?_set_self' _ p _ _ hp1
  have h0 : 0 < (itoa kn).length := List.length_pos.mpr (itoa_ne_nil kn)
  have hlink : PrevLink nodes2 root ch (p : Int) true (itoa kn)[0] true := by
    right
    refine ⟨p, _, rfl, hnode2, hpch, rfl, ?_⟩
    rcases hs0 with h | h
    · subst h
      have : ¬ (stS = stR) := by decide
      simp [this]
    · subst h
      simp
  obtain ⟨s', t'', hrun, hpost⟩ := hsec ch root nodes2 (p : Int) (itoa kn) 0 (p : Int) true
    (some []) f fuelF hrep2 hndc (hordw [] (by simp)) h0 (itoa_ascii kn)
    (Or.inr ⟨by simp, rfl, rfl⟩) hlink (by simp [need, hvis]; exact hf)
    (by simp [need, hvis]; exact hF)
  obtain ⟨hs', hnode'⟩ := post_unpack _ _ _ _ _ _ _ _ _ _ _ _ hpost hnode2
  rw [hs'] at hrun
  have hlen2 : nodes2.length = nodes.length + added.length := by
    rw [hnodes2, List.length_set, List.length_append]
  refine ⟨s'.node, t'', hrun, by simpa using hnode', hpost.rep, hpost.ordered, hpost.nodup, ?_, ?_,
    ?_, ?_⟩
  · intro q hq
    rcases hpost.pos_new q hq with h | h
    · exact (hposc q h).1
    · omega
  · have := hpost.length_le; omega
  · intro q hq hqp
    rw [hpost.frame q (by omega) (by intro h; have := hposc _ h; omega)
      (by intro h; exact hqp (by exact_mod_cast h))]
    rw [hnodes2, List.getElem?_set_ne (Ne.symm hqp), List.getElem?_append_left hq]
  · intro x
    rw [hpost.pairs x, hpairs]
    simp


theorem need_S_ge (b : Bool) (p c : Nat) (id : Int) : 1 ≤ need b (Trie.S p c id) :=
  need_pos b _

theorem insert_S (kn : Int) (dupFlag : Bool) (p c : Nat) (id : Int)
    (hsec : dupFlag = false → ∀ t0, InsertSpec kn true t0) :
    InsertSpec kn dupFlag (Trie.S p c id) := by
  intro root nodes th kf i prev leftSide sec fuelL fuelF hrep hnd hord hi hascii hmode hprev hfL hfF
  obtain ⟨f, rfl⟩ : ∃ f, fuelL = f + 1 := ⟨fuelL - 1, by have := need_pos dupFlag (Trie.S p c id); omega⟩
  have hord0 := hord
  have hrep0 := hrep
  rw [ordered_S] at hord
  obtain ⟨hc128, hid⟩ := hord
  simp only [Rep] at hrep
  have hplt := getElem?_some_lt nodes p _ hrep
  have hs1 : (stS = stR ∨ stS = stS) := by decide
  have hss : ¬ (stS = stR) := by decide
  by_cases hc : kf[i] = c
  · by_cases hlast : i + 1 = kf.length
    · by_cases hkn : kn = id
      · -- the pair is stored already
        have hret : insertLoop kn (f + 1)
            ⟨⟨root, nodes, nullIndexPointer⟩, kf, (Trie.S p c id).root, prev, dupFlag, i⟩
            = .ok (.inl ⟨root, nodes, nullIndexPointer⟩) := by
          simp [insertLoop, nodeAt_mk _ _ _ _ _ hrep, bind, Except.bind, hs1,
            sliceAt_lt kf i hi, runeString_ascii c hc128, hc, hlast, hkn]
        rw [insertRun_return kn f fuelF _ _ hret]
        refine ⟨_, Trie.S p c id, rfl, ?_⟩
        apply post_inplace root nodes nodes _ _ th prev leftSide dupFlag sec _ kn kf[i] hprev
          hrep0 hord0 hnd (fun q hq => Or.inl hq) (le_refl _) (fun _ _ _ => rfl) rfl
          (fun h hh => Or.inl hh)
        intro x
        rw [drop_last kf i c hi hc hlast, hkn]
        simp [Trie.pairs]
      · rcases hmode with ⟨h1, h2⟩ | ⟨h1, h2, h3⟩
        · -- a second identifier for the key
          subst h1 h2
          have hneed : need false (Trie.S p c id) = 1 + (itoa id).length := need_S_main p c id
          obtain ⟨nodes', t'', hrun, hnode', hrep', hord', hnd', hpos', hlen', hframe', hpairs'⟩ :=
            convert_spec kn (hsec rfl) root nodes p c id stS th kf i prev (Or.inl rfl) hrep hc128
              hi hc hlast hkn f fuelF (by omega) (by omega)
          refine ⟨_, Trie.L p c t'', hrun, ?_⟩
          apply post_inplace root nodes nodes' _ _ th prev leftSide false none _ kn kf[i] hprev
          · simp only [Rep]
            exact ⟨by simpa [hss] using hnode', hrep'⟩
          · simp only [Ordered]; exact ⟨hc128, hord'⟩
          · simp only [Trie.positions, List.nodup_cons]
            exact ⟨fun h => by have := hpos' _ h; omega, hnd'⟩
          · intro q hq
            simp only [Trie.positions, List.mem_cons] at hq ⊢
            rcases hq with h | h
            · left; simp [h]
            · right; exact hpos' q h
          · exact hlen'
          · intro q hq hqt
            exact hframe' q hq (by intro h; apply hqt; simp [Trie.positions, h])
          · rfl
          · intro h hh; left; exact hh
          · intro x
            rw [drop_last kf i c hi hc hlast]
            simp only [Trie.pairs, mem_map_dup, hpairs', List.mem_singleton]
            constructor
            · rintro ⟨e, w, h | h⟩
              · left; cases h; exact Prod.ext e rfl
              · right; cases h; exact Prod.ext e rfl
            · rintro (h | h)
              · rw [h]; exact ⟨rfl, itoa id, Or.inl rfl⟩
              · rw [h]; exact ⟨rfl, itoa kn, Or.inr rfl⟩
        · -- inside a secondary tree the identifier at the end of the digits is the new one
          exfalso
          apply hkn
          apply itoa_inj
          rw [hid _ h1, ← h3, take_last kf i c hi hc hlast]
    · have hstop : insertLoop kn (f + 1)
          ⟨⟨root, nodes, nullIndexPointer⟩, kf, (Trie.S p c id).root, prev, dupFlag, i⟩
          = .ok (.inr ⟨⟨root, nodes, nullIndexPointer⟩, kf, (p : Int), prev, dupFlag, i⟩) := by
        simp [insertLoop, nodeAt_mk _ _ _ _ _ hrep, bind, Except.bind, hs1,
          sliceAt_lt kf i hi, runeString_ascii c hc128, hc, hlast]
      rw [insertRun_stop kn f fuelF _ hstop]
      exact finish_extend_leaf root nodes p c id th kf i kn prev dupFlag leftSide sec fuelF
        hrep0 hord0 hi hc (by omega) hascii hmode hprev
  · have hstop : insertLoop kn (f + 1)
        ⟨⟨root, nodes, nullIndexPointer⟩, kf, (Trie.S p c id).root, prev, dupFlag, i⟩
        = .ok (.inr ⟨⟨root, nodes, nullIndexPointer⟩, kf, (Trie.S p c id).root, prev, dupFlag, i⟩) := by
      simp [insertLoop, nodeAt_mk _ _ _ _ _ hrep, bind, Except.bind, hs1,
        sliceAt_lt kf i hi, runeString_ascii c hc128, hc]
    rw [insertRun_stop kn f fuelF _ hstop]
    exact finish_mismatch ⟨root, nodes, nullIndexPointer⟩ (Trie.S p c id) th kf i kn prev
      dupFlag leftSide sec fuelF c _ rfl hrep0 hnd hord0 hrep rfl rfl hc128 hi hc hascii hmode
      hprev (by have := visits_le_need dupFlag (Trie.S p c id); omega)


theorem need_R_next (b : Bool) (p c : Nat) (id : Int) (next : Trie) :
    1 + need b next ≤ need b (Trie.R p c id next) := by
  cases b <;> simp [need, Trie.visits, Trie.span]

theorem need_R_main (p c : Nat) (id : Int) (next : Trie) :
    1 + (itoa id).length ≤ need false (Trie.R p c id next) := by
  simp [need, Trie.span]

theorem insert_R (kn : Int) (dupFlag : Bool) (p c : Nat) (id : Int) (next : Trie)
    (hsec : dupFlag = false → ∀ t0, InsertSpec kn true t0)
    (ih : InsertSpec kn dupFlag next) :
    InsertSpec kn dupFlag (Trie.R p c id next) := by
  intro root nodes th kf i prev leftSide sec fuelL fuelF hrep hnd hord hi hascii hmode hprev hfL hfF
  have hneed := need_R_next dupFlag p c id next
  obtain ⟨f, rfl⟩ : ∃ f, fuelL = f + 1 := ⟨fuelL - 1, by omega⟩
  have hord0 := hord
  have hrep0 := hrep
  have hnd0 := hnd
  rw [ordered_R] at hord
  obtain ⟨hc128, hid, hon⟩ := hord
  have hlen := Rep_lt nodes _ th hrep
  simp only [Rep] at hrep
  obtain ⟨hnode, hrn⟩ := hrep
  simp only [Trie.positions, List.nodup_cons] at hnd
  obtain ⟨hpn, hndn⟩ := hnd
  have hplt := getElem?_some_lt nodes p _ hnode
  have hs1 : (stR = stR ∨ stR = stS) := by decide
  have hss : ¬ (stR = stS) := by decide
  by_cases hc : kf[i] = c
  · by_cases hlast : i + 1 = kf.length
    · by_cases hkn : kn = id
      · -- the pair is stored already
        have hret : insertLoop kn (f + 1)
            ⟨⟨root, nodes, nullIndexPointer⟩, kf, (Trie.R p c id next).root, prev, dupFlag, i⟩
            = .ok (.inl ⟨root, nodes, nullIndexPointer⟩) := by
          simp [insertLoop, nodeAt_mk _ _ _ _ _ hnode, bind, Except.bind, hs1,
            sliceAt_lt kf i hi, runeString_ascii c hc128, hc, hlast, hkn]
        rw [insertRun_return kn f fuelF _ _ hret]
        refine ⟨_, Trie.R p c id next, rfl, ?_⟩
        apply post_inplace root nodes nodes _ _ th prev leftSide dupFlag sec _ kn kf[i] hprev
          hrep0 hord0 hnd0 (fun q hq => Or.inl hq) (le_refl _) (fun _ _ _ => rfl) rfl
          (fun h hh => Or.inl hh)
        intro x
        rw [drop_last kf i c hi hc hlast, hkn]
        simp only [Trie.pairs, List.mem_cons]
        tauto
      · rcases hmode with ⟨h1, h2⟩ | ⟨h1, h2, h3⟩
        · -- a second identifier for the key
          subst h1 h2
          have hneed2 := need_R_main p c id next
          obtain ⟨nodes', t'', hrun, hnode', hrep', hord', hnd', hpos', hlen', hframe', hpairs'⟩ :=
            convert_spec kn (hsec rfl) root nodes p c id stR next.root kf i prev (Or.inr rfl)
              hnode hc128 hi hc hlast hkn f fuelF (by omega) (by omega)
          refine ⟨_, Trie.K p c t'' next, hrun, ?_⟩
          apply post_inplace root nodes nodes' _ _ th prev leftSide false none _ kn kf[i] hprev
          · simp only [Rep]
            refine ⟨by simpa using hnode', hrep', ?_⟩
            apply Rep_congr nodes nodes' next th _ hrn
            intro q hq
            exact hframe' q (hlen q (by simp [Trie.positions, hq]))
              (by intro h; exact hpn (h ▸ hq))
          · simp only [Ordered]; exact ⟨hc128, hord', by simpa using hon⟩
          · simp only [Trie.positions, List.nodup_cons, List.nodup_append, List.mem_append,
              not_or]
            refine ⟨⟨fun h => by have := hpos' _ h; omega, hpn⟩, hnd', hndn, ?_⟩
            intro q h1 h2
            have := hpos' q h1
            have := hlen q (by simp [Trie.positions, h2])
            omega
          · intro q hq
            simp only [Trie.positions, List.mem_cons, List.mem_append] at hq ⊢
            rcases hq with h | h | h
            · left; left; exact h
            · right; exact hpos' q h
            · left; right; exact h
          · exact hlen'
          · intro q hq hqt
            exact hframe' q hq (by intro h; apply hqt; simp [Trie.positions, h])
          · rfl
          · intro h hh; left; exact hh
          · intro x
            rw [drop_last kf i c hi hc hlast]
            simp only [Trie.pairs, List.mem_append, List.mem_cons, mem_map_dup, hpairs']
            constructor
            · rintro (⟨e, w, h | h⟩ | h)
              · left; left; cases h; exact Prod.ext e rfl
              · right; cases h; exact Prod.ext e rfl
              · left; right; exact h
            · rintro ((h | h) | h)
              · left; rw [h]; exact ⟨rfl, itoa id, Or.inl rfl⟩
              · right; exact h
              · left; rw [h]; exact ⟨rfl, itoa kn, Or.inr rfl⟩
        · exfalso
          apply hkn
          apply itoa_inj
          rw [hid _ h1, ← h3, take_last kf i c hi hc hlast]
    · have hi2 : i + 1 < kf.length := by omega
      have hstep : insertLoop kn (f + 1)
          ⟨⟨root, nodes, nullIndexPointer⟩, kf, (Trie.R p c id next).root, prev, dupFlag, i⟩
          = insertLoop kn f
              ⟨⟨root, nodes, nullIndexPointer⟩, kf, next.root, (p : Int), dupFlag, i + 1⟩ := by
        simp [insertLoop, nodeAt_mk _ _ _ _ _ hnode, bind, Except.bind, hs1, hss,
          sliceAt_lt kf i hi, runeString_ascii c hc128, hc, hlast]
      rw [insertRun_step kn f fuelF _ _ hstep]
      have hlink : PrevLink nodes root next (p : Int) false kf[i + 1] dupFlag := by
        right
        refine ⟨p, _, rfl, hnode, hpn, rfl, ?_⟩
        have h1 : ¬ (stR = stL) := by decide
        have h2 : ¬ (stR = stK) := by decide
        have h3 : ¬ (stR = stD) := by decide
        simp [h1, h2, h3]
      obtain ⟨s', next', hrun, hpost⟩ := ih root nodes th kf (i + 1) (p : Int) false _ f fuelF
        hrn hndn hon hi2 hascii (walkMode_next sec dupFlag kf i kn c hi hc hmode) hlink
        (by omega) (by omega)
      obtain ⟨hs', hnode'⟩ := post_unpack _ _ _ _ _ _ _ _ _ _ _ _ hpost hnode
      rw [hs'] at hrun
      refine ⟨_, Trie.R p c id next', hrun, ?_⟩
      rw [hs']
      apply post_inplace root nodes s'.node _ _ th prev leftSide dupFlag sec _ kn kf[i] hprev
      · simp only [Rep]
        exact ⟨by simpa using hnode', hpost.rep⟩
      · rw [ordered_R]
        exact ⟨hc128, hid, hpost.ordered⟩
      · simp only [Trie.positions, List.nodup_cons]
        exact ⟨fun h => hpn (post_fresh _ _ _ _ _ _ _ _ _ _ _ hpost p h hplt), hpost.nodup⟩
      · intro q hq
        simp only [Trie.positions, List.mem_cons] at hq ⊢
        rcases hq with h | h
        · left; left; exact h
        · rcases hpost.pos_new q h with h1 | h1
          · left; right; exact h1
          · right; exact h1
      · exact hpost.length_le
      · intro q hq hqt
        simp only [Trie.positions, List.mem_cons, not_or] at hqt
        exact hpost.frame q hq hqt.2 (by intro h; exact hqt.1 (by exact_mod_cast h))
      · rfl
      · intro h hh; left; exact hh
      · intro x
        have hdrop : kf.drop i = c :: kf.drop (i + 1) := by
          rw [List.drop_eq_getElem_cons hi, hc]
        simp only [Trie.pairs, List.mem_cons, mem_map_cons, hpost.pairs, hdrop]
        constructor
        · rintro (h | ⟨w, e, h | h⟩)
          · exact Or.inl (Or.inl h)
          · exact Or.inl (Or.inr ⟨w, e, h⟩)
          · right
            cases h
            exact Prod.ext e rfl
        · rintro ((h | ⟨w, e, h⟩) | h)
          · exact Or.inl h
          · exact Or.inr ⟨w, e, Or.inl h⟩
          · exact Or.inr ⟨kf.drop (i + 1), by rw [h], Or.inr (by rw [h])⟩
  · have hstop : insertLoop kn (f + 1)
        ⟨⟨root, nodes, nullIndexPointer⟩, kf, (Trie.R p c id next).root, prev, dupFlag, i⟩
        = .ok (.inr ⟨⟨root, nodes, nullIndexPointer⟩, kf, (Trie.R p c id next).root, prev,
            dupFlag, i⟩) := by
      simp [insertLoop, nodeAt_mk _ _ _ _ _ hnode, bind, Except.bind, hs1,
        sliceAt_lt kf i hi, runeString_ascii c hc128, hc]
    rw [insertRun_stop kn f fuelF _ hstop]
    exact finish_mismatch ⟨root, nodes, nullIndexPointer⟩ (Trie.R p c id next) th kf i kn prev
      dupFlag leftSide sec fuelF c _ rfl hrep0 hnd0 hord0 hnode rfl rfl hc128 hi hc hascii hmode
      hprev (by have := visits_le_need dupFlag (Trie.R p c id next); omega)

theorem main_of_dup_node (sec : Option (List Nat)) (dupFlag : Bool) (kf : List Nat) (i : Nat)
    (kn : Int) (hsec : sec = none) (hmode : WalkMode sec dupFlag kf i kn) : dupFlag = false := by
  rcases hmode with ⟨_, h⟩ | ⟨h, _⟩
  · exact h
  · rw [hsec] at h; cases h

theorem insert_L (kn : Int) (dupFlag : Bool) (p c : Nat) (dup : Trie)
    (ihd : InsertSpec kn true dup) :
    InsertSpec kn dupFlag (Trie.L p c dup) := by
  intro root nodes th kf i prev leftSide sec fuelL fuelF hrep hnd hord hi hascii hmode hprev hfL hfF
  have hsec : sec = none := by
    cases sec
    · rfl
    · simp [Ordered] at hord
  have hdf := main_of_dup_node sec dupFlag kf i kn hsec hmode
  subst hsec hdf
  have hneed : need false (Trie.L p c dup) = 2 + dup.visits := by simp [need, Trie.span]
  rw [hneed] at hfL hfF
  obtain ⟨f, rfl⟩ : ∃ f, fuelL = f + 1 := ⟨fuelL - 1, by omega⟩
  have hord0 := hord
  have hrep0 := hrep
  have hnd0 := hnd
  simp only [Ordered] at hord
  obtain ⟨hc128, hod⟩ := hord
  have hlen := Rep_lt nodes _ th hrep
  simp only [Rep] at hrep
  obtain ⟨hnode, hrd⟩ := hrep
  simp only [Trie.positions, List.nodup_cons] at hnd
  obtain ⟨hpd, hndd⟩ := hnd
  have hplt := getElem?_some_lt nodes p _ hnode
  have hx1 : ¬ (stL = stR ∨ stL = stS) := by decide
  have hx2 : ¬ (stL = stD) := by decide
  have hx3 : (stL = stK ∨ stL = stL) := by decide
  by_cases hc : kf[i] = c
  · by_cases hlast : i + 1 = kf.length
    · have hstep : insertLoop kn (f + 1)
          ⟨⟨root, nodes, nullIndexPointer⟩, kf, (Trie.L p c dup).root, prev, false, i⟩
          = insertLoop kn f
              ⟨⟨root, nodes, nullIndexPointer⟩, itoa kn, dup.root, (p : Int), true, 0⟩ := by
        simp [insertLoop, nodeAt_mk _ _ _ _ _ hnode, bind, Except.bind, hx1, hx2, hx3,
          sliceAt_lt kf i hi, runeString_ascii c hc128, hc, hlast, decimaliseNumber]
      rw [insertRun_step kn f fuelF _ _ hstep]
      have h0 : 0 < (itoa kn).length := List.length_pos.mpr (itoa_ne_nil kn)
      have hlink : PrevLink nodes root dup (p : Int) true (itoa kn)[0] true := by
        right
        refine ⟨p, _, rfl, hnode, hpd, rfl, ?_⟩
        simp
      obtain ⟨s', dup', hrun, hpost⟩ := ihd root nodes (p : Int) (itoa kn) 0 (p : Int) true
        (some []) f fuelF hrd hndd hod h0 (itoa_ascii kn) (Or.inr ⟨by simp, rfl, rfl⟩) hlink
        (by simp [need]; omega) (by simp [need]; omega)
      obtain ⟨hs', hnode'⟩ := post_unpack _ _ _ _ _ _ _ _ _ _ _ _ hpost hnode
      rw [hs'] at hrun
      refine ⟨_, Trie.L p c dup', hrun, ?_⟩
      rw [hs']
      apply post_inplace root nodes s'.node _ _ th prev leftSide false none _ kn kf[i] hprev
      · simp only [Rep]
        exact ⟨by simpa using hnode', hpost.rep⟩
      · simp only [Ordered]
        exact ⟨hc128, hpost.ordered⟩
      · simp only [Trie.positions, List.nodup_cons]
        exact ⟨fun h => hpd (post_fresh _ _ _ _ _ _ _ _ _ _ _ hpost p h hplt), hpost.nodup⟩
      · intro q hq
        simp only [Trie.positions, List.mem_cons] at hq ⊢
        rcases hq with h | h
        · left; left; exact h
        · rcases hpost.pos_new q h with h1 | h1
          · left; right; exact h1
          · right; exact h1
      · exact hpost.length_le
      · intro q hq hqt
        simp only [Trie.positions, List.mem_cons, not_or] at hqt
        exact hpost.frame q hq hqt.2 (by intro h; exact hqt.1 (by exact_mod_cast h))
      · rfl
      · intro h hh; left; exact hh
      · intro x
        rw [drop_last kf i c hi hc hlast]
        simp only [Trie.pairs, mem_map_dup, hpost.pairs, List.drop_zero]
        constructor
        · rintro ⟨e, w, h | h⟩
          · exact Or.inl ⟨e, w, h⟩
          · right; cases h; exact Prod.ext e rfl
        · rintro (⟨e, w, h⟩ | h)
          · exact ⟨e, w, Or.inl h⟩
          · rw [h]; exact ⟨rfl, itoa kn, Or.inr rfl⟩
    · have hstop : insertLoop kn (f + 1)
          ⟨⟨root, nodes, nullIndexPointer⟩, kf, (Trie.L p c dup).root, prev, false, i⟩
          = .ok (.inr ⟨⟨root, nodes, nullIndexPointer⟩, kf, (p : Int), prev, false, i⟩) := by
        simp [insertLoop, nodeAt_mk _ _ _ _ _ hnode, bind, Except.bind, hx1, hx2, hx3,
          sliceAt_lt kf i hi, runeString_ascii c hc128, hc, hlast]
      rw [insertRun_stop kn f fuelF _ hstop]
      exact finish_extend_dup root nodes p c dup th kf i kn prev false leftSide none fuelF
        hrep0 hnd0 hord0 hi hc (by omega) hascii hprev
  · have hstop : insertLoop kn (f + 1)
        ⟨⟨root, nodes, nullIndexPointer⟩, kf, (Trie.L p c dup).root, prev, false, i⟩
        = .ok (.inr ⟨⟨root, nodes, nullIndexPointer⟩, kf, (Trie.L p c dup).root, prev,
            false, i⟩) := by
      simp [insertLoop, nodeAt_mk _ _ _ _ _ hnode, bind, Except.bind, hx1, hx2, hx3,
        sliceAt_lt kf i hi, runeString_ascii c hc128, hc]
    rw [insertRun_stop kn f fuelF _ hstop]
    exact finish_mismatch ⟨root, nodes, nullIndexPointer⟩ (Trie.L p c dup) th kf i kn prev
      false leftSide none fuelF c _ rfl hrep0 hnd0 hord0 hnode rfl rfl hc128 hi hc hascii hmode
      hprev (by simp [Trie.visits]; omega)

theorem insert_K (kn : Int) (dupFlag : Bool) (p c : Nat) (dup next : Trie)
    (ihd : InsertSpec kn true dup) (ihn : InsertSpec kn dupFlag next) :
    InsertSpec kn dupFlag (Trie.K p c dup next) := by
  intro root nodes th kf i prev leftSide sec fuelL fuelF hrep hnd hord hi hascii hmode hprev hfL hfF
  have hsec : sec = none := by
    cases sec
    · rfl
    · simp [Ordered] at hord
  have hdf := main_of_dup_node sec dupFlag kf i kn hsec hmode
  subst hsec hdf
  have hneed : need false (Trie.K p c dup next) = 2 + dup.visits + need false next := by
    simp [need, Trie.span]
  rw [hneed] at hfL hfF
  obtain ⟨f, rfl⟩ : ∃ f, fuelL = f + 1 := ⟨fuelL - 1, by omega⟩
  have hord0 := hord
  have hrep0 := hrep
  have hnd0 := hnd
  simp only [Ordered] at hord
  obtain ⟨hc128, hod, hon⟩ := hord
  have hlen := Rep_lt nodes _ th hrep
  simp only [Rep] at hrep
  obtain ⟨hnode, hrd, hrn⟩ := hrep
  simp only [Trie.positions, List.nodup_cons, List.nodup_append, List.mem_append, not_or] at hnd
  obtain ⟨⟨hpd, hpn⟩, hndd, hndn, hdisj⟩ := hnd
  have hplt := getElem?_some_lt nodes p _ hnode
  have hx1 : ¬ (stK = stR ∨ stK = stS) := by decide
  have hx2 : ¬ (stK = stD) := by decide
  have hx3 : (stK = stK ∨ stK = stL) := by decide
  have hx4 : ¬ (stK = stL) := by decide
  by_cases hc : kf[i] = c
  · by_cases hlast : i + 1 = kf.length
    · have hstep : insertLoop kn (f + 1)
          ⟨⟨root, nodes, nullIndexPointer⟩, kf, (Trie.K p c dup next).root, prev, false, i⟩
          = insertLoop kn f
              ⟨⟨root, nodes, nullIndexPointer⟩, itoa kn, dup.root, (p : Int), true, 0⟩ := by
        simp [insertLoop, nodeAt_mk _ _ _ _ _ hnode, bind, Except.bind, hx1, hx2, hx3,
          sliceAt_lt kf i hi, runeString_ascii c hc128, hc, hlast, decimaliseNumber]
      rw [insertRun_step kn f fuelF _ _ hstep]
      have h0 : 0 < (itoa kn).length := List.length_pos.mpr (itoa_ne_nil kn)
      have hlink : PrevLink nodes root dup (p : Int) true (itoa kn)[0] true := by
        right
        refine ⟨p, _, rfl, hnode, hpd, rfl, ?_⟩
        simp
      obtain ⟨s', dup', hrun, hpost⟩ := ihd root nodes (p : Int) (itoa kn) 0 (p : Int) true
        (some []) f fuelF hrd hndd hod h0 (itoa_ascii kn) (Or.inr ⟨by simp, rfl, rfl⟩) hlink
        (by simp [need]; omega) (by simp [need]; omega)
      obtain ⟨hs', hnode'⟩ := post_unpack _ _ _ _ _ _ _ _ _ _ _ _ hpost hnode
      rw [hs'] at hrun
      refine ⟨_, Trie.K p c dup' next, hrun, ?_⟩
      rw [hs']
      apply post_inplace root nodes s'.node _ _ th prev leftSide false none _ kn kf[i] hprev
      · simp only [Rep]
        refine ⟨by simpa using hnode', hpost.rep, ?_⟩
        exact post_sibling _ _ _ _ _ _ _ _ _ _ _ hpost next _ hrn hpn (fun q hq h => hdisj h hq)
      · simp only [Ordered]
        exact ⟨hc128, hpost.ordered, hon⟩
      · simp only [Trie.positions, List.nodup_cons, List.nodup_append, List.mem_append, not_or]
        refine ⟨⟨fun h => hpd (post_fresh _ _ _ _ _ _ _ _ _ _ _ hpost p h hplt), hpn⟩,
          hpost.nodup, hndn, ?_⟩
        intro q h1 h2
        have hq := hlen q (by simp [Trie.positions, h2])
        exact hdisj (post_fresh _ _ _ _ _ _ _ _ _ _ _ hpost q h1 hq) h2
      · intro q hq
        simp only [Trie.positions, List.mem_cons, List.mem_append] at hq ⊢
        rcases hq with h | h | h
        · left; left; exact h
        · rcases hpost.pos_new q h with h1 | h1
          · left; right; left; exact h1
          · right; exact h1
        · left; right; right; exact h
      · exact hpost.length_le
      · intro q hq hqt
        simp only [Trie.positions, List.mem_cons, List.mem_append, not_or] at hqt
        exact hpost.frame q hq hqt.2.1 (by intro h; exact hqt.1 (by exact_mod_cast h))
      · rfl
      · intro h hh; left; exact hh
      · intro x
        rw [drop_last kf i c hi hc hlast]
        simp only [Trie.pairs, List.mem_append, mem_map_dup, hpost.pairs, List.drop_zero]
        constructor
        · rintro (⟨e, w, h | h⟩ | h)
          · exact Or.inl (Or.inl ⟨e, w, h⟩)
          · right; cases h; exact Prod.ext e rfl
          · exact Or.inl (Or.inr h)
        · rintro ((⟨e, w, h⟩ | h) | h)
          · exact Or.inl ⟨e, w, Or.inl h⟩
          · exact Or.inr h
          · rw [h]; exact Or.inl ⟨rfl, itoa kn, Or.inr rfl⟩
    · have hi2 : i + 1 < kf.length := by omega
      have hstep : insertLoop kn (f + 1)
          ⟨⟨root, nodes, nullIndexPointer⟩, kf, (Trie.K p c dup next).root, prev, false, i⟩
          = insertLoop kn f
              ⟨⟨root, nodes, nullIndexPointer⟩, kf, next.root, (p : Int), false, i + 1⟩ := by
        simp [insertLoop, nodeAt_mk _ _ _ _ _ hnode, bind, Except.bind, hx1, hx2, hx3, hx4,
          sliceAt_lt kf i hi, runeString_ascii c hc128, hc, hlast]
      rw [insertRun_step kn f fuelF _ _ hstep]
      have hlink : PrevLink nodes root next (p : Int) false kf[i + 1] false := by
        right
        refine ⟨p, _, rfl, hnode, hpn, rfl, ?_⟩
        simp [hx2, hx4]
      obtain ⟨s', next', hrun, hpost⟩ := ihn root nodes th kf (i + 1) (p : Int) false none f fuelF
        hrn hndn hon hi2 hascii (Or.inl ⟨rfl, rfl⟩) hlink (by omega) (by omega)
      obtain ⟨hs', hnode'⟩ := post_unpack _ _ _ _ _ _ _ _ _ _ _ _ hpost hnode
      rw [hs'] at hrun
      refine ⟨_, Trie.K p c dup next', hrun, ?_⟩
      rw [hs']
      apply post_inplace root nodes s'.node _ _ th prev leftSide false none _ kn kf[i] hprev
      · simp only [Rep]
        refine ⟨by simpa using hnode', ?_, hpost.rep⟩
        exact post_sibling _ _ _ _ _ _ _ _ _ _ _ hpost dup _ hrd hpd (fun q hq h => hdisj hq h)
      · simp only [Ordered]
        exact ⟨hc128, hod, hpost.ordered⟩
      · simp only [Trie.positions, List.nodup_cons, List.nodup_append, List.mem_append, not_or]
        refine ⟨⟨hpd, fun h => hpn (post_fresh _ _ _ _ _ _ _ _ _ _ _ hpost p h hplt)⟩,
          hndd, hpost.nodup, ?_⟩
        intro q h1 h2
        have hq := hlen q (by simp [Trie.positions, h1])
        exact hdisj h1 (post_fresh _ _ _ _ _ _ _ _ _ _ _ hpost q h2 hq)
      · intro q hq
        simp only [Trie.positions, List.mem_cons, List.mem_append] at hq ⊢
        rcases hq with h | h | h
        · left; left; exact h
        · left; right; left; exact h
        · rcases hpost.pos_new q h with h1 | h1
          · left; right; right; exact h1
          · right; exact h1
      · exact hpost.length_le
      · intro q hq hqt
        simp only [Trie.positions, List.mem_cons, List.mem_append, not_or] at hqt
        exact hpost.frame q hq hqt.2.2 (by intro h; exact hqt.1 (by exact_mod_cast h))
      · rfl
      · intro h hh; left; exact hh
      · intro x
        have hdrop : kf.drop i = c :: kf.drop (i + 1) := by
          rw [List.drop_eq_getElem_cons hi, hc]
        simp only [Trie.pairs, List.mem_append, mem_map_cons, hpost.pairs, hdrop]
        constructor
        · rintro (h | ⟨w, e, h | h⟩)
          · exact Or.inl (Or.inl h)
          · exact Or.inl (Or.inr ⟨w, e, h⟩)
          · right
            cases h
            exact Prod.ext e rfl
        · rintro ((h | ⟨w, e, h⟩) | h)
          · exact Or.inl h
          · exact Or.inr ⟨w, e, Or.inl h⟩
          · exact Or.inr ⟨kf.drop (i + 1), by rw [h], Or.inr (by rw [h])⟩
  · have hstop : insertLoop kn (f + 1)
        ⟨⟨root, nodes, nullIndexPointer⟩, kf, (Trie.K p c dup next).root, prev, false, i⟩
        = .ok (.inr ⟨⟨root, nodes, nullIndexPointer⟩, kf, (Trie.K p c dup next).root, prev,
            false, i⟩) := by
      simp [insertLoop, nodeAt_mk _ _ _ _ _ hnode, bind, Except.bind, hx1, hx2, hx3,
        sliceAt_lt kf i hi, runeString_ascii c hc128, hc]
    rw [insertRun_stop kn f fuelF _ hstop]
    exact finish_mismatch ⟨root, nodes, nullIndexPointer⟩ (Trie.K p c dup next) th kf i kn prev
      false leftSide none fuelF c _ rfl hrep0 hnd0 hord0 hnode rfl rfl hc128 hi hc hascii hmode
      hprev (by have := visits_le_span next; simp [Trie.visits, need] at *; omega)

/-! ### `Insert` is correct on every tree -/

theorem insert_gen (kn : Int) (t : Trie) :
    ∀ dupFlag, (dupFlag = false → ∀ t0, InsertSpec kn true t0) → InsertSpec kn dupFlag t := by
  induction t with
  | S p c id => intro d h; exact insert_S kn d p c id h
  | R p c id next ih => intro d h; exact insert_R kn d p c id next h (ih d h)
  | X p c next ih => intro d h; exact insert_X kn d p c next (ih d h)
  | L p c dup ih => intro d h; exact insert_L kn d p c dup (ih true (by simp))
  | K p c dup next ihd ihn =>
    intro d h; exact insert_K kn d p c dup next (ihd true (by simp)) (ihn d h)
  | D p c l r ihl ihr => intro d h; exact insert_D kn d p c l r (ihl d h) (ihr d h)

theorem insert_secondary (kn : Int) (t : Trie) : InsertSpec kn true t :=
  insert_gen kn t true (by simp)

theorem insert_spec (kn : Int) (dupFlag : Bool) (t : Trie) : InsertSpec kn dupFlag t :=
  insert_gen kn t dupFlag (fun _ => insert_secondary kn)

/-! ### `Insert` and `Search` on an index that holds a tree -/

theorem insert_holds (s : Index) (t : Trie) (key : List Nat) (kn : Int) (fuel : Nat)
    (h : Holds s t) (hne : canonical key ≠ []) (hascii : ∀ b ∈ canonical key, b < 128)
    (hfuel : t.span ≤ fuel) :
    ∃ s' t', Insert fuel key kn s = .ok s' ∧ Holds s' t'
      ∧ (∀ x, x ∈ t'.pairs ↔ x ∈ t.pairs ∨ x = (canonical key, kn))
      ∧ s.node.length ≤ s'.node.length := by
  obtain ⟨root, nodes, dr⟩ := s
  obtain ⟨hroot, hfree, hrep, hnd, hord⟩ := h
  simp only at hroot hfree hrep
  subst hfree
  have hlen : 0 < (canonical key).length := List.length_pos.mpr hne
  have hlink : PrevLink nodes root t nullIndexPointer false (canonical key)[0] false :=
    Or.inl ⟨rfl, hroot⟩
  obtain ⟨s', t', hrun, hpost⟩ := insert_spec kn false t root nodes nullIndexPointer
    (canonical key) 0 nullIndexPointer false none fuel fuel hrep hnd hord hlen hascii
    (Or.inl ⟨rfl, rfl⟩) hlink (by simpa [need] using hfuel) (by simpa [need] using hfuel)
  refine ⟨s', t', ?_, ⟨hpost.root_link rfl, hpost.free_empty, hpost.rep, hpost.nodup,
    hpost.ordered⟩, ?_, hpost.length_le⟩
  · have hr : ¬ (root = nullIndexPointer) := by rw [hroot]; exact natCast_ne_null _
    have hl : ¬ ((canonical key).length = 0) := by omega
    simp only [Insert, hl, if_false, hr, bind, Except.bind]
    simp only [insertRun, hroot] at hrun
    rw [← hroot] at hrun
    revert hrun
    cases insertLoop kn fuel ⟨⟨root, nodes, nullIndexPointer⟩, canonical key, root,
      nullIndexPointer, false, 0⟩ with
    | error e => intro h; exact h
    | ok r => cases r <;> (intro h; exact h)
  · simpa using hpost.pairs

/-! ### More fuel does not change a result -/

theorem threadLoop_mono (s : Index) : ∀ (fuel : Nat) (p r : Int),
    threadLoop s fuel p = .ok r → threadLoop s (fuel + 1) p = .ok r := by
  intro fuel
  induction fuel with
  | zero => intro p r h; simp [threadLoop] at h
  | succ f ih =>
    intro p r h
    rw [threadLoop] at h ⊢
    simp only [bind, Except.bind] at h ⊢
    revert h
    repeat' split
    all_goals first
      | exact fun h => h
      | exact ih _ _

theorem insertLoop_mono (kn : Int) : ∀ (fuel : Nat) (st : InsertState) (r : Index ⊕ InsertState),
    insertLoop kn fuel st = .ok r → insertLoop kn (fuel + 1) st = .ok r := by
  intro fuel
  induction fuel with
  | zero => intro st r h; simp [insertLoop] at h
  | succ f ih =>
    intro st r h
    rw [insertLoop] at h ⊢
    simp only [bind, Except.bind] at h ⊢
    revert h
    repeat' split
    all_goals first
      | exact fun h => h
      | exact ih _ _



theorem threadLoop_mono_le (s : Index) (fuel fuel' : Nat) (p r : Int) (hle : fuel ≤ fuel')
    (h : threadLoop s fuel p = .ok r) : threadLoop s fuel' p = .ok r := by
  induction hle with
  | refl => exact h
  | step _ ih => exact threadLoop_mono s _ p r ih

theorem insertLoop_mono_le (kn : Int) (fuel fuel' : Nat) (st : InsertState)
    (r : Index ⊕ InsertState) (hle : fuel ≤ fuel')
    (h : insertLoop kn fuel st = .ok r) : insertLoop kn fuel' st = .ok r := by
  induction hle with
  | refl => exact h
  | step _ ih => exact insertLoop_mono kn _ st r ih

theorem insertFinish_mono (kn : Int) (fuel fuel' : Nat) (st : InsertState) (r : Index)
    (hle : fuel ≤ fuel') (h : insertFinish fuel kn st = .ok r) :
    insertFinish fuel' kn st = .ok r := by
  unfold insertFinish at h ⊢
  simp only [bind, Except.bind] at h ⊢
  revert h
  split
  · exact id
  · split
    · exact id
    · split
      · exact id
      · split
        · exact id
        · split
          · exact id
          · split
            · rename_i a _ _ n1 _ _
              cases hT : threadLoop a.2 fuel st.keyPointer with
              | error e => intro h; simp at h
              | ok v => rw [threadLoop_mono_le _ _ _ _ _ hle hT]; exact id
            · exact id

theorem Insert_mono (fuel fuel' : Nat) (key : List Nat) (kn : Int) (s r : Index)
    (hle : fuel ≤ fuel') (h : Insert fuel key kn s = .ok r) : Insert fuel' key kn s = .ok r := by
  unfold Insert at h ⊢
  simp only [bind, Except.bind] at h ⊢
  revert h
  split
  · exact id
  · split
    · exact id
    · cases hL : insertLoop kn fuel ⟨s, canonical key, s.indexRoot, nullIndexPointer, false, 0⟩ with
      | error e => intro h; simp at h
      | ok v =>
        rw [insertLoop_mono_le kn _ _ _ _ hle hL]
        cases v with
        | inl s1 => exact id
        | inr st => exact insertFinish_mono kn _ _ _ _ hle

theorem insert_empty (s : Index) (key : List Nat) (kn : Int) (fuel : Nat)
    (hroot : s.indexRoot = nullIndexPointer) (hfree : s.deletedRoot = nullIndexPointer)
    (hne : canonical key ≠ []) (hascii : ∀ b ∈ canonical key, b < 128) :
    ∃ s' t', Insert fuel key kn s = .ok s' ∧ Holds s' t'
      ∧ t'.pairs = [(canonical key, kn)] ∧ t'.visits = (canonical key).length := by
  obtain ⟨ch, added, hext, hlenA, hrepc, hpairs, hheadsc, hndc, hposc, hvis, hordc, hordw⟩ :=
    extend_fresh kn nullIndexPointer s hfree (canonical key) hne hascii
  refine ⟨⟨ch.root, s.node ++ added, s.deletedRoot⟩, ch, ?_, ⟨rfl, hfree, hrepc, hndc, hordc⟩,
    hpairs, hvis⟩
  have hl : ¬ ((canonical key).length = 0) := by
    have := List.length_pos.mpr hne; omega
  simp [Insert, hl, hroot, hext, bind, Except.bind]

theorem search_holds (s : Index) (t : Trie) (key : List Nat) (b : Bool) (fuel : Nat)
    (h : Holds s t) (hne : canonical key ≠ []) (hfuel : t.visits + 1 ≤ fuel) :
    Search fuel key b s
      = .ok (!(answer b (canonical key) t.pairs).isEmpty, answer b (canonical key) t.pairs) := by
  obtain ⟨hroot, hfree, hrep, hnd, hord⟩ := h
  have hlen : 0 < (canonical key).length := List.length_pos.mpr hne
  have hr : ¬ (s.indexRoot = nullIndexPointer) := by rw [hroot]; exact natCast_ne_null _
  have hl : ¬ ((canonical key).length = 0) := by omega
  obtain ⟨found, kp, lm', h1, h2, h3⟩ := search_sub s (canonical key) b t none nullIndexPointer
    nullIndexPointer 0 fuel hrep hord hnd (fun q _ => natCast_ne_null q) hlen (fun _ => rfl)
    (by omega)
  simp only [List.drop_zero] at h2 h3
  simp only [Search, hr, if_false, hl, false_and, bind, Except.bind, hroot]
  rw [h1]
  simp only
  cases hf : found
  · rw [hf] at h2
    have : answer b (canonical key) t.pairs = [] := by
      cases hA : answer b (canonical key) t.pairs
      · rfl
      · rw [hA] at h2; simp at h2
    simp [this]
  · rw [h3 hf fuel hfuel, ← h2, hf]
    simp
    exact natCast_ne_null _

theorem search_all (s : Index) (t : Trie) (key : List Nat) (fuel : Nat)
    (h : Holds s t) (he : canonical key = []) (hfuel : t.visits + 1 ≤ fuel) :
    Search fuel key false s = .ok (true, t.pairs.map (fun x => x.2)) := by
  obtain ⟨hroot, hfree, hrep, hnd, hord⟩ := h
  have hr : ¬ (s.indexRoot = nullIndexPointer) := by rw [hroot]; exact natCast_ne_null _
  have := collect_tree s t nullIndexPointer fuel [] hrep (fun q _ => natCast_ne_null q) hfuel
  simp [Search, hr, he, bind, Except.bind, hroot, this]
  exact natCast_ne_null _

/-! ### The pairs of a tree are pairwise distinct -/

theorem pairs_sec (t : Trie) : ∀ w, Ordered (some w) t → ∀ x ∈ t.pairs, itoa x.2 = w ++ x.1 := by
  induction t with
  | S p c id =>
    intro w h x hx
    simp only [Ordered] at h
    simp [Trie.pairs] at hx
    rw [hx]; exact h.2
  | R p c id next ih =>
    intro w h x hx
    simp only [Ordered] at h
    simp only [Trie.pairs, List.mem_cons, mem_map_cons] at hx
    rcases hx with hx | ⟨v, e, hv⟩
    · rw [hx]; exact h.2.1
    · have := ih _ h.2.2 _ hv
      simp only at this
      rw [this, e]; simp
  | X p c next ih =>
    intro w h x hx
    simp only [Ordered] at h
    simp only [Trie.pairs, mem_map_cons] at hx
    obtain ⟨v, e, hv⟩ := hx
    have := ih _ h.2 _ hv
    simp only at this
    rw [this, e]; simp
  | L p c dup ih => intro w h; simp [Ordered] at h
  | K p c dup next ihd ihn => intro w h; simp [Ordered] at h
  | D p c l r ihl ihr =>
    intro w h x hx
    simp only [Ordered] at h
    simp only [Trie.pairs, List.mem_append] at hx
    rcases hx with hx | hx
    · exact ihl w h.2.2.2.1 x hx
    · exact ihr w h.2.2.2.2 x hx

theorem nodup_map_cons (c : Nat) (ps : List (List Nat × Int)) (h : ps.Nodup) :
    (ps.map (fun x => (c :: x.1, x.2))).Nodup := by
  apply List.Nodup.map _ h
  intro a b hab
  simp only [Prod.mk.injEq, List.cons.injEq, true_and] at hab
  exact Prod.ext hab.1 hab.2

theorem pairs_nodup (t : Trie) : ∀ sec, Ordered sec t → t.pairs.Nodup := by
  induction t with
  | S p c id => intro sec h; simp [Trie.pairs]
  | R p c id next ih =>
    intro sec h
    rw [ordered_R] at h
    simp only [Trie.pairs, List.nodup_cons]
    refine ⟨?_, nodup_map_cons c _ (ih _ h.2.2)⟩
    intro hm
    rw [mem_map_cons] at hm
    obtain ⟨w, e, hw⟩ := hm
    simp only [List.cons.injEq, true_and] at e
    exact pairs_fst_ne_nil next _ hw e.symm
  | X p c next ih =>
    intro sec h
    rw [ordered_X] at h
    exact nodup_map_cons c _ (ih _ h.2)
  | L p c dup ih =>
    intro sec h
    cases sec with
    | some w => simp [Ordered] at h
    | none =>
      simp only [Ordered] at h
      simp only [Trie.pairs]
      apply List.Nodup.map_on _ (ih _ h.2)
      intro a ha b hb hab
      simp only [Prod.mk.injEq, true_and] at hab
      have h1 := pairs_sec dup [] h.2 a ha
      have h2 := pairs_sec dup [] h.2 b hb
      simp only [List.nil_append] at h1 h2
      exact Prod.ext (by rw [← h1, ← h2, hab]) hab
  | K p c dup next ihd ihn =>
    intro sec h
    cases sec with
    | some w => simp [Ordered] at h
    | none =>
      simp only [Ordered] at h
      simp only [Trie.pairs]
      rw [List.nodup_append]
      refine ⟨?_, nodup_map_cons c _ (ihn _ h.2.2), ?_⟩
      · apply List.Nodup.map_on _ (ihd _ h.2.1)
        intro a ha b hb hab
        simp only [Prod.mk.injEq, true_and] at hab
        have h1 := pairs_sec dup [] h.2.1 a ha
        have h2 := pairs_sec dup [] h.2.1 b hb
        simp only [List.nil_append] at h1 h2
        exact Prod.ext (by rw [← h1, ← h2, hab]) hab
      · intro x h1 h2
        rw [mem_map_dup] at h1
        rw [mem_map_cons] at h2
        obtain ⟨w, e, hw⟩ := h2
        rw [h1.1] at e
        simp only [List.cons.injEq, true_and] at e
        exact pairs_fst_ne_nil next _ hw e.symm
  | D p c l r ihl ihr =>
    intro sec h
    rw [ordered_D] at h
    simp only [Trie.pairs]
    rw [List.nodup_append]
    refine ⟨ihl _ h.2.2.2.1, ihr _ h.2.2.2.2, ?_⟩
    intro x h1 h2
    obtain ⟨a, ha, ra, ea⟩ := pairs_head l x h1
    obtain ⟨b, hb, rb, eb⟩ := pairs_head r x h2
    rw [ea] at eb
    simp only [List.cons.injEq] at eb
    have := h.2.1 a ha
    have := h.2.2.1 b hb
    omega

/-! ### The canonical form of a key -/

theorem dropSpaceRune_mem (s r : List Nat) (h : dropSpaceRune s = some r) :
    ∀ b ∈ r, b ∈ s := by
  intro b hb
  cases s with
  | nil => simp [dropSpaceRune] at h
  | cons c t =>
    simp only [dropSpaceRune] at h
    repeat' split at h
    all_goals first
      | (cases h; first
          | exact List.mem_cons_of_mem _ hb
          | exact List.mem_cons_of_mem _ (List.mem_of_mem_drop hb))
      | cases h

theorem dropSpaceRuneRev_mem (s r : List Nat) (h : dropSpaceRuneRev s = some r) :
    ∀ b ∈ r, b ∈ s := by
  intro b hb
  cases s with
  | nil => simp [dropSpaceRuneRev] at h
  | cons c t =>
    simp only [dropSpaceRuneRev] at h
    repeat' split at h
    all_goals first
      | (cases h; first
          | exact List.mem_cons_of_mem _ hb
          | exact List.mem_cons_of_mem _ (List.mem_of_mem_drop hb))
      | cases h

theorem trimLeftAux_mem (fuel : Nat) : ∀ s, ∀ b ∈ trimLeftAux fuel s, b ∈ s := by
  induction fuel with
  | zero => intro s b hb; simpa [trimLeftAux] using hb
  | succ f ih =>
    intro s b hb
    simp only [trimLeftAux] at hb
    split at hb
    · rename_i r hr
      exact dropSpaceRune_mem s r hr b (ih r b hb)
    · exact hb

theorem trimRightAux_mem (fuel : Nat) : ∀ s, ∀ b ∈ trimRightAux fuel s, b ∈ s := by
  induction fuel with
  | zero => intro s b hb; simpa [trimRightAux] using hb
  | succ f ih =>
    intro s b hb
    simp only [trimRightAux] at hb
    split at hb
    · rename_i r hr
      exact dropSpaceRuneRev_mem s r hr b (ih r b hb)
    · exact hb

theorem trimSpace_mem (s : List Nat) : ∀ b ∈ trimSpace s, b ∈ s := by
  intro b hb
  simp only [trimSpace, List.mem_reverse] at hb
  have := trimRightAux_mem _ _ b hb
  rw [List.mem_reverse] at this
  exact trimLeftAux_mem _ _ b this

theorem canonical_mem (s : List Nat) : ∀ b ∈ canonical s, b ∈ s := by
  intro b hb
  simp only [canonical] at hb
  split at hb
  · exact trimSpace_mem s b (List.mem_of_mem_take hb)
  · exact trimSpace_mem s b hb

theorem canonical_ascii (s : List Nat) (h : ∀ b ∈ s, b < 128) : ∀ b ∈ canonical s, b < 128 :=
  fun b hb => h b (canonical_mem s b hb)

theorem canonical_length (s : List Nat) : (canonical s).length ≤ maxKeyLength := by
  simp only [canonical]
  split
  · simp
  · omega

/-! ### Sequences of calls of `Insert` -/

theorem stored_nil : stored [] = [] := rfl

theorem stored_cons (c : List Nat × Int) (rest : List (List Nat × Int)) :
    stored (c :: rest) = stored [c] ++ stored rest := by
  simp only [stored, List.map_cons, List.map_nil, List.filter_cons, List.filter_nil]
  split <;> simp

theorem stored_single (key : List Nat) (kn : Int) :
    stored [(key, kn)] = if canonical key = [] then [] else [(canonical key, kn)] := by
  simp only [stored, List.map_cons, List.map_nil, List.filter_cons, List.filter_nil]
  split <;> simp_all

theorem insert_stores (s : Index) (ps : List (List Nat × Int)) (key : List Nat) (kn : Int)
    (h : Stores s ps) (hascii : ∀ b ∈ key, b < 128) :
    ∃ N s', (∀ fuel, N ≤ fuel → Insert fuel key kn s = .ok s')
      ∧ Stores s' (ps ++ stored [(key, kn)]) := by
  by_cases he : canonical key = []
  · refine ⟨0, s, ?_, ?_⟩
    · intro fuel _; simp [Insert, he]
    · rw [stored_single, if_pos he, List.append_nil]; exact h
  · have hca := canonical_ascii key hascii
    rw [stored_single, if_neg he]
    rcases h with ⟨hr, hf, hp⟩ | ⟨t, ht, hp⟩
    · obtain ⟨s', t', hins, hholds, hpairs, _⟩ := insert_empty s key kn 0 hr hf he hca
      refine ⟨0, s', fun fuel hle => Insert_mono 0 fuel key kn s s' hle hins, Or.inr ⟨t', hholds, ?_⟩⟩
      intro x
      rw [hpairs, hp]
      simp
    · obtain ⟨s', t', hins, hholds, hpairs, _⟩ := insert_holds s t key kn t.span ht he hca (le_refl _)
      refine ⟨t.span, s', fun fuel hle => Insert_mono _ fuel key kn s s' hle hins,
        Or.inr ⟨t', hholds, ?_⟩⟩
      intro x
      rw [hpairs, hp]
      simp

theorem insertAll_stores (calls : List (List Nat × Int)) :
    ∀ (s : Index) (ps : List (List Nat × Int)), Stores s ps →
      (∀ x ∈ calls, ∀ b ∈ x.1, b < 128) →
      ∃ N s', (∀ fuel, N ≤ fuel → insertAll fuel calls s = .ok s')
        ∧ Stores s' (ps ++ stored calls) := by
  induction calls with
  | nil =>
    intro s ps h _
    exact ⟨0, s, fun _ _ => rfl, by simpa [stored_nil] using h⟩
  | cons c rest ih =>
    intro s ps h hascii
    obtain ⟨N1, s1, h1, hs1⟩ := insert_stores s ps c.1 c.2 h (hascii c (by simp))
    obtain ⟨N2, s2, h2, hs2⟩ := ih s1 _ hs1 (fun x hx => hascii x (by simp [hx]))
    refine ⟨max N1 N2, s2, ?_, ?_⟩
    · intro fuel hle
      simp only [insertAll, h1 fuel (le_trans (le_max_left _ _) hle)]
      exact h2 fuel (le_trans (le_max_right _ _) hle)
    · rw [stored_cons, ← List.append_assoc]
      exact hs2

theorem stores_initialise (s0 : Index) : Stores (Initialise s0) [] :=
  Or.inl ⟨rfl, rfl, rfl⟩

theorem search_stores (s : Index) (ps : List (List Nat × Int)) (h : Stores s ps) :
    ∃ N, ∀ (key : List Nat) (b : Bool), canonical key ≠ [] →
      ∃ ids, (∀ fuel, N ≤ fuel → Search fuel key b s = .ok (!ids.isEmpty, ids))
        ∧ ids.Perm (answer b (canonical key) ps.dedup) := by
  rcases h with ⟨hr, hf, hp⟩ | ⟨t, ht, hp⟩
  · refine ⟨0, fun key b hne => ⟨[], ?_, ?_⟩⟩
    · intro fuel _; simp [Search, hr]
    · rw [hp]; simp [answer]
  · refine ⟨t.visits + 1, fun key b hne => ⟨answer b (canonical key) t.pairs, ?_, ?_⟩⟩
    · intro fuel hle
      exact search_holds s t key b fuel ht hne hle
    · have hperm : t.pairs.Perm ps.dedup := by
        rw [List.perm_ext_iff_of_nodup (pairs_nodup t none ht.ordered) (List.nodup_dedup ps)]
        intro x
        rw [hp, List.mem_dedup]
      exact (hperm.filter _).map _

/-! ### The order of the pairs of a tree -/

theorem strLt_irrefl (a : List Nat) : strLt a a = false := by
  induction a with
  | nil => rfl
  | cons x xs ih => simp [strLt, ih]

theorem strLe_refl (a : List Nat) : strLe a a = true := by
  simp [strLe, strLt_irrefl]

theorem strLe_cons (c : Nat) (a b : List Nat) : strLe (c :: a) (c :: b) = strLe a b := by
  simp [strLe, strLt]

theorem strLe_single_cons (c : Nat) (w : List Nat) : strLe [c] (c :: w) = true := by
  cases w <;> simp [strLe, strLt]

theorem strLt_of_head_lt (a b : Nat) (x y : List Nat) (h : a < b) :
    strLt (a :: x) (b :: y) = true := by
  simp [strLt, h]

theorem strLe_of_strLt (a b : List Nat) (h : strLt a b = true) : strLe a b = true := by
  induction a generalizing b with
  | nil => cases b <;> simp [strLe, strLt]
  | cons x xs ih =>
    cases b with
    | nil => simp [strLt] at h
    | cons y ys =>
      simp only [strLt] at h
      simp only [strLe, strLt]
      by_cases h1 : x < y
      · have : ¬ y < x := by omega
        simp [h1, this]
      · simp only [h1, if_false] at h
        by_cases h2 : y < x
        · simp [h2] at h
        · have hxy : x = y := by omega
          subst hxy
          simp only [lt_self_iff_false, if_false] at h ⊢
          have := ih ys h
          simpa [strLe] using this

theorem strLt_of_le_ne (a b : List Nat) (h : strLe a b = true) (hne : a ≠ b) :
    strLt a b = true := by
  induction a generalizing b with
  | nil =>
    cases b with
    | nil => exact absurd rfl hne
    | cons y ys => rfl
  | cons x xs ih =>
    cases b with
    | nil => simp [strLe, strLt] at h
    | cons y ys =>
      simp only [strLe, strLt] at h
      simp only [strLt]
      by_cases h1 : x < y
      · simp [h1]
      · by_cases h2 : y < x
        · simp [h2] at h
        · have hxy : x = y := by omega
          subst hxy
          simp only [lt_self_iff_false, if_false] at h ⊢
          apply ih
          · simpa [strLe] using h
          · intro e; exact hne (by rw [e])

theorem pairs_sorted (t : Trie) : ∀ sec, Ordered sec t →
    t.pairs.Pairwise (fun x y => strLe x.1 y.1 = true) := by
  induction t with
  | S p c id => intro sec h; simp [Trie.pairs]
  | R p c id next ih =>
    intro sec h
    rw [ordered_R] at h
    simp only [Trie.pairs, List.pairwise_cons]
    refine ⟨?_, ?_⟩
    · intro y hy
      rw [mem_map_cons] at hy
      obtain ⟨w, e, _⟩ := hy
      rw [e]; exact strLe_single_cons c w
    · rw [List.pairwise_map]
      exact (ih _ h.2.2).imp (fun hab => by simpa [strLe_cons] using hab)
  | X p c next ih =>
    intro sec h
    rw [ordered_X] at h
    simp only [Trie.pairs]
    rw [List.pairwise_map]
    exact (ih _ h.2).imp (fun hab => by simpa [strLe_cons] using hab)
  | L p c dup ih =>
    intro sec h
    simp only [Trie.pairs]
    rw [List.pairwise_map]
    exact List.pairwise_of_forall (fun _ _ => strLe_refl [c])
  | K p c dup next ihd ihn =>
    intro sec h
    cases sec with
    | some w => simp [Ordered] at h
    | none =>
      simp only [Ordered] at h
      simp only [Trie.pairs]
      rw [List.pairwise_append]
      refine ⟨?_, ?_, ?_⟩
      · rw [List.pairwise_map]
        exact List.pairwise_of_forall (fun _ _ => strLe_refl [c])
      · rw [List.pairwise_map]
        exact (ihn _ h.2.2).imp (fun hab => by simpa [strLe_cons] using hab)
      · intro x hx y hy
        rw [mem_map_dup] at hx
        rw [mem_map_cons] at hy
        obtain ⟨w, e, _⟩ := hy
        rw [hx.1, e]; exact strLe_single_cons c w
  | D p c l r ihl ihr =>
    intro sec h
    rw [ordered_D] at h
    simp only [Trie.pairs]
    rw [List.pairwise_append]
    refine ⟨ihl _ h.2.2.2.1, ihr _ h.2.2.2.2, ?_⟩
    intro x hx y hy
    obtain ⟨a, ha, ra, ea⟩ := pairs_head l x hx
    obtain ⟨b, hb, rb, eb⟩ := pairs_head r y hy
    rw [ea, eb]
    apply strLe_of_strLt
    apply strLt_of_head_lt
    have := h.2.1 a ha
    have := h.2.2.1 b hb
    omega

/-! ### The canonical form of a key of bytes below 0x80 -/

theorem spaceTail_ge (d : Nat) (h : spaceTail d = true) : 128 ≤ d := by
  simp only [spaceTail, Bool.or_eq_true, Bool.and_eq_true, decide_eq_true_eq] at h
  omega

theorem dropSpaceRune_ascii (c : Nat) (r : List Nat) (hc : c < 128) :
    dropSpaceRune (c :: r) = if asciiSpace c = true then some r else none := by
  have h1 : c ≠ 194 := by omega
  have h2 : c ≠ 225 := by omega
  have h3 : c ≠ 226 := by omega
  have h4 : c ≠ 227 := by omega
  simp [dropSpaceRune, h1, h2, h3, h4]

theorem dropSpaceRuneRev_ascii (d : Nat) (r : List Nat) (hd : d < 128) :
    dropSpaceRuneRev (d :: r) = if asciiSpace d = true then some r else none := by
  have h1 : d ≠ 133 := by omega
  have h2 : d ≠ 160 := by omega
  have h3 : d ≠ 128 := by omega
  have h4 : d ≠ 159 := by omega
  have h5 : spaceTail d = false := by
    cases h : spaceTail d
    · rfl
    · have := spaceTail_ge d h; omega
  simp [dropSpaceRuneRev, h1, h2, h3, h4, h5]

theorem trimLeftAux_keep (fuel : Nat) (k : List Nat) (hlt : k.getD 0 0 < 128)
    (h : asciiSpace (k.getD 0 0) = false) : trimLeftAux fuel k = k := by
  cases fuel with
  | zero => rfl
  | succ n =>
    cases k with
    | nil => simp [trimLeftAux, dropSpaceRune]
    | cons c r =>
      simp only [List.getD_cons_zero] at h hlt
      simp [trimLeftAux, dropSpaceRune_ascii c r hlt, h]

theorem trimRightAux_ascii (fuel : Nat) : ∀ r : List Nat, (∀ b ∈ r, b < 128) →
    ∃ a b, r = a ++ b ∧ trimRightAux fuel r = b ∧ ∀ x ∈ a, asciiSpace x = true := by
  induction fuel with
  | zero => intro r _; exact ⟨[], r, rfl, rfl, by simp⟩
  | succ n ih =>
    intro r hr
    cases r with
    | nil => exact ⟨[], [], rfl, by simp [trimRightAux, dropSpaceRuneRev], by simp⟩
    | cons d r' =>
      have hd : d < 128 := hr d (by simp)
      by_cases hs : asciiSpace d = true
      · obtain ⟨a, b, e, ht, ha⟩ := ih r' (fun x hx => hr x (by simp [hx]))
        refine ⟨d :: a, b, by rw [e]; rfl, ?_, ?_⟩
        · simp [trimRightAux, dropSpaceRuneRev_ascii d r' hd, hs, ht]
        · intro x hx
          rcases List.mem_cons.mp hx with hx | hx
          · rw [hx]; exact hs
          · exact ha x hx
      · refine ⟨[], d :: r', rfl, ?_, by simp⟩
        simp [trimRightAux, dropSpaceRuneRev_ascii d r' hd, hs]

theorem canonical_long (k : List Nat) (hlen : 32 ≤ k.length) (hascii : ∀ b ∈ k, b < 128)
    (h0 : asciiSpace (k.getD 0 0) = false) (h31 : asciiSpace (k.getD 31 0) = false) :
    canonical k = k.take 32 := by
  have hlt0 : k.getD 0 0 < 128 := by
    cases k with
    | nil => simp
    | cons c r => simpa using hascii c (by simp)
  obtain ⟨a, b, e, ht, ha⟩ := trimRightAux_ascii k.length k.reverse
    (fun x hx => hascii x (List.mem_reverse.mp hx))
  have hk : k = b.reverse ++ a.reverse := by
    have := congrArg List.reverse e
    simpa using this
  have htrim : trimSpace k = b.reverse := by
    simp only [trimSpace, trimLeftAux_keep k.length k hlt0 h0, ht]
  have hb : 32 ≤ b.reverse.length := by
    by_contra hcon
    have hbl : b.reverse.length ≤ 31 := by omega
    have h31lt : 31 < k.length := by omega
    have hget : k[31]? = a.reverse[31 - b.reverse.length]? := by
      conv => lhs; rw [hk]
      exact List.getElem?_append_right hbl
    have hsome : k[31]? = some (k.getD 31 0) := by
      simp [List.getElem?_eq_getElem h31lt]
    rw [hsome] at hget
    have hmem : k.getD 31 0 ∈ a := by
      have := List.getElem?_mem hget.symm
      exact List.mem_reverse.mp this
    have := ha _ hmem
    rw [h31] at this
    exact Bool.noConfusion this
  have htake : k.take 32 = b.reverse.take 32 := by
    conv => lhs; rw [hk]
    exact List.take_append_of_le_length hb
  simp only [canonical, htrim, maxKeyLength]
  rw [if_pos (by simpa using hb), htake]

/-! ### What a search returns after a sequence of insertions -/

theorem mem_stored (calls : List (List Nat × Int)) (x : List Nat × Int) :
    x ∈ stored calls ↔ ∃ d ∈ calls, x = (canonical d.1, d.2) ∧ canonical d.1 ≠ [] := by
  simp only [stored, List.mem_filter, List.mem_map, decide_eq_true_eq]
  constructor
  · rintro ⟨⟨d, hd, e⟩, hne⟩
    refine ⟨d, hd, e.symm, ?_⟩
    rw [← e] at hne; exact hne
  · rintro ⟨d, hd, e, hne⟩
    refine ⟨⟨d, hd, e.symm⟩, ?_⟩
    rw [e]; exact hne

theorem mem_answer (b : Bool) (w : List Nat) (ps : List (List Nat × Int)) (n : Int) :
    n ∈ answer b w ps ↔ ∃ x ∈ ps, selects b w x = true ∧ x.2 = n := by
  simp only [answer, List.mem_map, List.mem_filter]
  constructor
  · rintro ⟨x, ⟨hx, hs⟩, e⟩; exact ⟨x, hx, hs, e⟩
  · rintro ⟨x, hx, hs, e⟩; exact ⟨x, ⟨hx, hs⟩, e⟩

theorem answer_precise_nodup (w : List Nat) (ps : List (List Nat × Int)) (h : ps.Nodup) :
    (answer true w ps).Nodup := by
  simp only [answer]
  apply List.Nodup.map_on
  · intro x hx y hy e
    rw [List.mem_filter] at hx hy
    have h1 : x.1 = w := by simpa [selects] using hx.2
    have h2 : y.1 = w := by simpa [selects] using hy.2
    exact Prod.ext (h1.trans h2.symm) e
  · exact h.filter _

theorem inserts_search (s0 : Index) (calls : List (List Nat × Int))
    (hascii : ∀ x ∈ calls, ∀ b ∈ x.1, b < 128) :
    ∃ N s, (∀ fuel, N ≤ fuel → insertAll fuel calls (Initialise s0) = .ok s)
      ∧ Stores s (stored calls)
      ∧ ∀ (key : List Nat) (b : Bool), canonical key ≠ [] →
        ∃ ids, (∀ fuel, N ≤ fuel → Search fuel key b s = .ok (!ids.isEmpty, ids))
          ∧ ids.Perm (answer b (canonical key) (stored calls).dedup) := by
  obtain ⟨N1, s, hins, hst⟩ := insertAll_stores calls (Initialise s0) [] (stores_initialise s0) hascii
  rw [List.nil_append] at hst
  obtain ⟨N2, hsearch⟩ := search_stores s _ hst
  refine ⟨max N1 N2, s, fun fuel hle => hins fuel (le_trans (le_max_left _ _) hle), hst, ?_⟩
  intro key b hne
  obtain ⟨ids, hs, hperm⟩ := hsearch key b hne
  exact ⟨ids, fun fuel hle => hs fuel (le_trans (le_max_right _ _) hle), hperm⟩

theorem listing_stores (s : Index) (ps : List (List Nat × Int)) (h : Stores s ps)
    (hne : ps ≠ []) :
    ∃ (N : Nat) (l : List (List Nat × Int)),
      (∀ fuel, N ≤ fuel → Search fuel [] false s = .ok (true, l.map (fun x => x.2)))
      ∧ l.Perm ps.dedup ∧ l.Pairwise (fun x y => strLe x.1 y.1 = true) := by
  rcases h with ⟨_, _, hp⟩ | ⟨t, ht, hp⟩
  · exact absurd hp hne
  · refine ⟨t.visits + 1, t.pairs, ?_, ?_, pairs_sorted t none ht.ordered⟩
    · intro fuel hle
      exact search_all s t [] fuel ht (by decide) hle
    · rw [List.perm_ext_iff_of_nodup (pairs_nodup t none ht.ordered) (List.nodup_dedup ps)]
      intro x
      rw [hp, List.mem_dedup]

theorem stored_nodup (calls : List (List Nat × Int))
    (hdist : (calls.map (fun x => canonical x.1)).Nodup) :
    ((stored calls).map (fun x => x.1)).Nodup := by
  simp only [stored]
  have h1 : ((calls.map (fun x => (canonical x.1, x.2))).map (fun x => x.1)).Nodup := by
    rw [List.map_map]; exact hdist
  exact h1.sublist ((List.filter_sublist _).map _)

/-! ### Insertion followed by search -/

/-- C1, as stated, fails: the key of one blank is inserted with identifier 1,
and the precise search for it reports not-found. -/
theorem roundtrip_blank_key_not_found :
    (Insert 8 [32] 1 emptyIndex >>= Search 8 [32] true) = .ok (false, []) := by
  decide

/-- C1, amended: after any sequence of calls of `Insert` on an initialised
index, with keys of bytes below 0x80, the precise search for every inserted key
whose canonical form is not empty reports found, and its list holds, each once,
exactly the identifiers inserted under the canonical form of that key. Enough
fuel gives these results. -/
theorem roundtrip_seven_bit (s0 : Index) (calls : List (List Nat × Int))
    (hascii : ∀ x ∈ calls, ∀ b ∈ x.1, b < 128) :
    ∃ N s, (∀ fuel, N ≤ fuel → insertAll fuel calls (Initialise s0) = .ok s) ∧
      ∀ c ∈ calls, canonical c.1 ≠ [] →
        ∃ ids, (∀ fuel, N ≤ fuel → Search fuel c.1 true s = .ok (true, ids))
          ∧ ids.Nodup
          ∧ ∀ n, n ∈ ids ↔ ∃ d ∈ calls, canonical d.1 = canonical c.1 ∧ d.2 = n := by
  obtain ⟨N, s, hins, _, hsearch⟩ := inserts_search s0 calls hascii
  refine ⟨N, s, hins, ?_⟩
  intro c hc hne
  obtain ⟨ids, hs, hperm⟩ := hsearch c.1 true hne
  have hmem : ∀ n, n ∈ ids ↔ ∃ d ∈ calls, canonical d.1 = canonical c.1 ∧ d.2 = n := by
    intro n
    rw [hperm.mem_iff, mem_answer]
    constructor
    · rintro ⟨x, hx, hsel, e⟩
      rw [List.mem_dedup, mem_stored] at hx
      obtain ⟨d, hd, ex, _⟩ := hx
      refine ⟨d, hd, ?_, ?_⟩
      · have : x.1 = canonical c.1 := by simpa [selects] using hsel
        rw [← this, ex]
      · rw [← e, ex]
    · rintro ⟨d, hd, e1, e2⟩
      refine ⟨(canonical d.1, d.2), ?_, ?_, e2⟩
      · rw [List.mem_dedup, mem_stored]
        exact ⟨d, hd, rfl, by rw [e1]; exact hne⟩
      · simp [selects, e1]
  have hne' : ids ≠ [] := by
    have : c.2 ∈ ids := (hmem c.2).mpr ⟨c, hc, rfl, rfl⟩
    exact List.ne_nil_of_mem this
  refine ⟨ids, ?_, ?_, hmem⟩
  · intro fuel hle
    rw [hs fuel hle]
    cases ids with
    | nil => exact absurd rfl hne'
    | cons a as => rfl
  · exact hperm.nodup_iff.mpr (answer_precise_nodup _ _ (List.nodup_dedup _))

/-- C1, amended, at the calls cat->1, car->2, cart->3, cat->4 on the index
without nodes. -/
theorem roundtrip_seven_bit_witness :
    (∀ x ∈ catCalls ++ [([99, 97, 116], 4)], ∀ b ∈ x.1, b < 128) ∧
    ∃ N s, (∀ fuel, N ≤ fuel →
        insertAll fuel (catCalls ++ [([99, 97, 116], 4)]) (Initialise ⟨0, [], 0⟩) = .ok s) ∧
      ∀ c ∈ catCalls ++ [([99, 97, 116], 4)], canonical c.1 ≠ [] →
        ∃ ids, (∀ fuel, N ≤ fuel → Search fuel c.1 true s = .ok (true, ids))
          ∧ ids.Nodup
          ∧ ∀ n, n ∈ ids ↔
            ∃ d ∈ catCalls ++ [([99, 97, 116], 4)], canonical d.1 = canonical c.1 ∧ d.2 = n :=
  ⟨by decide, roundtrip_seven_bit _ _ (by decide)⟩

/-- C6: after any sequence of calls of `Insert` on an initialised index, with
keys of bytes below 0x80, the search without precision for a key `p` with a
non-empty canonical form reports found if and only if the canonical form of
`p` begins a stored key, and its list is, up to order, the list of the
identifiers of the stored pairs whose key begins with it. Enough fuel gives
these results. -/
theorem search_stored_stems (s0 : Index) (calls : List (List Nat × Int))
    (hascii : ∀ x ∈ calls, ∀ b ∈ x.1, b < 128) :
    ∃ N s, (∀ fuel, N ≤ fuel → insertAll fuel calls (Initialise s0) = .ok s) ∧
      ∀ p : List Nat, canonical p ≠ [] →
        ∃ found ids, (∀ fuel, N ≤ fuel → Search fuel p false s = .ok (found, ids))
          ∧ (found = true ↔ ∃ x ∈ stored calls, canonical p <+: x.1)
          ∧ ids.Perm (((stored calls).dedup.filter
              (fun x => (canonical p).isPrefixOf x.1)).map (fun x => x.2))
          ∧ ∀ n, n ∈ ids ↔ ∃ x ∈ stored calls, canonical p <+: x.1 ∧ x.2 = n := by
  obtain ⟨N, s, hins, _, hsearch⟩ := inserts_search s0 calls hascii
  refine ⟨N, s, hins, ?_⟩
  intro p hne
  obtain ⟨ids, hs, hperm⟩ := hsearch p false hne
  have hmem : ∀ n, n ∈ ids ↔ ∃ x ∈ stored calls, canonical p <+: x.1 ∧ x.2 = n := by
    intro n
    rw [hperm.mem_iff, mem_answer]
    constructor
    · rintro ⟨x, hx, hsel, e⟩
      exact ⟨x, List.mem_dedup.mp hx, by simpa [selects] using hsel, e⟩
    · rintro ⟨x, hx, hpre, e⟩
      exact ⟨x, List.mem_dedup.mpr hx, by simpa [selects] using hpre, e⟩
  refine ⟨!ids.isEmpty, ids, hs, ?_, ?_, hmem⟩
  · constructor
    · intro hf
      cases ids with
      | nil => simp at hf
      | cons a as =>
        obtain ⟨x, hx, hpre, _⟩ := (hmem a).mp (by simp)
        exact ⟨x, hx, hpre⟩
    · rintro ⟨x, hx, hpre⟩
      have : x.2 ∈ ids := (hmem x.2).mpr ⟨x, hx, hpre, rfl⟩
      cases ids with
      | nil => simp at this
      | cons a as => rfl
  · have : answer false (canonical p) (stored calls).dedup
        = ((stored calls).dedup.filter (fun x => (canonical p).isPrefixOf x.1)).map
            (fun x => x.2) := by
      simp only [answer]
      congr 1
    rw [← this]; exact hperm

/-- C6 at the calls cat->1, car->2, cart->3 on the index without nodes. -/
theorem search_stored_stems_witness :
    (∀ x ∈ catCalls, ∀ b ∈ x.1, b < 128) ∧
    ∃ N s, (∀ fuel, N ≤ fuel → insertAll fuel catCalls (Initialise ⟨0, [], 0⟩) = .ok s) ∧
      ∀ p : List Nat, canonical p ≠ [] →
        ∃ found ids, (∀ fuel, N ≤ fuel → Search fuel p false s = .ok (found, ids))
          ∧ (found = true ↔ ∃ x ∈ stored catCalls, canonical p <+: x.1)
          ∧ ids.Perm (((stored catCalls).dedup.filter
              (fun x => (canonical p).isPrefixOf x.1)).map (fun x => x.2))
          ∧ ∀ n, n ∈ ids ↔ ∃ x ∈ stored catCalls, canonical p <+: x.1 ∧ x.2 = n :=
  ⟨by decide, search_stored_stems _ _ (by decide)⟩

/-- The example of the specification: after cat->1, car->2, cart->3 the search
without precision for `"ca"` reports found with the identifiers 2, 3, 1. -/
theorem search_ca_example :
    (insertAll 8 catCalls emptyIndex >>= Search 8 [99, 97] false) = .ok (true, [2, 3, 1]) := by
  decide

/-- After any sequence of calls of `Insert` on an initialised index, with keys
of bytes below 0x80 whose canonical forms differ from each other, at least one
of them not empty, the search with the empty key lists the stored pairs, each
once, in strictly ascending order of the stored keys. -/
theorem listing_ascending_seven_bit (s0 : Index) (calls : List (List Nat × Int))
    (hascii : ∀ x ∈ calls, ∀ b ∈ x.1, b < 128)
    (hdist : (calls.map (fun x => canonical x.1)).Nodup)
    (hne : stored calls ≠ []) :
    ∃ (N : Nat) (s : Index) (l : List (List Nat × Int)),
      (∀ fuel, N ≤ fuel → insertAll fuel calls (Initialise s0) = .ok s)
      ∧ (∀ fuel, N ≤ fuel → Search fuel [] false s = .ok (true, l.map (fun x => x.2)))
      ∧ l.Perm (stored calls)
      ∧ l.Pairwise (fun x y => strLt x.1 y.1 = true) := by
  obtain ⟨N1, s, hins, hst, _⟩ := inserts_search s0 calls hascii
  obtain ⟨N2, l, hl, hperm, hsorted⟩ := listing_stores s _ hst hne
  have hnd := stored_nodup calls hdist
  have hnd' : (stored calls).Nodup := List.Nodup.of_map _ hnd
  rw [hnd'.dedup] at hperm
  refine ⟨max N1 N2, s, l, fun fuel hle => hins fuel (le_trans (le_max_left _ _) hle),
    fun fuel hle => hl fuel (le_trans (le_max_right _ _) hle), hperm, ?_⟩
  have hlnd : (l.map (fun x => x.1)).Nodup := (hperm.map _).nodup_iff.mpr hnd
  have hpne : l.Pairwise (fun x y => x.1 ≠ y.1) := by
    exact List.pairwise_map.mp hlnd
  exact (hsorted.and hpne).imp (fun h => strLt_of_le_ne _ _ h.1 h.2)

/-! ### Keys longer than the maximum -/

/-- C9, amended: for every key of forty bytes below 0x80 whose first and
thirty-second bytes are not white space, after `Initialise` and `Insert` the
precise search for the first thirty-two bytes of the key returns found with
exactly the inserted identifier, for every fuel from 33 on. -/
theorem truncation_consistent (idx : Index) (k : List Nat) (n : Int) (fuel : Nat)
    (hlen : k.length = 40) (hascii : ∀ b ∈ k, b < 128)
    (h0 : asciiSpace (k.getD 0 0) = false) (h31 : asciiSpace (k.getD 31 0) = false)
    (hfuel : 33 ≤ fuel) :
    ∃ s, Insert fuel k n (Initialise idx) = .ok s
      ∧ Search fuel (k.take 32) true s = .ok (true, [n]) := by
  have hc1 : canonical k = k.take 32 := canonical_long k (by omega) hascii h0 h31
  have hc2 : canonical (k.take 32) = k.take 32 := by
    have := canonical_long (k.take 32) (by simp [hlen])
      (fun b hb => hascii b (List.mem_of_mem_take hb))
      (by simpa [List.getElem?_take] using h0) (by simpa [List.getElem?_take] using h31)
    rw [this, List.take_take]; simp
  have hne : canonical k ≠ [] := by
    rw [hc1]; intro e
    have := congrArg List.length e
    simp [hlen] at this
  obtain ⟨s, t, hins, hholds, hpairs, hvis⟩ := insert_empty (Initialise idx) k n fuel rfl rfl hne
    (canonical_ascii k hascii)
  refine ⟨s, hins, ?_⟩
  have hvis32 : t.visits = 32 := by rw [hvis, hc1]; simp [hlen]
  have := search_holds s t (k.take 32) true fuel hholds (by rw [hc2, ← hc1]; exact hne)
    (by omega)
  rw [this, hpairs, hc2, hc1]
  simp [answer, selects]

/-- C9, amended, at the key of forty letters `a` and the identifier 7. -/
theorem truncation_consistent_witness :
    (List.replicate 40 97).length = 40 ∧ (∀ b ∈ List.replicate 40 97, b < 128)
    ∧ asciiSpace ((List.replicate 40 97).getD 0 0) = false
    ∧ asciiSpace ((List.replicate 40 97).getD 31 0) = false
    ∧ 33 ≤ 33
    ∧ ∃ s, Insert 33 (List.replicate 40 97) 7 (Initialise ⟨0, [], 0⟩) = .ok s
      ∧ Search 33 ((List.replicate 40 97).take 32) true s = .ok (true, [7]) :=
  ⟨by decide, by decide, by decide, by decide, by decide,
    truncation_consistent _ _ 7 33 (by decide) (by decide) (by decide) (by decide) (by decide)⟩

/-! ### Evaluations at concrete inputs -/

/-- A key with a byte from 0x80 on is not found after its insertion: after
`Initialise` and `Insert("é", 1)` the precise search for `"é"` (bytes 0xC3 0xA9)
reports not-found. -/
theorem roundtrip_high_byte_not_found :
    (Insert 8 [195, 169] 1 emptyIndex >>= Search 8 [195, 169] true) = .ok (false, []) := by
  decide

/-- C2: on the index reached by `Insert("a",10)`, `Insert("a",11)`,
`Delete("a",10)`, `Delete("a",11)`, which stores no pair, the calls
`Insert("a",5)` and `Delete("a",5)` are followed by a precise search for `"a"`
that reports found with the identifiers 11, 11, 10. -/
theorem insert_delete_not_inverse :
    (Insert 8 [97] 10 emptyIndex >>= Insert 8 [97] 11 >>= Delete 8 [97] 10
      >>= Delete 8 [97] 11 >>= Insert 8 [97] 5 >>= Delete 8 [97] 5
      >>= Search 8 [97] true) = .ok (true, [11, 11, 10]) := by
  decide

/-- C3: for the key `"é"` (bytes 0xC3 0xA9) the second `Insert` of the same
pair does not leave the index as it is: it adds a decision node and a second
chain, moves the root, and the listing of the whole index then holds the
identifier twice. -/
theorem insert_twice_high_byte :
    Insert 8 [195, 169] 1 emptyIndex
        = .ok { indexRoot := 1,
                node := [⟨stS, 1, 169, -1⟩, ⟨stX, -1, 195, 0⟩],
                deletedRoot := -1 }
      ∧ (Insert 8 [195, 169] 1 emptyIndex >>= Insert 8 [195, 169] 1)
        = .ok { indexRoot := 2,
                node := [⟨stS, 1, 169, -1⟩, ⟨stX, -1, 195, 0⟩, ⟨stD, 4, 195, 1⟩,
                         ⟨stS, 1, 169, 2⟩, ⟨stX, -1, 195, 3⟩],
                deletedRoot := -1 }
      ∧ (Insert 8 [195, 169] 1 emptyIndex >>= Search 8 [] false) = .ok (true, [1])
      ∧ (Insert 8 [195, 169] 1 emptyIndex >>= Insert 8 [195, 169] 1 >>= Search 8 [] false)
        = .ok (true, [1, 1]) := by
  decide

/-- C4: two identifiers inserted under the key `"é"` (bytes 0xC3 0xA9) are not
found by the precise search for that key. -/
theorem fan_out_high_byte_not_found :
    (Insert 8 [195, 169] 1 emptyIndex >>= Insert 8 [195, 169] 2 >>= Search 8 [195, 169] true)
      = .ok (false, []) := by
  decide

/-- C5: after `Insert("a",10)`, `Insert("a",11)`, `Delete("a",10)` the precise
search for `"a"` returns 11, 11, 10 instead of the survivor 11, the node of
`"a"` (position 0) still has status `'L'`, and the free list is empty. -/
theorem demotion_shared_digit_prefix :
    (Insert 8 [97] 10 emptyIndex >>= Insert 8 [97] 11 >>= Delete 8 [97] 10
      >>= Search 8 [97] true) = .ok (true, [11, 11, 10])
    ∧ (Insert 8 [97] 10 emptyIndex >>= Insert 8 [97] 11 >>= Delete 8 [97] 10)
      = .ok { indexRoot := 0,
              node := [⟨stL, 2, 97, -1⟩, ⟨stS, 10, 48, -1⟩, ⟨stS, 11, 49, 3⟩,
                       ⟨stD, 1, 48, 4⟩, ⟨stS, 11, 49, 1⟩],
              deletedRoot := -1 } := by
  decide

/-- C7: on the index reached by `Insert("a",10)`, `Insert("a",11)`,
`Delete("a",10)`, `Delete("a",11)`, which stores no pair, the precise search
for `"a"` reports found with the identifiers 11, 11, 10. -/
theorem precise_false_positive :
    (Insert 8 [97] 10 emptyIndex >>= Insert 8 [97] 11 >>= Delete 8 [97] 10
      >>= Delete 8 [97] 11 >>= Search 8 [97] true) = .ok (true, [11, 11, 10]) := by
  decide

/-- C8: the keys `"é"` (bytes 0xC3 0xA9, identifier 1) and `"ü"` (bytes 0xC3
0xBC, identifier 2), inserted in this order, are listed as 2, 1 by the search
with the empty key, though `"é"` is the smaller key in byte order. -/
theorem listing_high_byte_order :
    strLt [195, 169] [195, 188] = true
    ∧ (Insert 8 [195, 169] 1 emptyIndex >>= Insert 8 [195, 188] 2 >>= Search 8 [] false)
      = .ok (true, [2, 1]) := by
  decide

/-- C9, as stated, fails: for the forty-byte key made of a blank and
thirty-nine letters `a`, the precise search for its first thirty-two bytes
after `Insert` reports not-found. -/
theorem truncation_blank_first_not_found :
    blankFirstKey.length = 40
    ∧ (Insert 40 blankFirstKey 7 emptyIndex >>= Search 40 (blankFirstKey.take 32) true)
      = .ok (false, []) := by
  decide

/-! ### Keys with an empty canonical form -/

/-- C10: when the canonical form of the key is empty, `Insert` and `Delete`
both return the index they were given, whatever the index, the identifier and
the fuel. -/
theorem empty_key_noop (fuel : Nat) (keyInput : List Nat) (keyNumber : Int)
    (indexStructure : Index) (h : canonical keyInput = []) :
    Insert fuel keyInput keyNumber indexStructure = .ok indexStructure
    ∧ Delete fuel keyInput keyNumber indexStructure = .ok indexStructure := by
  simp [Insert, Delete, h]

/-- C10 at the key of a blank and a tab, on an index with one node. -/
theorem empty_key_noop_witness :
    canonical [32, 9] = []
    ∧ Insert 0 [32, 9] 3 { indexRoot := 0, node := [⟨stS, 1, 97, -1⟩], deletedRoot := -1 }
        = .ok { indexRoot := 0, node := [⟨stS, 1, 97, -1⟩], deletedRoot := -1 }
    ∧ Delete 0 [32, 9] 3 { indexRoot := 0, node := [⟨stS, 1, 97, -1⟩], deletedRoot := -1 }
        = .ok { indexRoot := 0, node := [⟨stS, 1, 97, -1⟩], deletedRoot := -1 } :=
  ⟨by decide, empty_key_noop 0 [32, 9] 3 _ (by decide)⟩

/-! ### The free list and `extend` -/

theorem FreeList_lt (nodes : List indexNode) : ∀ (ps : List Nat) (head : Int),
    FreeList nodes head ps → ∀ p ∈ ps, p < nodes.length := by
  intro ps
  induction ps with
  | nil => intro _ _ p hp; simp at hp
  | cons a as ih =>
    intro head h p hp
    simp only [FreeList] at h
    obtain ⟨_, h2⟩ := h
    cases hn : nodes[a]? with
    | none => rw [hn] at h2; exact h2.elim
    | some n =>
      rw [hn] at h2
      rcases List.mem_cons.mp hp with rfl | hp
      · exact getElem?_some_lt nodes p n hn
      · exact ih _ h2 p hp

theorem FreeList_congr (nodes nodes' : List indexNode) : ∀ (ps : List Nat) (head : Int),
    FreeList nodes head ps → (∀ p ∈ ps, nodes'[p]? = nodes[p]?) → FreeList nodes' head ps := by
  intro ps
  induction ps with
  | nil => intro head h _; exact h
  | cons a as ih =>
    intro head h hsame
    simp only [FreeList] at h ⊢
    refine ⟨h.1, ?_⟩
    rw [hsame a (by simp)]
    cases hn : nodes[a]? with
    | none => rw [hn] at h; exact h.2.elim
    | some n =>
      rw [hn] at h
      exact ih _ h.2 (fun p hp => hsame p (by simp [hp]))

theorem Chain_congr (nodes nodes' : List indexNode) (kn t : Int) : ∀ (s qs : List Nat) (p : Int),
    Chain nodes kn t s qs p → (∀ q ∈ qs, nodes'[q]? = nodes[q]?) → Chain nodes' kn t s qs p := by
  intro s
  induction s with
  | nil =>
    intro qs p h _
    cases qs with
    | nil => exact h
    | cons q qs => simp [Chain] at h
  | cons c rest ih =>
    intro qs p h hsame
    cases qs with
    | nil => simp [Chain] at h
    | cons q qs =>
      simp only [Chain] at h ⊢
      obtain ⟨hp, next, hch, hn⟩ := h
      refine ⟨hp, next, ih qs next hch (fun x hx => hsame x (by simp [hx])), ?_⟩
      rw [hsame q (by simp)]; exact hn

theorem allocated_succ_free (ps : List Nat) (len L : Nat) (p : Nat) (rest : List Nat)
    (h : ps.drop L = p :: rest) :
    allocated ps len (L + 1) = allocated ps len L ++ [p] ∧ ps.drop (L + 1) = rest := by
  have hlt : L < ps.length := by
    by_contra hcon
    rw [List.drop_eq_nil_of_le (by omega)] at h
    exact List.noConfusion h
  have h1 : L + 1 - ps.length = 0 := by omega
  have h2 : L - ps.length = 0 := by omega
  have hp : ps[L] = p := by
    have := List.drop_eq_getElem_cons hlt
    rw [this] at h
    exact (List.cons.inj h).1
  constructor
  · simp only [allocated, h1, h2, List.range_zero, List.map_nil, List.append_nil]
    rw [List.take_succ, List.getElem?_eq_getElem hlt, hp]
    rfl
  · have := List.drop_eq_getElem_cons hlt
    rw [this] at h
    rw [← (List.cons.inj h).2]

theorem allocated_succ_new (ps : List Nat) (len L : Nat) (h : ps.drop L = []) :
    allocated ps len (L + 1) = allocated ps len L ++ [len + (L - ps.length)]
      ∧ ps.drop (L + 1) = [] := by
  have hle : ps.length ≤ L := by
    by_contra hcon
    have := List.drop_eq_getElem_cons (show L < ps.length by omega)
    rw [this] at h
    exact List.noConfusion h
  have h1 : L + 1 - ps.length = (L - ps.length) + 1 := by omega
  constructor
  · simp only [allocated, h1, List.range_succ, List.map_append, List.map_cons, List.map_nil]
    rw [List.take_of_length_le hle, List.take_of_length_le (by omega), List.append_assoc]
  · exact List.drop_eq_nil_of_le (by omega)

theorem FreeList_null (nodes : List indexNode) (ps : List Nat)
    (h : FreeList nodes nullIndexPointer ps) : ps = [] := by
  cases ps with
  | nil => rfl
  | cons a as =>
    simp only [FreeList] at h
    exact absurd h.1.symm (natCast_ne_null a)

theorem FreeList_cons (nodes : List indexNode) (head : Int) (ps : List Nat)
    (h : FreeList nodes head ps) (hne : head ≠ nullIndexPointer) :
    ∃ a rest n, ps = a :: rest ∧ head = (a : Int) ∧ nodes[a]? = some n
      ∧ FreeList nodes n.rightPointer rest := by
  cases ps with
  | nil => exact absurd h hne
  | cons a as =>
    simp only [FreeList] at h
    cases hn : nodes[a]? with
    | none => rw [hn] at h; exact h.2.elim
    | some n =>
      rw [hn] at h
      exact ⟨a, as, n, rfl, h.1, hn, h.2⟩

theorem allocated_lt (ps : List Nat) (len L : Nat) (hps : ∀ p ∈ ps, p < len) :
    ∀ x ∈ allocated ps len L, x < len + (L - ps.length) := by
  intro x hx
  simp only [allocated, List.mem_append, List.mem_map, List.mem_range] at hx
  rcases hx with hx | ⟨j, hj, rfl⟩
  · have := hps x (List.mem_of_mem_take hx)
    omega
  · omega

theorem allocated_zero (ps : List Nat) (len : Nat) : allocated ps len 0 = [] := by
  simp [allocated]

theorem extendFrom_slots (kn t : Int) (s : Index) (ps : List Nat)
    (hfree : FreeList s.node s.deletedRoot ps) (hnd : ps.Nodup) :
    ∀ kf : List Nat, ∃ p s',
      extendFrom kf kn t s = .ok (p, s')
      ∧ s'.indexRoot = s.indexRoot
      ∧ s'.node.length = s.node.length + (kf.length - ps.length)
      ∧ FreeList s'.node s'.deletedRoot (ps.drop kf.length)
      ∧ Chain s'.node kn t kf (allocated ps s.node.length kf.length).reverse p
      ∧ (∀ x, x ∉ allocated ps s.node.length kf.length → s'.node[x]? = s.node[x]?) := by
  have hps := FreeList_lt s.node ps s.deletedRoot hfree
  intro kf
  induction kf with
  | nil =>
    refine ⟨t, s, rfl, rfl, by simp, by simpa using hfree, ?_, fun _ _ => rfl⟩
    simp only [List.length_nil, allocated_zero, List.reverse_nil, Chain]
  | cons c rest ih =>
    obtain ⟨p1, s1, hext, hroot, hlen, hfl, hch, hframe⟩ := ih
    obtain ⟨new, hnew⟩ : ∃ new : indexNode, new =
        (if rest = [] then ⟨stS, kn, c, p1⟩ else ⟨stX, nullIndexPointer, c, p1⟩) := ⟨_, rfl⟩
    have hstep : extendFrom (c :: rest) kn t s = allocNode new s1 := by
      simp only [extendFrom, hext, hnew]
      split <;> rfl
    by_cases hdr : s1.deletedRoot = nullIndexPointer
    · -- the free list is used up: the node is appended
      rw [hdr] at hfl
      have hnil := FreeList_null _ _ hfl
      obtain ⟨halloc, hdrop⟩ := allocated_succ_new ps s.node.length rest.length hnil
      have hle : ps.length ≤ rest.length := by
        by_contra hcon
        have := List.drop_eq_getElem_cons (show rest.length < ps.length by omega)
        rw [this] at hnil
        exact List.noConfusion hnil
      refine ⟨(s1.node.length : Int), { s1 with node := s1.node ++ [new] }, ?_, hroot, ?_, ?_, ?_, ?_⟩
      · rw [hstep, allocNode_fresh s1 new hdr]
      · simp only [List.length_append, List.length_cons, List.length_nil, hlen]
        omega
      · simp only [List.length_cons]
        rw [hdrop, hdr]
        simp [FreeList]
      · simp only [List.length_cons]
        rw [halloc, List.reverse_append, List.reverse_cons, List.reverse_nil, List.nil_append,
          List.singleton_append, ← hlen]
        simp only [Chain]
        refine ⟨trivial, p1, ?_, ?_⟩
        · apply Chain_congr s1.node _ kn t rest _ p1 hch
          intro q hq
          have := allocated_lt ps s.node.length rest.length hps q (List.mem_reverse.mp hq)
          exact List.getElem?_append_left (by omega)
        · rw [← hnew]; simp
      · intro x hx
        simp only [List.length_cons] at hx
        rw [halloc, List.mem_append, not_or] at hx
        rw [← hframe x hx.1]
        have hxne : x ≠ s1.node.length := by
          intro e; apply hx.2; rw [e, hlen]; simp
        rcases Nat.lt_or_gt_of_ne hxne with hlt | hgt
        · exact List.getElem?_append_left hlt
        · rw [List.getElem?_eq_none (by simp; omega), List.getElem?_eq_none (by omega)]
    · -- the head of the free list is taken
      obtain ⟨a, rest', old, hdropE, hhead, hold, hfl'⟩ := FreeList_cons _ _ _ hfl hdr
      obtain ⟨halloc, hdrop⟩ := allocated_succ_free ps s.node.length rest.length a rest' hdropE
      have hlt : rest.length < ps.length := by
        by_contra hcon
        rw [List.drop_eq_nil_of_le (by omega)] at hdropE
        exact List.noConfusion hdropE
      have hsplit : ps = ps.take rest.length ++ (a :: rest') := by
        rw [← hdropE, List.take_append_drop]
      have hnd2 : (ps.take rest.length ++ (a :: rest')).Nodup := by rw [← hsplit]; exact hnd
      have ha1 : a ∉ ps.take rest.length := by
        intro hmem
        exact (List.nodup_append.mp hnd2).2.2 hmem (List.mem_cons_self a rest') 
      have ha2 : a ∉ rest' := by
        have := (List.nodup_append.mp hnd2).2.1
        exact (List.nodup_cons.mp this).1
      have hallocL : allocated ps s.node.length rest.length = ps.take rest.length := by
        simp [allocated, show rest.length - ps.length = 0 by omega]
      have halt : a < s1.node.length := getElem?_some_lt _ _ _ hold
      refine ⟨(a : Int), { s1 with node := s1.node.set a new, deletedRoot := old.rightPointer },
        ?_, hroot, ?_, ?_, ?_, ?_⟩
      · rw [hstep]
        have hdr' : ¬ ((a : Int) = nullIndexPointer) := natCast_ne_null a
        simp only [allocNode, hhead, hdr', if_false, nodeAt_natCast s1 a old hold,
          setNode_natCast s1 a old new hold]
      · simp only [List.length_set, List.length_cons, hlen]
        omega
      · simp only [List.length_cons]
        rw [hdrop]
        apply FreeList_congr s1.node _ rest' _ hfl'
        intro q hq
        have : q ≠ a := fun e => ha2 (e ▸ hq)
        simp [List.getElem?_set, this.symm]
      · simp only [List.length_cons]
        rw [halloc, List.reverse_append, List.reverse_cons, List.reverse_nil, List.nil_append,
          List.singleton_append]
        simp only [Chain]
        refine ⟨trivial, p1, ?_, ?_⟩
        · apply Chain_congr s1.node _ kn t rest _ p1 hch
          intro q hq
          rw [List.mem_reverse, hallocL] at hq
          have : q ≠ a := fun e => ha1 (e ▸ hq)
          simp [List.getElem?_set, this.symm]
        · rw [← hnew, getElem?_set_self' s1.node a old new hold]
      · intro x hx
        simp only [List.length_cons] at hx
        rw [halloc, List.mem_append, not_or] at hx
        rw [← hframe x hx.1]
        have hxne : a ≠ x := by
          intro e; apply hx.2; rw [e]; simp
        simp [List.getElem?_set, hxne]

theorem extend_slots (kn t : Int) (s : Index) (ps : List Nat)
    (hfree : FreeList s.node s.deletedRoot ps) (hnd : ps.Nodup) (kf : List Nat) :
    ∃ p s',
      extend kf kn t s = .ok (p, s')
      ∧ s'.indexRoot = s.indexRoot
      ∧ s'.node.length = s.node.length + (kf.length - ps.length)
      ∧ FreeList s'.node s'.deletedRoot (ps.drop kf.length)
      ∧ Chain s'.node kn t kf (allocated ps s.node.length kf.length).reverse p
      ∧ (∀ x, x ∉ allocated ps s.node.length kf.length → s'.node[x]? = s.node[x]?) :=
  extendFrom_slots kn t s ps hfree hnd kf

theorem allocated_length (ps : List Nat) (len L : Nat) : (allocated ps len L).length = L := by
  simp only [allocated, List.length_append, List.length_take, List.length_map, List.length_range]
  omega

theorem allocated_nodup (ps : List Nat) (len L : Nat) (hps : ∀ p ∈ ps, p < len)
    (hnd : ps.Nodup) : (allocated ps len L).Nodup := by
  simp only [allocated]
  rw [List.nodup_append]
  refine ⟨hnd.sublist (List.take_sublist _ _), ?_, ?_⟩
  · apply List.Nodup.map_on
    · intro x _ y _ e; omega
    · exact List.nodup_range _
  · intro x hx1 hx2
    have := hps x (List.mem_of_mem_take hx1)
    simp only [List.mem_map, List.mem_range] at hx2
    obtain ⟨j, _, rfl⟩ := hx2
    omega

theorem Chain_last (nodes : List indexNode) (kn t : Int) : ∀ (s qs : List Nat) (p : Int),
    Chain nodes kn t s qs p → s ≠ [] →
    ∃ q c, qs.getLast? = some q ∧ s.getLast? = some c ∧ nodes[q]? = some ⟨stS, kn, c, t⟩ := by
  intro s
  induction s with
  | nil => intro _ _ _ h; exact absurd rfl h
  | cons c rest ih =>
    intro qs p h _
    cases qs with
    | nil => simp [Chain] at h
    | cons q qs =>
      simp only [Chain] at h
      obtain ⟨_, next, hch, hn⟩ := h
      by_cases hr : rest = []
      · subst hr
        cases qs with
        | nil =>
          simp only [Chain] at hch
          subst hch
          exact ⟨q, c, rfl, rfl, by simpa using hn⟩
        | cons q' qs' => simp [Chain] at hch
      · obtain ⟨q', c', h1, h2, h3⟩ := ih qs next hch hr
        refine ⟨q', c', ?_, ?_, h3⟩
        · cases qs with
          | nil => simp at h1
          | cons a as => simpa [List.getLast?_cons_cons] using h1
        · cases rest with
          | nil => exact absurd rfl hr
          | cons a as => simpa [List.getLast?_cons_cons] using h2

/-! ### Chain construction -/

/-- C18, as stated, fails: the call of `extend` for the text `"10"` with the
identifier 10 and the target 0, as `Insert` makes it on the index that holds
`"a"` with 10 when 11 is inserted under `"a"`, returns a chain whose last node
has the target 0 on the right, which is not the null pointer, and yet the
status `'S'` (Leaf), not `'R'` (Branch). -/
theorem extend_last_is_leaf :
    extend [49, 48] 10 0 { indexRoot := 0, node := [⟨stS, 10, 97, -1⟩], deletedRoot := -1 }
      = .ok (2, { indexRoot := 0,
                  node := [⟨stS, 10, 97, -1⟩, ⟨stS, 10, 48, 0⟩, ⟨stX, -1, 49, 1⟩],
                  deletedRoot := -1 }) := by
  decide

/-- C18, amended: on every index whose free list is a chain of distinct slots,
for every non-empty text `keyField`, identifier and target, `extend` returns
the position of a chain of as many nodes, at pairwise distinct positions, as
the text has bytes, which carry the bytes in order; every node but the last has
status `'X'` and points right at the next; the last node has the identifier on
the left, the target on the right and status `'S'`, whatever the target. -/
theorem extend_chain_kinds (keyField : List Nat) (keyNumber target : Int) (s : Index)
    (ps : List Nat) (hfree : FreeList s.node s.deletedRoot ps) (hnd : ps.Nodup)
    (hne : keyField ≠ []) :
    ∃ p s' qs, extend keyField keyNumber target s = .ok (p, s')
      ∧ qs.length = keyField.length ∧ qs.Nodup
      ∧ Chain s'.node keyNumber target keyField qs p
      ∧ ∃ q c, qs.getLast? = some q ∧ keyField.getLast? = some c
          ∧ s'.node[q]? = some ⟨stS, keyNumber, c, target⟩ := by
  obtain ⟨p, s', hext, _, _, _, hch, _⟩ := extend_slots keyNumber target s ps hfree hnd keyField
  refine ⟨p, s', _, hext, ?_, ?_, hch, Chain_last _ _ _ _ _ _ hch hne⟩
  · rw [List.length_reverse, allocated_length]
  · rw [List.nodup_reverse]
    exact allocated_nodup ps _ _ (FreeList_lt s.node ps s.deletedRoot hfree) hnd

/-- C18, amended, at the text `"xyz"`, the identifier 7 and the target 0 on an
index of three nodes whose free list holds the slots 1 and 2. -/
theorem extend_chain_kinds_witness :
    FreeList recycledIndex.node recycledIndex.deletedRoot [1, 2]
    ∧ [1, 2].Nodup ∧ [120, 121, 122] ≠ []
    ∧ ∃ p s' qs, extend [120, 121, 122] 7 0 recycledIndex = .ok (p, s')
      ∧ qs.length = [120, 121, 122].length ∧ qs.Nodup
      ∧ Chain s'.node 7 0 [120, 121, 122] qs p
      ∧ ∃ q c, qs.getLast? = some q ∧ [120, 121, 122].getLast? = some c
          ∧ s'.node[q]? = some ⟨stS, 7, c, 0⟩ :=
  ⟨by simp [FreeList, recycledIndex], by decide, by decide,
    extend_chain_kinds [120, 121, 122] 7 0 recycledIndex [1, 2]
      (by simp [FreeList, recycledIndex]) (by decide) (by decide)⟩

/-- C19: on every index whose free list is a chain of the distinct slots `ps`,
`extend` for a text of `L` bytes takes the first `min L f` slots of the free
list, head first, for the last bytes of the text, and new slots at the end of
the node array for the other bytes; the node array grows by `L - f` slots (by
none when `L ≤ f`), the free list that is left is the rest of `ps`, of length
`f - min L f`, and every slot that is not allocated holds what it held. -/
theorem extend_free_list_first (keyField : List Nat) (keyNumber target : Int) (s : Index)
    (ps : List Nat) (hfree : FreeList s.node s.deletedRoot ps) (hnd : ps.Nodup) :
    ∃ p s', extend keyField keyNumber target s = .ok (p, s')
      ∧ Chain s'.node keyNumber target keyField
          (ps.take keyField.length
            ++ (List.range (keyField.length - ps.length)).map (fun j => s.node.length + j)).reverse p
      ∧ (ps.take keyField.length).length = min keyField.length ps.length
      ∧ s'.node.length = s.node.length + (keyField.length - ps.length)
      ∧ FreeList s'.node s'.deletedRoot (ps.drop keyField.length)
      ∧ (ps.drop keyField.length).length = ps.length - min keyField.length ps.length
      ∧ s'.indexRoot = s.indexRoot
      ∧ ∀ x, x ∉ ps.take keyField.length → ¬ (s.node.length ≤ x) → s'.node[x]? = s.node[x]? := by
  obtain ⟨p, s', hext, hroot, hlen, hfl, hch, hframe⟩ :=
    extend_slots keyNumber target s ps hfree hnd keyField
  refine ⟨p, s', hext, hch, by simp, hlen, hfl, ?_, hroot, ?_⟩
  · simp only [List.length_drop]; omega
  · intro x hx1 hx2
    apply hframe
    simp only [allocated, List.mem_append, List.mem_map, List.mem_range, not_or]
    refine ⟨hx1, ?_⟩
    rintro ⟨j, _, rfl⟩
    omega

/-- C19 at the text `"xyz"` on an index of three nodes whose free list holds
the slots 1 and 2: the slots 1 and 2 are taken, in this order, for `z` and `y`,
and the new slot 3 for `x`. -/
theorem extend_free_list_first_witness :
    FreeList recycledIndex.node recycledIndex.deletedRoot [1, 2]
    ∧ [1, 2].Nodup
    ∧ extend [120, 121, 122] 7 0 recycledIndex
        = .ok (3, { indexRoot := 0,
                    node := [⟨stS, 1, 97, -1⟩, ⟨stS, 7, 122, 0⟩, ⟨stX, -1, 121, 1⟩,
                             ⟨stX, -1, 120, 2⟩],
                    deletedRoot := -1 })
    ∧ ∃ p s', extend [120, 121, 122] 7 0 recycledIndex = .ok (p, s')
      ∧ Chain s'.node 7 0 [120, 121, 122]
          (([1, 2] : List Nat).take [120, 121, 122].length
            ++ (List.range ([120, 121, 122].length - [1, 2].length)).map
                (fun j => recycledIndex.node.length + j)).reverse p
      ∧ (([1, 2] : List Nat).take [120, 121, 122].length).length
          = min [120, 121, 122].length [1, 2].length
      ∧ s'.node.length = recycledIndex.node.length + ([120, 121, 122].length - [1, 2].length)
      ∧ FreeList s'.node s'.deletedRoot (([1, 2] : List Nat).drop [120, 121, 122].length)
      ∧ (([1, 2] : List Nat).drop [120, 121, 122].length).length
          = [1, 2].length - min [120, 121, 122].length [1, 2].length
      ∧ s'.indexRoot = recycledIndex.indexRoot
      ∧ ∀ x, x ∉ ([1, 2] : List Nat).take [120, 121, 122].length →
          ¬ (recycledIndex.node.length ≤ x) → s'.node[x]? = recycledIndex.node[x]? :=
  ⟨by simp [FreeList, recycledIndex], by decide, by decide,
    extend_free_list_first [120, 121, 122] 7 0 recycledIndex [1, 2]
      (by simp [FreeList, recycledIndex]) (by decide)⟩

/-! ### The searching loop of `Delete`, turn by turn -/

theorem bind_ok {α β : Type} (x : Except Fault α) (f : α → Except Fault β) (r : β)
    (h : (x >>= f) = .ok r) : ∃ a, x = .ok a ∧ f a = .ok r := by
  cases x with
  | error e => simp [bind, Except.bind] at h
  | ok a => exact ⟨a, rfl, h⟩

theorem nodeAt_ok (s : Index) (x : Int) (n : indexNode) (h : nodeAt s x = .ok n) :
    0 ≤ x ∧ s.node[x.toNat]? = some n := by
  unfold nodeAt at h
  split at h
  · cases h
  · split at h
    · cases h
      rename_i hx m hm
      exact ⟨by omega, hm⟩
    · cases h

theorem setNode_ok (s : Index) (x : Int) (m : indexNode) (s' : Index)
    (h : setNode s x m = .ok s') :
    0 ≤ x ∧ x.toNat < s.node.length ∧ s' = { s with node := s.node.set x.toNat m } := by
  unfold setNode at h
  split at h
  · cases h
  · split at h
    · cases h
      rename_i hx hlt
      exact ⟨by omega, hlt, rfl⟩
    · cases h

theorem toNat_cast (x : Int) (h : 0 ≤ x) : ((x.toNat : Nat) : Int) = x := Int.toNat_of_nonneg h

theorem search_listing (s : Index) (t : Trie) (key : List Nat) (fuel : Nat)
    (hroot : s.indexRoot = t.root) (hrep : Rep s.node t nullIndexPointer)
    (he : canonical key = []) (hfuel : t.visits + 1 ≤ fuel) :
    Search fuel key false s = .ok (true, t.pairs.map (fun x => x.2)) := by
  have hr : ¬ (s.indexRoot = nullIndexPointer) := by rw [hroot]; exact natCast_ne_null _
  have := collect_tree s t nullIndexPointer fuel [] hrep (fun q _ => natCast_ne_null q) hfuel
  simp [Search, hr, he, bind, Except.bind, hroot, this]
  exact natCast_ne_null _

/-- On an index whose active root is the null pointer `Search` returns
not-found and no identifier, for every key, both modes and every fuel; on every
index the precise search with a key whose canonical form is empty returns
not-found and no identifier; and the search without precision with such a key
on an index whose root is not the null pointer never returns not-found, and on
an index whose root is the root of a tree of keys it returns found, with the
identifiers of the tree, once the fuel covers the walk. -/
theorem search_edge_cases (s : Index) (key : List Nat) (fuel : Nat) :
    (s.indexRoot = nullIndexPointer → ∀ b, Search fuel key b s = .ok (false, []))
    ∧ (canonical key = [] → Search fuel key true s = .ok (false, []))
    ∧ (canonical key = [] → s.indexRoot ≠ nullIndexPointer →
        ∀ r, Search fuel key false s = .ok r → r.1 = true)
    ∧ (canonical key = [] → ∀ t : Trie, s.indexRoot = t.root →
        Rep s.node t nullIndexPointer → t.visits + 1 ≤ fuel →
        Search fuel key false s = .ok (true, t.pairs.map (fun x => x.2))) := by
  refine ⟨?_, ?_, ?_, ?_⟩
  · intro h b
    simp [Search, h]
  · intro h
    simp [Search, h]
  · intro he hr r h
    simp only [Search, hr, if_false, he, List.length_nil, true_and, Bool.false_eq_true,
      if_true, bind, Except.bind] at h
    split at h
    · cases h
    · cases h; rfl
  · intro he t hroot hrep hfuel
    exact search_listing s t key fuel hroot hrep he hfuel

/-- An instance, at the index without nodes, and at the index that holds `"a"` with 1 and
`"b"` with 2, for the key of one blank. -/
theorem search_edge_cases_witness :
    (∀ b, Search 0 [97] b emptyIndex = .ok (false, []))
    ∧ Search 8 [32] true forkIndex = .ok (false, [])
    ∧ (∀ r, Search 8 [32] false forkIndex = .ok r → r.1 = true)
    ∧ Search 8 [32] false forkIndex = .ok (true, [1, 2]) :=
  ⟨(search_edge_cases emptyIndex [97] 0).1 rfl,
    (search_edge_cases forkIndex [32] 8).2.1 (by decide),
    (search_edge_cases forkIndex [32] 8).2.2.1 (by decide) (by decide),
    (search_edge_cases forkIndex [32] 8).2.2.2 (by decide)
      (Trie.D 1 97 (Trie.S 0 97 1) (Trie.S 2 98 2)) rfl (by simp [Rep, forkIndex, Trie.root, Trie.pos])
      (by decide)⟩

/-- C17, as stated, fails: `Initialise` on an index that holds three nodes
leaves the three nodes in the node array. -/
theorem initialise_keeps_three_nodes :
    (Initialise forkIndex).node.length = 3 := by
  decide

/-- C17, amended: after `Initialise` the active root and the head of the free
list are both the null pointer, and the node array is the one the index had
before (so it is empty when it was empty). -/
theorem initialise_resets_roots (indexStructure : Index) :
    (Initialise indexStructure).indexRoot = nullIndexPointer
    ∧ (Initialise indexStructure).deletedRoot = nullIndexPointer
    ∧ (Initialise indexStructure).node = indexStructure.node :=
  ⟨rfl, rfl, rfl⟩

/-! ### Evaluations on indexes reached by `Insert` and `Delete` -/

/-- C12: the calls `Insert("a",100)`, `Insert("a",12)`, `Delete("a",12)`,
`Insert("a",12)`, `Insert("a",1)`, `Delete("a",12)` leave an index with root 0
in which the pair of `"a"` and 12 is not stored (its last call was `Delete`);
one more `Delete("a",12)` changes the index: the root becomes the null
pointer. -/
theorem delete_absent_pair_changes_root :
    (Insert 8 [97] 100 emptyIndex >>= Insert 8 [97] 12 >>= Delete 8 [97] 12
      >>= Insert 8 [97] 12 >>= Insert 8 [97] 1 >>= Delete 8 [97] 12).map (fun s => s.indexRoot)
      = .ok 0
    ∧ (Insert 8 [97] 100 emptyIndex >>= Insert 8 [97] 12 >>= Delete 8 [97] 12
      >>= Insert 8 [97] 12 >>= Insert 8 [97] 1 >>= Delete 8 [97] 12
      >>= Delete 8 [97] 12).map (fun s => s.indexRoot) = .ok (-1) := by
  decide

/-- C13: after `Insert("a",10)`, `Insert("a",11)`, `Delete("a",10)`,
`Delete("a",11)`, which delete every inserted pair, `Statistics` does not
return: the read of the stack runs past its end. And after the seven calls
`Insert("a",100)`, `Insert("a",12)`, `Delete("a",12)`, `Insert("a",12)`,
`Insert("a",1)`, `Delete("a",12)`, `Delete("a",12)` it returns no active node
and two deleted slots for a node array of ten nodes. -/
theorem statistics_after_demotion :
    (Insert 8 [97] 10 emptyIndex >>= Insert 8 [97] 11 >>= Delete 8 [97] 10
      >>= Delete 8 [97] 11 >>= Statistics 8) = .error .indexOutOfRange
    ∧ (Insert 8 [97] 100 emptyIndex >>= Insert 8 [97] 12 >>= Delete 8 [97] 12
      >>= Insert 8 [97] 12 >>= Insert 8 [97] 1 >>= Delete 8 [97] 12
      >>= Delete 8 [97] 12).map (fun s => s.node.length) = .ok 10
    ∧ (Insert 8 [97] 100 emptyIndex >>= Insert 8 [97] 12 >>= Delete 8 [97] 12
      >>= Insert 8 [97] 12 >>= Insert 8 [97] 1 >>= Delete 8 [97] 12
      >>= Delete 8 [97] 12 >>= Statistics 8)
      = .ok { Active := 0, Deleted := 2, Depth := 0, NodeR := 0, NodeS := 0, NodeX := 0,
              NodeK := 0, NodeL := 0, NodeD := 0 } := by
  decide

/-- C14: after `Insert("a",10)`, `Insert("a",11)`, `Delete("a",10)`,
`Delete("a",11)` every inserted pair has been deleted, and the active root is
0, not the null pointer. -/
theorem root_not_empty_after_deletes :
    (Insert 8 [97] 10 emptyIndex >>= Insert 8 [97] 11 >>= Delete 8 [97] 10
      >>= Delete 8 [97] 11).map (fun s => s.indexRoot) = .ok 0 := by
  decide

/-- C15: after `Insert("é",1)` and `Insert("ü",2)` (bytes 0xC3 0xA9 and 0xC3
0xBC) the decision node at position 2 has the pivot byte 0xC3, and the chain on
its right begins, at position 1, with the byte 0xC3, which is not greater. -/
theorem decision_order_high_byte :
    (Insert 8 [195, 169] 1 emptyIndex >>= Insert 8 [195, 188] 2)
      = .ok { indexRoot := 2,
              node := [⟨stS, 1, 169, -1⟩, ⟨stX, -1, 195, 0⟩, ⟨stD, 4, 195, 1⟩,
                       ⟨stS, 2, 188, 2⟩, ⟨stX, -1, 195, 3⟩],
              deletedRoot := -1 } := by
  decide

/-- C20: on the index that `Insert("a",10)`, `Insert("a",11)`, `Delete("a",10)`
leave, `Statistics` does not return its counts: the leaf at position 2 points
right at the decision node 3, which the walk has not put on the stack, and the
read of the stack runs past its end. -/
theorem statistics_stack_overrun :
    (Insert 8 [97] 10 emptyIndex >>= Insert 8 [97] 11 >>= Delete 8 [97] 10)
      = .ok { indexRoot := 0,
              node := [⟨stL, 2, 97, -1⟩, ⟨stS, 10, 48, -1⟩, ⟨stS, 11, 49, 3⟩,
                       ⟨stD, 1, 48, 4⟩, ⟨stS, 11, 49, 1⟩],
              deletedRoot := -1 }
    ∧ (Insert 8 [97] 10 emptyIndex >>= Insert 8 [97] 11 >>= Delete 8 [97] 10
      >>= Statistics 8) = .error .indexOutOfRange := by
  decide

/-- C21: the eighth call of the sequence `Insert("a",12)`, `Insert("a",10)`,
`Delete("a",10)`, `Insert("a",12)`, `Insert("a",100)`, `Insert("a",1)`,
`Delete("a",100)`, `Delete("a",100)` does not return: the seven calls before it
return an index of eleven nodes, and the last `Delete` reads a node position
outside the node array. And `Statistics` on the index that `Insert("a",10)`,
`Insert("a",12)`, `Delete("a",12)` return reads its stack past the end. -/
theorem delete_walk_leaves_node_array :
    (Insert 8 [97] 12 emptyIndex >>= Insert 8 [97] 10 >>= Delete 8 [97] 10
      >>= Insert 8 [97] 12 >>= Insert 8 [97] 100 >>= Insert 8 [97] 1
      >>= Delete 8 [97] 100).map (fun s => (s.indexRoot, s.node.length, s.deletedRoot))
      = .ok (0, 11, 6)
    ∧ (Insert 8 [97] 12 emptyIndex >>= Insert 8 [97] 10 >>= Delete 8 [97] 10
      >>= Insert 8 [97] 12 >>= Insert 8 [97] 100 >>= Insert 8 [97] 1
      >>= Delete 8 [97] 100 >>= Delete 8 [97] 100) = .error .indexOutOfRange
    ∧ (Insert 8 [97] 10 emptyIndex >>= Insert 8 [97] 12 >>= Delete 8 [97] 12).map
        (fun s => (s.indexRoot, s.node.length, s.deletedRoot)) = .ok (0, 5, -1)
    ∧ (Insert 8 [97] 10 emptyIndex >>= Insert 8 [97] 12 >>= Delete 8 [97] 12
      >>= Statistics 8) = .error .indexOutOfRange := by
  decide

/-! ### The round trip of keys in canonical form -/

/-- C24: after any sequence of calls of `Insert` on an initialised index in
which every key has bytes below 0x80 only and a non-empty canonical form equal
to itself, the precise search for an inserted key `k` reports found and its
list holds, each once, exactly the identifiers inserted under `k`; and the
precise search for a key with a non-empty canonical form equal to itself
that was never inserted reports not-found with an empty list. Enough fuel
gives these results. The identifiers may be any integers. -/
theorem roundtrip_canonical_keys (s0 : Index) (calls : List (List Nat × Int))
    (hascii : ∀ x ∈ calls, ∀ b ∈ x.1, b < 128)
    (hcanon : ∀ x ∈ calls, canonical x.1 = x.1 ∧ x.1 ≠ []) :
    ∃ N s, (∀ fuel, N ≤ fuel → insertAll fuel calls (Initialise s0) = .ok s) ∧
      (∀ c ∈ calls,
        ∃ ids, (∀ fuel, N ≤ fuel → Search fuel c.1 true s = .ok (true, ids))
          ∧ ids.Nodup
          ∧ ∀ n, n ∈ ids ↔ (c.1, n) ∈ calls) ∧
      (∀ k : List Nat, canonical k = k → k ≠ [] →
        (∀ x ∈ calls, x.1 ≠ k) →
        ∀ fuel, N ≤ fuel → Search fuel k true s = .ok (false, [])) := by
  obtain ⟨N, s, hins, _, hsearch⟩ := inserts_search s0 calls hascii
  have hmem : ∀ (k : List Nat) (n : Int), canonical k = k →
      (n ∈ answer true (canonical k) (stored calls).dedup ↔ (k, n) ∈ calls) := by
    intro k n hk
    rw [mem_answer]
    constructor
    · rintro ⟨x, hx, hsel, e⟩
      rw [List.mem_dedup, mem_stored] at hx
      obtain ⟨d, hd, ex, _⟩ := hx
      have h1 : x.1 = canonical k := by simpa [selects] using hsel
      have h2 : d.1 = k := by
        rw [← (hcanon d hd).1, ← hk, ← h1, ex]
      have h3 : d.2 = n := by rw [← e, ex]
      have : d = (k, n) := Prod.ext h2 h3
      rw [← this]; exact hd
    · intro hkn
      refine ⟨(k, n), ?_, ?_, rfl⟩
      · rw [List.mem_dedup, mem_stored]
        refine ⟨(k, n), hkn, ?_, ?_⟩
        · simp only [hk]
        · simp only [hk]; exact (hcanon _ hkn).2
      · simp [selects, hk]
  refine ⟨N, s, hins, ?_, ?_⟩
  · intro c hc
    have hk := (hcanon c hc).1
    have hne : canonical c.1 ≠ [] := by rw [hk]; exact (hcanon c hc).2
    obtain ⟨ids, hs, hperm⟩ := hsearch c.1 true hne
    have hm : ∀ n, n ∈ ids ↔ (c.1, n) ∈ calls := by
      intro n
      rw [hperm.mem_iff]; exact hmem c.1 n hk
    have hne' : ids ≠ [] := by
      have : c.2 ∈ ids := (hm c.2).mpr hc
      exact List.ne_nil_of_mem this
    refine ⟨ids, ?_, ?_, hm⟩
    · intro fuel hle
      rw [hs fuel hle]
      cases ids with
      | nil => exact absurd rfl hne'
      | cons a as => rfl
    · exact hperm.nodup_iff.mpr (answer_precise_nodup _ _ (List.nodup_dedup _))
  · intro k hk hne hnot fuel hle
    have hne' : canonical k ≠ [] := by rw [hk]; exact hne
    obtain ⟨ids, hs, hperm⟩ := hsearch k true hne'
    have hnil : ids = [] := by
      cases ids with
      | nil => rfl
      | cons a as =>
        have : a ∈ a :: as := by simp
        rw [hperm.mem_iff, hmem k a hk] at this
        exact absurd rfl (hnot _ this)
    rw [hs fuel hle, hnil]
    rfl

/-- C24 at the calls cat->1, car->2, cart->3, cat->4 on the index without
nodes. -/
theorem roundtrip_canonical_keys_witness :
    (∀ x ∈ catCalls ++ [([99, 97, 116], 4)], ∀ b ∈ x.1, b < 128) ∧
    (∀ x ∈ catCalls ++ [([99, 97, 116], 4)], canonical x.1 = x.1 ∧ x.1 ≠ []) ∧
    ∃ N s, (∀ fuel, N ≤ fuel →
        insertAll fuel (catCalls ++ [([99, 97, 116], 4)]) (Initialise ⟨0, [], 0⟩) = .ok s) ∧
      (∀ c ∈ catCalls ++ [([99, 97, 116], 4)],
        ∃ ids, (∀ fuel, N ≤ fuel → Search fuel c.1 true s = .ok (true, ids))
          ∧ ids.Nodup
          ∧ ∀ n, n ∈ ids ↔ (c.1, n) ∈ catCalls ++ [([99, 97, 116], 4)]) ∧
      (∀ k : List Nat, canonical k = k → k ≠ [] →
        (∀ x ∈ catCalls ++ [([99, 97, 116], 4)], x.1 ≠ k) →
        ∀ fuel, N ≤ fuel → Search fuel k true s = .ok (false, [])) :=
  ⟨by decide, by decide, roundtrip_canonical_keys _ _ (by decide) (by decide)⟩

/-! ### Bytes from 0x80 on -/

theorem rune_match (b k : Nat) : [b] = runeString k ↔ b = k ∧ k < 128 := by
  unfold runeString
  by_cases h : k < 128
  · simp [h]
  · simp [h]

theorem slice_match (kf : List Nat) (i : Nat) (c : List Nat) (k : Nat)
    (h : sliceAt kf i = .ok c) : c = runeString k ↔ kf[i]? = some k ∧ k < 128 := by
  unfold sliceAt at h
  cases hk : kf[i]? with
  | none => rw [hk] at h; cases h
  | some b =>
    rw [hk] at h
    simp only [Except.ok.injEq] at h
    rw [← h, rune_match]
    simp

/-- The searching loop of `Search` on a chain that `extend` built for the rest
of the key, when that rest holds a byte from 0x80 on: it ends without a match. -/
theorem search_chain_high (s : Index) (kn t : Int) (kf : List Nat) (b : Bool) :
    ∀ (w : List Nat) (qs : List Nat) (p : Int) (i fuel : Nat) (lm : Int),
      Chain s.node kn t w qs p → kf.drop i = w → (∃ x ∈ w, 128 ≤ x) → w.length ≤ fuel →
      ∃ kp lm', searchLoop kf b s fuel p lm i = .ok (false, kp, lm') := by
  intro w
  induction w with
  | nil => intro qs p i fuel lm _ _ hx; obtain ⟨x, hx, _⟩ := hx; cases hx
  | cons c rest ih =>
    intro qs p i fuel lm hch hdrop hx hfuel
    cases qs with
    | nil => simp [Chain] at hch
    | cons q qs =>
      simp only [Chain] at hch
      obtain ⟨hp, next, hrest, hq⟩ := hch
      cases fuel with
      | zero => simp at hfuel
      | succ fuel =>
        have hi : i < kf.length := by
          by_contra hn
          rw [List.drop_eq_nil_of_le (by omega)] at hdrop
          cases hdrop
        obtain ⟨c', w', hd, hsl, hw', hend⟩ := drop_split kf i hi
        rw [hdrop] at hd
        simp only [List.cons.injEq] at hd
        obtain ⟨hc, hw⟩ := hd
        subst hc
        subst hp
        have hnode := nodeAt_natCast s q _ hq
        unfold searchLoop
        simp only [natCast_ne_null, if_false, hnode, bind, Except.bind, hsl]
        by_cases hr : rest = []
        · subst hr
          simp only [if_true, stS, stR, or_true]
          have hc128 : 128 ≤ c := by
            obtain ⟨x, hx, h128⟩ := hx
            simp only [List.mem_singleton] at hx
            rw [← hx]; exact h128
          have hnm : ¬ ([c] = runeString c) := by
            rw [rune_match]; omega
          simp only [hnm, if_false]
          exact ⟨_, _, rfl⟩
        · simp only [hr, if_false, stX, stR, stS, stD, stK, stL]
          simp only [Nat.reduceEqDiff, or_self, if_false, if_true]
          by_cases hc128 : c < 128
          · have hm : [c] = runeString c := by rw [rune_match]; exact ⟨rfl, hc128⟩
            have hne : ¬ (i + 1 = kf.length) := by
              intro e; exact hr (by rw [hw]; exact hend.mpr e)
            simp only [hm, if_true, hne, if_false]
            apply ih qs next (i + 1) fuel lm hrest
            · rw [hw, hw']
            · obtain ⟨x, hx, h128⟩ := hx
              rcases List.mem_cons.mp hx with e | hx
              · omega
              · exact ⟨x, hx, h128⟩
            · simp only [List.length_cons] at hfuel; omega
          · have hnm : ¬ ([c] = runeString c) := by
              rw [rune_match]; omega
            simp only [hnm, if_false]
            exact ⟨_, _, rfl⟩

/-- C23: a one-byte slice of the key equals the string made of a node byte `k`
exactly when the key byte is `k` and `k` is below 0x80; and for every key whose
canonical form holds a byte from 0x80 on, `Insert` of the key on an initialised
index returns, and the precise search for the key on the index returned
reports not-found with an empty list (32 turns of fuel are enough). -/
theorem high_byte_never_matches (idx : Index) (key : List Nat) (n : Int) (fuel : Nat) :
    (∀ (kf : List Nat) (i : Nat) (c : List Nat) (k : Nat), sliceAt kf i = .ok c →
      (c = runeString k ↔ kf[i]? = some k ∧ k < 128))
    ∧ ((∃ b ∈ canonical key, 128 ≤ b) → 32 ≤ fuel →
        ∃ s, Insert fuel key n (Initialise idx) = .ok s
          ∧ Search fuel key true s = .ok (false, [])) := by
  refine ⟨slice_match, ?_⟩
  intro hhigh hfuel
  have hne : (canonical key).length ≠ 0 := by
    obtain ⟨b, hb, _⟩ := hhigh
    intro h
    rw [List.length_eq_zero] at h
    rw [h] at hb; cases hb
  obtain ⟨p, s', hext, _, _, _, hchain, _⟩ :=
    extend_slots n nullIndexPointer (Initialise idx) [] (by simp [FreeList, Initialise])
      List.nodup_nil (canonical key)
  have hp : ∃ q : Nat, p = (q : Int) := by
    cases hk : canonical key with
    | nil => rw [hk] at hne; simp at hne
    | cons c rest =>
      rw [hk] at hchain
      cases hqs : (allocated [] (Initialise idx).node.length (c :: rest).length).reverse with
      | nil => rw [hqs] at hchain; simp [Chain] at hchain
      | cons q qs =>
        rw [hqs] at hchain
        simp only [Chain] at hchain
        exact ⟨q, hchain.1⟩
  obtain ⟨q, hq⟩ := hp
  refine ⟨{ s' with indexRoot := p }, ?_, ?_⟩
  · simp only [Insert, hne, if_false, Initialise, if_true]
    simp only [Initialise] at hext
    rw [hext]
    rfl
  · have hlen : (canonical key).length ≤ fuel :=
      le_trans (canonical_length key) (by simp only [maxKeyLength]; exact hfuel)
    obtain ⟨kp, lm', hs⟩ := search_chain_high { s' with indexRoot := p } n nullIndexPointer
      (canonical key) true (canonical key) _ p 0 fuel nullIndexPointer hchain (by simp) hhigh hlen
    have hroot : ¬ (p = nullIndexPointer) := by rw [hq]; exact natCast_ne_null q
    simp only [Search, hroot, if_false, hne, false_and, hs, bind, Except.bind]
    rfl

/-- C23 at the key `"é"` (bytes 0xC3 0xA9), the identifier 1 and the index
without nodes. -/
theorem high_byte_never_matches_witness :
    (∃ b ∈ canonical [195, 169], 128 ≤ b) ∧ 32 ≤ 32 ∧
    ∃ s, Insert 32 [195, 169] 1 (Initialise ⟨0, [], 0⟩) = .ok s
      ∧ Search 32 [195, 169] true s = .ok (false, []) :=
  ⟨by decide, by decide,
    (high_byte_never_matches ⟨0, [], 0⟩ [195, 169] 1 32).2 (by decide) (by decide)⟩

/-! ### A key that ends at a character node -/

/-- Two writes of fields of the node at `x`, the first of the status and the
second of the left pointer. -/
theorem set_status_left (s : Index) (x : Int) (n : indexNode) (v : Nat) (l : Int)
    (hn : nodeAt s x = .ok n) :
    (setStatus s x v >>= fun s1 => setLeft s1 x l)
      = .ok { s with node := s.node.set x.toNat { n with status := v, leftPointer := l } } := by
  obtain ⟨h0, hx⟩ := nodeAt_ok s x n hn
  obtain ⟨q, rfl⟩ : ∃ q : Nat, x = (q : Int) := ⟨x.toNat, (toNat_cast x h0).symm⟩
  simp only [Int.toNat_ofNat] at hx ⊢
  rw [setStatus_natCast s q n v hx]
  simp only [bind, Except.bind]
  rw [setLeft_natCast _ q { n with status := v } l (getElem?_set_self' s.node q n _ hx)]
  simp [List.set_set]

/-- When the searching loop of `Insert` is left on the index it was given,
at a character node whose byte matches the key byte (the loop is left there
only at the last byte of the text it walks), `Insert` returns the index in
which that node has status `'R'` and the identifier as its left pointer, with
its byte and right pointer as before; both roots, the length of the node array
and every other node are as before. And when the searching loop of `Delete`
finds the key at a branch node outside a duplicate tree, `Delete` returns the
index in which that node has status `'X'` and the null pointer as its left
pointer; both roots, the length and every other node are as before. -/
theorem stem_insert_delete_in_place (fuel : Nat) (key : List Nat) (keyNumber : Int)
    (s : Index) (hne : canonical key ≠ []) (hroot : s.indexRoot ≠ nullIndexPointer) :
    (∀ (st : InsertState) (n : indexNode),
      insertLoop keyNumber fuel
        { indexStructure := s, keyField := canonical key, keyPointer := s.indexRoot,
          previousIndexNumber := nullIndexPointer, duplicateFlag := false, i := 0 }
        = .ok (.inr st) →
      st.indexStructure = s → nodeAt s st.keyPointer = .ok n → n.status = stX →
      sliceAt st.keyField st.i = .ok (runeString n.key) →
      Insert fuel key keyNumber s
        = .ok { s with node := (s.node.set st.keyPointer.toNat
                  { n with status := stR, leftPointer := keyNumber }) })
    ∧ (∀ (st : DeleteState) (n : indexNode),
      deleteLoop keyNumber s fuel
        { keyField := canonical key, keyPointer := s.indexRoot,
          previousIndexNumber := nullIndexPointer, linkIndexNumber := nullIndexPointer,
          deleteIndexNumber := nullIndexPointer, duplicateIndexNumber := nullIndexPointer,
          goLeft := true, duplicateCount := 0, i := 0 }
        = .ok (some st) →
      st.duplicateIndexNumber = nullIndexPointer →
      nodeAt s st.keyPointer = .ok n → n.status = stR →
      Delete fuel key keyNumber s
        = .ok { s with node := (s.node.set st.keyPointer.toNat
                  { n with status := stX, leftPointer := nullIndexPointer }) }) := by
  have hlen : ¬ ((canonical key).length = 0) := by
    intro h; exact hne (List.length_eq_zero.mp h)
  constructor
  · intro st n hloop hs hn hX hc
    simp only [Insert, hlen, if_false, hroot, hloop, bind, Except.bind]
    simp only [insertFinish, hs, hn, hc, bind, Except.bind, if_true, hX]
    exact set_status_left s st.keyPointer n stR keyNumber hn
  · intro st n hloop hdup hn hR
    simp only [Delete, hlen, if_false, hroot, hloop, bind, Except.bind]
    simp only [deleteDuplicate, hdup, if_true]
    simp only [deleteNode, hn, bind, Except.bind, hR, if_true]
    exact set_status_left s st.keyPointer n stX nullIndexPointer hn

/-- An instance, at `Insert("a",2)` on the index that holds the key `"ab"` and at
`Delete("a",2)` on the index returned. -/
theorem stem_insert_delete_in_place_witness :
    (insertLoop 2 8 ⟨chainIndex, canonical [97], chainIndex.indexRoot, -1, false, 0⟩
        = .ok (.inr ⟨chainIndex, [97], 1, -1, false, 0⟩)
      ∧ Insert 8 [97] 2 chainIndex = .ok branchIndex)
    ∧ (deleteLoop 2 branchIndex 8
          ⟨canonical [97], branchIndex.indexRoot, -1, -1, -1, -1, true, 0, 0⟩
        = .ok (some ⟨[97], 1, -1, -1, 1, -1, true, 0, 0⟩)
      ∧ Delete 8 [97] 2 branchIndex = .ok chainIndex) :=
  ⟨⟨by decide,
    (stem_insert_delete_in_place 8 [97] 2 chainIndex (by decide) (by decide)).1
      ⟨chainIndex, [97], 1, -1, false, 0⟩ ⟨stX, -1, 97, 0⟩
      (by decide) (by decide) (by decide) (by decide) (by decide)⟩,
   ⟨by decide,
    (stem_insert_delete_in_place 8 [97] 2 branchIndex (by decide) (by decide)).2
      ⟨[97], 1, -1, -1, 1, -1, true, 0, 0⟩ ⟨stR, 2, 97, 0⟩
      (by decide) (by decide) (by decide) (by decide)⟩⟩

/-! ### The slots that `Insert` takes -/

/-- C22, as stated, fails: `Insert("b",2)` on the index that holds the key `"a"`
adds two slots to the node array, while the chain that `extend` builds for the
one byte `b` takes one slot. The slot at position 1 is the decision node,
appended by `Insert` itself before the call of `extend`. And on an index whose
free list holds the slots 1 and 2, `Insert("b",2)` takes slot 1, the head of
the free list, for the decision node and `extend` takes slot 2. -/
theorem insert_appends_decision_node :
    Insert 8 [98] 2 leafIndex = .ok forkIndex
    ∧ forkIndex.node.length = leafIndex.node.length + 2
    ∧ (extend [98] 2 (-1) leafIndex).map (fun r => r.2.node.length)
        = .ok (leafIndex.node.length + 1)
    ∧ Insert 8 [98] 2 recycledIndex
        = .ok { indexRoot := 1,
                node := [⟨stS, 1, 97, 1⟩, ⟨stD, 0, 97, 2⟩, ⟨stS, 2, 98, -1⟩],
                deletedRoot := -1 } := by
  decide

/-! ### The shape of the index under `Insert` with keys of any bytes -/

theorem extend_chain (kn nxt : Int) (s : Index) (hfree : s.deletedRoot = nullIndexPointer)
    (kf : List Nat) :
    kf ≠ [] →
    ∃ ch added, extend kf kn nxt s = .ok (ch.root, { s with node := s.node ++ added })
      ∧ added.length = kf.length
      ∧ Rep (s.node ++ added) ch nxt
      ∧ ch.positions.Nodup
      ∧ (∀ q ∈ ch.positions, s.node.length ≤ q ∧ q < s.node.length + kf.length)
      ∧ ch.Formed := by
  induction kf with
  | nil => intro h; exact absurd rfl h
  | cons c rest ih =>
    intro _
    by_cases hrest : rest = []
    · subst hrest
      refine ⟨Trie.S s.node.length c kn, [⟨stS, kn, c, nxt⟩], ?_, rfl, ?_, ?_, ?_, trivial⟩
      · simp [extend, extendFrom, allocNode_fresh _ _ hfree]
      · simp [Rep]
      · simp [Trie.positions]
      · simp [Trie.positions]
    · obtain ⟨ch0, added0, hext, hlen, hrep, hnd, hpos, hform⟩ := ih hrest
      have hfree' : ({ s with node := s.node ++ added0 } : Index).deletedRoot
          = nullIndexPointer := hfree
      refine ⟨Trie.X (s.node.length + rest.length) c ch0,
        added0 ++ [⟨stX, nullIndexPointer, c, ch0.root⟩], ?_, ?_, ?_, ?_, ?_, hform⟩
      · simp only [extend] at hext
        simp [extend, extendFrom, hext, hrest, allocNode_fresh _ _ hfree', hlen]
      · simp [hlen]
      · simp only [Rep]
        refine ⟨?_, ?_⟩
        · rw [← List.append_assoc, List.getElem?_append_right (by simp [hlen])]
          simp [hlen]
        · rw [← List.append_assoc]
          exact Rep_append _ _ ch0 nxt hrep
      · simp only [Trie.positions, List.nodup_cons]
        refine ⟨?_, hnd⟩
        intro hmem
        have := hpos _ hmem
        omega
      · intro q hq
        simp only [Trie.positions, List.mem_cons] at hq
        rcases hq with hq | hq
        · subst hq; simp only [List.length_cons]; omega
        · have := hpos q hq
          simp only [List.length_cons]; omega

theorem relink_shape (root : Int) (nodes nodes6 : List indexNode) (t t' : Trie) (th prev : Int)
    (leftSide dupFlag : Bool) (cb : Nat)
    (hprev : PrevLink nodes root t prev leftSide cb dupFlag)
    (hrep : Rep nodes6 t' th) (hform : t'.Formed) (hnd : t'.positions.Nodup)
    (hpos : ∀ q ∈ t'.positions, q ∈ t.positions ∨ nodes.length ≤ q)
    (hlen6 : nodes.length ≤ nodes6.length)
    (hframe : ∀ q : Nat, q < nodes.length → q ∉ t.positions → nodes6[q]? = nodes[q]?) :
    ∃ s', insertRelink ⟨root, nodes6, nullIndexPointer⟩ prev dupFlag [cb] t'.root = .ok s'
      ∧ ShapePost nodes root t th prev leftSide s' t' := by
  rcases hprev with ⟨hp, -⟩ | ⟨pp, pn, hp, hpn, hppt, -, hside⟩
  · subst hp
    refine ⟨⟨t'.root, nodes6, nullIndexPointer⟩, by simp [insertRelink], ?_⟩
    exact {
      free_empty := rfl
      rep := hrep
      formed := hform
      nodup := hnd
      pos_new := hpos
      length_le := hlen6
      frame := fun q hq hqt _ => hframe q hq hqt
      root_link := fun _ => rfl
      parent_link := fun pp pn h _ => absurd h.symm (natCast_ne_null pp) }
  · subst hp
    have hpplt : pp < nodes.length := getElem?_some_lt nodes pp pn hpn
    have hpn6 : nodes6[pp]? = some pn := by rw [hframe pp hpplt hppt]; exact hpn
    have hppt' : pp ∉ t'.positions := by
      intro hmem
      rcases hpos pp hmem with h | h
      · exact hppt h
      · omega
    have hprevne : ¬ ((pp : Int) = nullIndexPointer) := natCast_ne_null pp
    refine ⟨⟨root, nodes6.set pp (if leftSide then { pn with leftPointer := t'.root }
                           else { pn with rightPointer := t'.root }), nullIndexPointer⟩, ?_, ?_⟩
    · simp only [insertRelink, hprevne, if_false, nodeAt_mk _ _ _ pp pn hpn6, bind, Except.bind]
      cases leftSide
      · have hcond : ¬ ((pn.status = stD ∧ strLe [cb] (runeString pn.key) = true)
            ∨ pn.status = stL ∨ (pn.status = stK ∧ dupFlag = true)) := by
          intro h; have := hside.2 h; simp at this
        simp only [hcond, if_false]
        rw [setRight_mk _ _ _ pp pn _ hpn6]
        simp
      · have hcond : ((pn.status = stD ∧ strLe [cb] (runeString pn.key) = true)
            ∨ pn.status = stL ∨ (pn.status = stK ∧ dupFlag = true)) := hside.1 rfl
        simp only [hcond, if_true]
        rw [setLeft_mk _ _ _ pp pn _ hpn6]
    · exact {
        free_empty := rfl
        rep := Rep_set_other nodes6 t' th pp _ hppt' hrep
        formed := hform
        nodup := hnd
        pos_new := hpos
        length_le := by simpa using hlen6
        frame := by
          intro q hq hqt hqp
          have : pp ≠ q := by intro h; apply hqp; rw [h]
          simp only []
          rw [List.getElem?_set_ne this]
          exact hframe q hq hqt
        root_link := fun h => absurd h hprevne
        parent_link := by
          intro pp' pn' h1 h2
          have : pp = pp' := by exact_mod_cast h1
          subst this
          rw [hpn] at h2
          cases h2
          exact ⟨rfl, getElem?_set_self' _ _ _ _ hpn6⟩ }

theorem shape_inplace (root : Int) (nodes nodes' : List indexNode) (t t' : Trie) (th prev : Int)
    (leftSide dupFlag : Bool) (cb : Nat)
    (hprev : PrevLink nodes root t prev leftSide cb dupFlag)
    (hrep : Rep nodes' t' th) (hform : t'.Formed) (hnd : t'.positions.Nodup)
    (hpos : ∀ q ∈ t'.positions, q ∈ t.positions ∨ nodes.length ≤ q)
    (hlen : nodes.length ≤ nodes'.length)
    (hframe : ∀ q : Nat, q < nodes.length → q ∉ t.positions → nodes'[q]? = nodes[q]?)
    (hroot : t'.root = t.root) :
    ShapePost nodes root t th prev leftSide ⟨root, nodes', nullIndexPointer⟩ t' :=
  { free_empty := rfl
    rep := hrep
    formed := hform
    nodup := hnd
    pos_new := hpos
    length_le := hlen
    frame := fun q hq hqt _ => hframe q hq hqt
    root_link := by
      intro h
      rcases hprev with ⟨_, h2⟩ | ⟨pp, pn, hp, _⟩
      · simp only; rw [hroot]; exact h2
      · exact absurd (hp ▸ h) (natCast_ne_null pp)
    parent_link := by
      intro pp pn h1 h2
      rcases hprev with ⟨h, _⟩ | ⟨pp', pn', hp, hpn, hppt, hptr, _⟩
      · exact absurd (h1 ▸ h) (natCast_ne_null pp)
      · have : pp' = pp := by rw [h1] at hp; exact_mod_cast hp.symm
        subst this
        rw [hpn] at h2
        cases h2
        refine ⟨rfl, ?_⟩
        simp only
        rw [hframe pp' (getElem?_some_lt nodes pp' _ hpn) hppt, hpn, hroot]
        cases leftSide
        · simp at hptr ⊢; rw [← hptr]
        · simp at hptr ⊢; rw [← hptr] }

theorem shape_unpack (nodes : List indexNode) (root : Int) (u : Trie) (thu : Int) (p : Nat)
    (cs : Bool) (s' : Index) (u' : Trie)
    (pn : indexNode) (hpost : ShapePost nodes root u thu (p : Int) cs s' u')
    (hnode : nodes[p]? = some pn) :
    s' = ⟨root, s'.node, nullIndexPointer⟩
      ∧ s'.node[p]? = some (if cs then { pn with leftPointer := u'.root }
                            else { pn with rightPointer := u'.root }) := by
  obtain ⟨h1, h2⟩ := hpost.parent_link p pn rfl hnode
  have h3 := hpost.free_empty
  obtain ⟨root', nodes', dr'⟩ := s'
  simp only at h1 h2 h3 ⊢
  rw [h1, h3]
  exact ⟨rfl, h2⟩

theorem shape_sibling (nodes : List indexNode) (root : Int) (u : Trie) (thu : Int) (p : Nat)
    (cs : Bool) (s' : Index) (u' : Trie)
    (hpost : ShapePost nodes root u thu (p : Int) cs s' u')
    (w : Trie) (thw : Int) (hw : Rep nodes w thw) (hpw : p ∉ w.positions)
    (hdisj : ∀ q ∈ w.positions, q ∉ u.positions) : Rep s'.node w thw := by
  apply Rep_congr nodes s'.node w thw _ hw
  intro q hq
  apply hpost.frame q (Rep_lt nodes w thw hw q hq) (hdisj q hq)
  intro h
  have : q = p := by exact_mod_cast h
  exact hpw (this ▸ hq)

theorem shape_fresh (nodes : List indexNode) (root : Int) (u : Trie) (thu : Int) (prev : Int)
    (cs : Bool) (s' : Index) (u' : Trie)
    (hpost : ShapePost nodes root u thu prev cs s' u')
    (q : Nat) (hq : q ∈ u'.positions) (hlt : q < nodes.length) : q ∈ u.positions := by
  rcases hpost.pos_new q hq with h | h
  · exact h
  · omega

set_option maxHeartbeats 1000000 in
theorem shape_mismatch (s : Index) (t : Trie) (th : Int) (kf : List Nat) (i : Nat) (kn : Int)
    (prev : Int) (dupFlag leftSide : Bool) (fuelF : Nat) (n : indexNode)
    (hfree : s.deletedRoot = nullIndexPointer)
    (hrep : Rep s.node t th) (hnd : t.positions.Nodup) (hform : t.Formed)
    (hroot : s.node[t.pos]? = some n)
    (hi : i < kf.length) (hne : ¬ ([kf[i]] = runeString n.key))
    (hprev : PrevLink s.node s.indexRoot t prev leftSide kf[i] dupFlag)
    (hfuel : t.visits ≤ fuelF) :
    ∃ s' t', insertFinish fuelF kn ⟨s, kf, t.root, prev, dupFlag, i⟩ = .ok s'
      ∧ ShapePost s.node s.indexRoot t th prev leftSide s' t' := by
  obtain ⟨root, nodes, dr⟩ := s
  simp only at hfree hrep hroot hprev ⊢
  subst hfree
  have hdropne : kf.drop i ≠ [] := by simp; omega
  have hlen := Rep_lt nodes t th hrep
  have hplt : t.pos < nodes.length := hlen _ (pos_mem_positions t)
  -- the decision node
  obtain ⟨d, hd⟩ : ∃ d : Nat, d = nodes.length := ⟨_, rfl⟩
  obtain ⟨nodes1, hnodes1⟩ : ∃ l : List indexNode,
    l = nodes ++ [⟨stD, nullIndexPointer, 32, nullIndexPointer⟩] := ⟨_, rfl⟩
  have hlen1 : nodes1.length = d + 1 := by simp [hnodes1, hd]
  have hold1 : ∀ q, q < d → nodes1[q]? = nodes[q]? := by
    intro q hq; rw [hnodes1, List.getElem?_append_left (by omega)]
  have hd1 : nodes1[d]? = some ⟨stD, nullIndexPointer, 32, nullIndexPointer⟩ := by
    simp [hnodes1, hd]
  have hrep1 : Rep nodes1 t th := by rw [hnodes1]; exact Rep_append _ _ t th hrep
  have hroot1 : nodes1[t.pos]? = some n := by rw [hold1 _ (by omega)]; exact hroot
  have halloc : allocNode ⟨stD, nullIndexPointer, 32, nullIndexPointer⟩
      ⟨root, nodes, nullIndexPointer⟩ = .ok ((d : Int), ⟨root, nodes1, nullIndexPointer⟩) := by
    rw [allocNode_fresh _ _ rfl, hnodes1, hd]
  by_cases hgt : strLt (runeString n.key) [kf[i]] = true
  · -- the new key goes to the right
    have hlt' : strLt [kf[i]] (runeString n.key) = false := by
      have := strLe_of_strLt _ _ hgt
      simpa [strLe] using this
    obtain ⟨m, hm, hmr, hms⟩ := lastLeaf_node nodes1 t th hrep1
    have helt : t.lastLeaf < nodes.length := hlen _ (lastLeaf_mem_positions t)
    obtain ⟨nodes2, hnodes2⟩ : ∃ l : List indexNode,
      l = nodes1.set t.lastLeaf { m with rightPointer := (d : Int) } := ⟨_, rfl⟩
    have hrep2 : Rep nodes2 t (d : Int) := by
      rw [hnodes2]; exact Rep_rethread nodes1 d t th m hrep1 hnd hm
    have hlen2 : nodes2.length = d + 1 := by simp [hnodes2, hlen1]
    have hned : t.lastLeaf ≠ d := by omega
    have hd2 : nodes2[d]? = some ⟨stD, nullIndexPointer, 32, nullIndexPointer⟩ := by
      rw [hnodes2, List.getElem?_set_ne hned]; exact hd1
    obtain ⟨ch, added, hext, hlenA, hrepc, hndc, hposc, hformc⟩ :=
      extend_chain kn th ⟨root, nodes2, nullIndexPointer⟩ rfl (kf.drop i) hdropne
    simp only at hext hrepc hposc
    obtain ⟨nodes3, hnodes3⟩ : ∃ l : List indexNode, l = nodes2 ++ added := ⟨_, rfl⟩
    rw [← hnodes3] at hext hrepc
    have hold3 : ∀ q, q < d + 1 → nodes3[q]? = nodes2[q]? := by
      intro q hq; rw [hnodes3, List.getElem?_append_left (by omega)]
    have hd3 : nodes3[d]? = some ⟨stD, nullIndexPointer, 32, nullIndexPointer⟩ := by
      rw [hold3 _ (by omega)]; exact hd2
    -- the root of the old tree keeps its byte
    obtain ⟨n2, hn2, hn2k⟩ : ∃ n2, nodes2[t.pos]? = some n2 ∧ n2.key = n.key := by
      by_cases he : t.lastLeaf = t.pos
      · refine ⟨{ m with rightPointer := (d : Int) }, ?_, ?_⟩
        · rw [hnodes2]; rw [he] at hm ⊢; exact getElem?_set_self' _ _ _ _ hm
        · rw [he, hroot1] at hm; cases hm; rfl
      · exact ⟨n, by rw [hnodes2, List.getElem?_set_ne he]; exact hroot1, rfl⟩
    have hn3 : nodes3[t.pos]? = some n2 := by rw [hold3 _ (by omega)]; exact hn2
    obtain ⟨nodes6, hnodes6⟩ : ∃ l : List indexNode,
      l = nodes3.set d ⟨stD, t.root, n.key, ch.root⟩ := ⟨_, rfl⟩
    have hnpd : d ≠ t.pos := by omega
    have h4 := setLeft_mk root nullIndexPointer nodes3 d _ t.root hd3
    have hn4 : nodeAt ⟨root, nodes3.set d
        { (⟨stD, nullIndexPointer, 32, nullIndexPointer⟩ : indexNode) with leftPointer := t.root },
        nullIndexPointer⟩ t.root = .ok n2 :=
      nodeAt_mk _ _ _ t.pos n2 (by rw [List.getElem?_set_ne hnpd]; exact hn3)
    have h5 := setKey_mk root nullIndexPointer _ d _ n.key (getElem?_set_self' _ _ _
      { (⟨stD, nullIndexPointer, 32, nullIndexPointer⟩ : indexNode) with leftPointer := t.root } hd3)
    have h6 := setRight_mk root nullIndexPointer _ d _ ch.root (getElem?_set_self' _ _ _
      { (⟨stD, t.root, 32, nullIndexPointer⟩ : indexNode) with key := n.key }
      (getElem?_set_self' _ _ _
      { (⟨stD, nullIndexPointer, 32, nullIndexPointer⟩ : indexNode) with leftPointer := t.root } hd3))
    simp only [List.set_set] at h5 h6
    rw [← hnodes6] at h6
    -- the new tree
    have hnodes6_ne : ∀ q, q ≠ d → nodes6[q]? = nodes3[q]? := by
      intro q hq; rw [hnodes6, List.getElem?_set_ne (Ne.symm hq)]
    have hnodes6_d : nodes6[d]? = some ⟨stD, t.root, n.key, ch.root⟩ := by
      rw [hnodes6]; exact getElem?_set_self' _ _ _ _ hd3
    have hrep6t : Rep nodes6 t (d : Int) := by
      apply Rep_congr nodes2 nodes6 t _ _ hrep2
      intro q hq
      have := hlen q hq
      rw [hnodes6_ne q (by omega), hold3 q (by omega)]
    have hrep6c : Rep nodes6 ch th := by
      apply Rep_congr nodes3 nodes6 ch _ _ hrepc
      intro q hq
      have := hposc q hq
      exact hnodes6_ne q (by omega)
    have hfin : insertFinish fuelF kn
        ⟨⟨root, nodes, nullIndexPointer⟩, kf, t.root, prev, dupFlag, i⟩
        = insertRelink ⟨root, nodes6, nullIndexPointer⟩ prev dupFlag [kf[i]] (d : Int) := by
      have hthread := threadLoop_lastLeaf ⟨root, nodes1, nullIndexPointer⟩ t th fuelF hrep1 hfuel
      simp only [insertFinish, bind, Except.bind, nodeAt_mk _ _ _ _ _ hroot, Trie.root,
        sliceAt_lt kf i hi, hne, if_false, halloc,
        nodeAt_mk _ _ _ _ _ hroot1, hgt, if_true]
      simp only [Trie.root] at hthread hext h4 hn4 h5 h6
      simp only [hthread, nodeAt_mk _ _ _ _ _ hm, setRight_mk _ _ _ _ _ _ hm, ← hnodes2, hmr,
        hext, nodeAt_mk _ _ _ _ _ hn3, hn2k, hlt', h4, hn4, h5, h6]
      simp
    obtain ⟨s', hs', hpost⟩ := relink_shape root nodes nodes6 t (Trie.D d n.key t ch) th prev
      leftSide dupFlag kf[i] hprev
      (by simp only [Rep]; exact ⟨hnodes6_d, hrep6t, hrep6c⟩)
      (by simp only [Trie.Formed]; exact ⟨hform, hformc⟩)
      (by
        simp only [Trie.positions, List.nodup_cons, List.nodup_append, List.mem_append, not_or]
        refine ⟨⟨?_, ?_⟩, hnd, hndc, ?_⟩
        · intro h; have := hlen _ h; omega
        · intro h; have := hposc _ h; omega
        · intro q h1 h2; have := hlen _ h1; have := hposc _ h2; omega)
      (by
        intro q hq
        simp only [Trie.positions, List.mem_cons, List.mem_append] at hq
        rcases hq with h | h | h
        · right; omega
        · left; exact h
        · right; have := hposc _ h; omega)
      (by rw [hnodes6, List.length_set, hnodes3, List.length_append]; omega)
      (by
        intro q hq hqt
        have hql : q ≠ t.lastLeaf := fun h => hqt (h ▸ lastLeaf_mem_positions t)
        rw [hnodes6_ne q (by omega), hold3 q (by omega), hnodes2,
          List.getElem?_set_ne (Ne.symm hql), hold1 q (by omega)])
    exact ⟨s', _, by rw [hfin]; exact hs', hpost⟩
  · -- the new key goes to the left
    have hlt1 : strLt (runeString n.key) [kf[i]] = false := by simpa using hgt
    have hlt2 : strLt [kf[i]] (runeString n.key) = true :=
      strLt_of_le_ne _ _ (by simp [strLe, hlt1]) hne
    obtain ⟨ch, added, hext, hlenA, hrepc, hndc, hposc, hformc⟩ :=
      extend_chain kn (d : Int) ⟨root, nodes1, nullIndexPointer⟩ rfl (kf.drop i) hdropne
    simp only at hext hrepc hposc
    obtain ⟨nodes3, hnodes3⟩ : ∃ l : List indexNode, l = nodes1 ++ added := ⟨_, rfl⟩
    rw [← hnodes3] at hext hrepc
    have hold3 : ∀ q, q < d + 1 → nodes3[q]? = nodes1[q]? := by
      intro q hq; rw [hnodes3, List.getElem?_append_left (by omega)]
    have hd3 : nodes3[d]? = some ⟨stD, nullIndexPointer, 32, nullIndexPointer⟩ := by
      rw [hold3 _ (by omega)]; exact hd1
    have hn3 : nodes3[t.pos]? = some n := by rw [hold3 _ (by omega)]; exact hroot1
    obtain ⟨nodes6, hnodes6⟩ : ∃ l : List indexNode,
      l = nodes3.set d ⟨stD, ch.root, kf[i], t.root⟩ := ⟨_, rfl⟩
    have h4 := setLeft_mk root nullIndexPointer nodes3 d _ ch.root hd3
    have h5 := setKey_mk root nullIndexPointer _ d _ kf[i] (getElem?_set_self' _ _ _
      { (⟨stD, nullIndexPointer, 32, nullIndexPointer⟩ : indexNode) with leftPointer := ch.root }
      hd3)
    have h6 := setRight_mk root nullIndexPointer _ d _ t.root (getElem?_set_self' _ _ _
      { (⟨stD, ch.root, 32, nullIndexPointer⟩ : indexNode) with key := kf[i] }
      (getElem?_set_self' _ _ _
      { (⟨stD, nullIndexPointer, 32, nullIndexPointer⟩ : indexNode) with leftPointer := ch.root }
      hd3))
    simp only [List.set_set] at h5 h6
    rw [← hnodes6] at h6
    have hnodes6_ne : ∀ q, q ≠ d → nodes6[q]? = nodes3[q]? := by
      intro q hq; rw [hnodes6, List.getElem?_set_ne (Ne.symm hq)]
    have hnodes6_d : nodes6[d]? = some ⟨stD, ch.root, kf[i], t.root⟩ := by
      rw [hnodes6]; exact getElem?_set_self' _ _ _ _ hd3
    have hrep6t : Rep nodes6 t th := by
      apply Rep_congr nodes nodes6 t _ _ hrep
      intro q hq
      have := hlen q hq
      rw [hnodes6_ne q (by omega), hold3 q (by omega), hold1 q (by omega)]
    have hrep6c : Rep nodes6 ch (d : Int) := by
      apply Rep_congr nodes3 nodes6 ch _ _ hrepc
      intro q hq
      have := hposc q hq
      exact hnodes6_ne q (by omega)
    have hfin : insertFinish fuelF kn
        ⟨⟨root, nodes, nullIndexPointer⟩, kf, t.root, prev, dupFlag, i⟩
        = insertRelink ⟨root, nodes6, nullIndexPointer⟩ prev dupFlag [kf[i]] (d : Int) := by
      simp only [insertFinish, bind, Except.bind, nodeAt_mk _ _ _ _ _ hroot, Trie.root,
        sliceAt_lt kf i hi, hne, if_false, halloc,
        nodeAt_mk _ _ _ _ _ hroot1, hlt1]
      simp only [Trie.root] at hext h4 h5 h6
      simp only [Bool.false_eq_true, if_false, hext, nodeAt_mk _ _ _ _ _ hn3,
        hlt2, if_true, h4, List.headD_cons, h5, h6]
    obtain ⟨s', hs', hpost⟩ := relink_shape root nodes nodes6 t (Trie.D d kf[i] ch t) th prev
      leftSide dupFlag kf[i] hprev
      (by simp only [Rep]; exact ⟨hnodes6_d, hrep6c, hrep6t⟩)
      (by simp only [Trie.Formed]; exact ⟨hformc, hform⟩)
      (by
        simp only [Trie.positions, List.nodup_cons, List.nodup_append, List.mem_append, not_or]
        refine ⟨⟨?_, ?_⟩, hndc, hnd, ?_⟩
        · intro h; have := hposc _ h; omega
        · intro h; have := hlen _ h; omega
        · intro q h1 h2; have := hlen _ h2; have := hposc _ h1; omega)
      (by
        intro q hq
        simp only [Trie.positions, List.mem_cons, List.mem_append] at hq
        rcases hq with h | h | h
        · right; omega
        · right; have := hposc _ h; omega
        · left; exact h)
      (by rw [hnodes6, List.length_set, hnodes3, List.length_append]; omega)
      (by
        intro q hq hqt
        rw [hnodes6_ne q (by omega), hold3 q (by omega), hold1 q (by omega)])
    exact ⟨s', _, by rw [hfin]; exact hs', hpost⟩

theorem shape_char_end (root : Int) (nodes : List indexNode) (p c : Nat) (next : Trie)
    (th : Int) (kf : List Nat) (i : Nat) (kn : Int) (prev : Int) (dupFlag leftSide : Bool)
    (fuelF : Nat)
    (hrep : Rep nodes (Trie.X p c next) th) (hnd : (Trie.X p c next).positions.Nodup)
    (hform : (Trie.X p c next).Formed)
    (hi : i < kf.length) (hm : [kf[i]] = runeString c)
    (hprev : PrevLink nodes root (Trie.X p c next) prev leftSide kf[i] dupFlag) :
    ∃ s' t', insertFinish fuelF kn ⟨⟨root, nodes, nullIndexPointer⟩, kf, (p : Int), prev, dupFlag, i⟩
        = .ok s'
      ∧ ShapePost nodes root (Trie.X p c next) th prev leftSide s' t' := by
  have hm' : ([kf[i]] = runeString c) ↔ True := iff_true_intro hm
  simp only [Rep] at hrep
  refine ⟨⟨root, nodes.set p ⟨stR, kn, c, next.root⟩, nullIndexPointer⟩, Trie.R p c kn next, ?_, ?_⟩
  · have h1 := setStatus_mk root nullIndexPointer nodes p _ stR hrep.1
    have h2 := setLeft_mk root nullIndexPointer _ p _ kn
      (getElem?_set_self' nodes p _
        { (⟨stX, nullIndexPointer, c, next.root⟩ : indexNode) with status := stR } hrep.1)
    simp only [List.set_set] at h2
    simp only [insertFinish, bind, Except.bind, nodeAt_mk _ _ _ _ _ hrep.1, sliceAt_lt kf i hi,
      hm', if_true, h1, h2]
  · apply shape_inplace root nodes _ _ _ th prev leftSide dupFlag kf[i] hprev
    · simp only [Rep]
      refine ⟨getElem?_set_self' nodes p _ _ hrep.1, ?_⟩
      simp only [Trie.positions, List.nodup_cons] at hnd
      exact Rep_set_other nodes next th p _ hnd.1 hrep.2
    · simpa [Trie.Formed] using hform
    · exact hnd
    · intro q hq; left; exact hq
    · simp
    · intro q hq hqt
      have : p ≠ q := by intro h; apply hqt; simp [Trie.positions, h]
      rw [List.getElem?_set_ne this]
    · rfl

theorem shape_extend_leaf (root : Int) (nodes : List indexNode) (p c : Nat) (id : Int)
    (th : Int) (kf : List Nat) (i : Nat) (kn : Int) (prev : Int) (dupFlag leftSide : Bool)
    (fuelF : Nat)
    (hrep : Rep nodes (Trie.S p c id) th)
    (hi : i < kf.length) (hm : [kf[i]] = runeString c) (hlast : i + 1 < kf.length)
    (hprev : PrevLink nodes root (Trie.S p c id) prev leftSide kf[i] dupFlag) :
    ∃ s' t', insertFinish fuelF kn ⟨⟨root, nodes, nullIndexPointer⟩, kf, (p : Int), prev, dupFlag, i⟩
        = .ok s'
      ∧ ShapePost nodes root (Trie.S p c id) th prev leftSide s' t' := by
  have hm' : ([kf[i]] = runeString c) ↔ True := iff_true_intro hm
  simp only [Rep] at hrep
  have hplt := getElem?_some_lt nodes p _ hrep
  have hdropne : kf.drop (i + 1) ≠ [] := by simp; omega
  obtain ⟨ch, added, hext, hlenA, hrepc, hndc, hposc, hformc⟩ :=
    extend_chain kn th ⟨root, nodes, nullIndexPointer⟩ rfl (kf.drop (i + 1)) hdropne
  simp only at hext hrepc hposc
  have hp1 : (nodes ++ added)[p]? = some ⟨stS, id, c, th⟩ := by
    rw [List.getElem?_append_left hplt]; exact hrep
  refine ⟨⟨root, (nodes ++ added).set p ⟨stR, id, c, ch.root⟩, nullIndexPointer⟩,
    Trie.R p c id ch, ?_, ?_⟩
  · have h1 := setStatus_mk root nullIndexPointer (nodes ++ added) p _ stR hp1
    have h2 := setRight_mk root nullIndexPointer _ p _ ch.root
      (getElem?_set_self' (nodes ++ added) p _
        { (⟨stS, id, c, th⟩ : indexNode) with status := stR } hp1)
    simp only [List.set_set] at h2
    have hsx : ¬ (stS = stX) := by decide
    simp only [insertFinish, bind, Except.bind, nodeAt_mk _ _ _ _ _ hrep, sliceAt_lt kf i hi,
      hm', if_true, hsx, if_false, hext, nodeAt_mk _ _ _ _ _ hp1, h1, h2]
  · apply shape_inplace root nodes _ _ _ th prev leftSide dupFlag kf[i] hprev
    · simp only [Rep]
      refine ⟨getElem?_set_self' _ p _ _ hp1, ?_⟩
      apply Rep_set_other _ ch th p _ _ hrepc
      intro h; have := hposc _ h; omega
    · simpa [Trie.Formed] using hformc
    · simp only [Trie.positions, List.nodup_cons]
      refine ⟨?_, hndc⟩
      intro h; have := hposc _ h; omega
    · intro q hq
      simp only [Trie.positions, List.mem_cons] at hq ⊢
      rcases hq with h | h
      · left; simp [h]
      · right; exact (hposc _ h).1
    · simp
    · intro q hq hqt
      have : p ≠ q := by intro h; apply hqt; simp [Trie.positions, h]
      rw [List.getElem?_set_ne this, List.getElem?_append_left hq]
    · rfl

theorem shape_extend_dup (root : Int) (nodes : List indexNode) (p c : Nat) (dup : Trie)
    (th : Int) (kf : List Nat) (i : Nat) (kn : Int) (prev : Int) (dupFlag leftSide : Bool)
    (fuelF : Nat)
    (hrep : Rep nodes (Trie.L p c dup) th) (hnd : (Trie.L p c dup).positions.Nodup)
    (hform : (Trie.L p c dup).Formed)
    (hi : i < kf.length) (hm : [kf[i]] = runeString c) (hlast : i + 1 < kf.length)
    (hprev : PrevLink nodes root (Trie.L p c dup) prev leftSide kf[i] dupFlag) :
    ∃ s' t', insertFinish fuelF kn ⟨⟨root, nodes, nullIndexPointer⟩, kf, (p : Int), prev, dupFlag, i⟩
        = .ok s'
      ∧ ShapePost nodes root (Trie.L p c dup) th prev leftSide s' t' := by
  have hm' : ([kf[i]] = runeString c) ↔ True := iff_true_intro hm
  simp only [Trie.Formed] at hform
  have hlen := Rep_lt nodes _ th hrep
  simp only [Rep] at hrep
  have hplt := getElem?_some_lt nodes p _ hrep.1
  have hdropne : kf.drop (i + 1) ≠ [] := by simp; omega
  obtain ⟨ch, added, hext, hlenA, hrepc, hndc, hposc, hformc⟩ :=
    extend_chain kn th ⟨root, nodes, nullIndexPointer⟩ rfl (kf.drop (i + 1)) hdropne
  simp only at hext hrepc hposc
  have hp1 : (nodes ++ added)[p]? = some ⟨stL, dup.root, c, th⟩ := by
    rw [List.getElem?_append_left hplt]; exact hrep.1
  simp only [Trie.positions, List.nodup_cons] at hnd
  refine ⟨⟨root, (nodes ++ added).set p ⟨stK, dup.root, c, ch.root⟩, nullIndexPointer⟩,
    Trie.K p c dup ch, ?_, ?_⟩
  · have h1 := setStatus_mk root nullIndexPointer (nodes ++ added) p _ stK hp1
    have h2 := setRight_mk root nullIndexPointer _ p _ ch.root
      (getElem?_set_self' (nodes ++ added) p _
        { (⟨stL, dup.root, c, th⟩ : indexNode) with status := stK } hp1)
    simp only [List.set_set] at h2
    have hsx : ¬ (stL = stX) := by decide
    have hss : ¬ (stL = stS) := by decide
    simp only [insertFinish, bind, Except.bind, nodeAt_mk _ _ _ _ _ hrep.1, sliceAt_lt kf i hi,
      hm', if_true, hsx, hss, if_false, hext, nodeAt_mk _ _ _ _ _ hp1, h1, h2]
  · apply shape_inplace root nodes _ _ _ th prev leftSide dupFlag kf[i] hprev
    · simp only [Rep]
      refine ⟨getElem?_set_self' _ p _ _ hp1, ?_, ?_⟩
      · apply Rep_set_other _ dup _ p _ hnd.1
        exact Rep_append _ _ dup _ hrep.2
      · apply Rep_set_other _ ch th p _ _ hrepc
        intro h; have := hposc _ h; omega
    · simp only [Trie.Formed]; exact ⟨hform, hformc⟩
    · simp only [Trie.positions, List.nodup_cons, List.nodup_append, List.mem_append, not_or]
      refine ⟨⟨hnd.1, ?_⟩, hnd.2, hndc, ?_⟩
      · intro h; have := hposc _ h; omega
      · intro q h1 h2
        have := hlen q (by simp [Trie.positions, h1])
        have := hposc _ h2
        omega
    · intro q hq
      simp only [Trie.positions, List.mem_cons, List.mem_append] at hq ⊢
      rcases hq with h | h | h
      · left; simp [h]
      · left; simp [h]
      · right; exact (hposc _ h).1
    · simp
    · intro q hq hqt
      have : p ≠ q := by intro h; apply hqt; simp [Trie.positions, h]
      rw [List.getElem?_set_ne this, List.getElem?_append_left hq]
    · rfl

theorem shape_D (kn : Int) (p c : Nat) (l r : Trie)
    (ihl : ShapeSpec kn l) (ihr : ShapeSpec kn r) :
    ShapeSpec kn (Trie.D p c l r) := by
  intro root nodes th kf i prev leftSide fuelL fuelF hrep hnd hform hi hprev hfL hfF
  simp only [Trie.span] at hfL hfF
  obtain ⟨f, rfl⟩ : ∃ f, fuelL = f + 1 := ⟨fuelL - 1, by omega⟩
  simp only [Trie.Formed] at hform
  obtain ⟨hfl, hfr⟩ := hform
  have hlen := Rep_lt nodes _ th hrep
  simp only [Rep] at hrep
  obtain ⟨hnode, hrl, hrr⟩ := hrep
  simp only [Trie.positions, List.nodup_cons, List.nodup_append, List.mem_append, not_or] at hnd
  obtain ⟨⟨hpl, hpr⟩, hndl, hndr, hdisj⟩ := hnd
  have hplt := getElem?_some_lt nodes p _ hnode
  have h1 : ¬ (stD = stR ∨ stD = stS) := by decide
  by_cases hle : strLe [kf[i]] (runeString c) = true
  · -- to the left
    have hstep : insertLoop kn (f + 1)
        ⟨⟨root, nodes, nullIndexPointer⟩, kf, (Trie.D p c l r).root, prev, false, i⟩
        = insertLoop kn f ⟨⟨root, nodes, nullIndexPointer⟩, kf, l.root, (p : Int), false, i⟩ := by
      simp [insertLoop, nodeAt_mk _ _ _ _ _ hnode, bind, Except.bind, h1, sliceAt_lt kf i hi, hle]
    rw [insertRun_step kn f fuelF _ _ hstep]
    have hlink : PrevLink nodes root l (p : Int) true kf[i] false := by
      right
      refine ⟨p, _, rfl, hnode, hpl, rfl, ?_⟩
      simp [hle]
    obtain ⟨s', l', hrun, hpost⟩ := ihl root nodes (p : Int) kf i (p : Int) true f fuelF
      hrl hndl hfl hi hlink (by omega) (by omega)
    obtain ⟨hs', hnode'⟩ := shape_unpack _ _ _ _ _ _ _ _ _ hpost hnode
    rw [hs'] at hrun
    refine ⟨_, Trie.D p c l' r, hrun, ?_⟩
    rw [hs']
    apply shape_inplace root nodes s'.node _ _ th prev leftSide false kf[i] hprev
    · simp only [Rep]
      refine ⟨by simpa using hnode', hpost.rep, ?_⟩
      exact shape_sibling _ _ _ _ _ _ _ _ hpost r _ hrr hpr (fun q hq h => hdisj h hq)
    · simp only [Trie.Formed]; exact ⟨hpost.formed, hfr⟩
    · simp only [Trie.positions, List.nodup_cons, List.nodup_append, List.mem_append, not_or]
      refine ⟨⟨fun h => hpl (shape_fresh _ _ _ _ _ _ _ _ hpost p h hplt), hpr⟩,
        hpost.nodup, hndr, ?_⟩
      intro q h1 h2
      have hq := hlen q (by simp [Trie.positions, h2])
      exact hdisj (shape_fresh _ _ _ _ _ _ _ _ hpost q h1 hq) h2
    · intro q hq
      simp only [Trie.positions, List.mem_cons, List.mem_append] at hq ⊢
      rcases hq with h | h | h
      · left; left; exact h
      · rcases hpost.pos_new q h with h1 | h1
        · left; right; left; exact h1
        · right; exact h1
      · left; right; right; exact h
    · exact hpost.length_le
    · intro q hq hqt
      simp only [Trie.positions, List.mem_cons, List.mem_append, not_or] at hqt
      exact hpost.frame q hq hqt.2.1 (by intro h; exact hqt.1 (by exact_mod_cast h))
    · rfl
  · -- to the right
    have hstep : insertLoop kn (f + 1)
        ⟨⟨root, nodes, nullIndexPointer⟩, kf, (Trie.D p c l r).root, prev, false, i⟩
        = insertLoop kn f ⟨⟨root, nodes, nullIndexPointer⟩, kf, r.root, (p : Int), false, i⟩ := by
      simp [insertLoop, nodeAt_mk _ _ _ _ _ hnode, bind, Except.bind, h1, sliceAt_lt kf i hi, hle]
    rw [insertRun_step kn f fuelF _ _ hstep]
    have hlink : PrevLink nodes root r (p : Int) false kf[i] false := by
      right
      refine ⟨p, _, rfl, hnode, hpr, rfl, ?_⟩
      have h1 : ¬ (stD = stL) := by decide
      simp [hle, h1]
    obtain ⟨s', r', hrun, hpost⟩ := ihr root nodes th kf i (p : Int) false f fuelF
      hrr hndr hfr hi hlink (by omega) (by omega)
    obtain ⟨hs', hnode'⟩ := shape_unpack _ _ _ _ _ _ _ _ _ hpost hnode
    rw [hs'] at hrun
    refine ⟨_, Trie.D p c l r', hrun, ?_⟩
    rw [hs']
    apply shape_inplace root nodes s'.node _ _ th prev leftSide false kf[i] hprev
    · simp only [Rep]
      refine ⟨by simpa using hnode', ?_, hpost.rep⟩
      exact shape_sibling _ _ _ _ _ _ _ _ hpost l _ hrl hpl (fun q hq h => hdisj hq h)
    · simp only [Trie.Formed]; exact ⟨hfl, hpost.formed⟩
    · simp only [Trie.positions, List.nodup_cons, List.nodup_append, List.mem_append, not_or]
      refine ⟨⟨hpl, ?_⟩, hndl, hpost.nodup, ?_⟩
      · intro h; exact hpr (shape_fresh _ _ _ _ _ _ _ _ hpost p h hplt)
      · intro q h1 h2
        have hq := hlen q (by simp [Trie.positions, h1])
        exact hdisj h1 (shape_fresh _ _ _ _ _ _ _ _ hpost q h2 hq)
    · intro q hq
      simp only [Trie.positions, List.mem_cons, List.mem_append] at hq ⊢
      rcases hq with h | h | h
      · left; left; exact h
      · left; right; left; exact h
      · rcases hpost.pos_new q h with h1 | h1
        · left; right; right; exact h1
        · right; exact h1
    · exact hpost.length_le
    · intro q hq hqt
      simp only [Trie.positions, List.mem_cons, List.mem_append, not_or] at hqt
      exact hpost.frame q hq hqt.2.2 (by intro h; exact hqt.1 (by exact_mod_cast h))
    · rfl

theorem shape_X (kn : Int) (p c : Nat) (next : Trie) (ih : ShapeSpec kn next) :
    ShapeSpec kn (Trie.X p c next) := by
  intro root nodes th kf i prev leftSide fuelL fuelF hrep hnd hform hi hprev hfL hfF
  simp only [Trie.span] at hfL hfF
  obtain ⟨f, rfl⟩ : ∃ f, fuelL = f + 1 := ⟨fuelL - 1, by omega⟩
  have hform0 := hform
  have hrep0 := hrep
  have hnd0 := hnd
  simp only [Trie.Formed] at hform
  have hlen := Rep_lt nodes _ th hrep
  simp only [Rep] at hrep
  obtain ⟨hnode, hrn⟩ := hrep
  simp only [Trie.positions, List.nodup_cons] at hnd
  obtain ⟨hpn, hndn⟩ := hnd
  have hplt := getElem?_some_lt nodes p _ hnode
  have hx1 : ¬ (stX = stR ∨ stX = stS) := by decide
  have hx2 : ¬ (stX = stD) := by decide
  have hx3 : ¬ (stX = stK ∨ stX = stL) := by decide
  by_cases hm : [kf[i]] = runeString c
  · obtain ⟨hc, hc128⟩ := (rune_match kf[i] c).mp hm
    by_cases hlast : i + 1 = kf.length
    · have hstop : insertLoop kn (f + 1)
          ⟨⟨root, nodes, nullIndexPointer⟩, kf, (Trie.X p c next).root, prev, false, i⟩
          = .ok (.inr ⟨⟨root, nodes, nullIndexPointer⟩, kf, (p : Int), prev, false, i⟩) := by
        simp [insertLoop, nodeAt_mk _ _ _ _ _ hnode, bind, Except.bind, hx1, hx2, hx3,
          sliceAt_lt kf i hi, runeString_ascii c hc128, hc, hlast]
      rw [insertRun_stop kn f fuelF _ hstop]
      exact shape_char_end root nodes p c next th kf i kn prev false leftSide fuelF
        hrep0 hnd0 hform0 hi hm hprev
    · have hi2 : i + 1 < kf.length := by omega
      have hstep : insertLoop kn (f + 1)
          ⟨⟨root, nodes, nullIndexPointer⟩, kf, (Trie.X p c next).root, prev, false, i⟩
          = insertLoop kn f
              ⟨⟨root, nodes, nullIndexPointer⟩, kf, next.root, (p : Int), false, i + 1⟩ := by
        simp [insertLoop, nodeAt_mk _ _ _ _ _ hnode, bind, Except.bind, hx1, hx2, hx3,
          sliceAt_lt kf i hi, runeString_ascii c hc128, hc, hlast]
      rw [insertRun_step kn f fuelF _ _ hstep]
      have hlink : PrevLink nodes root next (p : Int) false kf[i + 1] false := by
        right
        refine ⟨p, _, rfl, hnode, hpn, rfl, ?_⟩
        have h1 : ¬ (stX = stL) := by decide
        simp [hx2, h1]
      obtain ⟨s', next', hrun, hpost⟩ := ih root nodes th kf (i + 1) (p : Int) false f fuelF
        hrn hndn hform hi2 hlink (by omega) (by omega)
      obtain ⟨hs', hnode'⟩ := shape_unpack _ _ _ _ _ _ _ _ _ hpost hnode
      rw [hs'] at hrun
      refine ⟨_, Trie.X p c next', hrun, ?_⟩
      rw [hs']
      apply shape_inplace root nodes s'.node _ _ th prev leftSide false kf[i] hprev
      · simp only [Rep]
        exact ⟨by simpa using hnode', hpost.rep⟩
      · simp only [Trie.Formed]; exact hpost.formed
      · simp only [Trie.positions, List.nodup_cons]
        exact ⟨fun h => hpn (shape_fresh _ _ _ _ _ _ _ _ hpost p h hplt), hpost.nodup⟩
      · intro q hq
        simp only [Trie.positions, List.mem_cons] at hq ⊢
        rcases hq with h | h
        · left; left; exact h
        · rcases hpost.pos_new q h with h1 | h1
          · left; right; exact h1
          · right; exact h1
      · exact hpost.length_le
      · intro q hq hqt
        simp only [Trie.positions, List.mem_cons, not_or] at hqt
        exact hpost.frame q hq hqt.2 (by intro h; exact hqt.1 (by exact_mod_cast h))
      · rfl
  · have hstop : insertLoop kn (f + 1)
        ⟨⟨root, nodes, nullIndexPointer⟩, kf, (Trie.X p c next).root, prev, false, i⟩
        = .ok (.inr ⟨⟨root, nodes, nullIndexPointer⟩, kf, (Trie.X p c next).root, prev, false, i⟩) := by
      simp [insertLoop, nodeAt_mk _ _ _ _ _ hnode, bind, Except.bind, hx1, hx2, hx3,
        sliceAt_lt kf i hi, hm]
    rw [insertRun_stop kn f fuelF _ hstop]
    exact shape_mismatch ⟨root, nodes, nullIndexPointer⟩ (Trie.X p c next) th kf i kn prev
      false leftSide fuelF _ rfl hrep0 hnd0 hform0 hnode hi hm hprev
      (by have := visits_le_span next; simp only [Trie.visits]; omega)

theorem shape_S (kn : Int) (p c : Nat) (id : Int) : ShapeSpec kn (Trie.S p c id) := by
  intro root nodes th kf i prev leftSide fuelL fuelF hrep hnd hform hi hprev hfL hfF
  simp only [Trie.span] at hfL hfF
  obtain ⟨f, rfl⟩ : ∃ f, fuelL = f + 1 := ⟨fuelL - 1, by omega⟩
  have hrep0 := hrep
  simp only [Rep] at hrep
  have hplt := getElem?_some_lt nodes p _ hrep
  have hs1 : (stS = stR ∨ stS = stS) := by decide
  have hss : ¬ (stS = stR) := by decide
  by_cases hm : [kf[i]] = runeString c
  · obtain ⟨hc, hc128⟩ := (rune_match kf[i] c).mp hm
    by_cases hlast : i + 1 = kf.length
    · by_cases hkn : kn = id
      · -- the pair is stored already
        have hret : insertLoop kn (f + 1)
            ⟨⟨root, nodes, nullIndexPointer⟩, kf, (Trie.S p c id).root, prev, false, i⟩
            = .ok (.inl ⟨root, nodes, nullIndexPointer⟩) := by
          simp [insertLoop, nodeAt_mk _ _ _ _ _ hrep, bind, Except.bind, hs1,
            sliceAt_lt kf i hi, runeString_ascii c hc128, hc, hlast, hkn]
        rw [insertRun_return kn f fuelF _ _ hret]
        refine ⟨_, Trie.S p c id, rfl, ?_⟩
        exact shape_inplace root nodes nodes _ _ th prev leftSide false kf[i] hprev
          hrep0 hform hnd (fun q hq => Or.inl hq) (le_refl _) (fun _ _ _ => rfl) rfl
      · -- a second identifier for the key
        obtain ⟨nodes', t'', hrun, hnode', hrep', hord', hnd', hpos', hlen', hframe', -⟩ :=
          convert_spec kn (insert_secondary kn) root nodes p c id stS th kf i prev (Or.inl rfl)
            hrep hc128 hi hc hlast hkn f fuelF (by omega) (by omega)
        refine ⟨_, Trie.L p c t'', hrun, ?_⟩
        apply shape_inplace root nodes nodes' _ _ th prev leftSide false kf[i] hprev
        · simp only [Rep]
          exact ⟨by simpa [hss] using hnode', hrep'⟩
        · simp only [Trie.Formed]; exact hord'
        · simp only [Trie.positions, List.nodup_cons]
          exact ⟨fun h => by have := hpos' _ h; omega, hnd'⟩
        · intro q hq
          simp only [Trie.positions, List.mem_cons] at hq ⊢
          rcases hq with h | h
          · left; simp [h]
          · right; exact hpos' q h
        · exact hlen'
        · intro q hq hqt
          exact hframe' q hq (by intro h; apply hqt; simp [Trie.positions, h])
        · rfl
    · have hstop : insertLoop kn (f + 1)
          ⟨⟨root, nodes, nullIndexPointer⟩, kf, (Trie.S p c id).root, prev, false, i⟩
          = .ok (.inr ⟨⟨root, nodes, nullIndexPointer⟩, kf, (p : Int), prev, false, i⟩) := by
        simp [insertLoop, nodeAt_mk _ _ _ _ _ hrep, bind, Except.bind, hs1,
          sliceAt_lt kf i hi, runeString_ascii c hc128, hc, hlast]
      rw [insertRun_stop kn f fuelF _ hstop]
      exact shape_extend_leaf root nodes p c id th kf i kn prev false leftSide fuelF
        hrep0 hi hm (by omega) hprev
  · have hstop : insertLoop kn (f + 1)
        ⟨⟨root, nodes, nullIndexPointer⟩, kf, (Trie.S p c id).root, prev, false, i⟩
        = .ok (.inr ⟨⟨root, nodes, nullIndexPointer⟩, kf, (Trie.S p c id).root, prev, false, i⟩) := by
      simp [insertLoop, nodeAt_mk _ _ _ _ _ hrep, bind, Except.bind, hs1,
        sliceAt_lt kf i hi, hm]
    rw [insertRun_stop kn f fuelF _ hstop]
    exact shape_mismatch ⟨root, nodes, nullIndexPointer⟩ (Trie.S p c id) th kf i kn prev
      false leftSide fuelF _ rfl hrep0 hnd hform hrep hi hm hprev
      (by simp only [Trie.visits]; omega)

theorem shape_R (kn : Int) (p c : Nat) (id : Int) (next : Trie) (ih : ShapeSpec kn next) :
    ShapeSpec kn (Trie.R p c id next) := by
  intro root nodes th kf i prev leftSide fuelL fuelF hrep hnd hform hi hprev hfL hfF
  simp only [Trie.span] at hfL hfF
  obtain ⟨f, rfl⟩ : ∃ f, fuelL = f + 1 := ⟨fuelL - 1, by omega⟩
  have hform0 := hform
  have hrep0 := hrep
  have hnd0 := hnd
  simp only [Trie.Formed] at hform
  have hlen := Rep_lt nodes _ th hrep
  simp only [Rep] at hrep
  obtain ⟨hnode, hrn⟩ := hrep
  simp only [Trie.positions, List.nodup_cons] at hnd
  obtain ⟨hpn, hndn⟩ := hnd
  have hplt := getElem?_some_lt nodes p _ hnode
  have hs1 : (stR = stR ∨ stR = stS) := by decide
  have hss : ¬ (stR = stS) := by decide
  by_cases hm : [kf[i]] = runeString c
  · obtain ⟨hc, hc128⟩ := (rune_match kf[i] c).mp hm
    by_cases hlast : i + 1 = kf.length
    · by_cases hkn : kn = id
      · -- the pair is stored already
        have hret : insertLoop kn (f + 1)
            ⟨⟨root, nodes, nullIndexPointer⟩, kf, (Trie.R p c id next).root, prev, false, i⟩
            = .ok (.inl ⟨root, nodes, nullIndexPointer⟩) := by
          simp [insertLoop, nodeAt_mk _ _ _ _ _ hnode, bind, Except.bind, hs1,
            sliceAt_lt kf i hi, runeString_ascii c hc128, hc, hlast, hkn]
        rw [insertRun_return kn f fuelF _ _ hret]
        refine ⟨_, Trie.R p c id next, rfl, ?_⟩
        exact shape_inplace root nodes nodes _ _ th prev leftSide false kf[i] hprev
          hrep0 hform0 hnd0 (fun q hq => Or.inl hq) (le_refl _) (fun _ _ _ => rfl) rfl
      · -- a second identifier for the key
        obtain ⟨nodes', t'', hrun, hnode', hrep', hord', hnd', hpos', hlen', hframe', -⟩ :=
          convert_spec kn (insert_secondary kn) root nodes p c id stR next.root kf i prev
            (Or.inr rfl) hnode hc128 hi hc hlast hkn f fuelF (by omega) (by omega)
        refine ⟨_, Trie.K p c t'' next, hrun, ?_⟩
        apply shape_inplace root nodes nodes' _ _ th prev leftSide false kf[i] hprev
        · simp only [Rep]
          refine ⟨by simpa using hnode', hrep', ?_⟩
          apply Rep_congr nodes nodes' next th _ hrn
          intro q hq
          exact hframe' q (hlen q (by simp [Trie.positions, hq]))
            (by intro h; exact hpn (h ▸ hq))
        · simp only [Trie.Formed]; exact ⟨hord', hform⟩
        · simp only [Trie.positions, List.nodup_cons, List.nodup_append, List.mem_append,
            not_or]
          refine ⟨⟨fun h => by have := hpos' _ h; omega, hpn⟩, hnd', hndn, ?_⟩
          intro q h1 h2
          have := hpos' q h1
          have := hlen q (by simp [Trie.positions, h2])
          omega
        · intro q hq
          simp only [Trie.positions, List.mem_cons, List.mem_append] at hq ⊢
          rcases hq with h | h | h
          · left; left; exact h
          · right; exact hpos' q h
          · left; right; exact h
        · exact hlen'
        · intro q hq hqt
          exact hframe' q hq (by intro h; apply hqt; simp [Trie.positions, h])
        · rfl
    · have hi2 : i + 1 < kf.length := by omega
      have hstep : insertLoop kn (f + 1)
          ⟨⟨root, nodes, nullIndexPointer⟩, kf, (Trie.R p c id next).root, prev, false, i⟩
          = insertLoop kn f
              ⟨⟨root, nodes, nullIndexPointer⟩, kf, next.root, (p : Int), false, i + 1⟩ := by
        simp [insertLoop, nodeAt_mk _ _ _ _ _ hnode, bind, Except.bind, hs1, hss,
          sliceAt_lt kf i hi, runeString_ascii c hc128, hc, hlast]
      rw [insertRun_step kn f fuelF _ _ hstep]
      have hlink : PrevLink nodes root next (p : Int) false kf[i + 1] false := by
        right
        refine ⟨p, _, rfl, hnode, hpn, rfl, ?_⟩
        have h1 : ¬ (stR = stL) := by decide
        have h3 : ¬ (stR = stD) := by decide
        simp [h1, h3]
      obtain ⟨s', next', hrun, hpost⟩ := ih root nodes th kf (i + 1) (p : Int) false f fuelF
        hrn hndn hform hi2 hlink (by omega) (by omega)
      obtain ⟨hs', hnode'⟩ := shape_unpack _ _ _ _ _ _ _ _ _ hpost hnode
      rw [hs'] at hrun
      refine ⟨_, Trie.R p c id next', hrun, ?_⟩
      rw [hs']
      apply shape_inplace root nodes s'.node _ _ th prev leftSide false kf[i] hprev
      · simp only [Rep]
        exact ⟨by simpa using hnode', hpost.rep⟩
      · simp only [Trie.Formed]; exact hpost.formed
      · simp only [Trie.positions, List.nodup_cons]
        exact ⟨fun h => hpn (shape_fresh _ _ _ _ _ _ _ _ hpost p h hplt), hpost.nodup⟩
      · intro q hq
        simp only [Trie.positions, List.mem_cons] at hq ⊢
        rcases hq with h | h
        · left; left; exact h
        · rcases hpost.pos_new q h with h1 | h1
          · left; right; exact h1
          · right; exact h1
      · exact hpost.length_le
      · intro q hq hqt
        simp only [Trie.positions, List.mem_cons, not_or] at hqt
        exact hpost.frame q hq hqt.2 (by intro h; exact hqt.1 (by exact_mod_cast h))
      · rfl
  · have hstop : insertLoop kn (f + 1)
        ⟨⟨root, nodes, nullIndexPointer⟩, kf, (Trie.R p c id next).root, prev, false, i⟩
        = .ok (.inr ⟨⟨root, nodes, nullIndexPointer⟩, kf, (Trie.R p c id next).root, prev,
            false, i⟩) := by
      simp [insertLoop, nodeAt_mk _ _ _ _ _ hnode, bind, Except.bind, hs1,
        sliceAt_lt kf i hi, hm]
    rw [insertRun_stop kn f fuelF _ hstop]
    exact shape_mismatch ⟨root, nodes, nullIndexPointer⟩ (Trie.R p c id next) th kf i kn prev
      false leftSide fuelF _ rfl hrep0 hnd0 hform0 hnode hi hm hprev
      (by have := visits_le_span next; simp only [Trie.visits]; omega)

theorem shape_L (kn : Int) (p c : Nat) (dup : Trie) : ShapeSpec kn (Trie.L p c dup) := by
  intro root nodes th kf i prev leftSide fuelL fuelF hrep hnd hform hi hprev hfL hfF
  simp only [Trie.span] at hfL hfF
  obtain ⟨f, rfl⟩ : ∃ f, fuelL = f + 1 := ⟨fuelL - 1, by omega⟩
  have hform0 := hform
  have hrep0 := hrep
  have hnd0 := hnd
  simp only [Trie.Formed] at hform
  have hlen := Rep_lt nodes _ th hrep
  simp only [Rep] at hrep
  obtain ⟨hnode, hrd⟩ := hrep
  simp only [Trie.positions, List.nodup_cons] at hnd
  obtain ⟨hpd, hndd⟩ := hnd
  have hplt := getElem?_some_lt nodes p _ hnode
  have hx1 : ¬ (stL = stR ∨ stL = stS) := by decide
  have hx2 : ¬ (stL = stD) := by decide
  have hx3 : (stL = stK ∨ stL = stL) := by decide
  by_cases hm : [kf[i]] = runeString c
  · obtain ⟨hc, hc128⟩ := (rune_match kf[i] c).mp hm
    by_cases hlast : i + 1 = kf.length
    · have hstep : insertLoop kn (f + 1)
          ⟨⟨root, nodes, nullIndexPointer⟩, kf, (Trie.L p c dup).root, prev, false, i⟩
          = insertLoop kn f
              ⟨⟨root, nodes, nullIndexPointer⟩, itoa kn, dup.root, (p : Int), true, 0⟩ := by
        simp [insertLoop, nodeAt_mk _ _ _ _ _ hnode, bind, Except.bind, hx1, hx2, hx3,
          sliceAt_lt kf i hi, runeString_ascii c hc128, hc, hlast, decimaliseNumber]
      rw [insertRun_step kn f fuelF _ _ hstep]
      have h0 : 0 < (itoa kn).length := List.length_pos.mpr (itoa_ne_nil kn)
      have hlink : PrevLink nodes root dup (p : Int) true (itoa kn)[0] true := by
        right
        refine ⟨p, _, rfl, hnode, hpd, rfl, ?_⟩
        simp
      obtain ⟨s', dup', hrun, hpost⟩ := insert_secondary kn dup root nodes (p : Int) (itoa kn) 0
        (p : Int) true (some []) f fuelF hrd hndd hform h0 (itoa_ascii kn)
        (Or.inr ⟨by simp, rfl, rfl⟩) hlink (by simp [need]; omega) (by simp [need]; omega)
      obtain ⟨hs', hnode'⟩ := post_unpack _ _ _ _ _ _ _ _ _ _ _ _ hpost hnode
      rw [hs'] at hrun
      refine ⟨_, Trie.L p c dup', hrun, ?_⟩
      rw [hs']
      apply shape_inplace root nodes s'.node _ _ th prev leftSide false kf[i] hprev
      · simp only [Rep]
        exact ⟨by simpa using hnode', hpost.rep⟩
      · simp only [Trie.Formed]
        exact hpost.ordered
      · simp only [Trie.positions, List.nodup_cons]
        exact ⟨fun h => hpd (post_fresh _ _ _ _ _ _ _ _ _ _ _ hpost p h hplt), hpost.nodup⟩
      · intro q hq
        simp only [Trie.positions, List.mem_cons] at hq ⊢
        rcases hq with h | h
        · left; left; exact h
        · rcases hpost.pos_new q h with h1 | h1
          · left; right; exact h1
          · right; exact h1
      · exact hpost.length_le
      · intro q hq hqt
        simp only [Trie.positions, List.mem_cons, not_or] at hqt
        exact hpost.frame q hq hqt.2 (by intro h; exact hqt.1 (by exact_mod_cast h))
      · rfl
    · have hstop : insertLoop kn (f + 1)
          ⟨⟨root, nodes, nullIndexPointer⟩, kf, (Trie.L p c dup).root, prev, false, i⟩
          = .ok (.inr ⟨⟨root, nodes, nullIndexPointer⟩, kf, (p : Int), prev, false, i⟩) := by
        simp [insertLoop, nodeAt_mk _ _ _ _ _ hnode, bind, Except.bind, hx1, hx2, hx3,
          sliceAt_lt kf i hi, runeString_ascii c hc128, hc, hlast]
      rw [insertRun_stop kn f fuelF _ hstop]
      exact shape_extend_dup root nodes p c dup th kf i kn prev false leftSide fuelF
        hrep0 hnd0 hform0 hi hm (by omega) hprev
  · have hstop : insertLoop kn (f + 1)
        ⟨⟨root, nodes, nullIndexPointer⟩, kf, (Trie.L p c dup).root, prev, false, i⟩
        = .ok (.inr ⟨⟨root, nodes, nullIndexPointer⟩, kf, (Trie.L p c dup).root, prev,
            false, i⟩) := by
      simp [insertLoop, nodeAt_mk _ _ _ _ _ hnode, bind, Except.bind, hx1, hx2, hx3,
        sliceAt_lt kf i hi, hm]
    rw [insertRun_stop kn f fuelF _ hstop]
    exact shape_mismatch ⟨root, nodes, nullIndexPointer⟩ (Trie.L p c dup) th kf i kn prev
      false leftSide fuelF _ rfl hrep0 hnd0 hform0 hnode hi hm hprev
      (by simp only [Trie.visits]; omega)

theorem shape_K (kn : Int) (p c : Nat) (dup next : Trie) (ihn : ShapeSpec kn next) :
    ShapeSpec kn (Trie.K p c dup next) := by
  intro root nodes th kf i prev leftSide fuelL fuelF hrep hnd hform hi hprev hfL hfF
  simp only [Trie.span] at hfL hfF
  obtain ⟨f, rfl⟩ : ∃ f, fuelL = f + 1 := ⟨fuelL - 1, by omega⟩
  have hform0 := hform
  have hrep0 := hrep
  have hnd0 := hnd
  simp only [Trie.Formed] at hform
  obtain ⟨hod, hfn⟩ := hform
  have hlen := Rep_lt nodes _ th hrep
  simp only [Rep] at hrep
  obtain ⟨hnode, hrd, hrn⟩ := hrep
  simp only [Trie.positions, List.nodup_cons, List.nodup_append, List.mem_append, not_or] at hnd
  obtain ⟨⟨hpd, hpn⟩, hndd, hndn, hdisj⟩ := hnd
  have hplt := getElem?_some_lt nodes p _ hnode
  have hx1 : ¬ (stK = stR ∨ stK = stS) := by decide
  have hx2 : ¬ (stK = stD) := by decide
  have hx3 : (stK = stK ∨ stK = stL) := by decide
  have hx4 : ¬ (stK = stL) := by decide
  by_cases hm : [kf[i]] = runeString c
  · obtain ⟨hc, hc128⟩ := (rune_match kf[i] c).mp hm
    by_cases hlast : i + 1 = kf.length
    · have hstep : insertLoop kn (f + 1)
          ⟨⟨root, nodes, nullIndexPointer⟩, kf, (Trie.K p c dup next).root, prev, false, i⟩
          = insertLoop kn f
              ⟨⟨root, nodes, nullIndexPointer⟩, itoa kn, dup.root, (p : Int), true, 0⟩ := by
        simp [insertLoop, nodeAt_mk _ _ _ _ _ hnode, bind, Except.bind, hx1, hx2, hx3,
          sliceAt_lt kf i hi, runeString_ascii c hc128, hc, hlast, decimaliseNumber]
      rw [insertRun_step kn f fuelF _ _ hstep]
      have h0 : 0 < (itoa kn).length := List.length_pos.mpr (itoa_ne_nil kn)
      have hlink : PrevLink nodes root dup (p : Int) true (itoa kn)[0] true := by
        right
        refine ⟨p, _, rfl, hnode, hpd, rfl, ?_⟩
        simp
      obtain ⟨s', dup', hrun, hpost⟩ := insert_secondary kn dup root nodes (p : Int) (itoa kn) 0
        (p : Int) true (some []) f fuelF hrd hndd hod h0 (itoa_ascii kn)
        (Or.inr ⟨by simp, rfl, rfl⟩) hlink (by simp [need]; omega) (by simp [need]; omega)
      obtain ⟨hs', hnode'⟩ := post_unpack _ _ _ _ _ _ _ _ _ _ _ _ hpost hnode
      rw [hs'] at hrun
      refine ⟨_, Trie.K p c dup' next, hrun, ?_⟩
      rw [hs']
      apply shape_inplace root nodes s'.node _ _ th prev leftSide false kf[i] hprev
      · simp only [Rep]
        refine ⟨by simpa using hnode', hpost.rep, ?_⟩
        exact post_sibling _ _ _ _ _ _ _ _ _ _ _ hpost next _ hrn hpn (fun q hq h => hdisj h hq)
      · simp only [Trie.Formed]
        exact ⟨hpost.ordered, hfn⟩
      · simp only [Trie.positions, List.nodup_cons, List.nodup_append, List.mem_append, not_or]
        refine ⟨⟨fun h => hpd (post_fresh _ _ _ _ _ _ _ _ _ _ _ hpost p h hplt), hpn⟩,
          hpost.nodup, hndn, ?_⟩
        intro q h1 h2
        have hq := hlen q (by simp [Trie.positions, h2])
        exact hdisj (post_fresh _ _ _ _ _ _ _ _ _ _ _ hpost q h1 hq) h2
      · intro q hq
        simp only [Trie.positions, List.mem_cons, List.mem_append] at hq ⊢
        rcases hq with h | h | h
        · left; left; exact h
        · rcases hpost.pos_new q h with h1 | h1
          · left; right; left; exact h1
          · right; exact h1
        · left; right; right; exact h
      · exact hpost.length_le
      · intro q hq hqt
        simp only [Trie.positions, List.mem_cons, List.mem_append, not_or] at hqt
        exact hpost.frame q hq hqt.2.1 (by intro h; exact hqt.1 (by exact_mod_cast h))
      · rfl
    · have hi2 : i + 1 < kf.length := by omega
      have hstep : insertLoop kn (f + 1)
          ⟨⟨root, nodes, nullIndexPointer⟩, kf, (Trie.K p c dup next).root, prev, false, i⟩
          = insertLoop kn f
              ⟨⟨root, nodes, nullIndexPointer⟩, kf, next.root, (p : Int), false, i + 1⟩ := by
        simp [insertLoop, nodeAt_mk _ _ _ _ _ hnode, bind, Except.bind, hx1, hx2, hx3, hx4,
          sliceAt_lt kf i hi, runeString_ascii c hc128, hc, hlast]
      rw [insertRun_step kn f fuelF _ _ hstep]
      have hlink : PrevLink nodes root next (p : Int) false kf[i + 1] false := by
        right
        refine ⟨p, _, rfl, hnode, hpn, rfl, ?_⟩
        simp [hx2, hx4]
      obtain ⟨s', next', hrun, hpost⟩ := ihn root nodes th kf (i + 1) (p : Int) false f fuelF
        hrn hndn hfn hi2 hlink (by omega) (by omega)
      obtain ⟨hs', hnode'⟩ := shape_unpack _ _ _ _ _ _ _ _ _ hpost hnode
      rw [hs'] at hrun
      refine ⟨_, Trie.K p c dup next', hrun, ?_⟩
      rw [hs']
      apply shape_inplace root nodes s'.node _ _ th prev leftSide false kf[i] hprev
      · simp only [Rep]
        refine ⟨by simpa using hnode', ?_, hpost.rep⟩
        exact shape_sibling _ _ _ _ _ _ _ _ hpost dup _ hrd hpd (fun q hq h => hdisj hq h)
      · simp only [Trie.Formed]
        exact ⟨hod, hpost.formed⟩
      · simp only [Trie.positions, List.nodup_cons, List.nodup_append, List.mem_append, not_or]
        refine ⟨⟨hpd, fun h => hpn (shape_fresh _ _ _ _ _ _ _ _ hpost p h hplt)⟩,
          hndd, hpost.nodup, ?_⟩
        intro q h1 h2
        have hq := hlen q (by simp [Trie.positions, h1])
        exact hdisj h1 (shape_fresh _ _ _ _ _ _ _ _ hpost q h2 hq)
      · intro q hq
        simp only [Trie.positions, List.mem_cons, List.mem_append] at hq ⊢
        rcases hq with h | h | h
        · left; left; exact h
        · left; right; left; exact h
        · rcases hpost.pos_new q h with h1 | h1
          · left; right; right; exact h1
          · right; exact h1
      · exact hpost.length_le
      · intro q hq hqt
        simp only [Trie.positions, List.mem_cons, List.mem_append, not_or] at hqt
        exact hpost.frame q hq hqt.2.2 (by intro h; exact hqt.1 (by exact_mod_cast h))
      · rfl
  · have hstop : insertLoop kn (f + 1)
        ⟨⟨root, nodes, nullIndexPointer⟩, kf, (Trie.K p c dup next).root, prev, false, i⟩
        = .ok (.inr ⟨⟨root, nodes, nullIndexPointer⟩, kf, (Trie.K p c dup next).root, prev,
            false, i⟩) := by
      simp [insertLoop, nodeAt_mk _ _ _ _ _ hnode, bind, Except.bind, hx1, hx2, hx3,
        sliceAt_lt kf i hi, hm]
    rw [insertRun_stop kn f fuelF _ hstop]
    exact shape_mismatch ⟨root, nodes, nullIndexPointer⟩ (Trie.K p c dup next) th kf i kn prev
      false leftSide fuelF _ rfl hrep0 hnd0 hform0 hnode hi hm hprev
      (by have := visits_le_span next; simp only [Trie.visits]; omega)

theorem shape_spec (kn : Int) (t : Trie) : ShapeSpec kn t := by
  induction t with
  | S p c id => exact shape_S kn p c id
  | R p c id next ih => exact shape_R kn p c id next ih
  | X p c next ih => exact shape_X kn p c next ih
  | L p c dup _ => exact shape_L kn p c dup
  | K p c dup next _ ihn => exact shape_K kn p c dup next ihn
  | D p c l r ihl ihr => exact shape_D kn p c l r ihl ihr

/-! ### The threads after calls of `Insert` -/

theorem insert_shaped (s : Index) (key : List Nat) (kn : Int) (h : Shaped s) :
    ∃ N s', (∀ fuel, N ≤ fuel → Insert fuel key kn s = .ok s') ∧ Shaped s' := by
  by_cases he : canonical key = []
  · refine ⟨0, s, ?_, h⟩
    intro fuel _; simp [Insert, he]
  · have hlen : 0 < (canonical key).length := List.length_pos.mpr he
    have hl : ¬ ((canonical key).length = 0) := by omega
    obtain ⟨hfree, hroot | ⟨t, hroot, hrep, hnd, hform⟩⟩ := h
    · obtain ⟨ch, added, hext, -, hrepc, hndc, -, hformc⟩ :=
        extend_chain kn nullIndexPointer s hfree (canonical key) he
      refine ⟨0, ⟨ch.root, s.node ++ added, s.deletedRoot⟩, ?_,
        ⟨hfree, Or.inr ⟨ch, rfl, hrepc, hndc, hformc⟩⟩⟩
      intro fuel _
      simp [Insert, hl, hroot, hext, bind, Except.bind]
    · obtain ⟨root, nodes, dr⟩ := s
      simp only at hroot hfree hrep
      subst hfree
      have hlink : PrevLink nodes root t nullIndexPointer false (canonical key)[0] false :=
        Or.inl ⟨rfl, hroot⟩
      obtain ⟨s', t', hrun, hpost⟩ := shape_spec kn t root nodes nullIndexPointer
        (canonical key) 0 nullIndexPointer false t.span t.span hrep hnd hform hlen hlink
        (le_refl _) (le_refl _)
      have hins : Insert t.span key kn ⟨root, nodes, nullIndexPointer⟩ = .ok s' := by
        have hr : ¬ (root = nullIndexPointer) := by rw [hroot]; exact natCast_ne_null _
        simp only [Insert, hl, if_false, hr, bind, Except.bind]
        simp only [insertRun, hroot] at hrun
        rw [← hroot] at hrun
        revert hrun
        cases insertLoop kn t.span ⟨⟨root, nodes, nullIndexPointer⟩, canonical key, root,
          nullIndexPointer, false, 0⟩ with
        | error e => intro h; exact h
        | ok r => cases r <;> (intro h; exact h)
      refine ⟨t.span, s', fun fuel hle => Insert_mono _ fuel key kn _ s' hle hins,
        ⟨hpost.free_empty, Or.inr ⟨t', hpost.root_link rfl, hpost.rep, hpost.nodup,
          hpost.formed⟩⟩⟩

theorem insertAll_shaped (calls : List (List Nat × Int)) :
    ∀ s : Index, Shaped s →
      ∃ N s', (∀ fuel, N ≤ fuel → insertAll fuel calls s = .ok s') ∧ Shaped s' := by
  induction calls with
  | nil =>
    intro s h
    exact ⟨0, s, fun _ _ => rfl, h⟩
  | cons c rest ih =>
    intro s h
    obtain ⟨N1, s1, h1, hs1⟩ := insert_shaped s c.1 c.2 h
    obtain ⟨N2, s2, h2, hs2⟩ := ih s1 hs1
    refine ⟨max N1 N2, s2, ?_, hs2⟩
    intro fuel hle
    simp only [insertAll, h1 fuel (le_trans (le_max_left _ _) hle)]
    exact h2 fuel (le_trans (le_max_right _ _) hle)

/-- No node of a secondary tree is a duplicate leaf. -/
theorem secondary_status (nodes : List indexNode) (t : Trie) :
    ∀ (w : List Nat) (th : Int), Ordered (some w) t → Rep nodes t th →
      ∀ (p : Nat) (n : indexNode), p ∈ t.positions → nodes[p]? = some n → n.status ≠ stL := by
  induction t with
  | S p c id =>
    intro w th _ hrep q n hq hn
    simp only [Trie.positions, List.mem_singleton] at hq
    simp only [Rep] at hrep
    subst hq
    rw [hrep] at hn; cases hn
    simp only [stS, stL]; decide
  | R p c id next ih =>
    intro w th hord hrep q n hq hn
    simp only [Trie.positions, List.mem_cons] at hq
    simp only [Rep] at hrep
    simp only [Ordered] at hord
    rcases hq with hq | hq
    · subst hq
      rw [hrep.1] at hn; cases hn
      simp only [stR, stX, stD, stL]; decide
    · exact ih _ th hord.2.2 hrep.2 q n hq hn
  | X p c next ih =>
    intro w th hord hrep q n hq hn
    simp only [Trie.positions, List.mem_cons] at hq
    simp only [Rep] at hrep
    simp only [Ordered] at hord
    rcases hq with hq | hq
    · subst hq
      rw [hrep.1] at hn; cases hn
      simp only [stR, stX, stD, stL]; decide
    · exact ih _ th hord.2 hrep.2 q n hq hn
  | L p c dup _ =>
    intro w th hord
    simp [Ordered] at hord
  | K p c dup next _ _ =>
    intro w th hord
    simp [Ordered] at hord
  | D p c l r ihl ihr =>
    intro w th hord hrep q n hq hn
    simp only [Trie.positions, List.mem_cons, List.mem_append] at hq
    simp only [Rep] at hrep
    simp only [Ordered] at hord
    rcases hq with hq | hq | hq
    · subst hq
      rw [hrep.1] at hn; cases hn
      simp only [stR, stX, stD, stL]; decide
    · exact ihl w _ hord.2.2.2.1 hrep.2.1 q n hq hn
    · exact ihr w th hord.2.2.2.2 hrep.2.2 q n hq hn

/-- The threads of a tree that the node array holds: the right pointer of a
node with status `'S'` or `'L'` is the thread that leaves the tree, or leads to
a decision node above it on the left, or to the duplicate node above it. -/
theorem threads_rep (nodes : List indexNode) (t : Trie) :
    ∀ th : Int, Rep nodes t th → (t.Formed ∨ ∃ w, Ordered (some w) t) →
      ∀ (p : Nat) (n : indexNode), p ∈ t.positions → nodes[p]? = some n →
        n.status = stS ∨ n.status = stL →
        n.rightPointer = th
        ∨ (∃ d c l r, Trie.D d c l r ∈ t.subtrees ∧ p ∈ l.positions ∧ n.rightPointer = (d : Int))
        ∨ (n.status = stS ∧ ∃ q c dup,
            (Trie.L q c dup ∈ t.subtrees ∨ ∃ next, Trie.K q c dup next ∈ t.subtrees)
            ∧ p ∈ dup.positions ∧ n.rightPointer = (q : Int)) := by
  induction t with
  | S p c id =>
    intro th hrep _ q n hq hn _
    simp only [Trie.positions, List.mem_singleton] at hq
    simp only [Rep] at hrep
    subst hq
    rw [hrep] at hn; cases hn
    exact Or.inl rfl
  | R p c id next ih =>
    intro th hrep hw q n hq hn hs
    simp only [Trie.positions, List.mem_cons] at hq
    simp only [Rep] at hrep
    rcases hq with hq | hq
    · subst hq
      rw [hrep.1] at hn; cases hn
      simp [stR, stS, stL] at hs
    · have hw' : next.Formed ∨ ∃ w, Ordered (some w) next := by
        rcases hw with h | ⟨w, h⟩
        · left; simpa [Trie.Formed] using h
        · right; simp only [Ordered] at h; exact ⟨_, h.2.2⟩
      rcases ih th hrep.2 hw' q n hq hn hs with h | ⟨d, c', l, r, h1, h2, h3⟩
          | ⟨h0, q', c', dup, h1, h2, h3⟩
      · exact Or.inl h
      · exact Or.inr (Or.inl ⟨d, c', l, r, by simp [Trie.subtrees, h1], h2, h3⟩)
      · refine Or.inr (Or.inr ⟨h0, q', c', dup, ?_, h2, h3⟩)
        rcases h1 with h1 | ⟨nx, h1⟩
        · left; simp [Trie.subtrees, h1]
        · right; exact ⟨nx, by simp [Trie.subtrees, h1]⟩
  | X p c next ih =>
    intro th hrep hw q n hq hn hs
    simp only [Trie.positions, List.mem_cons] at hq
    simp only [Rep] at hrep
    rcases hq with hq | hq
    · subst hq
      rw [hrep.1] at hn; cases hn
      simp [stX, stS, stL] at hs
    · have hw' : next.Formed ∨ ∃ w, Ordered (some w) next := by
        rcases hw with h | ⟨w, h⟩
        · left; simpa [Trie.Formed] using h
        · right; simp only [Ordered] at h; exact ⟨_, h.2⟩
      rcases ih th hrep.2 hw' q n hq hn hs with h | ⟨d, c', l, r, h1, h2, h3⟩
          | ⟨h0, q', c', dup, h1, h2, h3⟩
      · exact Or.inl h
      · exact Or.inr (Or.inl ⟨d, c', l, r, by simp [Trie.subtrees, h1], h2, h3⟩)
      · refine Or.inr (Or.inr ⟨h0, q', c', dup, ?_, h2, h3⟩)
        rcases h1 with h1 | ⟨nx, h1⟩
        · left; simp [Trie.subtrees, h1]
        · right; exact ⟨nx, by simp [Trie.subtrees, h1]⟩
  | L p c dup ih =>
    intro th hrep hw q n hq hn hs
    simp only [Trie.positions, List.mem_cons] at hq
    simp only [Rep] at hrep
    have hod : Ordered (some []) dup := by
      rcases hw with h | ⟨w, h⟩
      · simpa [Trie.Formed] using h
      · simp [Ordered] at h
    rcases hq with hq | hq
    · subst hq
      rw [hrep.1] at hn; cases hn
      exact Or.inl rfl
    · have hS : n.status = stS := by
        rcases hs with h | h
        · exact h
        · exact absurd h (secondary_status nodes dup [] _ hod hrep.2 q n hq hn)
      rcases ih _ hrep.2 (Or.inr ⟨[], hod⟩) q n hq hn hs with h | ⟨d, c', l, r, h1, h2, h3⟩
          | ⟨h0, q', c', dup', h1, h2, h3⟩
      · exact Or.inr (Or.inr ⟨hS, p, c, dup, Or.inl (by simp [Trie.subtrees]), hq, h⟩)
      · exact Or.inr (Or.inl ⟨d, c', l, r, by simp [Trie.subtrees, h1], h2, h3⟩)
      · refine Or.inr (Or.inr ⟨h0, q', c', dup', ?_, h2, h3⟩)
        rcases h1 with h1 | ⟨nx, h1⟩
        · left; simp [Trie.subtrees, h1]
        · right; exact ⟨nx, by simp [Trie.subtrees, h1]⟩
  | K p c dup next ihd ihn =>
    intro th hrep hw q n hq hn hs
    simp only [Trie.positions, List.mem_cons, List.mem_append] at hq
    simp only [Rep] at hrep
    have hod : Ordered (some []) dup ∧ next.Formed := by
      rcases hw with h | ⟨w, h⟩
      · simpa [Trie.Formed] using h
      · simp [Ordered] at h
    rcases hq with hq | hq | hq
    · subst hq
      rw [hrep.1] at hn; cases hn
      simp [stK, stS, stL] at hs
    · have hS : n.status = stS := by
        rcases hs with h | h
        · exact h
        · exact absurd h (secondary_status nodes dup [] _ hod.1 hrep.2.1 q n hq hn)
      rcases ihd _ hrep.2.1 (Or.inr ⟨[], hod.1⟩) q n hq hn hs with h | ⟨d, c', l, r, h1, h2, h3⟩
          | ⟨h0, q', c', dup', h1, h2, h3⟩
      · exact Or.inr (Or.inr ⟨hS, p, c, dup, Or.inr ⟨next, by simp [Trie.subtrees]⟩, hq, h⟩)
      · exact Or.inr (Or.inl ⟨d, c', l, r, by simp [Trie.subtrees, h1], h2, h3⟩)
      · refine Or.inr (Or.inr ⟨h0, q', c', dup', ?_, h2, h3⟩)
        rcases h1 with h1 | ⟨nx, h1⟩
        · left; simp [Trie.subtrees, h1]
        · right; exact ⟨nx, by simp [Trie.subtrees, h1]⟩
    · rcases ihn th hrep.2.2 (Or.inl hod.2) q n hq hn hs with h | ⟨d, c', l, r, h1, h2, h3⟩
          | ⟨h0, q', c', dup', h1, h2, h3⟩
      · exact Or.inl h
      · exact Or.inr (Or.inl ⟨d, c', l, r, by simp [Trie.subtrees, h1], h2, h3⟩)
      · refine Or.inr (Or.inr ⟨h0, q', c', dup', ?_, h2, h3⟩)
        rcases h1 with h1 | ⟨nx, h1⟩
        · left; simp [Trie.subtrees, h1]
        · right; exact ⟨nx, by simp [Trie.subtrees, h1]⟩
  | D p c l r ihl ihr =>
    intro th hrep hw q n hq hn hs
    simp only [Trie.positions, List.mem_cons, List.mem_append] at hq
    simp only [Rep] at hrep
    have hwl : l.Formed ∨ ∃ w, Ordered (some w) l := by
      rcases hw with h | ⟨w, h⟩
      · left; simp only [Trie.Formed] at h; exact h.1
      · right; simp only [Ordered] at h; exact ⟨_, h.2.2.2.1⟩
    have hwr : r.Formed ∨ ∃ w, Ordered (some w) r := by
      rcases hw with h | ⟨w, h⟩
      · left; simp only [Trie.Formed] at h; exact h.2
      · right; simp only [Ordered] at h; exact ⟨_, h.2.2.2.2⟩
    rcases hq with hq | hq | hq
    · subst hq
      rw [hrep.1] at hn; cases hn
      simp [stD, stS, stL] at hs
    · rcases ihl _ hrep.2.1 hwl q n hq hn hs with h | ⟨d, c', l', r', h1, h2, h3⟩
          | ⟨h0, q', c', dup', h1, h2, h3⟩
      · exact Or.inr (Or.inl ⟨p, c, l, r, by simp [Trie.subtrees], hq, h⟩)
      · exact Or.inr (Or.inl ⟨d, c', l', r', by simp [Trie.subtrees, h1], h2, h3⟩)
      · refine Or.inr (Or.inr ⟨h0, q', c', dup', ?_, h2, h3⟩)
        rcases h1 with h1 | ⟨nx, h1⟩
        · left; simp [Trie.subtrees, h1]
        · right; exact ⟨nx, by simp [Trie.subtrees, h1]⟩
    · rcases ihr th hrep.2.2 hwr q n hq hn hs with h | ⟨d, c', l', r', h1, h2, h3⟩
          | ⟨h0, q', c', dup', h1, h2, h3⟩
      · exact Or.inl h
      · exact Or.inr (Or.inl ⟨d, c', l', r', by simp [Trie.subtrees, h1], h2, h3⟩)
      · refine Or.inr (Or.inr ⟨h0, q', c', dup', ?_, h2, h3⟩)
        rcases h1 with h1 | ⟨nx, h1⟩
        · left; simp [Trie.subtrees, h1]
        · right; exact ⟨nx, by simp [Trie.subtrees, h1]⟩

/-- C25: after any sequence of calls of `Insert` on an initialised index, with
keys of any bytes and any identifiers, the index is empty or its node array
holds, at the root, a tree of nodes at distinct positions in which every node
with status `'S'` or `'L'` has as its right pointer the null pointer, or the
position of a decision node of the tree whose left subtree holds it, or, for a
node with status `'S'`, the position of the duplicate node of the tree whose
secondary tree holds it. Enough fuel gives the index. -/
theorem threading_invariant (s0 : Index) (calls : List (List Nat × Int)) :
    ∃ N s, (∀ fuel, N ≤ fuel → insertAll fuel calls (Initialise s0) = .ok s) ∧
      (s.indexRoot = nullIndexPointer ∨
        ∃ t : Trie, s.indexRoot = t.root ∧ Rep s.node t nullIndexPointer ∧ t.positions.Nodup
          ∧ Threaded s.node t) := by
  obtain ⟨N, s, hins, -, hs⟩ :=
    insertAll_shaped calls (Initialise s0) ⟨rfl, Or.inl rfl⟩
  refine ⟨N, s, hins, ?_⟩
  rcases hs with h | ⟨t, hroot, hrep, hnd, hform⟩
  · exact Or.inl h
  · refine Or.inr ⟨t, hroot, hrep, hnd, ?_⟩
    intro p n hp hn hst
    exact threads_rep s.node t nullIndexPointer hrep (Or.inl hform) p n hp hn hst

/-! ### The record has no effect on the index -/

theorem insertLoopLog_index (kn : Int) : ∀ (fuel : Nat) (st : InsertState) (log : List Taken),
    (insertLoopLog kn fuel st log).map (fun r => r.1) = insertLoop kn fuel st := by
  intro fuel
  induction fuel with
  | zero => intro st log; rfl
  | succ f ih =>
    intro st log
    rw [insertLoopLog, insertLoop]
    simp only [bind, Except.bind]
    repeat' split
    all_goals first
      | rfl
      | exact ih _ _

theorem insertFinishLog_index (fuel : Nat) (kn : Int) (st : InsertState) (log : List Taken) :
    (insertFinishLog fuel kn st log).map (fun r => r.1) = insertFinish fuel kn st := by
  unfold insertFinishLog insertFinish
  simp only [bind, Except.bind]
  repeat' split
  all_goals first
    | rfl
    | simp_all [Except.map]

theorem InsertLog_index (fuel : Nat) (key : List Nat) (kn : Int) (s : Index) :
    (InsertLog fuel key kn s).map (fun r => r.1) = Insert fuel key kn s := by
  unfold InsertLog Insert
  simp only [bind, Except.bind]
  split
  · rfl
  · split
    · split <;> rfl
    · have h := insertLoopLog_index kn fuel
        ⟨s, canonical key, s.indexRoot, nullIndexPointer, false, 0⟩ []
      revert h
      cases insertLoopLog kn fuel ⟨s, canonical key, s.indexRoot, nullIndexPointer, false, 0⟩ []
        with
      | error e => intro h; rw [← h]; rfl
      | ok v =>
        intro h
        rw [← h]
        obtain ⟨r, lg⟩ := v
        cases r with
        | inl s1 => rfl
        | inr st => exact insertFinishLog_index fuel kn st lg

/-! ### Slots taken in two stages -/

theorem allocated_mem (ps : List Nat) (len L x : Nat) :
    x ∈ allocated ps len L ↔ x ∈ ps.take L ∨ (len ≤ x ∧ x < len + (L - ps.length)) := by
  simp only [allocated, List.mem_append, List.mem_map, List.mem_range]
  constructor
  · rintro (h | ⟨j, hj, rfl⟩)
    · exact Or.inl h
    · right; omega
  · rintro (h | ⟨h1, h2⟩)
    · exact Or.inl h
    · right; exact ⟨x - len, by omega, by omega⟩

theorem allocated_old (ps : List Nat) (len L q : Nat) (hlt : q < len) (hq : q ∉ ps) :
    q ∉ allocated ps len L := by
  rw [allocated_mem]
  rintro (h | ⟨h, _⟩)
  · exact hq (List.mem_of_mem_take h)
  · omega

theorem mem_take_le (ps : List Nat) (a b x : Nat) (hle : a ≤ b) (h : x ∈ ps.take a) :
    x ∈ ps.take b := by
  have : ps.take a = (ps.take b).take a := by
    rw [List.take_take, Nat.min_eq_left hle]
  rw [this] at h
  exact List.mem_of_mem_take h

theorem allocated_mono (ps : List Nat) (len L L' x : Nat) (hle : L ≤ L')
    (h : x ∈ allocated ps len L) : x ∈ allocated ps len L' := by
  rw [allocated_mem] at h ⊢
  rcases h with h | ⟨h1, h2⟩
  · exact Or.inl (mem_take_le ps L L' x hle h)
  · right; omega

theorem mem_take_drop (ps : List Nat) (a b x : Nat) (h : x ∈ (ps.drop a).take b) :
    x ∈ ps.take (a + b) := by
  have : ps.take (a + b) = ps.take a ++ (ps.drop a).take b := by
    rw [List.take_add]
  rw [this]
  exact List.mem_append_right _ h

theorem allocated_add_mem (ps : List Nat) (len a b x : Nat)
    (h : x ∈ allocated (ps.drop a) (len + (a - ps.length)) b) :
    x ∈ allocated ps len (a + b) := by
  rw [allocated_mem] at h ⊢
  rcases h with h | ⟨h1, h2⟩
  · exact Or.inl (mem_take_drop ps a b x h)
  · right
    rw [List.length_drop] at h2
    omega

theorem take_drop_apart (ps : List Nat) (hnd : ps.Nodup) (a x : Nat)
    (h1 : x ∈ ps.take a) (h2 : x ∈ ps.drop a) : False := by
  have := List.take_append_drop a ps
  rw [← this] at hnd
  exact (List.nodup_append.mp hnd).2.2 h1 h2

theorem allocated_drop (ps : List Nat) (len L q : Nat) (hps : ∀ p ∈ ps, p < len)
    (hnd : ps.Nodup) (hq : q ∈ ps.drop L) : q ∉ allocated ps len L := by
  rw [allocated_mem]
  rintro (h | ⟨h, _⟩)
  · exact take_drop_apart ps hnd L q h hq
  · have := hps q (List.mem_of_mem_drop hq)
    omega

theorem allocated_apart (ps : List Nat) (len a b x : Nat) (hps : ∀ p ∈ ps, p < len)
    (hnd : ps.Nodup) (h1 : x ∈ allocated ps len a) :
    x ∉ allocated (ps.drop a) (len + (a - ps.length)) b := by
  rw [allocated_mem] at h1 ⊢
  rintro (h | ⟨h2, _⟩)
  · have hd := List.mem_of_mem_take h
    rcases h1 with h1 | ⟨h1, _⟩
    · exact take_drop_apart ps hnd a x h1 hd
    · have := hps x (List.mem_of_mem_drop hd)
      omega
  · rcases h1 with h1 | ⟨_, h1⟩
    · have := hps x (List.mem_of_mem_take h1)
      omega
    · omega

theorem slotsTaken_append (a b : List Taken) : slotsTaken (a ++ b) = slotsTaken a + slotsTaken b := by
  simp [slotsTaken]

theorem slotsTaken_nil : slotsTaken [] = 0 := rfl

theorem slotsTaken_chain (text : List Nat) : slotsTaken [Taken.chain text] = text.length := by
  simp [slotsTaken, Taken.slots]

theorem slotsTaken_split (text : List Nat) :
    slotsTaken [Taken.decision, Taken.chain text] = 1 + text.length := by
  simp [slotsTaken, Taken.slots]

/-! ### The chain of `extend` as a tree -/

theorem chain_trie (nodes : List indexNode) (kn th : Int) :
    ∀ (kf qs : List Nat) (p : Int), Chain nodes kn th kf qs p → kf ≠ [] →
      ∃ ch : Trie, ch.root = p ∧ Rep nodes ch th ∧ ch.positions = qs ∧ ch.visits = kf.length
        ∧ Wired none ch ∧ (∀ w, itoa kn = w ++ kf → Wired (some w) ch) := by
  intro kf
  induction kf with
  | nil => intro _ _ _ h; exact absurd rfl h
  | cons c rest ih =>
    intro qs p h _
    cases qs with
    | nil => simp [Chain] at h
    | cons q qs =>
      simp only [Chain] at h
      obtain ⟨hp, next, hch, hn⟩ := h
      by_cases hrest : rest = []
      · subst hrest
        simp only [if_true] at hn
        cases qs with
        | nil =>
          simp only [Chain] at hch
          subst hch
          refine ⟨Trie.S q c kn, hp.symm, ?_, rfl, rfl, trivial, ?_⟩
          · simpa [Rep] using hn
          · intro w hw; simpa [Wired] using hw
        | cons q' qs' => simp [Chain] at hch
      · simp only [hrest, if_false] at hn
        obtain ⟨ch0, hroot, hrep, hpos, hvis, hw0, hws⟩ := ih qs next hch hrest
        refine ⟨Trie.X q c ch0, hp.symm, ?_, ?_, ?_, ?_, ?_⟩
        · simp only [Rep]; rw [hroot]; exact ⟨hn, hrep⟩
        · simp [Trie.positions, hpos]
        · simp [Trie.visits, hvis]; omega
        · simpa [Wired] using hw0
        · intro w hw
          simp only [Wired]
          exact hws (w ++ [c]) (by simp [hw])

theorem room_extend (kn nxt : Int) (s : Index) (ps : List Nat)
    (hfree : FreeList s.node s.deletedRoot ps) (hnd : ps.Nodup) (kf : List Nat) (hne : kf ≠ []) :
    ∃ (ch : Trie) (s' : Index),
      extend kf kn nxt s = .ok (ch.root, s')
      ∧ s'.indexRoot = s.indexRoot
      ∧ s'.node.length = s.node.length + (kf.length - ps.length)
      ∧ FreeList s'.node s'.deletedRoot (ps.drop kf.length)
      ∧ Rep s'.node ch nxt
      ∧ ch.positions.Nodup
      ∧ (∀ q ∈ ch.positions, q ∈ allocated ps s.node.length kf.length)
      ∧ (∀ x, x ∉ allocated ps s.node.length kf.length → s'.node[x]? = s.node[x]?)
      ∧ ch.visits = kf.length
      ∧ Wired none ch
      ∧ (∀ w, itoa kn = w ++ kf → Wired (some w) ch) := by
  obtain ⟨p, s', hext, hroot, hlen, hfl, hchain, hsame⟩ := extend_slots kn nxt s ps hfree hnd kf
  obtain ⟨ch, hr, hrep, hpos, hvis, hw0, hws⟩ := chain_trie s'.node kn nxt kf _ p hchain hne
  have hps := FreeList_lt s.node ps s.deletedRoot hfree
  refine ⟨ch, s', by rw [hr]; exact hext, hroot, hlen, hfl, hrep, ?_, ?_, hsame, hvis, hw0, hws⟩
  · rw [hpos, List.nodup_reverse]
    exact allocated_nodup ps s.node.length kf.length hps hnd
  · intro q hq
    rw [hpos, List.mem_reverse] at hq
    exact hq

theorem room_alloc (n : indexNode) (s : Index) (ps : List Nat)
    (hfree : FreeList s.node s.deletedRoot ps) (hnd : ps.Nodup) :
    ∃ (d : Nat) (s' : Index),
      allocNode n s = .ok ((d : Int), s')
      ∧ allocated ps s.node.length 1 = [d]
      ∧ s'.indexRoot = s.indexRoot
      ∧ s'.node.length = s.node.length + (1 - ps.length)
      ∧ FreeList s'.node s'.deletedRoot (ps.drop 1)
      ∧ s'.node[d]? = some n
      ∧ (∀ x, x ≠ d → s'.node[x]? = s.node[x]?) := by
  cases ps with
  | nil =>
    simp only [FreeList] at hfree
    refine ⟨s.node.length, _, allocNode_fresh s n hfree, ?_, rfl, ?_, ?_, ?_, ?_⟩
    · simp [allocated, List.range_succ]
    · simp
    · simpa [FreeList] using hfree
    · simp
    · intro x hx
      by_cases hlt : x < s.node.length
      · simp [List.getElem?_append_left hlt]
      · have h1 : s.node.length < x := by omega
        rw [List.getElem?_eq_none (by simp; omega), List.getElem?_eq_none (by omega)]
  | cons a rest =>
    simp only [FreeList] at hfree
    obtain ⟨hd, hrest⟩ := hfree
    cases hm : s.node[a]? with
    | none => rw [hm] at hrest; exact hrest.elim
    | some m =>
      rw [hm] at hrest
      simp only at hrest
      have hne : ¬ (s.deletedRoot = nullIndexPointer) := by rw [hd]; exact natCast_ne_null a
      have hlt := getElem?_some_lt s.node a m hm
      have hna : a ∉ rest := (List.nodup_cons.mp hnd).1
      refine ⟨a, { s with node := s.node.set a n, deletedRoot := m.rightPointer }, ?_, ?_, rfl,
        ?_, ?_, ?_, ?_⟩
      · have hn := nodeAt_natCast s a m hm
        have hs := setNode_natCast s a m n hm
        simp only [allocNode, hd, natCast_ne_null a, if_false] at hn hs ⊢
        simp only [hn, hs]
      · simp [allocated]
      · simp
      · simp only [List.drop_one, List.tail_cons]
        apply FreeList_congr s.node _ rest _ hrest
        intro p hp
        have : a ≠ p := fun e => hna (e ▸ hp)
        simp [List.getElem?_set_ne this]
      · exact getElem?_set_self' s.node a m n hm
      · intro x hx
        simp [List.getElem?_set_ne (Ne.symm hx)]

/-! ### `Insert` on an index with a free list -/

theorem insertRunLog_step (kn : Int) (f F : Nat) (st st' : InsertState) (log log' : List Taken)
    (h : insertLoopLog kn (f + 1) st log = insertLoopLog kn f st' log') :
    insertRunLog (f + 1) F kn st log = insertRunLog f F kn st' log' := by
  simp only [insertRunLog, h]

theorem insertRunLog_stop (kn : Int) (f F : Nat) (st : InsertState) (log : List Taken)
    (h : insertLoopLog kn (f + 1) st log = .ok (.inr st, log)) :
    insertRunLog (f + 1) F kn st log = insertFinishLog F kn st log := by
  simp only [insertRunLog, h]

theorem insertRunLog_return (kn : Int) (f F : Nat) (st : InsertState) (s : Index)
    (log : List Taken) (h : insertLoopLog kn (f + 1) st log = .ok (.inl s, log)) :
    insertRunLog (f + 1) F kn st log = .ok (s, log) := by
  simp only [insertRunLog, h]

theorem mem_drop_of_le (ps : List Nat) (a b q : Nat) (hle : a ≤ b) (h : q ∈ ps.drop b) :
    q ∈ ps.drop a := by
  obtain ⟨k, rfl⟩ : ∃ k, b = a + k := ⟨b - a, by omega⟩
  rw [← List.drop_drop] at h
  exact List.mem_of_mem_drop h

theorem room_inplace (root : Int) (nodes nodes' : List indexNode) (dr' : Int) (ps : List Nat)
    (t t' : Trie) (th prev : Int) (leftSide dupFlag : Bool) (cb : Nat)
    (sec : Option (List Nat)) (taken : List Taken)
    (hprev : PrevLink nodes root t prev leftSide cb dupFlag)
    (hprevps : ∀ pp : Nat, prev = (pp : Int) → pp ∉ ps)
    (hfree : FreeList nodes' dr' (ps.drop (slotsTaken taken)))
    (hlen : nodes'.length = nodes.length + (slotsTaken taken - ps.length))
    (hdec : taken.count Taken.decision ≤ 1)
    (hrep : Rep nodes' t' th) (hw : Wired sec t') (hnd : t'.positions.Nodup)
    (hpos : ∀ q ∈ t'.positions,
      q ∈ t.positions ∨ q ∈ allocated ps nodes.length (slotsTaken taken))
    (hframe : ∀ q : Nat, q < nodes.length → q ∉ ps → q ∉ t.positions → nodes'[q]? = nodes[q]?)
    (hroot : t'.root = t.root) :
    RoomPost nodes root ps t th prev leftSide sec ⟨root, nodes', dr'⟩ t' taken :=
  { free := hfree
    length_eq := hlen
    decisions := hdec
    rep := hrep
    wired := hw
    nodup := hnd
    pos_new := hpos
    frame := fun q hq hqp hqt _ => hframe q hq hqp hqt
    root_link := by
      intro h
      rcases hprev with ⟨_, h2⟩ | ⟨pp, pn, hp, _⟩
      · simp only; rw [hroot]; exact h2
      · exact absurd (hp ▸ h) (natCast_ne_null pp)
    parent_link := by
      intro pp pn h1 h2
      rcases hprev with ⟨h, _⟩ | ⟨pp', pn', hp, hpn, hppt, hptr, _⟩
      · exact absurd (h1 ▸ h) (natCast_ne_null pp)
      · have : pp' = pp := by rw [h1] at hp; exact_mod_cast hp.symm
        subst this
        rw [hpn] at h2
        cases h2
        refine ⟨rfl, ?_⟩
        simp only
        rw [hframe pp' (getElem?_some_lt nodes pp' _ hpn) (hprevps pp' h1) hppt, hpn, hroot]
        cases leftSide
        · simp at hptr ⊢; rw [← hptr]
        · simp at hptr ⊢; rw [← hptr] }

theorem room_relink (root : Int) (nodes nodes6 : List indexNode) (dr6 : Int) (ps : List Nat)
    (t t' : Trie) (th prev : Int) (leftSide dupFlag : Bool) (cb : Nat)
    (sec : Option (List Nat)) (taken : List Taken)
    (hprev : PrevLink nodes root t prev leftSide cb dupFlag)
    (hprevps : ∀ pp : Nat, prev = (pp : Int) → pp ∉ ps)
    (hfree : FreeList nodes6 dr6 (ps.drop (slotsTaken taken)))
    (hlen6 : nodes6.length = nodes.length + (slotsTaken taken - ps.length))
    (hdec : taken.count Taken.decision ≤ 1)
    (hrep : Rep nodes6 t' th) (hw : Wired sec t') (hnd : t'.positions.Nodup)
    (hpos : ∀ q ∈ t'.positions,
      q ∈ t.positions ∨ q ∈ allocated ps nodes.length (slotsTaken taken))
    (hframe : ∀ q : Nat, q < nodes.length → q ∉ ps → q ∉ t.positions → nodes6[q]? = nodes[q]?) :
    ∃ s', insertRelink ⟨root, nodes6, dr6⟩ prev dupFlag [cb] t'.root = .ok s'
      ∧ RoomPost nodes root ps t th prev leftSide sec s' t' taken := by
  rcases hprev with ⟨hp, -⟩ | ⟨pp, pn, hp, hpn, hppt, -, hside⟩
  · subst hp
    refine ⟨⟨t'.root, nodes6, dr6⟩, by simp [insertRelink], ?_⟩
    exact {
      free := hfree
      length_eq := hlen6
      decisions := hdec
      rep := hrep
      wired := hw
      nodup := hnd
      pos_new := hpos
      frame := fun q hq hqp hqt _ => hframe q hq hqp hqt
      root_link := fun _ => rfl
      parent_link := fun pp pn h _ => absurd h.symm (natCast_ne_null pp) }
  · subst hp
    have hpplt : pp < nodes.length := getElem?_some_lt nodes pp pn hpn
    have hppps : pp ∉ ps := hprevps pp rfl
    have hpn6 : nodes6[pp]? = some pn := by rw [hframe pp hpplt hppps hppt]; exact hpn
    have hppt' : pp ∉ t'.positions := by
      intro hmem
      rcases hpos pp hmem with h | h
      · exact hppt h
      · exact allocated_old ps nodes.length _ pp hpplt hppps h
    have hprevne : ¬ ((pp : Int) = nullIndexPointer) := natCast_ne_null pp
    refine ⟨⟨root, nodes6.set pp (if leftSide then { pn with leftPointer := t'.root }
                           else { pn with rightPointer := t'.root }), dr6⟩, ?_, ?_⟩
    · simp only [insertRelink, hprevne, if_false, nodeAt_mk _ _ _ pp pn hpn6, bind, Except.bind]
      cases leftSide
      · have hcond : ¬ ((pn.status = stD ∧ strLe [cb] (runeString pn.key) = true)
            ∨ pn.status = stL ∨ (pn.status = stK ∧ dupFlag = true)) := by
          intro h; have := hside.2 h; simp at this
        simp only [hcond, if_false]
        rw [setRight_mk _ _ _ pp pn _ hpn6]
        simp
      · have hcond : ((pn.status = stD ∧ strLe [cb] (runeString pn.key) = true)
            ∨ pn.status = stL ∨ (pn.status = stK ∧ dupFlag = true)) := hside.1 rfl
        simp only [hcond, if_true]
        rw [setLeft_mk _ _ _ pp pn _ hpn6]
    · exact {
        free := by
          apply FreeList_congr nodes6 _ _ _ hfree
          intro p hp
          have : pp ≠ p := fun e => hppps (List.mem_of_mem_drop (e ▸ hp))
          simp only []
          rw [List.getElem?_set_ne this]
        length_eq := by simpa using hlen6
        decisions := hdec
        rep := Rep_set_other nodes6 t' th pp _ hppt' hrep
        wired := hw
        nodup := hnd
        pos_new := hpos
        frame := by
          intro q hq hqp hqt hqpp
          have : pp ≠ q := by intro h; apply hqpp; rw [h]
          simp only []
          rw [List.getElem?_set_ne this]
          exact hframe q hq hqp hqt
        root_link := fun h => absurd h hprevne
        parent_link := by
          intro pp' pn' h1 h2
          have : pp = pp' := by exact_mod_cast h1
          subst this
          rw [hpn] at h2
          cases h2
          exact ⟨rfl, getElem?_set_self' _ _ _ _ hpn6⟩ }

theorem room_unpack (nodes : List indexNode) (root : Int) (ps : List Nat) (u : Trie)
    (thu : Int) (p : Nat) (cs : Bool) (secu : Option (List Nat)) (s' : Index) (u' : Trie)
    (taken : List Taken) (pn : indexNode)
    (hpost : RoomPost nodes root ps u thu (p : Int) cs secu s' u' taken)
    (hnode : nodes[p]? = some pn) :
    s' = ⟨root, s'.node, s'.deletedRoot⟩
      ∧ s'.node[p]? = some (if cs then { pn with leftPointer := u'.root }
                            else { pn with rightPointer := u'.root }) := by
  obtain ⟨h1, h2⟩ := hpost.parent_link p pn rfl hnode
  obtain ⟨root', nodes', dr'⟩ := s'
  simp only at h1 h2 ⊢
  rw [h1]
  exact ⟨rfl, h2⟩

theorem room_sibling (nodes : List indexNode) (root : Int) (ps : List Nat) (u : Trie)
    (thu : Int) (p : Nat) (cs : Bool) (secu : Option (List Nat)) (s' : Index) (u' : Trie)
    (taken : List Taken)
    (hpost : RoomPost nodes root ps u thu (p : Int) cs secu s' u' taken)
    (w : Trie) (thw : Int) (hw : Rep nodes w thw) (hpw : p ∉ w.positions)
    (hwps : ∀ q ∈ w.positions, q ∉ ps)
    (hdisj : ∀ q ∈ w.positions, q ∉ u.positions) : Rep s'.node w thw := by
  apply Rep_congr nodes s'.node w thw _ hw
  intro q hq
  apply hpost.frame q (Rep_lt nodes w thw hw q hq) (hwps q hq) (hdisj q hq)
  intro h
  have : q = p := by exact_mod_cast h
  exact hpw (this ▸ hq)

theorem room_fresh (nodes : List indexNode) (root : Int) (ps : List Nat) (u : Trie)
    (thu : Int) (prev : Int) (cs : Bool) (secu : Option (List Nat)) (s' : Index) (u' : Trie)
    (taken : List Taken)
    (hpost : RoomPost nodes root ps u thu prev cs secu s' u' taken)
    (q : Nat) (hq : q ∈ u'.positions) (hlt : q < nodes.length) (hqps : q ∉ ps) :
    q ∈ u.positions := by
  rcases hpost.pos_new q hq with h | h
  · exact h
  · exact absurd h (allocated_old ps nodes.length _ q hlt hqps)

/-- The step from a subtree to the tree around it: when `Insert` has done its
work on the subtree `u` below the node at `p`, and the tree `t'` is the tree
`t` with the new subtree in the place of `u`, the work is done on `t`. -/
theorem room_lift (nodes : List indexNode) (root : Int) (ps : List Nat) (t t' u u' : Trie)
    (th thu prev : Int) (p : Nat) (pn : indexNode) (cs leftSide dupFlag : Bool) (cb : Nat)
    (sec secu : Option (List Nat)) (s' : Index) (taken : List Taken)
    (hpost : RoomPost nodes root ps u thu (p : Int) cs secu s' u' taken)
    (hprev : PrevLink nodes root t prev leftSide cb dupFlag)
    (hprevps : ∀ pp : Nat, prev = (pp : Int) → pp ∉ ps)
    (hnode : nodes[p]? = some pn)
    (hp : p ∈ t.positions) (hsub : ∀ q ∈ u.positions, q ∈ t.positions)
    (hroot : t'.root = t.root)
    (hrep : Rep s'.node t' th) (hw : Wired sec t') (hnd : t'.positions.Nodup)
    (hpos : ∀ q ∈ t'.positions, q ∈ t.positions ∨ q ∈ u'.positions) :
    RoomPost nodes root ps t th prev leftSide sec s' t' taken := by
  obtain ⟨hs', -⟩ := room_unpack nodes root ps u thu p cs secu s' u' taken pn hpost hnode
  rw [hs']
  apply room_inplace root nodes s'.node s'.deletedRoot ps t t' th prev leftSide dupFlag cb sec
    taken hprev hprevps hpost.free hpost.length_eq hpost.decisions hrep hw hnd
  · intro q hq
    rcases hpos q hq with h | h
    · exact Or.inl h
    · rcases hpost.pos_new q h with h1 | h1
      · exact Or.inl (hsub q h1)
      · exact Or.inr h1
  · intro q hq hqp hqt
    apply hpost.frame q hq hqp (fun h => hqt (hsub q h))
    intro h
    have : q = p := by exact_mod_cast h
    exact hqt (this ▸ hp)
  · exact hroot

theorem wired_D (sec : Option (List Nat)) (p c : Nat) (l r : Trie) :
    Wired sec (Trie.D p c l r) ↔ Wired sec l ∧ Wired sec r := by
  cases sec <;> simp [Wired]

theorem wired_chain (sec : Option (List Nat)) (dupFlag : Bool) (kf : List Nat) (i : Nat)
    (kn : Int) (ch : Trie) (hmode : WalkMode sec dupFlag kf i kn) (h0 : Wired none ch)
    (hs : ∀ w, itoa kn = w ++ kf.drop i → Wired (some w) ch) : Wired sec ch := by
  rcases hmode with ⟨h1, _⟩ | ⟨h1, _, h3⟩
  · rw [h1]; exact h0
  · rw [h1]
    apply hs
    rw [← h3, List.take_append_drop]

theorem count_split (text : List Nat) :
    List.count Taken.decision [Taken.decision, Taken.chain text] ≤ 1 := by
  simp [List.count_cons]

theorem count_chain (text : List Nat) :
    List.count Taken.decision [Taken.chain text] ≤ 1 := by
  simp [List.count_cons]

theorem length_split (len a L : Nat) :
    len + (1 - a) + (L - (a - 1)) = len + (1 + L - a) := by omega

set_option maxHeartbeats 1000000 in
theorem room_mismatch (root : Int) (nodes : List indexNode) (dr : Int) (ps : List Nat)
    (t : Trie) (th : Int) (kf : List Nat) (i : Nat) (kn : Int)
    (prev : Int) (dupFlag leftSide : Bool) (sec : Option (List Nat)) (log : List Taken)
    (n : indexNode)
    (hfree : FreeList nodes dr ps) (hpsnd : ps.Nodup) (htps : ∀ q ∈ t.positions, q ∉ ps)
    (hprevps : ∀ pp : Nat, prev = (pp : Int) → pp ∉ ps)
    (hrep : Rep nodes t th) (hnd : t.positions.Nodup) (hw : Wired sec t)
    (hroot : nodes[t.pos]? = some n)
    (hi : i < kf.length) (hne : ¬ ([kf[i]] = runeString n.key))
    (hmode : WalkMode sec dupFlag kf i kn)
    (hprev : PrevLink nodes root t prev leftSide kf[i] dupFlag) :
    ∃ s' t',
      (∀ fuelF, t.visits ≤ fuelF →
        insertFinishLog fuelF kn ⟨⟨root, nodes, dr⟩, kf, t.root, prev, dupFlag, i⟩ log
          = .ok (s', log ++ [Taken.decision, Taken.chain (kf.drop i)]))
      ∧ RoomPost nodes root ps t th prev leftSide sec s' t'
          [Taken.decision, Taken.chain (kf.drop i)] := by
  have hdropne : kf.drop i ≠ [] := by simp; omega
  have hlen := Rep_lt nodes t th hrep
  have hps := FreeList_lt nodes ps dr hfree
  have hplt : t.pos < nodes.length := hlen _ (pos_mem_positions t)
  have htold : ∀ q ∈ t.positions, ∀ L, q ∉ allocated ps nodes.length L :=
    fun q hq L => allocated_old ps nodes.length L q (hlen q hq) (htps q hq)
  obtain ⟨L, hL⟩ : ∃ L, L = (kf.drop i).length := ⟨_, rfl⟩
  have htaken : slotsTaken [Taken.decision, Taken.chain (kf.drop i)] = 1 + L := by
    rw [slotsTaken_split, hL]
  -- the decision node
  obtain ⟨d, s1, halloc, hd, hroot1, hlen1, hfree1, hd1, hold1⟩ :=
    room_alloc ⟨stD, nullIndexPointer, 32, nullIndexPointer⟩ ⟨root, nodes, dr⟩ ps hfree hpsnd
  obtain ⟨root1, nodes1, dr1⟩ := s1
  simp only at hd hroot1 hlen1 hfree1 hd1 hold1
  subst root1
  have hdmem : d ∈ allocated ps nodes.length 1 := by rw [hd]; simp
  have hdt : d ∉ t.positions := fun h => htold d h 1 hdmem
  have hdps1 : d ∉ ps.drop 1 := fun h => allocated_drop ps nodes.length 1 d hps hpsnd h hdmem
  have hnd1 : (ps.drop 1).Nodup := List.Nodup.sublist (List.drop_sublist 1 ps) hpsnd
  have hps1 : ∀ p ∈ ps.drop 1, p < nodes1.length := FreeList_lt nodes1 _ dr1 hfree1
  have hrep1 : Rep nodes1 t th := by
    apply Rep_congr nodes nodes1 t th _ hrep
    intro q hq
    exact hold1 q (fun e => hdt (e ▸ hq))
  have hroot1 : nodes1[t.pos]? = some n := by
    rw [hold1 _ (fun e => hdt (e ▸ pos_mem_positions t))]; exact hroot
  have hnpd : d ≠ t.pos := fun e => hdt (e ▸ pos_mem_positions t)
  have hdrop : ps.drop (1 + L) = (ps.drop 1).drop L := by
    rw [List.drop_drop, Nat.add_comm]
  have hchmem : ∀ q, q ∈ allocated (ps.drop 1) nodes1.length L →
      q ∈ allocated ps nodes.length (1 + L) := by
    intro q hq
    rw [hlen1] at hq
    exact allocated_add_mem ps nodes.length 1 L q hq
  have hdch : d ∉ allocated (ps.drop 1) nodes1.length L := by
    rw [hlen1]
    exact allocated_apart ps nodes.length 1 L d hps hpsnd hdmem
  have hdmem' : d ∈ allocated ps nodes.length (1 + L) :=
    allocated_mono ps nodes.length 1 (1 + L) d (Nat.le_add_right 1 L) hdmem
  have hdpsL : d ∉ (ps.drop 1).drop L := fun h => hdps1 (List.mem_of_mem_drop h)
  by_cases hgt : strLt (runeString n.key) [kf[i]] = true
  · -- the new key goes to the right
    have hlt' : strLt [kf[i]] (runeString n.key) = false := by
      have := strLe_of_strLt _ _ hgt
      simpa [strLe] using this
    obtain ⟨m, hm, hmr, hms⟩ := lastLeaf_node nodes1 t th hrep1
    have hemem := lastLeaf_mem_positions t
    obtain ⟨nodes2, hnodes2⟩ : ∃ l : List indexNode,
      l = nodes1.set t.lastLeaf { m with rightPointer := (d : Int) } := ⟨_, rfl⟩
    have hrep2 : Rep nodes2 t (d : Int) := by
      rw [hnodes2]; exact Rep_rethread nodes1 d t th m hrep1 hnd hm
    have hlen2 : nodes2.length = nodes1.length := by simp [hnodes2]
    have hned : t.lastLeaf ≠ d := fun e => hdt (e ▸ hemem)
    have hd2 : nodes2[d]? = some ⟨stD, nullIndexPointer, 32, nullIndexPointer⟩ := by
      rw [hnodes2, List.getElem?_set_ne hned]; exact hd1
    have hfree2 : FreeList nodes2 dr1 (ps.drop 1) := by
      apply FreeList_congr nodes1 _ _ _ hfree1
      intro p hp
      have : t.lastLeaf ≠ p := fun e => htps _ hemem (List.mem_of_mem_drop (e ▸ hp))
      rw [hnodes2, List.getElem?_set_ne this]
    obtain ⟨ch, s3, hext, hroot3, hlen3, hfree3, hrepc, hndc, hposc, hsame3, -, hw0, hws⟩ :=
      room_extend kn th ⟨root, nodes2, dr1⟩ (ps.drop 1) hfree2 hnd1 (kf.drop i) hdropne
    obtain ⟨root3, nodes3, dr3⟩ := s3
    simp only at hext hroot3 hlen3 hfree3 hrepc hposc hsame3
    subst root3
    rw [← hL] at hlen3 hfree3 hposc hsame3
    rw [hlen2] at hlen3 hposc hsame3
    have hd3 : nodes3[d]? = some ⟨stD, nullIndexPointer, 32, nullIndexPointer⟩ := by
      rw [hsame3 d hdch]; exact hd2
    have hold3 : ∀ q ∈ t.positions, nodes3[q]? = nodes2[q]? := by
      intro q hq
      exact hsame3 q (fun h => htold q hq _ (hchmem q h))
    -- the root of the old tree keeps its byte
    obtain ⟨n2, hn2, hn2k⟩ : ∃ n2, nodes2[t.pos]? = some n2 ∧ n2.key = n.key := by
      by_cases he : t.lastLeaf = t.pos
      · refine ⟨{ m with rightPointer := (d : Int) }, ?_, ?_⟩
        · rw [hnodes2]; rw [he] at hm ⊢; exact getElem?_set_self' _ _ _ _ hm
        · rw [he, hroot1] at hm; cases hm; rfl
      · exact ⟨n, by rw [hnodes2, List.getElem?_set_ne he]; exact hroot1, rfl⟩
    have hn3 : nodes3[t.pos]? = some n2 := by
      rw [hold3 _ (pos_mem_positions t)]; exact hn2
    obtain ⟨nodes6, hnodes6⟩ : ∃ l : List indexNode,
      l = nodes3.set d ⟨stD, t.root, n.key, ch.root⟩ := ⟨_, rfl⟩
    have h4 := setLeft_mk root dr3 nodes3 d _ t.root hd3
    have hn4 : nodeAt ⟨root, nodes3.set d
        { (⟨stD, nullIndexPointer, 32, nullIndexPointer⟩ : indexNode) with leftPointer := t.root },
        dr3⟩ t.root = .ok n2 :=
      nodeAt_mk _ _ _ t.pos n2 (by rw [List.getElem?_set_ne hnpd]; exact hn3)
    have h5 := setKey_mk root dr3 _ d _ n.key (getElem?_set_self' _ _ _
      { (⟨stD, nullIndexPointer, 32, nullIndexPointer⟩ : indexNode) with leftPointer := t.root } hd3)
    have h6 := setRight_mk root dr3 _ d _ ch.root (getElem?_set_self' _ _ _
      { (⟨stD, t.root, 32, nullIndexPointer⟩ : indexNode) with key := n.key }
      (getElem?_set_self' _ _ _
      { (⟨stD, nullIndexPointer, 32, nullIndexPointer⟩ : indexNode) with leftPointer := t.root } hd3))
    simp only [List.set_set] at h5 h6
    rw [← hnodes6] at h6
    -- the new tree
    have hnodes6_ne : ∀ q, q ≠ d → nodes6[q]? = nodes3[q]? := by
      intro q hq; rw [hnodes6, List.getElem?_set_ne (Ne.symm hq)]
    have hnodes6_d : nodes6[d]? = some ⟨stD, t.root, n.key, ch.root⟩ := by
      rw [hnodes6]; exact getElem?_set_self' _ _ _ _ hd3
    have hrep6t : Rep nodes6 t (d : Int) := by
      apply Rep_congr nodes2 nodes6 t _ _ hrep2
      intro q hq
      rw [hnodes6_ne q (fun e => hdt (e ▸ hq)), hold3 q hq]
    have hdc : d ∉ ch.positions := fun h => hdch (hposc d h)
    have hrep6c : Rep nodes6 ch th := by
      apply Rep_congr nodes3 nodes6 ch _ _ hrepc
      intro q hq
      exact hnodes6_ne q (fun e => hdc (e ▸ hq))
    have hfin : ∀ fuelF, t.visits ≤ fuelF →
        ∀ r, insertRelink ⟨root, nodes6, dr3⟩ prev dupFlag [kf[i]] (d : Int) = .ok r →
        insertFinishLog fuelF kn ⟨⟨root, nodes, dr⟩, kf, t.root, prev, dupFlag, i⟩ log
        = .ok (r, log ++ [Taken.decision, Taken.chain (kf.drop i)]) := by
      intro fuelF hfuel r hr
      have hthread := threadLoop_lastLeaf ⟨root, nodes1, dr1⟩ t th fuelF hrep1 hfuel
      simp only [insertFinishLog, bind, Except.bind, nodeAt_mk _ _ _ _ _ hroot, Trie.root,
        sliceAt_lt kf i hi, hne, if_false, halloc,
        nodeAt_mk _ _ _ _ _ hroot1, hgt, if_true]
      simp only [Trie.root] at hthread hext h4 hn4 h5 h6 hr
      simp only [hthread, nodeAt_mk _ _ _ _ _ hm, setRight_mk _ _ _ _ _ _ hm, ← hnodes2, hmr,
        hext, nodeAt_mk _ _ _ _ _ hn3, hn2k, hlt', h4, hn4, h5, h6]
      simp [hr]
    have hF6 : FreeList nodes6 dr3
        (ps.drop (slotsTaken [Taken.decision, Taken.chain (kf.drop i)])) := by
      rw [htaken, hdrop]
      exact FreeList_congr nodes3 _ _ _ hfree3
        (fun p hp => hnodes6_ne p (fun e => hdpsL (e ▸ hp)))
    have hL6 : nodes6.length = nodes.length
        + (slotsTaken [Taken.decision, Taken.chain (kf.drop i)] - ps.length) := by
      rw [htaken, hnodes6, List.length_set, hlen3, hlen1, List.length_drop]
      exact length_split _ _ _
    have hC6 : List.count Taken.decision [Taken.decision, Taken.chain (kf.drop i)] ≤ 1 :=
      count_split _
    have hR6 : Rep nodes6 (Trie.D d n.key t ch) th := by
      simp only [Rep]; exact ⟨hnodes6_d, hrep6t, hrep6c⟩
    have hW6 : Wired sec (Trie.D d n.key t ch) := by
      rw [wired_D]; exact ⟨hw, wired_chain sec dupFlag kf i kn ch hmode hw0 hws⟩
    have hN6 : (Trie.D d n.key t ch).positions.Nodup := by
      simp only [Trie.positions, List.nodup_cons, List.nodup_append, List.mem_append, not_or]
      refine ⟨⟨hdt, hdc⟩, hnd, hndc, ?_⟩
      intro q h1 h2
      exact htold q h1 _ (hchmem q (hposc q h2))
    have hP6 : ∀ q ∈ (Trie.D d n.key t ch).positions, q ∈ t.positions
        ∨ q ∈ allocated ps nodes.length
            (slotsTaken [Taken.decision, Taken.chain (kf.drop i)]) := by
      intro q hq
      rw [htaken]
      simp only [Trie.positions, List.mem_cons, List.mem_append] at hq
      rcases hq with h | h | h
      · right; rw [h]; exact hdmem'
      · left; exact h
      · right; exact hchmem q (hposc q h)
    have hM6 : ∀ q : Nat, q < nodes.length → q ∉ ps → q ∉ t.positions →
        nodes6[q]? = nodes[q]? := by
      intro q hq hqp hqt
      have hql : q ≠ t.lastLeaf := fun h => hqt (h ▸ hemem)
      have hqa : ∀ L, q ∉ allocated ps nodes.length L :=
        fun L => allocated_old ps nodes.length L q hq hqp
      have hqd : q ≠ d := fun e => hqa 1 (e ▸ hdmem)
      rw [hnodes6_ne q hqd, hsame3 q (fun h => hqa _ (hchmem q h)), hnodes2,
        List.getElem?_set_ne (Ne.symm hql), hold1 q hqd]
    obtain ⟨s', hs', hpost⟩ := room_relink root nodes nodes6 dr3 ps t (Trie.D d n.key t ch) th
      prev leftSide dupFlag kf[i] sec [Taken.decision, Taken.chain (kf.drop i)] hprev hprevps
      hF6 hL6 hC6 hR6 hW6 hN6 hP6 hM6
    exact ⟨s', _, fun fuelF hfuel => hfin fuelF hfuel s' hs', hpost⟩
  · -- the new key goes to the left
    have hlt1 : strLt (runeString n.key) [kf[i]] = false := by simpa using hgt
    have hlt2 : strLt [kf[i]] (runeString n.key) = true :=
      strLt_of_le_ne _ _ (by simp [strLe, hlt1]) hne
    obtain ⟨ch, s3, hext, hroot3, hlen3, hfree3, hrepc, hndc, hposc, hsame3, -, hw0, hws⟩ :=
      room_extend kn (d : Int) ⟨root, nodes1, dr1⟩ (ps.drop 1) hfree1 hnd1 (kf.drop i) hdropne
    obtain ⟨root3, nodes3, dr3⟩ := s3
    simp only at hext hroot3 hlen3 hfree3 hrepc hposc hsame3
    subst root3
    rw [← hL] at hlen3 hfree3 hposc hsame3
    have hd3 : nodes3[d]? = some ⟨stD, nullIndexPointer, 32, nullIndexPointer⟩ := by
      rw [hsame3 d hdch]; exact hd1
    have hold3 : ∀ q ∈ t.positions, nodes3[q]? = nodes1[q]? := by
      intro q hq
      exact hsame3 q (fun h => htold q hq _ (hchmem q h))
    have hn3 : nodes3[t.pos]? = some n := by
      rw [hold3 _ (pos_mem_positions t)]; exact hroot1
    obtain ⟨nodes6, hnodes6⟩ : ∃ l : List indexNode,
      l = nodes3.set d ⟨stD, ch.root, kf[i], t.root⟩ := ⟨_, rfl⟩
    have h4 := setLeft_mk root dr3 nodes3 d _ ch.root hd3
    have h5 := setKey_mk root dr3 _ d _ kf[i] (getElem?_set_self' _ _ _
      { (⟨stD, nullIndexPointer, 32, nullIndexPointer⟩ : indexNode) with leftPointer := ch.root }
      hd3)
    have h6 := setRight_mk root dr3 _ d _ t.root (getElem?_set_self' _ _ _
      { (⟨stD, ch.root, 32, nullIndexPointer⟩ : indexNode) with key := kf[i] }
      (getElem?_set_self' _ _ _
      { (⟨stD, nullIndexPointer, 32, nullIndexPointer⟩ : indexNode) with leftPointer := ch.root }
      hd3))
    simp only [List.set_set] at h5 h6
    rw [← hnodes6] at h6
    have hnodes6_ne : ∀ q, q ≠ d → nodes6[q]? = nodes3[q]? := by
      intro q hq; rw [hnodes6, List.getElem?_set_ne (Ne.symm hq)]
    have hnodes6_d : nodes6[d]? = some ⟨stD, ch.root, kf[i], t.root⟩ := by
      rw [hnodes6]; exact getElem?_set_self' _ _ _ _ hd3
    have hrep6t : Rep nodes6 t th := by
      apply Rep_congr nodes1 nodes6 t _ _ hrep1
      intro q hq
      rw [hnodes6_ne q (fun e => hdt (e ▸ hq)), hold3 q hq]
    have hdc : d ∉ ch.positions := fun h => hdch (hposc d h)
    have hrep6c : Rep nodes6 ch (d : Int) := by
      apply Rep_congr nodes3 nodes6 ch _ _ hrepc
      intro q hq
      exact hnodes6_ne q (fun e => hdc (e ▸ hq))
    have hfin : ∀ fuelF : Nat,
        ∀ r, insertRelink ⟨root, nodes6, dr3⟩ prev dupFlag [kf[i]] (d : Int) = .ok r →
        insertFinishLog fuelF kn ⟨⟨root, nodes, dr⟩, kf, t.root, prev, dupFlag, i⟩ log
        = .ok (r, log ++ [Taken.decision, Taken.chain (kf.drop i)]) := by
      intro fuelF r hr
      simp only [insertFinishLog, bind, Except.bind, nodeAt_mk _ _ _ _ _ hroot, Trie.root,
        sliceAt_lt kf i hi, hne, if_false, halloc,
        nodeAt_mk _ _ _ _ _ hroot1, hlt1]
      simp only [Trie.root] at hext h4 h5 h6 hr
      simp only [Bool.false_eq_true, if_false, hext, nodeAt_mk _ _ _ _ _ hn3,
        hlt2, if_true, h4, List.headD_cons, h5, h6, hr]
    have hF6 : FreeList nodes6 dr3
        (ps.drop (slotsTaken [Taken.decision, Taken.chain (kf.drop i)])) := by
      rw [htaken, hdrop]
      exact FreeList_congr nodes3 _ _ _ hfree3
        (fun p hp => hnodes6_ne p (fun e => hdpsL (e ▸ hp)))
    have hL6 : nodes6.length = nodes.length
        + (slotsTaken [Taken.decision, Taken.chain (kf.drop i)] - ps.length) := by
      rw [htaken, hnodes6, List.length_set, hlen3, hlen1, List.length_drop]
      exact length_split _ _ _
    have hC6 : List.count Taken.decision [Taken.decision, Taken.chain (kf.drop i)] ≤ 1 :=
      count_split _
    have hR6 : Rep nodes6 (Trie.D d kf[i] ch t) th := by
      simp only [Rep]; exact ⟨hnodes6_d, hrep6c, hrep6t⟩
    have hW6 : Wired sec (Trie.D d kf[i] ch t) := by
      rw [wired_D]; exact ⟨wired_chain sec dupFlag kf i kn ch hmode hw0 hws, hw⟩
    have hN6 : (Trie.D d kf[i] ch t).positions.Nodup := by
      simp only [Trie.positions, List.nodup_cons, List.nodup_append, List.mem_append, not_or]
      refine ⟨⟨hdc, hdt⟩, hndc, hnd, ?_⟩
      intro q h1 h2
      exact htold q h2 _ (hchmem q (hposc q h1))
    have hP6 : ∀ q ∈ (Trie.D d kf[i] ch t).positions, q ∈ t.positions
        ∨ q ∈ allocated ps nodes.length
            (slotsTaken [Taken.decision, Taken.chain (kf.drop i)]) := by
      intro q hq
      rw [htaken]
      simp only [Trie.positions, List.mem_cons, List.mem_append] at hq
      rcases hq with h | h | h
      · right; rw [h]; exact hdmem'
      · right; exact hchmem q (hposc q h)
      · left; exact h
    have hM6 : ∀ q : Nat, q < nodes.length → q ∉ ps → q ∉ t.positions →
        nodes6[q]? = nodes[q]? := by
      intro q hq hqp hqt
      have hqa : ∀ L, q ∉ allocated ps nodes.length L :=
        fun L => allocated_old ps nodes.length L q hq hqp
      have hqd : q ≠ d := fun e => hqa 1 (e ▸ hdmem)
      rw [hnodes6_ne q hqd, hsame3 q (fun h => hqa _ (hchmem q h)), hold1 q hqd]
    obtain ⟨s', hs', hpost⟩ := room_relink root nodes nodes6 dr3 ps t (Trie.D d kf[i] ch t) th
      prev leftSide dupFlag kf[i] sec [Taken.decision, Taken.chain (kf.drop i)] hprev hprevps
      hF6 hL6 hC6 hR6 hW6 hN6 hP6 hM6
    exact ⟨s', _, fun fuelF _ => hfin fuelF s' hs', hpost⟩

theorem drop_ne_nil (kf : List Nat) (i : Nat) (h : i < kf.length) : kf.drop i ≠ [] := by
  simp; omega

theorem take_drop_succ (kf : List Nat) (i : Nat) (hi : i < kf.length) :
    (kf.take i ++ [kf[i]]) ++ kf.drop (i + 1) = kf := by
  rw [← take_succ_eq kf i hi, List.take_append_drop]

theorem wired_below (sec : Option (List Nat)) (dupFlag : Bool) (kf : List Nat) (i : Nat)
    (kn : Int) (c : Nat) (ch : Trie) (hi : i < kf.length) (hc : kf[i] = c)
    (hmode : WalkMode sec dupFlag kf i kn)
    (hs : ∀ w, itoa kn = w ++ kf.drop (i + 1) → Wired (some w) ch) :
    ∀ w, sec = some w → Wired (some (w ++ [c])) ch := by
  intro w hw
  rcases hmode with ⟨h1, _⟩ | ⟨h1, _, h3⟩
  · rw [h1] at hw; cases hw
  · rw [h1] at hw
    cases hw
    apply hs
    rw [← h3, ← hc, take_drop_succ kf i hi]

theorem wired_end (sec : Option (List Nat)) (dupFlag : Bool) (kf : List Nat) (i : Nat)
    (kn : Int) (c : Nat) (hi : i < kf.length) (hc : kf[i] = c) (hlast : i + 1 = kf.length)
    (hmode : WalkMode sec dupFlag kf i kn) :
    ∀ w, sec = some w → itoa kn = w ++ [c] := by
  intro w hw
  rcases hmode with ⟨h1, _⟩ | ⟨h1, _, h3⟩
  · rw [h1] at hw; cases hw
  · rw [h1] at hw
    cases hw
    rw [← h3, take_last kf i c hi hc hlast]

theorem room_char_end (root : Int) (nodes : List indexNode) (dr : Int) (ps : List Nat)
    (p c : Nat) (next : Trie) (th : Int) (kf : List Nat) (i : Nat) (kn : Int) (prev : Int)
    (dupFlag leftSide : Bool) (sec : Option (List Nat)) (log : List Taken)
    (hfree : FreeList nodes dr ps) (htps : ∀ q ∈ (Trie.X p c next).positions, q ∉ ps)
    (hprevps : ∀ pp : Nat, prev = (pp : Int) → pp ∉ ps)
    (hrep : Rep nodes (Trie.X p c next) th) (hnd : (Trie.X p c next).positions.Nodup)
    (hw : Wired sec (Trie.X p c next))
    (hi : i < kf.length) (hm : [kf[i]] = runeString c) (hlast : i + 1 = kf.length)
    (hmode : WalkMode sec dupFlag kf i kn)
    (hprev : PrevLink nodes root (Trie.X p c next) prev leftSide kf[i] dupFlag) :
    ∃ s' t',
      (∀ fuelF : Nat,
        insertFinishLog fuelF kn ⟨⟨root, nodes, dr⟩, kf, (p : Int), prev, dupFlag, i⟩ log
          = .ok (s', log ++ []))
      ∧ RoomPost nodes root ps (Trie.X p c next) th prev leftSide sec s' t' [] := by
  have hm' : ([kf[i]] = runeString c) ↔ True := iff_true_intro hm
  have hkc : kf[i] = c := ((rune_match _ _).mp hm).1
  simp only [Rep] at hrep
  have hpps : p ∉ ps := htps p (by simp [Trie.positions])
  refine ⟨⟨root, nodes.set p ⟨stR, kn, c, next.root⟩, dr⟩, Trie.R p c kn next, ?_, ?_⟩
  · intro fuelF
    have h1 := setStatus_mk root dr nodes p _ stR hrep.1
    have h2 := setLeft_mk root dr _ p _ kn
      (getElem?_set_self' nodes p _
        { (⟨stX, nullIndexPointer, c, next.root⟩ : indexNode) with status := stR } hrep.1)
    simp only [List.set_set] at h2
    simp only [insertFinishLog, bind, Except.bind, nodeAt_mk _ _ _ _ _ hrep.1, sliceAt_lt kf i hi,
      hm', if_true, h1, h2, List.append_nil]
  · apply room_inplace root nodes _ dr ps _ _ th prev leftSide dupFlag kf[i] sec [] hprev hprevps
    · rw [slotsTaken_nil, List.drop_zero]
      apply FreeList_congr nodes _ _ _ hfree
      intro q hq
      have : p ≠ q := fun e => hpps (e ▸ hq)
      rw [List.getElem?_set_ne this]
    · simp [slotsTaken_nil]
    · simp
    · simp only [Rep]
      refine ⟨getElem?_set_self' nodes p _ _ hrep.1, ?_⟩
      simp only [Trie.positions, List.nodup_cons] at hnd
      exact Rep_set_other nodes next th p _ hnd.1 hrep.2
    · have hend := wired_end sec dupFlag kf i kn c hi hkc hlast hmode
      cases sec with
      | none => simpa [Wired] using hw
      | some w =>
        simp only [Wired] at hw ⊢
        exact ⟨hend w rfl, hw⟩
    · exact hnd
    · intro q hq; left; exact hq
    · intro q hq _ hqt
      have : p ≠ q := by intro h; apply hqt; simp [Trie.positions, h]
      rw [List.getElem?_set_ne this]
    · rfl

theorem room_extend_leaf (root : Int) (nodes : List indexNode) (dr : Int) (ps : List Nat)
    (p c : Nat) (id : Int) (th : Int) (kf : List Nat) (i : Nat) (kn : Int) (prev : Int)
    (dupFlag leftSide : Bool) (sec : Option (List Nat)) (log : List Taken)
    (hfree : FreeList nodes dr ps) (hpsnd : ps.Nodup)
    (htps : ∀ q ∈ (Trie.S p c id).positions, q ∉ ps)
    (hprevps : ∀ pp : Nat, prev = (pp : Int) → pp ∉ ps)
    (hrep : Rep nodes (Trie.S p c id) th) (hw : Wired sec (Trie.S p c id))
    (hi : i < kf.length) (hm : [kf[i]] = runeString c) (hlast : i + 1 < kf.length)
    (hmode : WalkMode sec dupFlag kf i kn)
    (hprev : PrevLink nodes root (Trie.S p c id) prev leftSide kf[i] dupFlag) :
    ∃ s' t',
      (∀ fuelF : Nat,
        insertFinishLog fuelF kn ⟨⟨root, nodes, dr⟩, kf, (p : Int), prev, dupFlag, i⟩ log
          = .ok (s', log ++ [Taken.chain (kf.drop (i + 1))]))
      ∧ RoomPost nodes root ps (Trie.S p c id) th prev leftSide sec s' t'
          [Taken.chain (kf.drop (i + 1))] := by
  have hm' : ([kf[i]] = runeString c) ↔ True := iff_true_intro hm
  have hkc : kf[i] = c := ((rune_match _ _).mp hm).1
  simp only [Rep] at hrep
  have hplt := getElem?_some_lt nodes p _ hrep
  have hpps : p ∉ ps := htps p (by simp [Trie.positions])
  have hpold : ∀ L, p ∉ allocated ps nodes.length L :=
    fun L => allocated_old ps nodes.length L p hplt hpps
  obtain ⟨ch, s1, hext, hroot1, hlen1, hfree1, hrepc, hndc, hposc, hsame1, -, hw0, hws⟩ :=
    room_extend kn th ⟨root, nodes, dr⟩ ps hfree hpsnd (kf.drop (i + 1))
      (drop_ne_nil kf (i + 1) hlast)
  obtain ⟨root1, nodes1, dr1⟩ := s1
  simp only at hext hroot1 hlen1 hfree1 hrepc hposc hsame1
  subst root1
  have hp1 : nodes1[p]? = some ⟨stS, id, c, th⟩ := by
    rw [hsame1 p (hpold _)]; exact hrep
  have hpc : p ∉ ch.positions := fun h => hpold _ (hposc p h)
  refine ⟨⟨root, nodes1.set p ⟨stR, id, c, ch.root⟩, dr1⟩, Trie.R p c id ch, ?_, ?_⟩
  · intro fuelF
    have h1 := setStatus_mk root dr1 nodes1 p _ stR hp1
    have h2 := setRight_mk root dr1 _ p _ ch.root
      (getElem?_set_self' nodes1 p _
        { (⟨stS, id, c, th⟩ : indexNode) with status := stR } hp1)
    simp only [List.set_set] at h2
    have hsx : ¬ (stS = stX) := by decide
    simp only [insertFinishLog, bind, Except.bind, nodeAt_mk _ _ _ _ _ hrep, sliceAt_lt kf i hi,
      hm', if_true, hsx, if_false, hext, nodeAt_mk _ _ _ _ _ hp1, h1, h2]
  · apply room_inplace root nodes _ dr1 ps _ _ th prev leftSide dupFlag kf[i] sec
      [Taken.chain (kf.drop (i + 1))] hprev hprevps
    · rw [slotsTaken_chain]
      apply FreeList_congr nodes1 _ _ _ hfree1
      intro q hq
      have : p ≠ q := fun e => hpps (List.mem_of_mem_drop (e ▸ hq))
      rw [List.getElem?_set_ne this]
    · rw [slotsTaken_chain, List.length_set]; exact hlen1
    · exact count_chain _
    · simp only [Rep]
      exact ⟨getElem?_set_self' _ p _ _ hp1, Rep_set_other _ ch th p _ hpc hrepc⟩
    · have hbelow := wired_below sec dupFlag kf i kn c ch hi hkc hmode hws
      cases sec with
      | none => simpa [Wired] using hw0
      | some w =>
        simp only [Wired] at hw ⊢
        exact ⟨hw, hbelow w rfl⟩
    · simp only [Trie.positions, List.nodup_cons]
      exact ⟨hpc, hndc⟩
    · intro q hq
      rw [slotsTaken_chain]
      simp only [Trie.positions, List.mem_cons] at hq ⊢
      rcases hq with h | h
      · left; simp [h]
      · right; exact hposc _ h
    · intro q hq hqp hqt
      have : p ≠ q := by intro h; apply hqt; simp [Trie.positions, h]
      rw [List.getElem?_set_ne this]
      exact hsame1 q (allocated_old ps nodes.length _ q hq hqp)
    · rfl

theorem room_extend_dup (root : Int) (nodes : List indexNode) (dr : Int) (ps : List Nat)
    (p c : Nat) (dup : Trie) (th : Int) (kf : List Nat) (i : Nat) (kn : Int) (prev : Int)
    (dupFlag leftSide : Bool) (log : List Taken)
    (hfree : FreeList nodes dr ps) (hpsnd : ps.Nodup)
    (htps : ∀ q ∈ (Trie.L p c dup).positions, q ∉ ps)
    (hprevps : ∀ pp : Nat, prev = (pp : Int) → pp ∉ ps)
    (hrep : Rep nodes (Trie.L p c dup) th) (hnd : (Trie.L p c dup).positions.Nodup)
    (hw : Wired none (Trie.L p c dup))
    (hi : i < kf.length) (hm : [kf[i]] = runeString c) (hlast : i + 1 < kf.length)
    (hprev : PrevLink nodes root (Trie.L p c dup) prev leftSide kf[i] dupFlag) :
    ∃ s' t',
      (∀ fuelF : Nat,
        insertFinishLog fuelF kn ⟨⟨root, nodes, dr⟩, kf, (p : Int), prev, dupFlag, i⟩ log
          = .ok (s', log ++ [Taken.chain (kf.drop (i + 1))]))
      ∧ RoomPost nodes root ps (Trie.L p c dup) th prev leftSide none s' t'
          [Taken.chain (kf.drop (i + 1))] := by
  have hm' : ([kf[i]] = runeString c) ↔ True := iff_true_intro hm
  simp only [Wired] at hw
  have hlen := Rep_lt nodes _ th hrep
  simp only [Rep] at hrep
  have hplt := getElem?_some_lt nodes p _ hrep.1
  have hpps : p ∉ ps := htps p (by simp [Trie.positions])
  have hold : ∀ q ∈ (Trie.L p c dup).positions, ∀ L, q ∉ allocated ps nodes.length L :=
    fun q hq L => allocated_old ps nodes.length L q (hlen q hq) (htps q hq)
  obtain ⟨ch, s1, hext, hroot1, hlen1, hfree1, hrepc, hndc, hposc, hsame1, -, hw0, -⟩ :=
    room_extend kn th ⟨root, nodes, dr⟩ ps hfree hpsnd (kf.drop (i + 1))
      (drop_ne_nil kf (i + 1) hlast)
  obtain ⟨root1, nodes1, dr1⟩ := s1
  simp only at hext hroot1 hlen1 hfree1 hrepc hposc hsame1
  subst root1
  have hp1 : nodes1[p]? = some ⟨stL, dup.root, c, th⟩ := by
    rw [hsame1 p (hold p (by simp [Trie.positions]) _)]; exact hrep.1
  have hpc : p ∉ ch.positions := fun h => hold p (by simp [Trie.positions]) _ (hposc p h)
  simp only [Trie.positions, List.nodup_cons] at hnd
  refine ⟨⟨root, nodes1.set p ⟨stK, dup.root, c, ch.root⟩, dr1⟩, Trie.K p c dup ch, ?_, ?_⟩
  · intro fuelF
    have h1 := setStatus_mk root dr1 nodes1 p _ stK hp1
    have h2 := setRight_mk root dr1 _ p _ ch.root
      (getElem?_set_self' nodes1 p _
        { (⟨stL, dup.root, c, th⟩ : indexNode) with status := stK } hp1)
    simp only [List.set_set] at h2
    have hsx : ¬ (stL = stX) := by decide
    have hss : ¬ (stL = stS) := by decide
    simp only [insertFinishLog, bind, Except.bind, nodeAt_mk _ _ _ _ _ hrep.1, sliceAt_lt kf i hi,
      hm', if_true, hsx, hss, if_false, hext, nodeAt_mk _ _ _ _ _ hp1, h1, h2]
  · apply room_inplace root nodes _ dr1 ps _ _ th prev leftSide dupFlag kf[i] none
      [Taken.chain (kf.drop (i + 1))] hprev hprevps
    · rw [slotsTaken_chain]
      apply FreeList_congr nodes1 _ _ _ hfree1
      intro q hq
      have : p ≠ q := fun e => hpps (List.mem_of_mem_drop (e ▸ hq))
      rw [List.getElem?_set_ne this]
    · rw [slotsTaken_chain, List.length_set]; exact hlen1
    · exact count_chain _
    · simp only [Rep]
      refine ⟨getElem?_set_self' _ p _ _ hp1, ?_, Rep_set_other _ ch th p _ hpc hrepc⟩
      apply Rep_set_other _ dup _ p _ hnd.1
      apply Rep_congr nodes nodes1 dup _ _ hrep.2
      intro q hq
      exact hsame1 q (hold q (by simp [Trie.positions, hq]) _)
    · simp only [Wired]; exact ⟨hw, hw0⟩
    · simp only [Trie.positions, List.nodup_cons, List.nodup_append, List.mem_append, not_or]
      refine ⟨⟨hnd.1, hpc⟩, hnd.2, hndc, ?_⟩
      intro q h1 h2
      exact hold q (by simp [Trie.positions, h1]) _ (hposc q h2)
    · intro q hq
      rw [slotsTaken_chain]
      simp only [Trie.positions, List.mem_cons, List.mem_append] at hq ⊢
      rcases hq with h | h | h
      · left; simp [h]
      · left; simp [h]
      · right; exact hposc _ h
    · intro q hq hqp hqt
      have : p ≠ q := by intro h; apply hqt; simp [Trie.positions, h]
      rw [List.getElem?_set_ne this]
      exact hsame1 q (allocated_old ps nodes.length _ q hq hqp)
    · rfl

/-! ### The walk of `Insert`, node by node -/

theorem run_descend (kn : Int) (st st' : InsertState) (log log' : List Taken)
    (res : Index × List Taken) (n n' : Nat)
    (hstep : ∀ f, insertLoopLog kn (f + 1) st log = insertLoopLog kn f st' log')
    (hn : n' + 1 ≤ n)
    (hrun : ∀ fL fF : Nat, n' ≤ fL → n' ≤ fF → insertRunLog fL fF kn st' log' = .ok res) :
    ∀ fL fF : Nat, n ≤ fL → n ≤ fF → insertRunLog fL fF kn st log = .ok res := by
  intro fL fF hfL hfF
  obtain ⟨f, rfl⟩ : ∃ f, fL = f + 1 := ⟨fL - 1, by omega⟩
  rw [insertRunLog_step kn f fF _ _ _ _ (hstep f)]
  exact hrun f fF (by omega) (by omega)

theorem run_stop (kn : Int) (st : InsertState) (log : List Taken)
    (res : Index × List Taken) (n m : Nat)
    (hstop : ∀ f, insertLoopLog kn (f + 1) st log = .ok (.inr st, log))
    (hn : 1 ≤ n) (hm : m ≤ n)
    (hfin : ∀ fF : Nat, m ≤ fF → insertFinishLog fF kn st log = .ok res) :
    ∀ fL fF : Nat, n ≤ fL → n ≤ fF → insertRunLog fL fF kn st log = .ok res := by
  intro fL fF hfL hfF
  obtain ⟨f, rfl⟩ : ∃ f, fL = f + 1 := ⟨fL - 1, by omega⟩
  rw [insertRunLog_stop kn f fF _ _ (hstop f)]
  exact hfin fF (by omega)

theorem run_return (kn : Int) (st : InsertState) (log : List Taken) (s : Index) (n : Nat)
    (hret : ∀ f, insertLoopLog kn (f + 1) st log = .ok (.inl s, log))
    (hn : 1 ≤ n) :
    ∀ fL fF : Nat, n ≤ fL → n ≤ fF → insertRunLog fL fF kn st log = .ok (s, log ++ []) := by
  intro fL fF hfL hfF
  obtain ⟨f, rfl⟩ : ∃ f, fL = f + 1 := ⟨fL - 1, by omega⟩
  rw [insertRunLog_return kn f fF _ _ _ (hret f), List.append_nil]

theorem need_D_left (b : Bool) (p c : Nat) (l r : Trie) :
    need b l + 1 ≤ need b (Trie.D p c l r) := by
  rw [need_D]; omega

theorem need_D_right (b : Bool) (p c : Nat) (l r : Trie) :
    need b r + 1 ≤ need b (Trie.D p c l r) := by
  rw [need_D]; omega

theorem need_X_next (b : Bool) (p c : Nat) (next : Trie) :
    need b next + 1 ≤ need b (Trie.X p c next) := by
  rw [need_X]; omega

theorem wired_X (sec : Option (List Nat)) (p c : Nat) (next : Trie) :
    Wired sec (Trie.X p c next) ↔ Wired (sec.map (· ++ [c])) next := by
  cases sec <;> simp [Wired]

theorem wired_R (sec : Option (List Nat)) (p c : Nat) (id : Int) (next : Trie) :
    Wired sec (Trie.R p c id next) ↔
      (∀ w, sec = some w → itoa id = w ++ [c]) ∧ Wired (sec.map (· ++ [c])) next := by
  cases sec <;> simp [Wired]

theorem wired_S (sec : Option (List Nat)) (p c : Nat) (id : Int) :
    Wired sec (Trie.S p c id) ↔ (∀ w, sec = some w → itoa id = w ++ [c]) := by
  cases sec <;> simp [Wired]

theorem cast_inj_not_mem (p : Nat) (ps : List Nat) (hp : p ∉ ps) :
    ∀ pp : Nat, (p : Int) = (pp : Int) → pp ∉ ps := by
  intro pp h
  have : p = pp := by exact_mod_cast h
  rw [← this]; exact hp

theorem room_D (kn : Int) (dupFlag : Bool) (p c : Nat) (l r : Trie)
    (ihl : RoomSpec kn dupFlag l) (ihr : RoomSpec kn dupFlag r) :
    RoomSpec kn dupFlag (Trie.D p c l r) := by
  intro root nodes dr ps th kf i prev leftSide sec log hrep hnd hw hfree hpsnd htps hi hmode
    hprev hprevps
  rw [wired_D] at hw
  have hlen := Rep_lt nodes _ th hrep
  simp only [Rep] at hrep
  obtain ⟨hnode, hrl, hrr⟩ := hrep
  simp only [Trie.positions, List.nodup_cons, List.nodup_append, List.mem_append, not_or] at hnd
  obtain ⟨⟨hpl, hpr⟩, hndl, hndr, hdisj⟩ := hnd
  have hplt := getElem?_some_lt nodes p _ hnode
  have hpps : p ∉ ps := htps p (by simp [Trie.positions])
  have hlps : ∀ q ∈ l.positions, q ∉ ps := fun q hq => htps q (by simp [Trie.positions, hq])
  have hrps : ∀ q ∈ r.positions, q ∉ ps := fun q hq => htps q (by simp [Trie.positions, hq])
  have h1 : ¬ (stD = stR ∨ stD = stS) := by decide
  by_cases hle : strLe [kf[i]] (runeString c) = true
  · -- to the left
    have hstep : ∀ f, insertLoopLog kn (f + 1)
        ⟨⟨root, nodes, dr⟩, kf, (Trie.D p c l r).root, prev, dupFlag, i⟩ log
        = insertLoopLog kn f ⟨⟨root, nodes, dr⟩, kf, l.root, (p : Int), dupFlag, i⟩ log := by
      intro f
      simp [insertLoopLog, nodeAt_mk _ _ _ _ _ hnode, bind, Except.bind, h1, sliceAt_lt kf i hi,
        hle]
    have hlink : PrevLink nodes root l (p : Int) true kf[i] dupFlag := by
      right
      refine ⟨p, _, rfl, hnode, hpl, rfl, ?_⟩
      simp [hle]
    obtain ⟨s', l', taken, hrun, hpost⟩ := ihl root nodes dr ps (p : Int) kf i (p : Int) true
      sec log hrl hndl hw.1 hfree hpsnd hlps hi hmode hlink (cast_inj_not_mem p ps hpps)
    obtain ⟨-, hnode'⟩ := room_unpack _ _ _ _ _ _ _ _ _ _ _ _ hpost hnode
    refine ⟨s', Trie.D p c l' r, taken,
      run_descend kn _ _ log log _ _ _ hstep (need_D_left dupFlag p c l r) hrun, ?_⟩
    apply room_lift nodes root ps (Trie.D p c l r) (Trie.D p c l' r) l l' th (p : Int) prev p _
      true leftSide dupFlag kf[i] sec sec s' taken hpost hprev hprevps hnode
    · simp [Trie.positions]
    · intro q hq; simp [Trie.positions, hq]
    · rfl
    · simp only [Rep]
      refine ⟨by simpa using hnode', hpost.rep, ?_⟩
      exact room_sibling _ _ _ _ _ _ _ _ _ _ _ hpost r _ hrr hpr hrps (fun q hq h => hdisj h hq)
    · rw [wired_D]; exact ⟨hpost.wired, hw.2⟩
    · simp only [Trie.positions, List.nodup_cons, List.nodup_append, List.mem_append, not_or]
      refine ⟨⟨fun h => hpl (room_fresh _ _ _ _ _ _ _ _ _ _ _ hpost p h hplt hpps), hpr⟩,
        hpost.nodup, hndr, ?_⟩
      intro q h1 h2
      have hq := hlen q (by simp [Trie.positions, h2])
      exact hdisj (room_fresh _ _ _ _ _ _ _ _ _ _ _ hpost q h1 hq (hrps q h2)) h2
    · intro q hq
      simp only [Trie.positions, List.mem_cons, List.mem_append] at hq ⊢
      rcases hq with h | h | h
      · left; left; exact h
      · right; exact h
      · left; right; right; exact h
  · -- to the right
    have hstep : ∀ f, insertLoopLog kn (f + 1)
        ⟨⟨root, nodes, dr⟩, kf, (Trie.D p c l r).root, prev, dupFlag, i⟩ log
        = insertLoopLog kn f ⟨⟨root, nodes, dr⟩, kf, r.root, (p : Int), dupFlag, i⟩ log := by
      intro f
      simp [insertLoopLog, nodeAt_mk _ _ _ _ _ hnode, bind, Except.bind, h1, sliceAt_lt kf i hi,
        hle]
    have hlink : PrevLink nodes root r (p : Int) false kf[i] dupFlag := by
      right
      refine ⟨p, _, rfl, hnode, hpr, rfl, ?_⟩
      have h1 : ¬ (stD = stL) := by decide
      have h2 : ¬ (stD = stK) := by decide
      simp [hle, h1, h2]
    obtain ⟨s', r', taken, hrun, hpost⟩ := ihr root nodes dr ps th kf i (p : Int) false
      sec log hrr hndr hw.2 hfree hpsnd hrps hi hmode hlink (cast_inj_not_mem p ps hpps)
    obtain ⟨-, hnode'⟩ := room_unpack _ _ _ _ _ _ _ _ _ _ _ _ hpost hnode
    refine ⟨s', Trie.D p c l r', taken,
      run_descend kn _ _ log log _ _ _ hstep (need_D_right dupFlag p c l r) hrun, ?_⟩
    apply room_lift nodes root ps (Trie.D p c l r) (Trie.D p c l r') r r' th th prev p _
      false leftSide dupFlag kf[i] sec sec s' taken hpost hprev hprevps hnode
    · simp [Trie.positions]
    · intro q hq; simp [Trie.positions, hq]
    · rfl
    · simp only [Rep]
      refine ⟨by simpa using hnode', ?_, hpost.rep⟩
      exact room_sibling _ _ _ _ _ _ _ _ _ _ _ hpost l _ hrl hpl hlps (fun q hq h => hdisj hq h)
    · rw [wired_D]; exact ⟨hw.1, hpost.wired⟩
    · simp only [Trie.positions, List.nodup_cons, List.nodup_append, List.mem_append, not_or]
      refine ⟨⟨hpl, ?_⟩, hndl, hpost.nodup, ?_⟩
      · intro h; exact hpr (room_fresh _ _ _ _ _ _ _ _ _ _ _ hpost p h hplt hpps)
      · intro q h1 h2
        have hq := hlen q (by simp [Trie.positions, h1])
        exact hdisj h1 (room_fresh _ _ _ _ _ _ _ _ _ _ _ hpost q h2 hq (hlps q h1))
    · intro q hq
      simp only [Trie.positions, List.mem_cons, List.mem_append] at hq ⊢
      rcases hq with h | h | h
      · left; left; exact h
      · left; right; left; exact h
      · right; exact h

theorem room_X (kn : Int) (dupFlag : Bool) (p c : Nat) (next : Trie)
    (ih : RoomSpec kn dupFlag next) :
    RoomSpec kn dupFlag (Trie.X p c next) := by
  intro root nodes dr ps th kf i prev leftSide sec log hrep hnd hw hfree hpsnd htps hi hmode
    hprev hprevps
  have hw0 := hw
  have hrep0 := hrep
  have hnd0 := hnd
  rw [wired_X] at hw
  have hlen := Rep_lt nodes _ th hrep
  simp only [Rep] at hrep
  obtain ⟨hnode, hrn⟩ := hrep
  simp only [Trie.positions, List.nodup_cons] at hnd
  obtain ⟨hpn, hndn⟩ := hnd
  have hplt := getElem?_some_lt nodes p _ hnode
  have hpps : p ∉ ps := htps p (by simp [Trie.positions])
  have hnps : ∀ q ∈ next.positions, q ∉ ps := fun q hq => htps q (by simp [Trie.positions, hq])
  have hx1 : ¬ (stX = stR ∨ stX = stS) := by decide
  have hx2 : ¬ (stX = stD) := by decide
  have hx3 : ¬ (stX = stK ∨ stX = stL) := by decide
  by_cases hm : [kf[i]] = runeString c
  · obtain ⟨hc, hc128⟩ := (rune_match kf[i] c).mp hm
    by_cases hlast : i + 1 = kf.length
    · have hstop : ∀ f, insertLoopLog kn (f + 1)
          ⟨⟨root, nodes, dr⟩, kf, (Trie.X p c next).root, prev, dupFlag, i⟩ log
          = .ok (.inr ⟨⟨root, nodes, dr⟩, kf, (Trie.X p c next).root, prev, dupFlag, i⟩,
              log) := by
        intro f
        simp [insertLoopLog, nodeAt_mk _ _ _ _ _ hnode, bind, Except.bind, hx1, hx2, hx3,
          sliceAt_lt kf i hi, runeString_ascii c hc128, hc, hlast]
      obtain ⟨s', t', hfin, hpost⟩ := room_char_end root nodes dr ps p c next th kf i kn prev
        dupFlag leftSide sec log hfree htps hprevps hrep0 hnd0 hw0 hi hm hlast hmode hprev
      exact ⟨s', t', [], run_stop kn _ log _ _ 0 hstop (need_pos _ _) (Nat.zero_le _)
        (fun fF _ => hfin fF), hpost⟩
    · have hi2 : i + 1 < kf.length := by omega
      have hstep : ∀ f, insertLoopLog kn (f + 1)
          ⟨⟨root, nodes, dr⟩, kf, (Trie.X p c next).root, prev, dupFlag, i⟩ log
          = insertLoopLog kn f
              ⟨⟨root, nodes, dr⟩, kf, next.root, (p : Int), dupFlag, i + 1⟩ log := by
        intro f
        simp [insertLoopLog, nodeAt_mk _ _ _ _ _ hnode, bind, Except.bind, hx1, hx2, hx3,
          sliceAt_lt kf i hi, runeString_ascii c hc128, hc, hlast]
      have hlink : PrevLink nodes root next (p : Int) false kf[i + 1] dupFlag := by
        right
        refine ⟨p, _, rfl, hnode, hpn, rfl, ?_⟩
        have h1 : ¬ (stX = stL) := by decide
        have h2 : ¬ (stX = stK) := by decide
        simp [hx2, h1, h2]
      obtain ⟨s', next', taken, hrun, hpost⟩ := ih root nodes dr ps th kf (i + 1) (p : Int)
        false _ log hrn hndn hw hfree hpsnd hnps hi2
        (walkMode_next sec dupFlag kf i kn c hi hc hmode) hlink (cast_inj_not_mem p ps hpps)
      obtain ⟨-, hnode'⟩ := room_unpack _ _ _ _ _ _ _ _ _ _ _ _ hpost hnode
      refine ⟨s', Trie.X p c next', taken,
        run_descend kn _ _ log log _ _ _ hstep (need_X_next dupFlag p c next) hrun, ?_⟩
      apply room_lift nodes root ps (Trie.X p c next) (Trie.X p c next') next next' th th prev
        p _ false leftSide dupFlag kf[i] sec _ s' taken hpost hprev hprevps hnode
      · simp [Trie.positions]
      · intro q hq; simp [Trie.positions, hq]
      · rfl
      · simp only [Rep]
        exact ⟨by simpa using hnode', hpost.rep⟩
      · rw [wired_X]; exact hpost.wired
      · simp only [Trie.positions, List.nodup_cons]
        exact ⟨fun h => hpn (room_fresh _ _ _ _ _ _ _ _ _ _ _ hpost p h hplt hpps), hpost.nodup⟩
      · intro q hq
        simp only [Trie.positions, List.mem_cons] at hq ⊢
        rcases hq with h | h
        · left; left; exact h
        · right; exact h
  · have hstop : ∀ f, insertLoopLog kn (f + 1)
        ⟨⟨root, nodes, dr⟩, kf, (Trie.X p c next).root, prev, dupFlag, i⟩ log
        = .ok (.inr ⟨⟨root, nodes, dr⟩, kf, (Trie.X p c next).root, prev, dupFlag, i⟩,
            log) := by
      intro f
      simp [insertLoopLog, nodeAt_mk _ _ _ _ _ hnode, bind, Except.bind, hx1, hx2, hx3,
        sliceAt_lt kf i hi, hm]
    obtain ⟨s', t', hfin, hpost⟩ := room_mismatch root nodes dr ps (Trie.X p c next) th kf i kn
      prev dupFlag leftSide sec log _ hfree hpsnd htps hprevps hrep0 hnd0 hw0 hnode hi hm hmode
      hprev
    exact ⟨s', t', _, run_stop kn _ log _ _ _ hstop (need_pos _ _) (visits_le_need _ _) hfin,
      hpost⟩

theorem length_two (len a b n : Nat) :
    len + (a - n) + (b - (n - a)) = len + (a + b - n) := by omega

theorem slotsTaken_cons_chain (text : List Nat) (taken : List Taken) :
    slotsTaken (Taken.chain text :: taken) = text.length + slotsTaken taken := by
  simp [slotsTaken, Taken.slots]

theorem count_cons_chain (text : List Nat) (taken : List Taken) :
    List.count Taken.decision (Taken.chain text :: taken) = List.count Taken.decision taken := by
  simp [List.count_cons]

theorem drop_add (ps : List Nat) (a b : Nat) : ps.drop (a + b) = (ps.drop a).drop b := by
  simp [List.drop_drop, Nat.add_comm]

theorem need_dup (t : Trie) : need true t = t.visits := by simp [need]

/-- The step of `Insert` that turns a leaf or a branch node into a duplicate
node: the identifier stored there moves into a new secondary tree, built by
`extend`, and the walk goes on in that tree with the digits of the new
identifier. -/
theorem room_convert (kn : Int) (hsec : ∀ t0, RoomSpec kn true t0)
    (root : Int) (nodes : List indexNode) (dr : Int) (ps : List Nat) (p c : Nat) (id : Int)
    (s0 : Nat) (rp : Int) (kf : List Nat) (i : Nat) (prev : Int) (log : List Taken)
    (hfree : FreeList nodes dr ps) (hpsnd : ps.Nodup) (hpps : p ∉ ps)
    (hs0 : s0 = stS ∨ s0 = stR)
    (hnode : nodes[p]? = some ⟨s0, id, c, rp⟩)
    (hi : i < kf.length) (hm : [kf[i]] = runeString c) (hlast : i + 1 = kf.length)
    (hne : kn ≠ id) :
    ∃ nodes' dr' t'' taken,
      (∀ fL fF : Nat, 1 + (itoa id).length ≤ fL → 1 + (itoa id).length ≤ fF →
        insertRunLog fL fF kn ⟨⟨root, nodes, dr⟩, kf, (p : Int), prev, false, i⟩ log
          = .ok (⟨root, nodes', dr'⟩, log ++ taken))
      ∧ nodes'[p]? = some ⟨if s0 = stR then stK else stL, t''.root, c, rp⟩
      ∧ Rep nodes' t'' (p : Int) ∧ Wired (some []) t'' ∧ t''.positions.Nodup
      ∧ (∀ q ∈ t''.positions, q ∈ allocated ps nodes.length (slotsTaken taken))
      ∧ FreeList nodes' dr' (ps.drop (slotsTaken taken))
      ∧ nodes'.length = nodes.length + (slotsTaken taken - ps.length)
      ∧ taken.count Taken.decision ≤ 1
      ∧ (∀ q : Nat, q < nodes.length → q ∉ ps → q ≠ p → nodes'[q]? = nodes[q]?) := by
  have hm' : ([kf[i]] = runeString c) ↔ True := iff_true_intro hm
  have hplt := getElem?_some_lt nodes p _ hnode
  have hps := FreeList_lt nodes ps dr hfree
  obtain ⟨a, ha⟩ : ∃ a, a = (itoa id).length := ⟨_, rfl⟩
  obtain ⟨ch, s1, hext, hroot1, hlen1, hfree1, hrepc, hndc, hposc, hsame1, hvis, -, hws⟩ :=
    room_extend id (p : Int) ⟨root, nodes, dr⟩ ps hfree hpsnd (itoa id) (itoa_ne_nil id)
  obtain ⟨root1, nodes1, dr1⟩ := s1
  simp only at hext hroot1 hlen1 hfree1 hrepc hposc hsame1
  subst root1
  rw [← ha] at hlen1 hfree1 hposc hsame1 hvis
  have hpold : ∀ L, p ∉ allocated ps nodes.length L :=
    fun L => allocated_old ps nodes.length L p hplt hpps
  have hp1 : nodes1[p]? = some ⟨s0, id, c, rp⟩ := by
    rw [hsame1 p (hpold _)]; exact hnode
  obtain ⟨nodes2, hnodes2⟩ : ∃ l : List indexNode,
    l = nodes1.set p ⟨if s0 = stR then stK else stL, ch.root, c, rp⟩ := ⟨_, rfl⟩
  have hpch : p ∉ ch.positions := fun h => hpold _ (hposc p h)
  have hstep : ∀ f, insertLoopLog kn (f + 1)
      ⟨⟨root, nodes, dr⟩, kf, (p : Int), prev, false, i⟩ log
      = insertLoopLog kn f ⟨⟨root, nodes2, dr1⟩, itoa kn, ch.root, (p : Int), true, 0⟩
          (log ++ [Taken.chain (itoa id)]) := by
    intro f
    have h1 := setStatus_mk root dr1 nodes1 p _ (if s0 = stR then stK else stL) hp1
    have h2 := setLeft_mk root dr1 _ p _ ch.root
      (getElem?_set_self' nodes1 p _
        { (⟨s0, id, c, rp⟩ : indexNode) with status := if s0 = stR then stK else stL } hp1)
    simp only [List.set_set] at h2
    rw [← hnodes2] at h2
    have hs : s0 = stR ∨ s0 = stS := hs0.symm
    rw [insertLoopLog]
    simp only [nodeAt_mk _ _ _ _ _ hnode, bind, Except.bind, hs, if_true, sliceAt_lt kf i hi,
      hm', hlast, hne, if_false, decimaliseNumber, hext,
      nodeAt_mk _ _ _ _ _ hp1, h1, h2]
  have hrep2 : Rep nodes2 ch (p : Int) := by
    rw [hnodes2]; exact Rep_set_other _ ch _ p _ hpch hrepc
  have hnode2 : nodes2[p]? = some ⟨if s0 = stR then stK else stL, ch.root, c, rp⟩ := by
    rw [hnodes2]; exact getElem?_set_self' _ p _ _ hp1
  have hlen2 : nodes2.length = nodes.length + (a - ps.length) := by
    rw [hnodes2, List.length_set]; exact hlen1
  have hfree2 : FreeList nodes2 dr1 (ps.drop a) := by
    apply FreeList_congr nodes1 _ _ _ hfree1
    intro q hq
    have : p ≠ q := fun e => hpps (List.mem_of_mem_drop (e ▸ hq))
    rw [hnodes2, List.getElem?_set_ne this]
  have h0 : 0 < (itoa kn).length := List.length_pos.mpr (itoa_ne_nil kn)
  have hlink : PrevLink nodes2 root ch (p : Int) true (itoa kn)[0] true := by
    right
    refine ⟨p, _, rfl, hnode2, hpch, rfl, ?_⟩
    rcases hs0 with h | h
    · subst h
      have : ¬ (stS = stR) := by decide
      simp [this]
    · subst h
      simp
  obtain ⟨s', t'', taken, hrun, hpost⟩ := hsec ch root nodes2 dr1 (ps.drop a) (p : Int)
    (itoa kn) 0 (p : Int) true (some []) (log ++ [Taken.chain (itoa id)])
    hrep2 hndc (hws [] (by simp)) hfree2
    (List.Nodup.sublist (List.drop_sublist a ps) hpsnd)
    (fun q hq h => allocated_drop ps nodes.length a q hps hpsnd h (hposc q hq))
    h0 (Or.inr ⟨by simp, rfl, rfl⟩) hlink
    (cast_inj_not_mem p _ (fun h => hpps (List.mem_of_mem_drop h)))
  obtain ⟨hs', hnode'⟩ := room_unpack _ _ _ _ _ _ _ _ _ _ _ _ hpost hnode2
  have htk : slotsTaken (Taken.chain (itoa id) :: taken) = a + slotsTaken taken := by
    rw [slotsTaken_cons_chain, ha]
  refine ⟨s'.node, s'.deletedRoot, t'', Taken.chain (itoa id) :: taken, ?_,
    by simpa using hnode', hpost.rep, hpost.wired, hpost.nodup, ?_, ?_, ?_, ?_, ?_⟩
  · have hrun' : ∀ fL fF : Nat, need true ch ≤ fL → need true ch ≤ fF →
        insertRunLog fL fF kn ⟨⟨root, nodes2, dr1⟩, itoa kn, ch.root, (p : Int), true, 0⟩
          (log ++ [Taken.chain (itoa id)])
          = .ok (⟨root, s'.node, s'.deletedRoot⟩, log ++ Taken.chain (itoa id) :: taken) := by
      intro fL fF h1 h2
      rw [hrun fL fF h1 h2, ← hs', List.append_assoc]
      rfl
    apply run_descend kn _ _ log _ _ _ _ hstep _ hrun'
    rw [need_dup, hvis, ha, Nat.add_comm]
  · intro q hq
    rw [htk]
    rcases hpost.pos_new q hq with h | h
    · exact allocated_mono ps nodes.length a _ q (Nat.le_add_right _ _) (hposc q h)
    · rw [hlen2] at h
      exact allocated_add_mem ps nodes.length a _ q h
  · rw [htk, drop_add]
    exact hpost.free
  · rw [htk, hpost.length_eq, hlen2, List.length_drop]
    exact length_two _ _ _ _
  · rw [count_cons_chain]; exact hpost.decisions
  · intro q hq hqp hqne
    have hqa : ∀ L, q ∉ allocated ps nodes.length L :=
      fun L => allocated_old ps nodes.length L q hq hqp
    rw [hpost.frame q (by rw [hlen2]; exact Nat.lt_add_right _ hq)
      (fun h => hqp (List.mem_of_mem_drop h)) (fun h => hqa _ (hposc q h))
      (by intro h; exact hqne (by exact_mod_cast h))]
    rw [hnodes2, List.getElem?_set_ne (Ne.symm hqne)]
    exact hsame1 q (hqa _)

theorem need_R_step (b : Bool) (p c : Nat) (id : Int) (next : Trie) :
    need b next + 1 ≤ need b (Trie.R p c id next) := by
  have := need_R_next b p c id next
  omega

theorem room_S (kn : Int) (dupFlag : Bool) (p c : Nat) (id : Int)
    (hsec : dupFlag = false → ∀ t0, RoomSpec kn true t0) :
    RoomSpec kn dupFlag (Trie.S p c id) := by
  intro root nodes dr ps th kf i prev leftSide sec log hrep hnd hw hfree hpsnd htps hi hmode
    hprev hprevps
  have hw0 := hw
  have hrep0 := hrep
  rw [wired_S] at hw
  simp only [Rep] at hrep
  have hplt := getElem?_some_lt nodes p _ hrep
  have hpps : p ∉ ps := htps p (by simp [Trie.positions])
  have hs1 : (stS = stR ∨ stS = stS) := by decide
  have hss : ¬ (stS = stR) := by decide
  by_cases hm : [kf[i]] = runeString c
  · obtain ⟨hc, hc128⟩ := (rune_match kf[i] c).mp hm
    by_cases hlast : i + 1 = kf.length
    · by_cases hkn : kn = id
      · -- the pair is stored already
        have hret : ∀ f, insertLoopLog kn (f + 1)
            ⟨⟨root, nodes, dr⟩, kf, (Trie.S p c id).root, prev, dupFlag, i⟩ log
            = .ok (.inl ⟨root, nodes, dr⟩, log) := by
          intro f
          simp [insertLoopLog, nodeAt_mk _ _ _ _ _ hrep, bind, Except.bind, hs1,
            sliceAt_lt kf i hi, runeString_ascii c hc128, hc, hlast, hkn]
        refine ⟨_, Trie.S p c id, [], run_return kn _ log _ _ hret (need_pos _ _), ?_⟩
        exact room_inplace root nodes nodes dr ps _ _ th prev leftSide dupFlag kf[i] sec []
          hprev hprevps (by rw [slotsTaken_nil, List.drop_zero]; exact hfree)
          (by simp [slotsTaken_nil]) (by simp) hrep0 hw0 hnd (fun q hq => Or.inl hq)
          (fun _ _ _ _ => rfl) rfl
      · rcases hmode with ⟨h1, h2⟩ | ⟨h1, h2, h3⟩
        · -- a second identifier for the key
          subst h1 h2
          obtain ⟨nodes', dr', t'', taken, hrun, hnode', hrep', hw', hnd', hpos', hfree', hlen',
              hdec', hframe'⟩ :=
            room_convert kn (hsec rfl) root nodes dr ps p c id stS th kf i prev log hfree hpsnd
              hpps (Or.inl rfl) hrep hi hm hlast hkn
          refine ⟨⟨root, nodes', dr'⟩, Trie.L p c t'', taken, ?_, ?_⟩
          · intro fL fF hfL hfF
            rw [need_S_main] at hfL hfF
            exact hrun fL fF hfL hfF
          · apply room_inplace root nodes nodes' dr' ps _ _ th prev leftSide false kf[i] none
              taken hprev hprevps hfree' hlen' hdec'
            · simp only [Rep]
              exact ⟨by simpa [hss] using hnode', hrep'⟩
            · simp only [Wired]; exact hw'
            · simp only [Trie.positions, List.nodup_cons]
              exact ⟨fun h => allocated_old ps nodes.length _ p hplt hpps (hpos' p h), hnd'⟩
            · intro q hq
              simp only [Trie.positions, List.mem_cons] at hq ⊢
              rcases hq with h | h
              · left; simp [h]
              · right; exact hpos' q h
            · intro q hq hqp hqt
              exact hframe' q hq hqp (by intro h; apply hqt; simp [Trie.positions, h])
            · rfl
        · -- inside a secondary tree the identifier at the end of the digits is the new one
          exfalso
          apply hkn
          apply itoa_inj
          rw [hw _ h1, ← h3, take_last kf i c hi hc hlast]
    · have hstop : ∀ f, insertLoopLog kn (f + 1)
          ⟨⟨root, nodes, dr⟩, kf, (Trie.S p c id).root, prev, dupFlag, i⟩ log
          = .ok (.inr ⟨⟨root, nodes, dr⟩, kf, (Trie.S p c id).root, prev, dupFlag, i⟩,
              log) := by
        intro f
        simp [insertLoopLog, nodeAt_mk _ _ _ _ _ hrep, bind, Except.bind, hs1,
          sliceAt_lt kf i hi, runeString_ascii c hc128, hc, hlast]
      obtain ⟨s', t', hfin, hpost⟩ := room_extend_leaf root nodes dr ps p c id th kf i kn prev
        dupFlag leftSide sec log hfree hpsnd htps hprevps hrep0 hw0 hi hm
        (Nat.lt_of_le_of_ne hi hlast) hmode hprev
      exact ⟨s', t', _, run_stop kn _ log _ _ 0 hstop (need_pos _ _) (Nat.zero_le _)
        (fun fF _ => hfin fF), hpost⟩
  · have hstop : ∀ f, insertLoopLog kn (f + 1)
        ⟨⟨root, nodes, dr⟩, kf, (Trie.S p c id).root, prev, dupFlag, i⟩ log
        = .ok (.inr ⟨⟨root, nodes, dr⟩, kf, (Trie.S p c id).root, prev, dupFlag, i⟩,
            log) := by
      intro f
      simp [insertLoopLog, nodeAt_mk _ _ _ _ _ hrep, bind, Except.bind, hs1,
        sliceAt_lt kf i hi, hm]
    obtain ⟨s', t', hfin, hpost⟩ := room_mismatch root nodes dr ps (Trie.S p c id) th kf i kn
      prev dupFlag leftSide sec log _ hfree hpsnd htps hprevps hrep0 hnd hw0 hrep hi hm hmode
      hprev
    exact ⟨s', t', _, run_stop kn _ log _ _ _ hstop (need_pos _ _) (visits_le_need _ _) hfin,
      hpost⟩

theorem room_R (kn : Int) (dupFlag : Bool) (p c : Nat) (id : Int) (next : Trie)
    (hsec : dupFlag = false → ∀ t0, RoomSpec kn true t0)
    (ih : RoomSpec kn dupFlag next) :
    RoomSpec kn dupFlag (Trie.R p c id next) := by
  intro root nodes dr ps th kf i prev leftSide sec log hrep hnd hw hfree hpsnd htps hi hmode
    hprev hprevps
  have hw0 := hw
  have hrep0 := hrep
  have hnd0 := hnd
  rw [wired_R] at hw
  obtain ⟨hid, hwn⟩ := hw
  have hlen := Rep_lt nodes _ th hrep
  simp only [Rep] at hrep
  obtain ⟨hnode, hrn⟩ := hrep
  simp only [Trie.positions, List.nodup_cons] at hnd
  obtain ⟨hpn, hndn⟩ := hnd
  have hplt := getElem?_some_lt nodes p _ hnode
  have hpps : p ∉ ps := htps p (by simp [Trie.positions])
  have hnps : ∀ q ∈ next.positions, q ∉ ps := fun q hq => htps q (by simp [Trie.positions, hq])
  have hs1 : (stR = stR ∨ stR = stS) := by decide
  have hss : ¬ (stR = stS) := by decide
  by_cases hm : [kf[i]] = runeString c
  · obtain ⟨hc, hc128⟩ := (rune_match kf[i] c).mp hm
    by_cases hlast : i + 1 = kf.length
    · by_cases hkn : kn = id
      · -- the pair is stored already
        have hret : ∀ f, insertLoopLog kn (f + 1)
            ⟨⟨root, nodes, dr⟩, kf, (Trie.R p c id next).root, prev, dupFlag, i⟩ log
            = .ok (.inl ⟨root, nodes, dr⟩, log) := by
          intro f
          simp [insertLoopLog, nodeAt_mk _ _ _ _ _ hnode, bind, Except.bind, hs1,
            sliceAt_lt kf i hi, runeString_ascii c hc128, hc, hlast, hkn]
        refine ⟨_, Trie.R p c id next, [], run_return kn _ log _ _ hret (need_pos _ _), ?_⟩
        exact room_inplace root nodes nodes dr ps _ _ th prev leftSide dupFlag kf[i] sec []
          hprev hprevps (by rw [slotsTaken_nil, List.drop_zero]; exact hfree)
          (by simp [slotsTaken_nil]) (by simp) hrep0 hw0 hnd0 (fun q hq => Or.inl hq)
          (fun _ _ _ _ => rfl) rfl
      · rcases hmode with ⟨h1, h2⟩ | ⟨h1, h2, h3⟩
        · -- a second identifier for the key
          subst h1 h2
          obtain ⟨nodes', dr', t'', taken, hrun, hnode', hrep', hw', hnd', hpos', hfree', hlen',
              hdec', hframe'⟩ :=
            room_convert kn (hsec rfl) root nodes dr ps p c id stR next.root kf i prev log hfree
              hpsnd hpps (Or.inr rfl) hnode hi hm hlast hkn
          have hnold : ∀ q ∈ next.positions, ∀ L, q ∉ allocated ps nodes.length L :=
            fun q hq L => allocated_old ps nodes.length L q
              (hlen q (by simp [Trie.positions, hq])) (hnps q hq)
          refine ⟨⟨root, nodes', dr'⟩, Trie.K p c t'' next, taken, ?_, ?_⟩
          · intro fL fF hfL hfF
            have hneed2 := need_R_main p c id next
            exact hrun fL fF (Nat.le_trans hneed2 hfL) (Nat.le_trans hneed2 hfF)
          · apply room_inplace root nodes nodes' dr' ps _ _ th prev leftSide false kf[i] none
              taken hprev hprevps hfree' hlen' hdec'
            · simp only [Rep]
              refine ⟨by simpa using hnode', hrep', ?_⟩
              apply Rep_congr nodes nodes' next th _ hrn
              intro q hq
              exact hframe' q (hlen q (by simp [Trie.positions, hq])) (hnps q hq)
                (by intro h; exact hpn (h ▸ hq))
            · simp only [Wired]; exact ⟨hw', by simpa using hwn⟩
            · simp only [Trie.positions, List.nodup_cons, List.nodup_append, List.mem_append,
                not_or]
              refine ⟨⟨fun h => allocated_old ps nodes.length _ p hplt hpps (hpos' p h), hpn⟩,
                hnd', hndn, ?_⟩
              intro q h1 h2
              exact hnold q h2 _ (hpos' q h1)
            · intro q hq
              simp only [Trie.positions, List.mem_cons, List.mem_append] at hq ⊢
              rcases hq with h | h | h
              · left; left; exact h
              · right; exact hpos' q h
              · left; right; exact h
            · intro q hq hqp hqt
              exact hframe' q hq hqp (by intro h; apply hqt; simp [Trie.positions, h])
            · rfl
        · exfalso
          apply hkn
          apply itoa_inj
          rw [hid _ h1, ← h3, take_last kf i c hi hc hlast]
    · have hi2 : i + 1 < kf.length := Nat.lt_of_le_of_ne hi hlast
      have hstep : ∀ f, insertLoopLog kn (f + 1)
          ⟨⟨root, nodes, dr⟩, kf, (Trie.R p c id next).root, prev, dupFlag, i⟩ log
          = insertLoopLog kn f
              ⟨⟨root, nodes, dr⟩, kf, next.root, (p : Int), dupFlag, i + 1⟩ log := by
        intro f
        simp [insertLoopLog, nodeAt_mk _ _ _ _ _ hnode, bind, Except.bind, hs1, hss,
          sliceAt_lt kf i hi, runeString_ascii c hc128, hc, hlast]
      have hlink : PrevLink nodes root next (p : Int) false kf[i + 1] dupFlag := by
        right
        refine ⟨p, _, rfl, hnode, hpn, rfl, ?_⟩
        have h1 : ¬ (stR = stL) := by decide
        have h2 : ¬ (stR = stK) := by decide
        have h3 : ¬ (stR = stD) := by decide
        simp [h1, h2, h3]
      obtain ⟨s', next', taken, hrun, hpost⟩ := ih root nodes dr ps th kf (i + 1) (p : Int)
        false _ log hrn hndn hwn hfree hpsnd hnps hi2
        (walkMode_next sec dupFlag kf i kn c hi hc hmode) hlink (cast_inj_not_mem p ps hpps)
      obtain ⟨-, hnode'⟩ := room_unpack _ _ _ _ _ _ _ _ _ _ _ _ hpost hnode
      refine ⟨s', Trie.R p c id next', taken,
        run_descend kn _ _ log log _ _ _ hstep (need_R_step dupFlag p c id next) hrun, ?_⟩
      apply room_lift nodes root ps (Trie.R p c id next) (Trie.R p c id next') next next' th th
        prev p _ false leftSide dupFlag kf[i] sec _ s' taken hpost hprev hprevps hnode
      · simp [Trie.positions]
      · intro q hq; simp [Trie.positions, hq]
      · rfl
      · simp only [Rep]
        exact ⟨by simpa using hnode', hpost.rep⟩
      · rw [wired_R]; exact ⟨hid, hpost.wired⟩
      · simp only [Trie.positions, List.nodup_cons]
        exact ⟨fun h => hpn (room_fresh _ _ _ _ _ _ _ _ _ _ _ hpost p h hplt hpps), hpost.nodup⟩
      · intro q hq
        simp only [Trie.positions, List.mem_cons] at hq ⊢
        rcases hq with h | h
        · left; left; exact h
        · right; exact h
  · have hstop : ∀ f, insertLoopLog kn (f + 1)
        ⟨⟨root, nodes, dr⟩, kf, (Trie.R p c id next).root, prev, dupFlag, i⟩ log
        = .ok (.inr ⟨⟨root, nodes, dr⟩, kf, (Trie.R p c id next).root, prev, dupFlag, i⟩,
            log) := by
      intro f
      simp [insertLoopLog, nodeAt_mk _ _ _ _ _ hnode, bind, Except.bind, hs1,
        sliceAt_lt kf i hi, hm]
    obtain ⟨s', t', hfin, hpost⟩ := room_mismatch root nodes dr ps (Trie.R p c id next) th kf i
      kn prev dupFlag leftSide sec log _ hfree hpsnd htps hprevps hrep0 hnd0 hw0 hnode hi hm
      hmode hprev
    exact ⟨s', t', _, run_stop kn _ log _ _ _ hstop (need_pos _ _) (visits_le_need _ _) hfin,
      hpost⟩

theorem need_L_dup (p c : Nat) (dup : Trie) :
    need true dup + 1 ≤ need false (Trie.L p c dup) := by
  simp [need, Trie.span]; omega

theorem need_K_dup (p c : Nat) (dup next : Trie) :
    need true dup + 1 ≤ need false (Trie.K p c dup next) := by
  simp [need, Trie.span]; omega

theorem need_K_next (p c : Nat) (dup next : Trie) :
    need false next + 1 ≤ need false (Trie.K p c dup next) := by
  simp [need, Trie.span]; omega

theorem wired_main (sec : Option (List Nat)) (p c : Nat) (dup : Trie)
    (h : Wired sec (Trie.L p c dup)) : sec = none := by
  cases sec
  · rfl
  · simp [Wired] at h

theorem wired_main_K (sec : Option (List Nat)) (p c : Nat) (dup next : Trie)
    (h : Wired sec (Trie.K p c dup next)) : sec = none := by
  cases sec
  · rfl
  · simp [Wired] at h

theorem room_L (kn : Int) (dupFlag : Bool) (p c : Nat) (dup : Trie)
    (ihd : RoomSpec kn true dup) :
    RoomSpec kn dupFlag (Trie.L p c dup) := by
  intro root nodes dr ps th kf i prev leftSide sec log hrep hnd hw hfree hpsnd htps hi hmode
    hprev hprevps
  have hsec : sec = none := wired_main sec p c dup hw
  have hdf := main_of_dup_node sec dupFlag kf i kn hsec hmode
  subst hsec hdf
  have hw0 := hw
  have hrep0 := hrep
  have hnd0 := hnd
  simp only [Wired] at hw
  have hlen := Rep_lt nodes _ th hrep
  simp only [Rep] at hrep
  obtain ⟨hnode, hrd⟩ := hrep
  simp only [Trie.positions, List.nodup_cons] at hnd
  obtain ⟨hpd, hndd⟩ := hnd
  have hplt := getElem?_some_lt nodes p _ hnode
  have hpps : p ∉ ps := htps p (by simp [Trie.positions])
  have hdps : ∀ q ∈ dup.positions, q ∉ ps := fun q hq => htps q (by simp [Trie.positions, hq])
  have hx1 : ¬ (stL = stR ∨ stL = stS) := by decide
  have hx2 : ¬ (stL = stD) := by decide
  have hx3 : (stL = stK ∨ stL = stL) := by decide
  by_cases hm : [kf[i]] = runeString c
  · obtain ⟨hc, hc128⟩ := (rune_match kf[i] c).mp hm
    by_cases hlast : i + 1 = kf.length
    · have hstep : ∀ f, insertLoopLog kn (f + 1)
          ⟨⟨root, nodes, dr⟩, kf, (Trie.L p c dup).root, prev, false, i⟩ log
          = insertLoopLog kn f
              ⟨⟨root, nodes, dr⟩, itoa kn, dup.root, (p : Int), true, 0⟩ log := by
        intro f
        simp [insertLoopLog, nodeAt_mk _ _ _ _ _ hnode, bind, Except.bind, hx1, hx2, hx3,
          sliceAt_lt kf i hi, runeString_ascii c hc128, hc, hlast, decimaliseNumber]
      have h0 : 0 < (itoa kn).length := List.length_pos.mpr (itoa_ne_nil kn)
      have hlink : PrevLink nodes root dup (p : Int) true (itoa kn)[0] true := by
        right
        refine ⟨p, _, rfl, hnode, hpd, rfl, ?_⟩
        simp
      obtain ⟨s', dup', taken, hrun, hpost⟩ := ihd root nodes dr ps (p : Int) (itoa kn) 0
        (p : Int) true (some []) log hrd hndd hw hfree hpsnd hdps h0
        (Or.inr ⟨by simp, rfl, rfl⟩) hlink (cast_inj_not_mem p ps hpps)
      obtain ⟨-, hnode'⟩ := room_unpack _ _ _ _ _ _ _ _ _ _ _ _ hpost hnode
      refine ⟨s', Trie.L p c dup', taken,
        run_descend kn _ _ log log _ _ _ hstep (need_L_dup p c dup) hrun, ?_⟩
      apply room_lift nodes root ps (Trie.L p c dup) (Trie.L p c dup') dup dup' th (p : Int)
        prev p _ true leftSide false kf[i] none (some []) s' taken hpost hprev hprevps hnode
      · simp [Trie.positions]
      · intro q hq; simp [Trie.positions, hq]
      · rfl
      · simp only [Rep]
        exact ⟨by simpa using hnode', hpost.rep⟩
      · simp only [Wired]; exact hpost.wired
      · simp only [Trie.positions, List.nodup_cons]
        exact ⟨fun h => hpd (room_fresh _ _ _ _ _ _ _ _ _ _ _ hpost p h hplt hpps), hpost.nodup⟩
      · intro q hq
        simp only [Trie.positions, List.mem_cons] at hq ⊢
        rcases hq with h | h
        · left; left; exact h
        · right; exact h
    · have hstop : ∀ f, insertLoopLog kn (f + 1)
          ⟨⟨root, nodes, dr⟩, kf, (Trie.L p c dup).root, prev, false, i⟩ log
          = .ok (.inr ⟨⟨root, nodes, dr⟩, kf, (Trie.L p c dup).root, prev, false, i⟩,
              log) := by
        intro f
        simp [insertLoopLog, nodeAt_mk _ _ _ _ _ hnode, bind, Except.bind, hx1, hx2, hx3,
          sliceAt_lt kf i hi, runeString_ascii c hc128, hc, hlast]
      obtain ⟨s', t', hfin, hpost⟩ := room_extend_dup root nodes dr ps p c dup th kf i kn prev
        false leftSide log hfree hpsnd htps hprevps hrep0 hnd0 hw0 hi hm
        (Nat.lt_of_le_of_ne hi hlast) hprev
      exact ⟨s', t', _, run_stop kn _ log _ _ 0 hstop (need_pos _ _) (Nat.zero_le _)
        (fun fF _ => hfin fF), hpost⟩
  · have hstop : ∀ f, insertLoopLog kn (f + 1)
        ⟨⟨root, nodes, dr⟩, kf, (Trie.L p c dup).root, prev, false, i⟩ log
        = .ok (.inr ⟨⟨root, nodes, dr⟩, kf, (Trie.L p c dup).root, prev, false, i⟩,
            log) := by
      intro f
      simp [insertLoopLog, nodeAt_mk _ _ _ _ _ hnode, bind, Except.bind, hx1, hx2, hx3,
        sliceAt_lt kf i hi, hm]
    obtain ⟨s', t', hfin, hpost⟩ := room_mismatch root nodes dr ps (Trie.L p c dup) th kf i
      kn prev false leftSide none log _ hfree hpsnd htps hprevps hrep0 hnd0 hw0 hnode hi hm
      hmode hprev
    exact ⟨s', t', _, run_stop kn _ log _ _ _ hstop (need_pos _ _) (visits_le_need _ _) hfin,
      hpost⟩

theorem room_K (kn : Int) (dupFlag : Bool) (p c : Nat) (dup next : Trie)
    (ihd : RoomSpec kn true dup) (ihn : RoomSpec kn dupFlag next) :
    RoomSpec kn dupFlag (Trie.K p c dup next) := by
  intro root nodes dr ps th kf i prev leftSide sec log hrep hnd hw hfree hpsnd htps hi hmode
    hprev hprevps
  have hsec : sec = none := wired_main_K sec p c dup next hw
  have hdf := main_of_dup_node sec dupFlag kf i kn hsec hmode
  subst hsec hdf
  have hw0 := hw
  have hrep0 := hrep
  have hnd0 := hnd
  simp only [Wired] at hw
  obtain ⟨hwd, hwn⟩ := hw
  have hlen := Rep_lt nodes _ th hrep
  simp only [Rep] at hrep
  obtain ⟨hnode, hrd, hrn⟩ := hrep
  simp only [Trie.positions, List.nodup_cons, List.nodup_append, List.mem_append, not_or] at hnd
  obtain ⟨⟨hpd, hpn⟩, hndd, hndn, hdisj⟩ := hnd
  have hplt := getElem?_some_lt nodes p _ hnode
  have hpps : p ∉ ps := htps p (by simp [Trie.positions])
  have hdps : ∀ q ∈ dup.positions, q ∉ ps := fun q hq => htps q (by simp [Trie.positions, hq])
  have hnps : ∀ q ∈ next.positions, q ∉ ps := fun q hq => htps q (by simp [Trie.positions, hq])
  have hx1 : ¬ (stK = stR ∨ stK = stS) := by decide
  have hx2 : ¬ (stK = stD) := by decide
  have hx3 : (stK = stK ∨ stK = stL) := by decide
  have hx4 : ¬ (stK = stL) := by decide
  by_cases hm : [kf[i]] = runeString c
  · obtain ⟨hc, hc128⟩ := (rune_match kf[i] c).mp hm
    by_cases hlast : i + 1 = kf.length
    · have hstep : ∀ f, insertLoopLog kn (f + 1)
          ⟨⟨root, nodes, dr⟩, kf, (Trie.K p c dup next).root, prev, false, i⟩ log
          = insertLoopLog kn f
              ⟨⟨root, nodes, dr⟩, itoa kn, dup.root, (p : Int), true, 0⟩ log := by
        intro f
        simp [insertLoopLog, nodeAt_mk _ _ _ _ _ hnode, bind, Except.bind, hx1, hx2, hx3,
          sliceAt_lt kf i hi, runeString_ascii c hc128, hc, hlast, decimaliseNumber]
      have h0 : 0 < (itoa kn).length := List.length_pos.mpr (itoa_ne_nil kn)
      have hlink : PrevLink nodes root dup (p : Int) true (itoa kn)[0] true := by
        right
        refine ⟨p, _, rfl, hnode, hpd, rfl, ?_⟩
        simp
      obtain ⟨s', dup', taken, hrun, hpost⟩ := ihd root nodes dr ps (p : Int) (itoa kn) 0
        (p : Int) true (some []) log hrd hndd hwd hfree hpsnd hdps h0
        (Or.inr ⟨by simp, rfl, rfl⟩) hlink (cast_inj_not_mem p ps hpps)
      obtain ⟨-, hnode'⟩ := room_unpack _ _ _ _ _ _ _ _ _ _ _ _ hpost hnode
      refine ⟨s', Trie.K p c dup' next, taken,
        run_descend kn _ _ log log _ _ _ hstep (need_K_dup p c dup next) hrun, ?_⟩
      apply room_lift nodes root ps (Trie.K p c dup next) (Trie.K p c dup' next) dup dup' th
        (p : Int) prev p _ true leftSide false kf[i] none (some []) s' taken hpost hprev hprevps
        hnode
      · simp [Trie.positions]
      · intro q hq; simp [Trie.positions, hq]
      · rfl
      · simp only [Rep]
        refine ⟨by simpa using hnode', hpost.rep, ?_⟩
        exact room_sibling _ _ _ _ _ _ _ _ _ _ _ hpost next _ hrn hpn hnps
          (fun q hq h => hdisj h hq)
      · simp only [Wired]; exact ⟨hpost.wired, hwn⟩
      · simp only [Trie.positions, List.nodup_cons, List.nodup_append, List.mem_append, not_or]
        refine ⟨⟨fun h => hpd (room_fresh _ _ _ _ _ _ _ _ _ _ _ hpost p h hplt hpps), hpn⟩,
          hpost.nodup, hndn, ?_⟩
        intro q h1 h2
        have hq := hlen q (by simp [Trie.positions, h2])
        exact hdisj (room_fresh _ _ _ _ _ _ _ _ _ _ _ hpost q h1 hq (hnps q h2)) h2
      · intro q hq
        simp only [Trie.positions, List.mem_cons, List.mem_append] at hq ⊢
        rcases hq with h | h | h
        · left; left; exact h
        · right; exact h
        · left; right; right; exact h
    · have hi2 : i + 1 < kf.length := Nat.lt_of_le_of_ne hi hlast
      have hstep : ∀ f, insertLoopLog kn (f + 1)
          ⟨⟨root, nodes, dr⟩, kf, (Trie.K p c dup next).root, prev, false, i⟩ log
          = insertLoopLog kn f
              ⟨⟨root, nodes, dr⟩, kf, next.root, (p : Int), false, i + 1⟩ log := by
        intro f
        simp [insertLoopLog, nodeAt_mk _ _ _ _ _ hnode, bind, Except.bind, hx1, hx2, hx3, hx4,
          sliceAt_lt kf i hi, runeString_ascii c hc128, hc, hlast]
      have hlink : PrevLink nodes root next (p : Int) false kf[i + 1] false := by
        right
        refine ⟨p, _, rfl, hnode, hpn, rfl, ?_⟩
        simp [hx2, hx4]
      obtain ⟨s', next', taken, hrun, hpost⟩ := ihn root nodes dr ps th kf (i + 1) (p : Int)
        false none log hrn hndn hwn hfree hpsnd hnps hi2 (Or.inl ⟨rfl, rfl⟩) hlink
        (cast_inj_not_mem p ps hpps)
      obtain ⟨-, hnode'⟩ := room_unpack _ _ _ _ _ _ _ _ _ _ _ _ hpost hnode
      refine ⟨s', Trie.K p c dup next', taken,
        run_descend kn _ _ log log _ _ _ hstep (need_K_next p c dup next) hrun, ?_⟩
      apply room_lift nodes root ps (Trie.K p c dup next) (Trie.K p c dup next') next next' th
        th prev p _ false leftSide false kf[i] none none s' taken hpost hprev hprevps hnode
      · simp [Trie.positions]
      · intro q hq; simp [Trie.positions, hq]
      · rfl
      · simp only [Rep]
        refine ⟨by simpa using hnode', ?_, hpost.rep⟩
        exact room_sibling _ _ _ _ _ _ _ _ _ _ _ hpost dup _ hrd hpd hdps
          (fun q hq h => hdisj hq h)
      · simp only [Wired]; exact ⟨hwd, hpost.wired⟩
      · simp only [Trie.positions, List.nodup_cons, List.nodup_append, List.mem_append, not_or]
        refine ⟨⟨hpd, fun h => hpn (room_fresh _ _ _ _ _ _ _ _ _ _ _ hpost p h hplt hpps)⟩,
          hndd, hpost.nodup, ?_⟩
        intro q h1 h2
        have hq := hlen q (by simp [Trie.positions, h1])
        exact hdisj h1 (room_fresh _ _ _ _ _ _ _ _ _ _ _ hpost q h2 hq (hdps q h1))
      · intro q hq
        simp only [Trie.positions, List.mem_cons, List.mem_append] at hq ⊢
        rcases hq with h | h | h
        · left; left; exact h
        · left; right; left; exact h
        · right; exact h
  · have hstop : ∀ f, insertLoopLog kn (f + 1)
        ⟨⟨root, nodes, dr⟩, kf, (Trie.K p c dup next).root, prev, false, i⟩ log
        = .ok (.inr ⟨⟨root, nodes, dr⟩, kf, (Trie.K p c dup next).root, prev, false, i⟩,
            log) := by
      intro f
      simp [insertLoopLog, nodeAt_mk _ _ _ _ _ hnode, bind, Except.bind, hx1, hx2, hx3,
        sliceAt_lt kf i hi, hm]
    obtain ⟨s', t', hfin, hpost⟩ := room_mismatch root nodes dr ps (Trie.K p c dup next) th kf i
      kn prev false leftSide none log _ hfree hpsnd htps hprevps hrep0 hnd0 hw0 hnode hi hm
      hmode hprev
    exact ⟨s', t', _, run_stop kn _ log _ _ _ hstop (need_pos _ _) (visits_le_need _ _) hfin,
      hpost⟩

/-! ### `Insert` accounts for its slots on every tree -/

theorem room_gen (kn : Int) (t : Trie) :
    ∀ dupFlag, (dupFlag = false → ∀ t0, RoomSpec kn true t0) → RoomSpec kn dupFlag t := by
  induction t with
  | S p c id => intro d h; exact room_S kn d p c id h
  | R p c id next ih => intro d h; exact room_R kn d p c id next h (ih d h)
  | X p c next ih => intro d h; exact room_X kn d p c next (ih d h)
  | L p c dup ih => intro d h; exact room_L kn d p c dup (ih true (by simp))
  | K p c dup next ihd ihn =>
    intro d h; exact room_K kn d p c dup next (ihd true (by simp)) (ihn d h)
  | D p c l r ihl ihr => intro d h; exact room_D kn d p c l r (ihl d h) (ihr d h)

theorem room_secondary (kn : Int) (t : Trie) : RoomSpec kn true t :=
  room_gen kn t true (by simp)

theorem room_spec (kn : Int) (dupFlag : Bool) (t : Trie) : RoomSpec kn dupFlag t :=
  room_gen kn t dupFlag (fun _ => room_secondary kn)

/-! ### The slots of a call of `Insert` -/

theorem InsertLog_run (fuel : Nat) (key : List Nat) (kn : Int) (s : Index)
    (hk : ¬ (canonical key).length = 0) (hroot : ¬ s.indexRoot = nullIndexPointer) :
    InsertLog fuel key kn s
      = insertRunLog fuel fuel kn
          ⟨s, canonical key, s.indexRoot, nullIndexPointer, false, 0⟩ [] := by
  simp only [InsertLog, insertRunLog, hk, hroot, if_false, bind, Except.bind]
  cases insertLoopLog kn fuel ⟨s, canonical key, s.indexRoot, nullIndexPointer, false, 0⟩ []
    with
  | error e => rfl
  | ok v =>
    obtain ⟨r, lg⟩ := v
    cases r <;> rfl

theorem insert_roomy (s : Index) (ps : List Nat) (key : List Nat) (kn : Int)
    (h : Roomy s ps) :
    ∃ (N : Nat) (s' : Index) (log : List Taken),
      (∀ fuel, N ≤ fuel → InsertLog fuel key kn s = .ok (s', log))
      ∧ s'.node.length = s.node.length + (slotsTaken log - ps.length)
      ∧ log.count Taken.decision ≤ 1
      ∧ Roomy s' (ps.drop (slotsTaken log)) := by
  obtain ⟨hfree, hpsnd, htree⟩ := h
  have hps := FreeList_lt s.node ps s.deletedRoot hfree
  by_cases hk : (canonical key).length = 0
  · refine ⟨0, s, [], fun fuel _ => by simp [InsertLog, hk], by simp [slotsTaken_nil],
      by simp, ?_⟩
    rw [slotsTaken_nil, List.drop_zero]
    exact ⟨hfree, hpsnd, htree⟩
  · have hkne : canonical key ≠ [] := fun e => hk (by rw [e]; rfl)
    by_cases hroot : s.indexRoot = nullIndexPointer
    · obtain ⟨ch, s1, hext, -, hlen1, hfree1, hrepc, hndc, hposc, -, -, hw0, -⟩ :=
        room_extend kn nullIndexPointer s ps hfree hpsnd (canonical key) hkne
      refine ⟨0, { s1 with indexRoot := ch.root }, [Taken.chain (canonical key)],
        fun fuel _ => by simp [InsertLog, hk, hroot, hext, bind, Except.bind],
        by rw [slotsTaken_chain]; exact hlen1, count_chain _, ?_⟩
      rw [slotsTaken_chain]
      refine ⟨hfree1, List.Nodup.sublist (List.drop_sublist _ ps) hpsnd, Or.inr ?_⟩
      exact ⟨ch, rfl, hrepc, hndc, hw0,
        fun q hq h => allocated_drop ps s.node.length _ q hps hpsnd h (hposc q hq)⟩
    · rcases htree with h0 | ⟨t, hrt, hrep, hnd, hw, htps⟩
      · exact absurd h0 hroot
      · have hi : 0 < (canonical key).length := Nat.pos_of_ne_zero hk
        obtain ⟨root, nodes, dr⟩ := s
        simp only at hfree hps hroot hrt hrep
        subst hrt
        obtain ⟨s', t', taken, hrun, hpost⟩ := room_spec kn false t t.root nodes dr ps
          nullIndexPointer (canonical key) 0 nullIndexPointer false none [] hrep hnd hw hfree
          hpsnd htps hi (Or.inl ⟨rfl, rfl⟩) (Or.inl ⟨rfl, rfl⟩)
          (fun pp h => absurd h.symm (natCast_ne_null pp))
        refine ⟨need false t, s', taken, ?_, hpost.length_eq, hpost.decisions, hpost.free,
          List.Nodup.sublist (List.drop_sublist _ ps) hpsnd, Or.inr ?_⟩
        · intro fuel hfuel
          rw [InsertLog_run fuel key kn _ hk hroot]
          exact hrun fuel fuel hfuel hfuel
        · refine ⟨t', hpost.root_link rfl, hpost.rep, hpost.nodup, hpost.wired, ?_⟩
          intro q hq h
          rcases hpost.pos_new q hq with h1 | h1
          · exact htps q h1 (List.mem_of_mem_drop h)
          · exact allocated_drop ps nodes.length _ q hps hpsnd h h1

/-! ### The slots of a call of `Insert` on any index -/

theorem took_same (s s' : Index) (hl : s'.node.length = s.node.length)
    (hd : s'.deletedRoot = s.deletedRoot) : Took s s' 0 :=
  ⟨by rw [hl], by rw [hl]; exact Nat.le_refl _, fun _ => hd,
    fun h => ⟨by rw [hd]; exact h, by rw [hl]; rfl⟩⟩

theorem took_refl (s : Index) : Took s s 0 := took_same s s rfl rfl

theorem took_trans (a b c : Index) (j k : Nat) (h1 : Took a b j) (h2 : Took b c k) :
    Took a c (j + k) := by
  obtain ⟨a1, a2, a3, a4⟩ := h1
  obtain ⟨b1, b2, b3, b4⟩ := h2
  refine ⟨Nat.le_trans a1 b1, by omega, ?_, ?_⟩
  · intro h
    rw [b3 (by omega), a3 (by omega)]
  · intro h
    obtain ⟨h1, h2⟩ := a4 h
    obtain ⟨h3, h4⟩ := b4 h1
    exact ⟨h3, by omega⟩

theorem took_root (a b : Index) (k : Nat) (r : Int) (h : Took a b k) :
    Took a { b with indexRoot := r } k := h

theorem setNode_took (s : Index) (x : Int) (m : indexNode) (s' : Index)
    (h : setNode s x m = .ok s') : Took s s' 0 := by
  obtain ⟨_, _, rfl⟩ := setNode_ok s x m s' h
  exact took_same _ _ (by simp) rfl

theorem setStatus_took (s : Index) (x : Int) (v : Nat) (s' : Index)
    (h : setStatus s x v = .ok s') : Took s s' 0 := by
  unfold setStatus at h
  cases hn : nodeAt s x with
  | error e => simp [hn] at h
  | ok n => simp only [hn] at h; exact setNode_took _ _ _ _ h

theorem setLeft_took (s : Index) (x v : Int) (s' : Index)
    (h : setLeft s x v = .ok s') : Took s s' 0 := by
  unfold setLeft at h
  cases hn : nodeAt s x with
  | error e => simp [hn] at h
  | ok n => simp only [hn] at h; exact setNode_took _ _ _ _ h

theorem setKey_took (s : Index) (x : Int) (v : Nat) (s' : Index)
    (h : setKey s x v = .ok s') : Took s s' 0 := by
  unfold setKey at h
  cases hn : nodeAt s x with
  | error e => simp [hn] at h
  | ok n => simp only [hn] at h; exact setNode_took _ _ _ _ h

theorem setRight_took (s : Index) (x v : Int) (s' : Index)
    (h : setRight s x v = .ok s') : Took s s' 0 := by
  unfold setRight at h
  cases hn : nodeAt s x with
  | error e => simp [hn] at h
  | ok n => simp only [hn] at h; exact setNode_took _ _ _ _ h

theorem allocNode_took (n : indexNode) (s : Index) (d : Int) (s' : Index)
    (h : allocNode n s = .ok (d, s')) : Took s s' 1 := by
  unfold allocNode at h
  split at h
  · rename_i hnull
    cases h
    exact ⟨by simp, by simp, fun h => absurd h (by decide), fun _ => ⟨hnull, by simp⟩⟩
  · rename_i hnull
    split at h
    · cases h
    · split at h
      · cases h
      · rename_i s1 hs1
        cases h
        obtain ⟨_, _, rfl⟩ := setNode_ok _ _ _ _ hs1
        exact ⟨by simp, by simp, fun h => absurd h (by decide), fun h => absurd h hnull⟩

theorem extendFrom_took (kn t : Int) (s : Index) : ∀ (kf : List Nat) (p : Int) (s' : Index),
    extendFrom kf kn t s = .ok (p, s') → Took s s' kf.length := by
  intro kf
  induction kf with
  | nil =>
    intro p s' h
    simp only [extendFrom] at h
    cases h
    exact took_refl s
  | cons c rest ih =>
    intro p s' h
    simp only [extendFrom] at h
    split at h
    · cases h
    · rename_i q s1 h1
      have := ih q s1 h1
      split at h
      · exact took_trans _ _ _ _ _ this (allocNode_took _ _ _ _ h)
      · exact took_trans _ _ _ _ _ this (allocNode_took _ _ _ _ h)

theorem extend_took (kn t : Int) (s : Index) (kf : List Nat) (p : Int) (s' : Index)
    (h : extend kf kn t s = .ok (p, s')) : Took s s' kf.length :=
  extendFrom_took kn t s kf p s' h

theorem insertRelink_took (s : Index) (prev : Int) (flag : Bool) (c : List Nat) (d : Int)
    (s' : Index) (h : insertRelink s prev flag c d = .ok s') : Took s s' 0 := by
  unfold insertRelink at h
  split at h
  · cases h; exact took_refl s
  · obtain ⟨p, _, h⟩ := bind_ok _ _ _ h
    split at h
    · exact setLeft_took _ _ _ _ h
    · exact setRight_took _ _ _ _ h

theorem took_zero_add (a b c : Index) (k : Nat) (h1 : Took a b 0) (h2 : Took b c k) :
    Took a c k := by
  have := took_trans a b c 0 k h1 h2
  rwa [Nat.zero_add] at this

theorem took_add_zero (a b c : Index) (k : Nat) (h1 : Took a b k) (h2 : Took b c 0) :
    Took a c k := took_trans a b c k 0 h1 h2

theorem insertFinishLog_took (fuel : Nat) (kn : Int) (st : InsertState) (log : List Taken)
    (s' : Index) (log' : List Taken)
    (h : insertFinishLog fuel kn st log = .ok (s', log')) :
    ∃ taken, log' = log ++ taken ∧ Took st.indexStructure s' (slotsTaken taken)
      ∧ (taken = [] ∨ ∃ text, taken = [Taken.chain text]
          ∨ taken = [Taken.decision, Taken.chain text]) := by
  unfold insertFinishLog at h
  obtain ⟨n, hn, h⟩ := bind_ok _ _ _ h
  obtain ⟨c, hc, h⟩ := bind_ok _ _ _ h
  split at h
  · split at h
    · obtain ⟨s1, h1, h⟩ := bind_ok _ _ _ h
      obtain ⟨s2, h2, h⟩ := bind_ok _ _ _ h
      cases h
      refine ⟨[], by simp, ?_, Or.inl rfl⟩
      rw [slotsTaken_nil]
      exact took_zero_add _ _ _ _ (setStatus_took _ _ _ _ h1) (setLeft_took _ _ _ _ h2)
    · obtain ⟨⟨p0, s1⟩, he, h⟩ := bind_ok _ _ _ h
      simp only [] at h
      obtain ⟨n1, _, h⟩ := bind_ok _ _ _ h
      obtain ⟨s2, h2, h⟩ := bind_ok _ _ _ h
      obtain ⟨s3, h3, h⟩ := bind_ok _ _ _ h
      cases h
      refine ⟨_, rfl, ?_, Or.inr ⟨_, Or.inl rfl⟩⟩
      rw [slotsTaken_chain]
      exact took_add_zero _ _ _ _ (took_add_zero _ _ _ _ (extend_took _ _ _ _ _ _ he)
        (setStatus_took _ _ _ _ h2)) (setRight_took _ _ _ _ h3)
  · obtain ⟨⟨dx, s1⟩, ha, h⟩ := bind_ok _ _ _ h
    simp only [] at h
    obtain ⟨n1, _, h⟩ := bind_ok _ _ _ h
    have hA := allocNode_took _ _ _ _ ha
    split at h
    on_goal 1 =>
      obtain ⟨ti, _, h⟩ := bind_ok _ _ _ h
      obtain ⟨t, _, h⟩ := bind_ok _ _ _ h
      obtain ⟨s, hs, h⟩ := bind_ok _ _ _ h
      obtain ⟨y, hy, h⟩ := bind_ok _ _ _ h
      have hY : Took s1 y.2 0 := by
        cases hy
        exact setRight_took _ _ _ _ hs
    on_goal 2 =>
      obtain ⟨y, hy, h⟩ := bind_ok _ _ _ h
      have hY : Took s1 y.2 0 := by
        cases hy
        exact took_refl _
    all_goals
      obtain ⟨y3, he, h⟩ := bind_ok _ _ _ h
      have hE := extend_took _ _ _ _ _ _ he
      obtain ⟨n3, _, h⟩ := bind_ok _ _ _ h
      have hS : ∃ s6, Took y3.2 s6 0
          ∧ ∃ s7, insertRelink s6 st.previousIndexNumber st.duplicateFlag c dx = .ok s7
            ∧ (s', log') = (s7, log ++ [Taken.decision, Taken.chain (st.keyField.drop st.i)]) := by
        split at h
        · obtain ⟨s4, h4, h⟩ := bind_ok _ _ _ h
          obtain ⟨b, _, h⟩ := bind_ok _ _ _ h
          obtain ⟨s5, h5, h⟩ := bind_ok _ _ _ h
          obtain ⟨s6, h6, h⟩ := bind_ok _ _ _ h
          obtain ⟨s7, h7, h⟩ := bind_ok _ _ _ h
          cases h
          exact ⟨s6, took_zero_add _ _ _ _ (setLeft_took _ _ _ _ h4)
            (took_zero_add _ _ _ _ (setKey_took _ _ _ _ h5) (setRight_took _ _ _ _ h6)),
            _, h7, rfl⟩
        · obtain ⟨s4, h4, h⟩ := bind_ok _ _ _ h
          obtain ⟨n4, _, h⟩ := bind_ok _ _ _ h
          obtain ⟨s5, h5, h⟩ := bind_ok _ _ _ h
          obtain ⟨s6, h6, h⟩ := bind_ok _ _ _ h
          obtain ⟨s7, h7, h⟩ := bind_ok _ _ _ h
          cases h
          exact ⟨s6, took_zero_add _ _ _ _ (setLeft_took _ _ _ _ h4)
            (took_zero_add _ _ _ _ (setKey_took _ _ _ _ h5) (setRight_took _ _ _ _ h6)),
            _, h7, rfl⟩
      obtain ⟨s6, hS, s7, h7, heq⟩ := hS
      cases heq
      refine ⟨_, rfl, ?_, Or.inr ⟨_, Or.inr rfl⟩⟩
      rw [slotsTaken_split]
      exact took_add_zero _ _ _ _ (took_add_zero _ _ _ _
        (took_trans _ _ _ _ _ (took_add_zero _ _ _ _ hA hY) hE) hS)
        (insertRelink_took _ _ _ _ _ _ h7)

theorem count_chains (texts : List (List Nat)) :
    (texts.map Taken.chain).count Taken.decision = 0 := by
  induction texts with
  | nil => rfl
  | cons t rest ih => rw [List.map_cons, count_cons_chain]; exact ih

theorem insertLoopLog_took (kn : Int) : ∀ (fuel : Nat) (st : InsertState) (log : List Taken)
    (r : Index ⊕ InsertState) (log' : List Taken),
    insertLoopLog kn fuel st log = .ok (r, log') →
    ∃ texts : List (List Nat), log' = log ++ texts.map Taken.chain
      ∧ (∀ s', r = .inl s' → Took st.indexStructure s' (slotsTaken (texts.map Taken.chain)))
      ∧ (∀ st1, r = .inr st1 →
          Took st.indexStructure st1.indexStructure (slotsTaken (texts.map Taken.chain))) := by
  intro fuel
  induction fuel with
  | zero => intro st log r log' h; cases h
  | succ f ih =>
    intro st log r log' h
    have hbase : ∀ (r0 : Index ⊕ InsertState),
        (r0 = .inl st.indexStructure ∨ r0 = .inr st) →
        (Except.ok (r0, log) : Except Fault ((Index ⊕ InsertState) × List Taken))
          = .ok (r, log') →
        ∃ texts : List (List Nat), log' = log ++ texts.map Taken.chain
          ∧ (∀ s', r = .inl s' →
              Took st.indexStructure s' (slotsTaken (texts.map Taken.chain)))
          ∧ (∀ st1, r = .inr st1 →
              Took st.indexStructure st1.indexStructure
                (slotsTaken (texts.map Taken.chain))) := by
      intro r0 hr0 h0
      cases h0
      refine ⟨[], by simp, ?_, ?_⟩
      · intro s' hs'
        rcases hr0 with e | e
        · rw [e] at hs'; cases hs'; exact took_refl _
        · rw [e] at hs'; cases hs'
      · intro st1 hst1
        rcases hr0 with e | e
        · rw [e] at hst1; cases hst1
        · rw [e] at hst1; cases hst1; exact took_refl _
    rw [insertLoopLog] at h
    obtain ⟨n, hn, h⟩ := bind_ok _ _ _ h
    split at h
    · obtain ⟨c, hc, h⟩ := bind_ok _ _ _ h
      split at h
      · split at h
        · split at h
          · exact hbase _ (Or.inl rfl) h
          · obtain ⟨⟨link, s1⟩, he, h⟩ := bind_ok _ _ _ h
            simp only [] at h
            obtain ⟨n1, _, h⟩ := bind_ok _ _ _ h
            obtain ⟨s2, h2, h⟩ := bind_ok _ _ _ h
            obtain ⟨s3, h3, h⟩ := bind_ok _ _ _ h
            obtain ⟨texts, hlog, hl, hr⟩ := ih _ _ _ _ h
            have hT : Took st.indexStructure s3 (decimaliseNumber n.leftPointer).length :=
              took_add_zero _ _ _ _ (took_add_zero _ _ _ _ (extend_took _ _ _ _ _ _ he)
                (setStatus_took _ _ _ _ h2)) (setLeft_took _ _ _ _ h3)
            refine ⟨decimaliseNumber n.leftPointer :: texts, ?_, ?_, ?_⟩
            · rw [hlog, List.append_assoc]; rfl
            · intro s' hs'
              rw [List.map_cons, slotsTaken_cons_chain]
              exact took_trans _ _ _ _ _ hT (hl s' hs')
            · intro st1 hst1
              rw [List.map_cons, slotsTaken_cons_chain]
              exact took_trans _ _ _ _ _ hT (hr st1 hst1)
        · split at h
          · exact hbase _ (Or.inr rfl) h
          · have h0 := ih _ _ _ _ h
            exact h0
      · exact hbase _ (Or.inr rfl) h
    · split at h
      · obtain ⟨c, hc, h⟩ := bind_ok _ _ _ h
        split at h
        · have h0 := ih _ _ _ _ h
          exact h0
        · have h0 := ih _ _ _ _ h
          exact h0
      · split at h
        · obtain ⟨c, hc, h⟩ := bind_ok _ _ _ h
          split at h
          · split at h
            · have h0 := ih _ _ _ _ h
              exact h0
            · split at h
              · exact hbase _ (Or.inr rfl) h
              · have h0 := ih _ _ _ _ h
                exact h0
          · exact hbase _ (Or.inr rfl) h
        · split at h
          · obtain ⟨c, hc, h⟩ := bind_ok _ _ _ h
            split at h
            · split at h
              · exact hbase _ (Or.inr rfl) h
              · have h0 := ih _ _ _ _ h
                exact h0
            · exact hbase _ (Or.inr rfl) h
          · have h0 := ih _ _ _ _ h
            exact h0

theorem InsertLog_took (fuel : Nat) (key : List Nat) (kn : Int) (s s' : Index)
    (log : List Taken) (h : InsertLog fuel key kn s = .ok (s', log)) :
    Took s s' (slotsTaken log)
    ∧ ∃ (texts : List (List Nat)) (last : List Taken),
        log = texts.map Taken.chain ++ last
        ∧ (last = [] ∨ ∃ text, last = [Taken.chain text]
            ∨ last = [Taken.decision, Taken.chain text]) := by
  unfold InsertLog at h
  simp only [] at h
  split at h
  · cases h
    exact ⟨took_refl s, [], [], rfl, Or.inl rfl⟩
  · split at h
    · obtain ⟨⟨p, s1⟩, he, h⟩ := bind_ok _ _ _ h
      cases h
      refine ⟨?_, [], _, rfl, Or.inr ⟨_, Or.inl rfl⟩⟩
      rw [slotsTaken_chain]
      exact took_root _ _ _ _ (extend_took _ _ _ _ _ _ he)
    · obtain ⟨⟨r, lg⟩, hl, h⟩ := bind_ok _ _ _ h
      obtain ⟨texts, hlg, hinl, hinr⟩ := insertLoopLog_took kn fuel _ _ _ _ hl
      simp only [List.nil_append] at hlg
      subst hlg
      cases r with
      | inl s1 =>
        simp only [] at h
        cases h
        exact ⟨hinl _ rfl, texts, [], by simp, Or.inl rfl⟩
      | inr st1 =>
        simp only [] at h
        obtain ⟨taken2, hlog2, htook2, hshape⟩ := insertFinishLog_took fuel kn st1 _ _ _ h
        subst hlog2
        refine ⟨?_, texts, taken2, rfl, hshape⟩
        rw [slotsTaken_append]
        exact took_trans _ _ _ _ _ (hinr _ rfl) htook2

theorem count_record (texts : List (List Nat)) (last : List Taken)
    (h : last = [] ∨ ∃ text, last = [Taken.chain text]
      ∨ last = [Taken.decision, Taken.chain text]) :
    (texts.map Taken.chain ++ last).count Taken.decision ≤ 1 := by
  rw [List.count_append, count_chains, Nat.zero_add]
  rcases h with h | ⟨text, h | h⟩
  · rw [h]; simp
  · rw [h]; exact count_chain _
  · rw [h]; exact count_split _

theorem Insert_record (fuel : Nat) (key : List Nat) (kn : Int) (s s' : Index)
    (h : Insert fuel key kn s = .ok s') :
    ∃ log, InsertLog fuel key kn s = .ok (s', log) := by
  have hidx := InsertLog_index fuel key kn s
  rw [h] at hidx
  cases hl : InsertLog fuel key kn s with
  | error e => rw [hl] at hidx; cases hidx
  | ok v =>
    rw [hl] at hidx
    obtain ⟨s1, log⟩ := v
    simp only [Except.map] at hidx
    cases hidx
    exact ⟨log, rfl⟩

/-- C22, amended: chain construction is the only allocator apart from the slot
of the decision node. `InsertLog` is `Insert` with a record of the places where
a slot is popped from the free list or appended to the node array: every call
of `extend`, which takes one slot for every byte of its text, and the block in
which `Insert` itself takes the slot of the new decision node of a split.
Every call of `Insert` that returns, on any index, has such a record: calls of
`extend` and at most one decision node, which comes directly before the last
call of `extend`; the node array has grown by no more than the slots of the
record; without a slot in the record the head of the free list is the same;
and from an empty free list every slot of the record is appended. On every
well-formed index, with the free list `ps`, the call returns, exactly the
slots of the record are taken, from the free list as long as it has slots and
at the end of the node array then, and the index is well formed again. -/
theorem insert_slots_accounted (s : Index) (key : List Nat) (kn : Int) :
    (∀ (fuel : Nat) (s' : Index), Insert fuel key kn s = .ok s' →
      ∃ log : List Taken, InsertLog fuel key kn s = .ok (s', log)
        ∧ (∃ (texts : List (List Nat)) (last : List Taken),
            log = texts.map Taken.chain ++ last
            ∧ (last = [] ∨ ∃ text, last = [Taken.chain text]
                ∨ last = [Taken.decision, Taken.chain text]))
        ∧ log.count Taken.decision ≤ 1
        ∧ s.node.length ≤ s'.node.length
        ∧ s'.node.length ≤ s.node.length + slotsTaken log
        ∧ (slotsTaken log = 0 → s'.deletedRoot = s.deletedRoot)
        ∧ (s.deletedRoot = nullIndexPointer →
            s'.deletedRoot = nullIndexPointer
              ∧ s'.node.length = s.node.length + slotsTaken log))
    ∧ (∀ ps : List Nat, Roomy s ps →
      ∃ (N : Nat) (s' : Index) (log : List Taken),
        (∀ fuel, N ≤ fuel →
          InsertLog fuel key kn s = .ok (s', log) ∧ Insert fuel key kn s = .ok s')
        ∧ log.count Taken.decision ≤ 1
        ∧ s'.node.length = s.node.length + (slotsTaken log - ps.length)
        ∧ FreeList s'.node s'.deletedRoot (ps.drop (slotsTaken log))
        ∧ Roomy s' (ps.drop (slotsTaken log))) := by
  constructor
  · intro fuel s' h
    obtain ⟨log, hlog⟩ := Insert_record fuel key kn s s' h
    obtain ⟨⟨h1, h2, h3, h4⟩, texts, last, hshape, hlast⟩ :=
      InsertLog_took fuel key kn s s' log hlog
    refine ⟨log, hlog, ⟨texts, last, hshape, hlast⟩, ?_, h1, h2, h3, h4⟩
    rw [hshape]
    exact count_record texts last hlast
  · intro ps hroomy
    obtain ⟨N, s', log, hrun, hlen, hcount, hroomy'⟩ := insert_roomy s ps key kn hroomy
    refine ⟨N, s', log, ?_, hcount, hlen, hroomy'.1, hroomy'⟩
    intro fuel hfuel
    have h := hrun fuel hfuel
    refine ⟨h, ?_⟩
    have hidx := InsertLog_index fuel key kn s
    rw [h] at hidx
    exact hidx.symm

/-- C22, amended, at `Insert("b",2)` on the index of three nodes whose free list
holds the slots 1 and 2, the index that `Insert("a",1)`, `Insert("b",2)` and
`Delete("b",2)` leave: the record is the decision node and the call of
`extend` with the text `"b"`; both slots come from the free list, which is
empty then, and the node array keeps its length. -/
theorem insert_slots_accounted_witness :
    (Insert 8 [97] 1 emptyIndex >>= Insert 8 [98] 2 >>= Delete 8 [98] 2) = .ok recycledIndex
    ∧ Roomy recycledIndex [1, 2]
    ∧ InsertLog 8 [98] 2 recycledIndex
        = .ok ({ indexRoot := 1,
                 node := [⟨stS, 1, 97, 1⟩, ⟨stD, 0, 97, 2⟩, ⟨stS, 2, 98, -1⟩],
                 deletedRoot := -1 }, [Taken.decision, Taken.chain [98]])
    ∧ ∃ (N : Nat) (s' : Index) (log : List Taken),
        (∀ fuel, N ≤ fuel →
          InsertLog fuel [98] 2 recycledIndex = .ok (s', log)
            ∧ Insert fuel [98] 2 recycledIndex = .ok s')
        ∧ log.count Taken.decision ≤ 1
        ∧ s'.node.length = recycledIndex.node.length + (slotsTaken log - [1, 2].length)
        ∧ FreeList s'.node s'.deletedRoot ([1, 2].drop (slotsTaken log))
        ∧ Roomy s' ([1, 2].drop (slotsTaken log)) :=
  have hroomy : Roomy recycledIndex [1, 2] :=
    ⟨by simp [FreeList, recycledIndex, nullIndexPointer], by decide,
      Or.inr ⟨Trie.S 0 97 1, rfl, by simp [Rep, recycledIndex, nullIndexPointer], by decide,
        trivial, by decide⟩⟩
  ⟨by decide, hroomy, by decide,
    (insert_slots_accounted recycledIndex [98] 2).2 [1, 2] hroomy⟩

/-! ### The listing on an index with a knot in its threads -/

/-- One turn of the collecting loop of `Search` at a position of `knotIndex`. -/
theorem knot_turn (fuel : Nat) (p : Nat) (g : Bool) (idx : List Int) (n : indexNode)
    (h : knotIndex.node[p]? = some n) :
    collectLoop knotIndex nullIndexPointer (fuel + 1) (p : Int) g idx =
      (if n.status = stR then
        collectLoop knotIndex nullIndexPointer fuel n.rightPointer true (idx ++ [n.leftPointer])
      else if n.status = stS then
        collectLoop knotIndex nullIndexPointer fuel n.rightPointer false (idx ++ [n.leftPointer])
      else if n.status = stK then
        if g then collectLoop knotIndex nullIndexPointer fuel n.leftPointer true idx
        else collectLoop knotIndex nullIndexPointer fuel n.rightPointer true idx
      else if n.status = stL then
        if g then collectLoop knotIndex nullIndexPointer fuel n.leftPointer g idx
        else collectLoop knotIndex nullIndexPointer fuel n.rightPointer g idx
      else if n.status = stD then
        if g then collectLoop knotIndex nullIndexPointer fuel n.leftPointer true idx
        else collectLoop knotIndex nullIndexPointer fuel n.rightPointer true idx
      else if n.status = stX then
        collectLoop knotIndex nullIndexPointer fuel n.rightPointer true idx
      else collectLoop knotIndex nullIndexPointer fuel (p : Int) g idx) := by
  have h1 : ¬ ((p : Int) = nullIndexPointer ∨ (p : Int) = nullIndexPointer) := by
    simp [natCast_ne_null]
  rw [collectLoop]
  simp only [h1, if_false, nodeAt_natCast knotIndex p n h, bind, Except.bind]

/-- The collecting loop of `Search` on `knotIndex` runs out of every fuel from
each of the eight states that it passes through from the root: the position
and the flag `goLeftAtNextNode`. -/
theorem knot_cycle : ∀ (fuel : Nat) (idx : List Int),
    collectLoop knotIndex nullIndexPointer fuel 0 true idx = .error .outOfFuel
    ∧ collectLoop knotIndex nullIndexPointer fuel 13 true idx = .error .outOfFuel
    ∧ collectLoop knotIndex nullIndexPointer fuel 12 true idx = .error .outOfFuel
    ∧ collectLoop knotIndex nullIndexPointer fuel 9 true idx = .error .outOfFuel
    ∧ collectLoop knotIndex nullIndexPointer fuel 0 false idx = .error .outOfFuel
    ∧ collectLoop knotIndex nullIndexPointer fuel 3 false idx = .error .outOfFuel
    ∧ collectLoop knotIndex nullIndexPointer fuel 2 true idx = .error .outOfFuel
    ∧ collectLoop knotIndex nullIndexPointer fuel 10 true idx = .error .outOfFuel := by
  intro fuel
  induction fuel with
  | zero => intro idx; simp [collectLoop]
  | succ f ih =>
    intro idx
    refine ⟨?_, ?_, ?_, ?_, ?_, ?_, ?_, ?_⟩
    · exact (knot_turn f 0 true idx _ rfl).trans (ih idx).2.1
    · exact (knot_turn f 13 true idx _ rfl).trans (ih _).2.2.1
    · exact (knot_turn f 12 true idx _ rfl).trans (ih idx).2.2.2.1
    · exact (knot_turn f 9 true idx _ rfl).trans (ih _).2.2.2.2.1
    · exact (knot_turn f 0 false idx _ rfl).trans (ih idx).2.2.2.2.2.1
    · exact (knot_turn f 3 false idx _ rfl).trans (ih idx).2.2.2.2.2.2.1
    · exact (knot_turn f 2 true idx _ rfl).trans (ih idx).2.2.2.2.2.2.2
    · exact (knot_turn f 10 true idx _ rfl).trans (ih idx).2.2.2.1

/-- C11: the calls `Insert("a",100)`, `Insert("a",101)`, `Delete("a",100)`,
`Insert("a",10)`, `Insert("a",100)`, `Insert("a",101)`, `Delete("a",100)`,
`Insert("a",1)` return an index whose active root is position 0, and on that
index the search without precision for the empty key does not return, whatever
the fuel: after the positions 0, 13, 12 its collecting loop goes round the
positions 9, 0, 3, 2, 10 for ever. -/
theorem listing_search_never_returns :
    (Insert 8 [97] 100 emptyIndex >>= Insert 8 [97] 101 >>= Delete 8 [97] 100
      >>= Insert 8 [97] 10 >>= Insert 8 [97] 100 >>= Insert 8 [97] 101
      >>= Delete 8 [97] 100 >>= Insert 8 [97] 1) = .ok knotIndex
    ∧ knotIndex.indexRoot ≠ nullIndexPointer
    ∧ ∀ fuel, Search fuel [] false knotIndex = .error .outOfFuel := by
  refine ⟨by decide, by decide, ?_⟩
  intro fuel
  have h := (knot_cycle fuel []).1
  have hr : ¬ (knotIndex.indexRoot = nullIndexPointer) := by decide
  have hc : canonical [] = [] := by decide
  simp only [Search, hr, if_false, hc, List.length_nil, true_and, Bool.false_eq_true,
    if_true, bind, Except.bind]
  have hroot : knotIndex.indexRoot = 0 := rfl
  rw [hroot, h]

/-! ### A key with bytes from 0x80 on that begins a stored key -/

/-- C26: the key `"é"` (bytes 0xC3 0xA9) is the beginning of the stored key
`"éa"` (bytes 0xC3 0xA9 0x61) and is not stored itself: it ends at the
character node of 0xA9, at position 1. Yet `Insert("é",2)` does not turn that
node into a branch node: it leaves the three nodes as they are and adds three
nodes, a decision node and a second chain of two. The precise search for `"é"`
then reports not-found, and `Delete("é",2)` changes nothing. With `"ab"` and
`"a"` in the place of `"éa"` and `"é"`, `Insert` turns the one node from `'X'`
into `'R'` and `Delete` turns it back. -/
theorem stem_high_byte_allocates :
    Insert 8 [195, 169, 97] 1 emptyIndex = .ok accentChainIndex
    ∧ Insert 8 [195, 169] 2 accentChainIndex = .ok accentForkIndex
    ∧ accentForkIndex.node.length = accentChainIndex.node.length + 3
    ∧ accentForkIndex.node[1]? = accentChainIndex.node[1]?
    ∧ Search 8 [195, 169] true accentForkIndex = .ok (false, [])
    ∧ Delete 8 [195, 169] 2 accentForkIndex = .ok accentForkIndex
    ∧ Insert 8 [97, 98] 1 emptyIndex = .ok chainIndex
    ∧ Insert 8 [97] 2 chainIndex = .ok branchIndex
    ∧ Delete 8 [97] 2 branchIndex = .ok chainIndex := by
  decide

end Key
